import Mathlib

/-!
# triggeralgs: sliding windows and trigger makers

A shallow embedding of the window classes and `operator()` bodies of
`TriggerActivityMakerHorizontalMuon`, `TriggerActivityMakerMichelElectron` and
`TriggerCandidateMakerHorizontalMuon`, followed by theorems about them.

Machine integers are natural numbers with the wrap-around written out:
`uint16_t` values live modulo 65536, `uint32_t` values modulo 4294967296 and
`uint64_t` values (`timestamp_t`) modulo 18446744073709551616.
-/

namespace triggeralgs

/-! ## Data model -/

/-- Modelled from the spec: `TriggerPrimitive` is declared in
`triggeralgs/TriggerPrimitive.hpp`, which is not among the sources.  The fields
are the ones spec section 3 lists and the sources read: the three times are
`timestamp_t` (64-bit unsigned, cf. `long unsigned int startTime` in
`check_bragg_peak`), `channel` is a `channel_t` that the sources store in an
`int`, `adc_integral` is `uint32_t` and `adc_peak`, `detid` are `uint16_t`. -/
structure TriggerPrimitive where
  time_start : Nat
  time_peak : Nat
  time_over_threshold : Nat
  channel : Nat
  adc_integral : Nat
  adc_peak : Nat
  detid : Nat
  deriving DecidableEq, Repr

/-- Every field of the primitive fits its machine type. -/
def TriggerPrimitive.wf (tp : TriggerPrimitive) : Prop :=
  tp.time_start < 18446744073709551616 ∧ tp.time_peak < 18446744073709551616 ∧
  tp.time_over_threshold < 18446744073709551616 ∧ tp.channel < 2147483648 ∧
  tp.adc_integral < 4294967296 ∧ tp.adc_peak < 65536 ∧ tp.detid < 65536

instance (tp : TriggerPrimitive) : Decidable tp.wf := by
  unfold TriggerPrimitive.wf; infer_instance

/-- The unsigned 64-bit difference `a - b` of two `timestamp_t` values. -/
def tsub (a b : Nat) : Nat :=
  (a + 18446744073709551616 - b) % 18446744073709551616

/-! ## The channel map `std::unordered_map<channel_t, uint16_t>`

The map is a list of (channel, count) entries with pairwise different keys;
the iteration order of an unordered map is unspecified and no embedded code
depends on it. -/

abbrev ChannelMap := List (Nat × Nat)

/-- The value stored for the key `c`, when there is an entry (`find`). -/
def ChannelMap.find : ChannelMap → Nat → Option Nat
  | [], _ => none
  | (k, v) :: m, c => if k = c then some v else ChannelMap.find m c

/-- The map without the entry of the key `c` (`erase(c)`). -/
def ChannelMap.erase (m : ChannelMap) (c : Nat) : ChannelMap :=
  m.filter (fun p => decide (p.1 ≠ c))

/-- The value `operator[]` reads: an absent key gets a fresh entry holding 0. -/
def ChannelMap.get (m : ChannelMap) (c : Nat) : Nat :=
  (ChannelMap.find m c).getD 0

/-- Store `v` under the key `c`, replacing the old entry if there is one. -/
def ChannelMap.put (m : ChannelMap) (c v : Nat) : ChannelMap :=
  (c, v) :: ChannelMap.erase m c

/-- The statement `channel_states[c]++` on a `uint16_t` count. -/
def ChannelMap.incr (m : ChannelMap) (c : Nat) : ChannelMap :=
  ChannelMap.put m c ((ChannelMap.get m c + 1) % 65536)

/-- The statement `channel_states[c]--` on a `uint16_t` count: an absent or
zero count wraps to 65535. -/
def ChannelMap.decr (m : ChannelMap) (c : Nat) : ChannelMap :=
  ChannelMap.put m c ((ChannelMap.get m c + 65535) % 65536)

/-- Number of entries (`size()`). -/
def ChannelMap.size (m : ChannelMap) : Nat := m.length

/-! ## `TriggerActivityMakerHorizontalMuon::Window` -/

namespace TriggerActivityMakerHorizontalMuon

/-- The window of primitives: `time_start`, the `uint32_t` accumulator
`adc_integral`, the channel map and the primitive list. -/
structure Window where
  time_start : Nat
  adc_integral : Nat
  channel_states : ChannelMap
  inputs : List TriggerPrimitive
  deriving DecidableEq, Repr

namespace Window

/-- Body of `is_empty()`. -/
def is_empty (w : Window) : Bool := w.inputs.isEmpty

/-- Body of `add(input_tp)`. -/
def add (w : Window) (input_tp : TriggerPrimitive) : Window :=
  { w with
    adc_integral := (w.adc_integral + input_tp.adc_integral) % 4294967296
    channel_states := ChannelMap.incr w.channel_states input_tp.channel
    inputs := w.inputs ++ [input_tp] }

/-- Body of `clear()`: only the primitive list is emptied. -/
def clear (w : Window) : Window := { w with inputs := [] }

/-- Body of `n_channels_hit()`: the map size returned as a `uint16_t`. -/
def n_channels_hit (w : Window) : Nat := ChannelMap.size w.channel_states % 65536

/-- Body of `reset(input_tp)`. -/
def reset (_w : Window) (input_tp : TriggerPrimitive) : Window :=
  { time_start := input_tp.time_start
    adc_integral := input_tp.adc_integral
    channel_states := ChannelMap.incr [] input_tp.channel
    inputs := [input_tp] }

/-- The variables the eviction loop of `move` updates: the `uint32_t` counter
`n_tps_to_erase`, the accumulator and the channel map. -/
structure EvictState where
  n_tps_to_erase : Nat
  adc_integral : Nat
  channel_states : ChannelMap
  deriving DecidableEq, Repr

/-- The test `input_tp.time_start - tp.time_start < window_length` of the
eviction loop, in `timestamp_t` arithmetic. -/
def within (input_tp : TriggerPrimitive) (window_length : Nat) (tp : TriggerPrimitive) : Bool :=
  decide (tsub input_tp.time_start tp.time_start < window_length)

/-- What the eviction loop does to the map for one evicted primitive:
decrement, then erase the entry when the count reads 0. -/
def evictChannel (m : ChannelMap) (c : Nat) : ChannelMap :=
  if ChannelMap.get (ChannelMap.decr m c) c = 0 then
    ChannelMap.erase (ChannelMap.decr m c) c
  else ChannelMap.decr m c

/-- The loop `for (auto tp : inputs)` of `move`: it runs over the leading
primitives that are not within the window and stops at the first one that is. -/
def evictLoop (input_tp : TriggerPrimitive) (window_length : Nat) :
    List TriggerPrimitive → EvictState → EvictState
  | [], st => st
  | tp :: rest, st =>
    if within input_tp window_length tp then st
    else
      evictLoop input_tp window_length rest
        { n_tps_to_erase := (st.n_tps_to_erase + 1) % 4294967296
          adc_integral := (st.adc_integral + 4294967296 - tp.adc_integral) % 4294967296
          channel_states := evictChannel st.channel_states tp.channel }

/-- Body of `move(input_tp, window_length)`. -/
def move (w : Window) (input_tp : TriggerPrimitive) (window_length : Nat) : Window :=
  let st := evictLoop input_tp window_length w.inputs
    { n_tps_to_erase := 0, adc_integral := w.adc_integral, channel_states := w.channel_states }
  let w1 : Window :=
    { w with
      adc_integral := st.adc_integral
      channel_states := st.channel_states
      inputs := w.inputs.drop st.n_tps_to_erase }
  match w1.inputs with
  | front :: _ => add { w1 with time_start := front.time_start } input_tp
  | [] => reset w1 input_tp

end Window

end TriggerActivityMakerHorizontalMuon

/-! ## `TriggerActivity` -/

/-- The enumeration `TriggerActivity::Type`. -/
inductive TAType where
  | kUnknown
  | kTPC
  | kPDS
  deriving DecidableEq, Repr

/-- The enumeration `TriggerActivity::Algorithm`, with the two tags the makers
below set. -/
inductive TAAlgorithm where
  | kUnknown
  | kSupernova
  | kPrescale
  | kHorizontalMuon
  | kMichelElectron
  deriving DecidableEq, Repr

/-- Modelled from the spec: the constant `INVALID_VERSION` of
`triggeralgs/Types.hpp` (not among the sources), the value a `TriggerActivity`
keeps in `version` when no maker sets it; taken as the largest `uint16_t`. -/
def INVALID_VERSION : Nat := 65535

/-- The record `TriggerActivity` (`TriggerActivity.hpp`); the primitive list is
called `tp_list` in the header and `inputs` in the makers. -/
structure TriggerActivity where
  time_start : Nat
  time_end : Nat
  time_peak : Nat
  time_activity : Nat
  channel_start : Nat
  channel_end : Nat
  channel_peak : Nat
  adc_integral : Nat
  adc_peak : Nat
  detid : Nat
  type : TAType
  algorithm : TAAlgorithm
  version : Nat
  inputs : List TriggerPrimitive
  deriving DecidableEq, Repr

/-! ## The adjacency walk of `TriggerActivityMakerHorizontalMuon::check_adjacency` -/

/-- The loop variables `adj`, `max` (`uint16_t`) and `tol_count`
(`unsigned int`) of `check_adjacency`. -/
structure AdjState where
  adj : Nat
  max : Nat
  tol_count : Nat
  deriving DecidableEq, Repr

/-- The pairs `(chanList.at(i), chanList.at((i + 1) % size))` the loop visits. -/
def circularPairs (chanList : List Nat) : List (Nat × Nat) :=
  chanList.zip (chanList.rotate 1)

namespace TriggerActivityMakerHorizontalMuon

/-- One iteration of the loop of `check_adjacency`, on the pair
`channel = chanList.at(i)`, `next_channel = chanList.at(next)`, in
`unsigned int` arithmetic. -/
def adjacencyStep (m_adj_tolerance : Nat) (st : AdjState) (channel next : Nat) : AdjState :=
  let next_channel :=
    if next = 0 then (channel + 4294967296 - 1) % 4294967296 else next
  if next_channel = channel then st
  else if next_channel = (channel + 1) % 4294967296 then
    { st with adj := (st.adj + 1) % 65536 }
  else if (next_channel = (channel + 2) % 4294967296 ∨ next_channel = (channel + 3) % 4294967296 ∨
      next_channel = (channel + 4) % 4294967296 ∨ next_channel = (channel + 5) % 4294967296)
      ∧ st.tol_count < m_adj_tolerance then
    { st with
      adj := (st.adj + 1) % 65536
      tol_count := (st.tol_count + (next_channel + 4294967296 - channel) % 4294967296) % 4294967296 }
  else
    { adj := 1, max := if st.adj > st.max then st.adj else st.max, tol_count := 0 }

end TriggerActivityMakerHorizontalMuon

/-! ## `TriggerActivityMakerHorizontalMuon` -/

/-- The members of `TriggerActivityMakerHorizontalMuon` that `operator()`,
`construct_ta` and `check_adjacency` read or write. -/
structure TriggerActivityMakerHorizontalMuon where
  m_current_window : TriggerActivityMakerHorizontalMuon.Window
  m_primitive_count : Nat
  m_trigger_on_adc : Bool
  m_trigger_on_n_channels : Bool
  m_trigger_on_adjacency : Bool
  m_trigger_on_tot : Bool
  m_tot_threshold : Nat
  m_adjacency_threshold : Nat
  m_max_adjacency : Int
  m_adc_threshold : Nat
  m_n_channels_threshold : Nat
  m_adj_tolerance : Nat
  m_window_length : Nat
  ta_count : Nat
  m_prescale : Nat
  deriving DecidableEq, Repr

namespace TriggerActivityMakerHorizontalMuon

/-- Body of `construct_ta()`; `none` stands for `inputs.back()` on an empty
window, which is undefined. -/
def construct_ta (m : TriggerActivityMakerHorizontalMuon) : Option TriggerActivity :=
  match m.m_current_window.inputs.getLast? with
  | none => none
  | some latest_tp_in_window =>
    some
      { time_start := m.m_current_window.time_start
        time_end := latest_tp_in_window.time_start
        time_peak := latest_tp_in_window.time_peak
        time_activity := latest_tp_in_window.time_peak
        channel_start := latest_tp_in_window.channel
        channel_end := latest_tp_in_window.channel
        channel_peak := latest_tp_in_window.channel
        adc_integral := m.m_current_window.adc_integral
        adc_peak := latest_tp_in_window.adc_peak
        detid := latest_tp_in_window.detid
        type := TAType.kTPC
        algorithm := TAAlgorithm.kHorizontalMuon
        version := INVALID_VERSION
        inputs := m.m_current_window.inputs }

/-- Body of `check_adjacency()`: the channels of the window sorted ascending,
then the walk over the circular pairs, starting from `adj = 1`, `max = 0`,
`tol_count = 0`; the result is `max`. -/
def check_adjacency (m : TriggerActivityMakerHorizontalMuon) : Nat :=
  let chanList := (m.m_current_window.inputs.map (fun tp => tp.channel)).insertionSort (· ≤ ·)
  ((circularPairs chanList).foldl
    (fun st p => adjacencyStep m.m_adj_tolerance st p.1 p.2)
    { adj := 1, max := 0, tol_count := 0 }).max

/-- The statement `m_primitive_count++` (a `uint64_t`). -/
def countPrimitive (m : TriggerActivityMakerHorizontalMuon) : TriggerActivityMakerHorizontalMuon :=
  { m with m_primitive_count := (m.m_primitive_count + 1) % 18446744073709551616 }

/-- The statements `output_ta.push_back(construct_ta()); m_current_window.reset(input_tp);`
of the two trigger branches. -/
def emitAndReset (m : TriggerActivityMakerHorizontalMuon) (input_tp : TriggerPrimitive)
    (output_ta : List TriggerActivity) :
    Option (TriggerActivityMakerHorizontalMuon × List TriggerActivity) :=
  match construct_ta m with
  | none => none
  | some ta =>
    some ({ m with m_current_window := m.m_current_window.reset input_tp }, output_ta ++ [ta])

/-- The `if / else if` chain of `operator()` that runs when the window is not
empty (the ADC and time-over-threshold branches are commented out in the
source).  `none` stands for undefined behaviour: `ta_count % m_prescale` with a
zero prescale, or `construct_ta()` on an empty window. -/
def triggerChain (m : TriggerActivityMakerHorizontalMuon) (input_tp : TriggerPrimitive)
    (output_ta : List TriggerActivity) :
    Option (TriggerActivityMakerHorizontalMuon × List TriggerActivity) :=
  if tsub input_tp.time_start m.m_current_window.time_start < m.m_window_length then
    some ({ m with m_current_window := m.m_current_window.add input_tp }, output_ta)
  else if m.m_current_window.n_channels_hit > m.m_n_channels_threshold
      ∧ m.m_trigger_on_n_channels = true then
    let m1 := { m with ta_count := (m.ta_count + 1) % 65536 }
    if m1.m_prescale = 0 then none
    else if m1.ta_count % m1.m_prescale = 0 then emitAndReset m1 input_tp output_ta
    else some (m1, output_ta)
  else if check_adjacency m > m.m_adjacency_threshold ∧ m.m_trigger_on_adjacency = true then
    let m1 := { m with ta_count := (m.ta_count + 1) % 65536 }
    if m1.m_prescale = 0 then none
    else if m1.ta_count % m1.m_prescale = 0 then
      let adjacency : Int := check_adjacency m1
      let m2 :=
        { m1 with
          m_max_adjacency := if adjacency > m1.m_max_adjacency then adjacency else m1.m_max_adjacency }
      emitAndReset m2 input_tp output_ta
    else some (m1, output_ta)
  else
    some ({ m with m_current_window := m.m_current_window.move input_tp m.m_window_length },
          output_ta)

/-- Body of `operator()(input_tp, output_ta)`: the new maker state and the new
contents of the output vector; `none` where the C++ is undefined. -/
def operator_call (m : TriggerActivityMakerHorizontalMuon) (input_tp : TriggerPrimitive)
    (output_ta : List TriggerActivity) :
    Option (TriggerActivityMakerHorizontalMuon × List TriggerActivity) :=
  if m.m_current_window.is_empty then
    some (countPrimitive { m with m_current_window := m.m_current_window.reset input_tp },
          output_ta)
  else
    (triggerChain m input_tp output_ta).map (fun r => (countPrimitive r.1, r.2))

/-- Feed a list of primitives, one call of `operator()` each, into the same
output vector. -/
def feed (m : TriggerActivityMakerHorizontalMuon) (output_ta : List TriggerActivity) :
    List TriggerPrimitive → Option (TriggerActivityMakerHorizontalMuon × List TriggerActivity)
  | [] => some (m, output_ta)
  | tp :: rest =>
    match operator_call m tp output_ta with
    | none => none
    | some (m1, out1) => feed m1 out1 rest

end TriggerActivityMakerHorizontalMuon

/-! ## `TriggerActivityMakerMichelElectron` -/

namespace TriggerActivityMakerMichelElectron

/-- Modelled from the spec: the header `TriggerActivityMakerMichelElectron.hpp`
with the nested class `Window` is not among the sources.  Spec sections 3 and
4.1 describe one window of primitives (`reset`, `add`, `move`, `is_empty`)
for both activity makers, so the Michel maker runs on the window of
`TriggerActivityMakerHorizontalMuon`. -/
abbrev Window := TriggerActivityMakerHorizontalMuon.Window

/-- One iteration of the loop of `check_adjacency` (Michel variant): gaps of
2, 3 and 4 are bridged and add 1, 2 and 3 to `tol_count`. -/
def adjacencyStep (m_adj_tolerance : Nat) (st : AdjState) (channel next : Nat) : AdjState :=
  let next_channel :=
    if next = 0 then (channel + 4294967296 - 1) % 4294967296 else next
  if next_channel = channel then st
  else if next_channel = (channel + 1) % 4294967296 then
    { st with adj := (st.adj + 1) % 65536 }
  else if next_channel = (channel + 2) % 4294967296 ∧ st.tol_count < m_adj_tolerance then
    { st with adj := (st.adj + 1) % 65536, tol_count := (st.tol_count + 1) % 4294967296 }
  else if next_channel = (channel + 3) % 4294967296 ∧ st.tol_count < m_adj_tolerance then
    { st with adj := (st.adj + 1) % 65536, tol_count := (st.tol_count + 2) % 4294967296 }
  else if next_channel = (channel + 4) % 4294967296 ∧ st.tol_count < m_adj_tolerance then
    { st with adj := (st.adj + 1) % 65536, tol_count := (st.tol_count + 3) % 4294967296 }
  else
    { adj := 1, max := if st.adj > st.max then st.adj else st.max, tol_count := 0 }

end TriggerActivityMakerMichelElectron

/-- The members of `TriggerActivityMakerMichelElectron` that `operator()`,
`construct_ta` and `check_adjacency` read or write. -/
structure TriggerActivityMakerMichelElectron where
  m_current_window : TriggerActivityMakerMichelElectron.Window
  m_primitive_count : Nat
  m_trigger_on_adjacency : Bool
  m_adjacency_threshold : Nat
  m_adj_tolerance : Nat
  m_window_length : Nat
  deriving DecidableEq, Repr

namespace TriggerActivityMakerMichelElectron

/-- Body of `construct_ta()` (Michel variant): `time_end` adds the time over
threshold of the last primitive; `none` stands for `inputs.back()` on an empty
window. -/
def construct_ta (m : TriggerActivityMakerMichelElectron) : Option TriggerActivity :=
  match m.m_current_window.inputs.getLast? with
  | none => none
  | some latest_tp_in_window =>
    some
      { time_start := m.m_current_window.time_start
        time_end :=
          (latest_tp_in_window.time_start + latest_tp_in_window.time_over_threshold)
            % 18446744073709551616
        time_peak := latest_tp_in_window.time_peak
        time_activity := latest_tp_in_window.time_peak
        channel_start := latest_tp_in_window.channel
        channel_end := latest_tp_in_window.channel
        channel_peak := latest_tp_in_window.channel
        adc_integral := m.m_current_window.adc_integral
        adc_peak := latest_tp_in_window.adc_peak
        detid := latest_tp_in_window.detid
        type := TAType.kTPC
        algorithm := TAAlgorithm.kMichelElectron
        version := INVALID_VERSION
        inputs := m.m_current_window.inputs }

/-- Body of `check_adjacency()` (Michel variant). -/
def check_adjacency (m : TriggerActivityMakerMichelElectron) : Nat :=
  let chanList := (m.m_current_window.inputs.map (fun tp => tp.channel)).insertionSort (· ≤ ·)
  ((circularPairs chanList).foldl
    (fun st p => adjacencyStep m.m_adj_tolerance st p.1 p.2)
    { adj := 1, max := 0, tol_count := 0 }).max

/-- The statement `m_primitive_count++`. -/
def countPrimitive (m : TriggerActivityMakerMichelElectron) : TriggerActivityMakerMichelElectron :=
  { m with m_primitive_count := (m.m_primitive_count + 1) % 18446744073709551616 }

/-- The `if / else if` chain of `operator()` that runs when the window is not
empty.  The result of `check_bragg_peak()` on the current maker is the
argument `check_bragg_peak` (`none` where that call is undefined); it is only
evaluated when the two tests before it in the conjunction hold. -/
def triggerChain (check_bragg_peak : TriggerActivityMakerMichelElectron → Option Bool)
    (m : TriggerActivityMakerMichelElectron) (input_tp : TriggerPrimitive)
    (output_ta : List TriggerActivity) :
    Option (TriggerActivityMakerMichelElectron × List TriggerActivity) :=
  if tsub input_tp.time_start m.m_current_window.time_start < m.m_window_length then
    some ({ m with m_current_window := m.m_current_window.add input_tp }, output_ta)
  else if check_adjacency m > m.m_adjacency_threshold ∧ m.m_trigger_on_adjacency = true then
    match check_bragg_peak m with
    | none => none
    | some true =>
      match construct_ta m with
      | none => none
      | some ta =>
        some ({ m with m_current_window := m.m_current_window.reset input_tp }, output_ta ++ [ta])
    | some false =>
      some ({ m with m_current_window := m.m_current_window.move input_tp m.m_window_length },
            output_ta)
  else
    some ({ m with m_current_window := m.m_current_window.move input_tp m.m_window_length },
          output_ta)

/-- Body of `operator()(input_tp, output_ta)` (Michel variant). -/
def operator_call (check_bragg_peak : TriggerActivityMakerMichelElectron → Option Bool)
    (m : TriggerActivityMakerMichelElectron) (input_tp : TriggerPrimitive)
    (output_ta : List TriggerActivity) :
    Option (TriggerActivityMakerMichelElectron × List TriggerActivity) :=
  if m.m_current_window.is_empty then
    some (countPrimitive { m with m_current_window := m.m_current_window.reset input_tp },
          output_ta)
  else
    (triggerChain check_bragg_peak m input_tp output_ta).map (fun r => (countPrimitive r.1, r.2))

end TriggerActivityMakerMichelElectron

/-! ## `TriggerCandidateMakerHorizontalMuon::Window` -/

namespace TriggerCandidateMakerHorizontalMuon

/-- The window of activities: `time_start`, the `uint64_t` accumulator
`adc_integral`, the channel map and the activity list. -/
structure Window where
  time_start : Nat
  adc_integral : Nat
  channel_states : ChannelMap
  ta_list : List TriggerActivity
  deriving DecidableEq, Repr

namespace Window

/-- Body of `is_empty()`. -/
def is_empty (w : Window) : Bool := w.ta_list.isEmpty

/-- The loop `for (TriggerPrimitive tp : input_ta.tp_list) channel_states[tp.channel]++`. -/
def incrChannels (m : ChannelMap) (tp_list : List TriggerPrimitive) : ChannelMap :=
  tp_list.foldl (fun cs tp => ChannelMap.incr cs tp.channel) m

/-- The search loop of `add`: the `uint16_t` index `insert_at` is incremented
for every leading activity that does not start after `input_ta`. -/
def insertAt (input_ta : TriggerActivity) : List TriggerActivity → Nat → Nat
  | [], insert_at => insert_at
  | ta :: rest, insert_at =>
    if input_ta.time_start < ta.time_start then insert_at
    else insertAt input_ta rest ((insert_at + 1) % 65536)

/-- Body of `add(input_ta)`. -/
def add (w : Window) (input_ta : TriggerActivity) : Window :=
  let insert_at := insertAt input_ta w.ta_list 0
  { w with
    adc_integral := (w.adc_integral + input_ta.adc_integral) % 18446744073709551616
    channel_states := incrChannels w.channel_states input_ta.inputs
    ta_list := w.ta_list.take insert_at ++ input_ta :: w.ta_list.drop insert_at }

/-- Body of `clear()`. -/
def clear (w : Window) : Window := { w with ta_list := [] }

/-- Body of `n_channels_hit()`. -/
def n_channels_hit (w : Window) : Nat := ChannelMap.size w.channel_states % 65536

/-- Body of `reset(input_ta)`. -/
def reset (_w : Window) (input_ta : TriggerActivity) : Window :=
  { time_start := input_ta.time_start
    adc_integral := input_ta.adc_integral
    channel_states := incrChannels [] input_ta.inputs
    ta_list := [input_ta] }

/-- The variables the eviction loop of `move` updates. -/
structure EvictState where
  n_tas_to_erase : Nat
  adc_integral : Nat
  channel_states : ChannelMap
  deriving DecidableEq, Repr

/-- The test `input_ta.time_start - ta.time_start < window_length`. -/
def within (input_ta : TriggerActivity) (window_length : Nat) (ta : TriggerActivity) : Bool :=
  decide (tsub input_ta.time_start ta.time_start < window_length)

/-- The inner loop of the eviction: every primitive of the evicted activity
decrements its channel, and the entry is erased when the count reads 0. -/
def evictChannels (m : ChannelMap) (tp_list : List TriggerPrimitive) : ChannelMap :=
  tp_list.foldl
    (fun cs tp => TriggerActivityMakerHorizontalMuon.Window.evictChannel cs tp.channel) m

/-- The loop `for (auto ta : ta_list)` of `move`. -/
def evictLoop (input_ta : TriggerActivity) (window_length : Nat) :
    List TriggerActivity → EvictState → EvictState
  | [], st => st
  | ta :: rest, st =>
    if within input_ta window_length ta then st
    else
      evictLoop input_ta window_length rest
        { n_tas_to_erase := (st.n_tas_to_erase + 1) % 4294967296
          adc_integral :=
            (st.adc_integral + 18446744073709551616 - ta.adc_integral) % 18446744073709551616
          channel_states := evictChannels st.channel_states ta.inputs }

/-- Body of `move(input_ta, window_length)`: both branches of the final test
call `add`; only the first one sets `time_start`. -/
def move (w : Window) (input_ta : TriggerActivity) (window_length : Nat) : Window :=
  let st := evictLoop input_ta window_length w.ta_list
    { n_tas_to_erase := 0, adc_integral := w.adc_integral, channel_states := w.channel_states }
  let w1 : Window :=
    { w with
      adc_integral := st.adc_integral
      channel_states := st.channel_states
      ta_list := w.ta_list.drop st.n_tas_to_erase }
  match w1.ta_list with
  | front :: _ => add { w1 with time_start := front.time_start } input_ta
  | [] => add w1 input_ta

end Window

end TriggerCandidateMakerHorizontalMuon

/-! ## `TriggerCandidate` and `TriggerCandidateMakerHorizontalMuon` -/

/-- Modelled from the spec: the base record `TriggerActivityData` of a
`TriggerActivity` is declared outside the sources; it holds the scalar fields
of the activity, without the primitive list. -/
structure TriggerActivityData where
  time_start : Nat
  time_end : Nat
  time_peak : Nat
  time_activity : Nat
  channel_start : Nat
  channel_end : Nat
  channel_peak : Nat
  adc_integral : Nat
  adc_peak : Nat
  detid : Nat
  type : TAType
  algorithm : TAAlgorithm
  version : Nat
  deriving DecidableEq, Repr

/-- The conversion `static_cast<TriggerActivity::TriggerActivityData>(ta)`: the
primitive list is sliced off. -/
def TriggerActivity.toData (ta : TriggerActivity) : TriggerActivityData :=
  { time_start := ta.time_start, time_end := ta.time_end, time_peak := ta.time_peak,
    time_activity := ta.time_activity, channel_start := ta.channel_start,
    channel_end := ta.channel_end, channel_peak := ta.channel_peak,
    adc_integral := ta.adc_integral, adc_peak := ta.adc_peak, detid := ta.detid,
    type := ta.type, algorithm := ta.algorithm, version := ta.version }

/-- The tags of `TriggerCandidate::Type` that the sources use. -/
inductive TCType where
  | kUnknown
  | kSupernova
  | kHorizontalMuon
  | kBundle
  deriving DecidableEq, Repr

/-- The tags of `TriggerCandidate::Algorithm` that the sources use. -/
inductive TCAlgorithm where
  | kUnknown
  | kSupernova
  | kHorizontalMuon
  | kBundle
  deriving DecidableEq, Repr

/-- Modelled from the spec: `TriggerCandidate` is declared in
`triggeralgs/TriggerCandidate.hpp`, which is not among the sources.  The fields
are the ones spec section 3 names and `construct_tc` sets: the three times,
the detector id, the two tags and the list of contributing activities. -/
structure TriggerCandidate where
  time_start : Nat
  time_end : Nat
  time_candidate : Nat
  detid : Nat
  type : TCType
  algorithm : TCAlgorithm
  inputs : List TriggerActivityData
  deriving DecidableEq, Repr

/-- The members of `TriggerCandidateMakerHorizontalMuon` that `operator()` and
`construct_tc` read or write.  `m_trigger_on_adjacency` and the two readout
margins are used by the `.cpp` file and declared outside the header of the
sources; the margins are kept as the 64-bit values they have after the
conversion to `timestamp_t`.  `tc_number` is an `int` that is only ever
incremented and never read. -/
structure TriggerCandidateMakerHorizontalMuon where
  m_current_window : TriggerCandidateMakerHorizontalMuon.Window
  m_activity_count : Nat
  m_trigger_on_adc : Bool
  m_trigger_on_n_channels : Bool
  m_trigger_on_adjacency : Bool
  m_adc_threshold : Nat
  m_n_channels_threshold : Nat
  m_window_length : Nat
  m_readout_window_ticks_before : Nat
  m_readout_window_ticks_after : Nat
  tc_number : Int
  deriving DecidableEq, Repr

namespace TriggerCandidateMakerHorizontalMuon

/-- Body of `construct_tc()`.  `none` stands for the two `back()` calls on an
empty vector: an empty window, or a last activity without primitives. -/
def construct_tc (m : TriggerCandidateMakerHorizontalMuon) : Option TriggerCandidate :=
  match m.m_current_window.ta_list.getLast? with
  | none => none
  | some latest_ta_in_window =>
    match latest_ta_in_window.inputs.getLast? with
    | none => none
    | some last_tp =>
      some
        { time_start := tsub m.m_current_window.time_start m.m_readout_window_ticks_before
          time_end :=
            (last_tp.time_start + last_tp.time_over_threshold + m.m_readout_window_ticks_after)
              % 18446744073709551616
          time_candidate := m.m_current_window.time_start
          detid := latest_ta_in_window.detid
          type := TCType.kHorizontalMuon
          algorithm := TCAlgorithm.kHorizontalMuon
          inputs := m.m_current_window.ta_list.map TriggerActivity.toData }

/-- The statement `m_activity_count++` (a `uint64_t`). -/
def countActivity (m : TriggerCandidateMakerHorizontalMuon) : TriggerCandidateMakerHorizontalMuon :=
  { m with m_activity_count := (m.m_activity_count + 1) % 18446744073709551616 }

/-- The statements `tc_number++; output_tc.push_back(construct_tc());
m_current_window.reset(activity);` of the three trigger branches. -/
def emitAndReset (m : TriggerCandidateMakerHorizontalMuon) (activity : TriggerActivity)
    (output_tc : List TriggerCandidate) :
    Option (TriggerCandidateMakerHorizontalMuon × List TriggerCandidate) :=
  match construct_tc m with
  | none => none
  | some tc =>
    some ({ m with
            tc_number := m.tc_number + 1
            m_current_window := m.m_current_window.reset activity },
          output_tc ++ [tc])

/-- The `if / else if` chain of `operator()` that runs when the window is not
empty. -/
def triggerChain (m : TriggerCandidateMakerHorizontalMuon) (activity : TriggerActivity)
    (output_tc : List TriggerCandidate) :
    Option (TriggerCandidateMakerHorizontalMuon × List TriggerCandidate) :=
  if tsub activity.time_start m.m_current_window.time_start < m.m_window_length then
    some ({ m with m_current_window := m.m_current_window.add activity }, output_tc)
  else if m.m_current_window.adc_integral > m.m_adc_threshold ∧ m.m_trigger_on_adc = true then
    emitAndReset m activity output_tc
  else if m.m_current_window.n_channels_hit > m.m_n_channels_threshold
      ∧ m.m_trigger_on_n_channels = true then
    emitAndReset m activity output_tc
  else if m.m_trigger_on_adjacency = true then
    emitAndReset m activity output_tc
  else
    some ({ m with m_current_window := m.m_current_window.move activity m.m_window_length },
          output_tc)

/-- Body of `operator()(activity, output_tc)`: the new maker state and the new
contents of the output vector; `none` where the C++ is undefined.  On an empty
window the maker resets, counts the activity and, when no trigger flag is set,
emits the one-activity candidate and clears the activity list. -/
def operator_call (m : TriggerCandidateMakerHorizontalMuon) (activity : TriggerActivity)
    (output_tc : List TriggerCandidate) :
    Option (TriggerCandidateMakerHorizontalMuon × List TriggerCandidate) :=
  if m.m_current_window.is_empty then
    let m1 := countActivity { m with m_current_window := m.m_current_window.reset activity }
    if m1.m_trigger_on_adc = false ∧ m1.m_trigger_on_n_channels = false
        ∧ m1.m_trigger_on_adjacency = false then
      match construct_tc m1 with
      | none => none
      | some tc =>
        some ({ m1 with m_current_window := m1.m_current_window.clear }, output_tc ++ [tc])
    else some (m1, output_tc)
  else
    (triggerChain m activity output_tc).map (fun r => (countActivity r.1, r.2))

end TriggerCandidateMakerHorizontalMuon

/-! ## `TriggerCandidateMakerBundleN` -/

/-- Modelled from the spec: the header
`triggeralgs/BundleN/TriggerCandidateMakerBundleN.hpp` is not among the
sources.  The members are the ones `TriggerCandidateMakerBundleN.cpp` uses:
the candidate under construction `m_current_tc`, the counter
`m_prescale_counter` and the configuration values `m_bundle_size` and
`m_prescale` (spec section 6: `prescale: uint`, `bundle_size: uint`), taken
as unsigned 64-bit values. -/
structure TriggerCandidateMakerBundleN where
  m_current_tc : TriggerCandidate
  m_prescale_counter : Nat
  m_bundle_size : Nat
  m_prescale : Nat
  deriving DecidableEq, Repr

/-- Modelled from the spec: the value `TriggerCandidate()` that `operator()`
assigns to `m_current_tc` after an emission.  Its list of inputs is empty; the
six other fields are overwritten by `set_tc_attributes` before a candidate is
emitted, so their initial values (taken as 0 and `kUnknown`) never reach the
output vector. -/
def TriggerCandidate.blank : TriggerCandidate :=
  { time_start := 0, time_end := 0, time_candidate := 0, detid := 0,
    type := TCType.kUnknown, algorithm := TCAlgorithm.kUnknown, inputs := [] }

namespace TriggerCandidateMakerBundleN

/-- Body of `set_tc_attributes()`; `none` stands for `inputs.front()` and
`inputs.back()` on an empty vector. -/
def set_tc_attributes (m : TriggerCandidateMakerBundleN) : Option TriggerCandidateMakerBundleN :=
  match m.m_current_tc.inputs.head?, m.m_current_tc.inputs.getLast? with
  | some front_ta, some back_ta =>
    some { m with
      m_current_tc :=
        { m.m_current_tc with
          time_start := front_ta.time_start
          time_end := back_ta.time_end
          time_candidate := front_ta.time_start
          detid := front_ta.detid
          type := TCType.kBundle
          algorithm := TCAlgorithm.kBundle } }
  | _, _ => none

/-- Body of `bundle_condition()`. -/
def bundle_condition (m : TriggerCandidateMakerBundleN) : Bool :=
  decide (m.m_current_tc.inputs.length = m.m_bundle_size)

/-- The block both emitting branches of `operator()` run: `set_tc_attributes()`,
`output_tcs.push_back(m_current_tc)`, then `m_current_tc = TriggerCandidate()`
and `m_prescale_counter = m_bundle_size`. -/
def emit (m : TriggerCandidateMakerBundleN) (output_tcs : List TriggerCandidate) :
    Option (TriggerCandidateMakerBundleN × List TriggerCandidate) :=
  match set_tc_attributes m with
  | none => none
  | some m1 =>
    some ({ m1 with m_current_tc := TriggerCandidate.blank, m_prescale_counter := m1.m_bundle_size },
          output_tcs ++ [m1.m_current_tc])

/-- Body of `operator()(input_ta, output_tcs)`; `none` stands for the division
or remainder by zero in `m_prescale_counter / m_bundle_size % m_prescale` and
for an undefined `set_tc_attributes()`. -/
def operator_call (m : TriggerCandidateMakerBundleN) (input_ta : TriggerActivity)
    (output_tcs : List TriggerCandidate) :
    Option (TriggerCandidateMakerBundleN × List TriggerCandidate) :=
  let m1 := { m with m_prescale_counter := (m.m_prescale_counter + 1) % 18446744073709551616 }
  if m1.m_bundle_size = 0 ∨ m1.m_prescale = 0 then none
  else
    let m2 :=
      if m1.m_prescale_counter / m1.m_bundle_size % m1.m_prescale = 0 then
        { m1 with
          m_current_tc :=
            { m1.m_current_tc with inputs := m1.m_current_tc.inputs ++ [input_ta.toData] } }
      else m1
    let r := if bundle_condition m2 then emit m2 output_tcs else some (m2, output_tcs)
    match r with
    | none => none
    | some (m3, out3) =>
      if m3.m_current_tc.inputs.length > m3.m_bundle_size then emit m3 out3
      else some (m3, out3)

/-- Feed a list of activities, one call of `operator()` each, into the same
output vector. -/
def feed (m : TriggerCandidateMakerBundleN) (output_tcs : List TriggerCandidate) :
    List TriggerActivity → Option (TriggerCandidateMakerBundleN × List TriggerCandidate)
  | [] => some (m, output_tcs)
  | input_ta :: rest =>
    match operator_call m input_ta output_tcs with
    | none => none
    | some (m1, out1) => feed m1 out1 rest

end TriggerCandidateMakerBundleN

/-! ## `TriggerActivityMakerMichelElectron::check_bragg_peak`

In this section the `float` and `double` values of the function (running
means, baseline and cluster sums) are exact rationals: the arithmetic of the
source without its rounding.  The namespace `Binary32` further down holds the
same function with every operation rounded as the machine does. -/

namespace TriggerActivityMakerMichelElectron

/-- The local `struct hit` of `check_bragg_peak`: `int chan`,
`long unsigned int startTime`, `uint32_t adc`. -/
structure Hit where
  chan : Nat
  startTime : Nat
  adc : Nat
  deriving DecidableEq, Repr

/-- The loop variables of the track walk of `check_bragg_peak`: `adj`, `max`
(`int`), `tol_count` (`unsigned int`) and the vectors `trackHits`,
`finalHits`.  The variables `s`, `e`, `st`, `et`, `fs`, `fe`, `fst`, `fet` are
only written to the debugging file and are left out. -/
structure TrackState where
  adj : Nat
  max : Nat
  tol_count : Nat
  trackHits : List Hit
  finalHits : List Hit
  deriving DecidableEq, Repr

/-- The test `std::abs(diff) < 200` with
`int diff = chanList.at(next).startTime - chanList.at(i).startTime`: the 64-bit
difference is narrowed to 32 bits and read as signed.  `none` stands for
`diff = INT_MIN`, where `std::abs` is undefined. -/
def nearInTime (cur next : Hit) : Option Bool :=
  let diff := tsub next.startTime cur.startTime % 4294967296
  if diff = 2147483648 then none
  else some (decide (diff < 200 ∨ 4294967296 - 200 < diff))

/-- The statements `++adj; tol_count += cost; trackHits.push_back(next)` of the
four branches that extend the run; `none` stands for `++adj` at `INT_MAX`. -/
def extendTrack (st : TrackState) (trackHits : List Hit) (cost : Nat) (next : Hit) :
    Option TrackState :=
  if st.adj + 1 < 2147483648 then
    some { st with
      adj := st.adj + 1
      tol_count := (st.tol_count + cost) % 4294967296
      trackHits := trackHits ++ [next] }
  else none

/-- One iteration of the track walk of `check_bragg_peak`, on the hits
`cur = chanList.at(i)` and `next = chanList.at((i + 1) % size)`, in
`unsigned int` channel arithmetic. -/
def trackStep (m_adj_tolerance : Nat) (st : TrackState) (cur next : Hit) : Option TrackState :=
  let channel := cur.chan
  let trackHits := if st.trackHits.length = 0 then [cur] else st.trackHits
  let next_channel :=
    if next.chan = 0 then (channel + 4294967296 - 1) % 4294967296 else next.chan
  if next_channel = channel then
    match nearInTime cur next with
    | none => none
    | some true => some { st with trackHits := trackHits ++ [next] }
    | some false => some { st with trackHits := trackHits }
  else if next_channel = (channel + 1) % 4294967296 then
    extendTrack st trackHits 0 next
  else if next_channel = (channel + 2) % 4294967296 ∧ st.tol_count < m_adj_tolerance then
    extendTrack st trackHits 1 next
  else if next_channel = (channel + 3) % 4294967296 ∧ st.tol_count < m_adj_tolerance then
    extendTrack st trackHits 2 next
  else if next_channel = (channel + 4) % 4294967296 ∧ st.tol_count < m_adj_tolerance then
    extendTrack st trackHits 3 next
  else
    some
      { adj := 1
        max := if st.adj > st.max then st.adj else st.max
        tol_count := 0
        trackHits := []
        finalHits := if st.adj > st.max then trackHits else st.finalHits }

/-- The pairs `(chanList.at(i), chanList.at((i + 1) % size))` the track walk
visits. -/
def hitPairs (chanList : List Hit) : List (Hit × Hit) :=
  chanList.zip (chanList.rotate 1)

/-- The track walk over the pairs of hits, in order. -/
def trackLoop (m_adj_tolerance : Nat) : TrackState → List (Hit × Hit) → Option TrackState
  | st, [] => some st
  | st, p :: ps =>
    match trackStep m_adj_tolerance st p.1 p.2 with
    | none => none
    | some st1 => trackLoop m_adj_tolerance st1 ps

/-- The vector `chanList` of `check_bragg_peak`: one hit per primitive of the
window, sorted by channel.  `std::sort` leaves the order of hits on the same
channel unspecified; here they keep their window order. -/
def chanList (m : TriggerActivityMakerMichelElectron) : List Hit :=
  (m.m_current_window.inputs.map
    (fun tp => ({ chan := tp.channel, startTime := tp.time_start, adc := tp.adc_integral } : Hit))
    ).insertionSort (fun a b => a.chan ≤ b.chan)

/-- The track walk of `check_bragg_peak` on the current window; `none` on an
empty window, where `chanList.at(0)` throws. -/
def trackWalk (m : TriggerActivityMakerMichelElectron) : Option TrackState :=
  match chanList m with
  | [] => none
  | h :: t =>
    trackLoop m.m_adj_tolerance
      { adj := 1, max := 0, tol_count := 0, trackHits := [], finalHits := [] } (hitPairs (h :: t))

/-- The running mean pushed for position `i`: the sum of
`finalHits.at(j % finalHits.size()).adc` for `j = i, ..., i + convolve_value - 1`,
divided by `convolve_value`.  It is only taken for `i < finalHits.size()`, so
every index is in range. -/
def runningMean (convolve_value : Nat) (finalHits : List Hit) (i : Nat) : ℚ :=
  ((List.range convolve_value).map
      (fun k => ((finalHits.getD ((i + k) % finalHits.length) ⟨0, 0, 0⟩).adc : ℚ))).sum
    / convolve_value

/-- The vector `adc_means_list3` (`convolve_value3 = 8`), the only one of the
five lists of running means that is read after the loop. -/
def adc_means_list3 (finalHits : List Hit) : List ℚ :=
  (List.range finalHits.length).map (runningMean 8 finalHits)

/-- The baseline `ped`: the mean of `adc_means_list3`.  For an empty list the
source divides `0.0` by `0` and never reads the quotient. -/
def ped (means : List ℚ) : ℚ :=
  means.sum / means.length

/-- The variables `charge` and `charge_dumps` of the cluster loop. -/
structure ClusterState where
  charge : ℚ
  charge_dumps : List ℚ

/-- One iteration of the cluster loop, on the running mean `a`. -/
def clusterStep (ped : ℚ) (st : ClusterState) (a : ℚ) : ClusterState :=
  if a > ped then { st with charge := st.charge + a }
  else if a < ped ∧ st.charge ≠ 0 then
    { charge := 0, charge_dumps := st.charge_dumps ++ [st.charge] }
  else st

/-- The vector `charge_dumps` after the cluster loop over the running means of
`finalHits`. -/
def charge_dumps (finalHits : List Hit) : List ℚ :=
  ((adc_means_list3 finalHits).foldl (clusterStep (ped (adc_means_list3 finalHits)))
    { charge := 0, charge_dumps := [] }).charge_dumps

/-- The value `*max_element(charge_dumps.begin(), charge_dumps.end())` of a
list with first element `c`. -/
def max_charge (c : ℚ) (cs : List ℚ) : ℚ :=
  cs.foldl (fun x y => if x < y then y else x) c

/-- Body of `check_bragg_peak()`.  `none` stands for a call that does not
return a value: `chanList.at(0)` on an empty window, an undefined step of the
track walk, `finalHits.size() > 65521` (the `uint16_t` counters `i` and `j` of
the loops over the running means then wrap before they reach their bounds, the
largest being `i + convolve_value5` with `convolve_value5 = 15`, and the loops
do not end), and an empty `charge_dumps`, where `max_element` returns the end
iterator and the function dereferences it.  The final test compares the `int`
variable `max` of the track walk with `charge_dumps.back()`.  The block under
`debug` only writes files and is left out. -/
def check_bragg_peak (m : TriggerActivityMakerMichelElectron) : Option Bool :=
  match trackWalk m with
  | none => none
  | some st =>
    if 65521 < st.finalHits.length then none
    else
      match charge_dumps st.finalHits with
      | [] => none
      | c :: cs =>
        some (decide (max_charge c cs = c
          ∨ (st.max : ℚ) = (c :: cs).getLast (List.cons_ne_nil c cs)))

end TriggerActivityMakerMichelElectron

/-! ## Specification vocabulary -/

/-- The keys of the map. -/
def ChannelMap.keys (m : ChannelMap) : List Nat := m.map Prod.fst

/-- Number of primitives of the list on channel `c`. -/
def chanCount (l : List TriggerPrimitive) (c : Nat) : Nat :=
  (l.map (fun tp => tp.channel)).count c

/-- Number of distinct channels among the primitives of the list. -/
def distinctChannels (l : List TriggerPrimitive) : Nat :=
  ((l.map (fun tp => tp.channel)).dedup).length

/-- Sum of `adc_integral` over the primitives of the list. -/
def adcSum (l : List TriggerPrimitive) : Nat :=
  (l.map (fun tp => tp.adc_integral)).sum

/-- The map `m` has exactly one entry per distinct channel of `l`, holding
the number of primitives of `l` on that channel. -/
def ChannelMap.Counts (m : ChannelMap) (l : List TriggerPrimitive) : Prop :=
  (ChannelMap.keys m).Nodup ∧
    ∀ c, ChannelMap.find m c = if chanCount l c = 0 then none else some (chanCount l c)

namespace TriggerActivityMakerHorizontalMuon.Window

/-- Number of leading primitives of `l` that are not within the window of
`input_tp`: the primitives the eviction loop passes over. -/
def evictCount (input_tp : TriggerPrimitive) (window_length : Nat) (l : List TriggerPrimitive) : Nat :=
  (l.takeWhile (fun tp => !within input_tp window_length tp)).length

/-- The window states reached from `reset(x0)` by a finite sequence of `add`,
`move` and `reset` calls on well-formed primitives, where every state of the
sequence (the first one included) satisfies `P`. -/
inductive Reachable (P : Window → Prop) : Window → Prop
  | init (s : Window) (x0 : TriggerPrimitive) :
      x0.wf → P (s.reset x0) → Reachable P (s.reset x0)
  | add (w : Window) (x : TriggerPrimitive) :
      Reachable P w → x.wf → P (w.add x) → Reachable P (w.add x)
  | move (w : Window) (x : TriggerPrimitive) (window_length : Nat) :
      Reachable P w → x.wf → P (w.move x window_length) → Reachable P (w.move x window_length)
  | reset (w : Window) (x : TriggerPrimitive) :
      Reachable P w → x.wf → P (w.reset x) → Reachable P (w.reset x)

/-- No restriction on the states of a call sequence. -/
def Unrestricted (_w : Window) : Prop := True

/-- The window holds fewer than 2^32 primitives. -/
def SizeBounded (w : Window) : Prop := w.inputs.length < 4294967296

/-- The window holds fewer than 65536 primitives on any one channel. -/
def HitsBounded (w : Window) : Prop := ∀ c, chanCount w.inputs c < 65536

/-- The accumulator equals the sum over the held primitives modulo 2^32. -/
def AdcOk (w : Window) : Prop := w.adc_integral = adcSum w.inputs % 4294967296

/-- Every held primitive has a 32-bit `adc_integral`. -/
def InputsOk (w : Window) : Prop := ∀ tp ∈ w.inputs, tp.adc_integral < 4294967296

/-- The channel map agrees with the held primitives. -/
def CountsOk (w : Window) : Prop := ChannelMap.Counts w.channel_states w.inputs

/-- Both bounds at once: fewer than 2^32 primitives held, fewer than 65536 of
them on any one channel. -/
def Bounded (w : Window) : Prop := SizeBounded w ∧ HitsBounded w

/-- The eviction step on the map with the guard spec section 7 asks for: the
count of the channel must be at least 1 before it is decremented. -/
def evictChannelGuarded (m : ChannelMap) (c : Nat) : Option ChannelMap :=
  if 1 ≤ ChannelMap.get m c then some (evictChannel m c) else none

/-- The eviction loop of `move` with every decrement guarded: `none` as soon
as a decrement would underflow. -/
def evictLoopGuarded (input_tp : TriggerPrimitive) (window_length : Nat) :
    List TriggerPrimitive → EvictState → Option EvictState
  | [], st => some st
  | tp :: rest, st =>
    if within input_tp window_length tp then some st
    else
      match evictChannelGuarded st.channel_states tp.channel with
      | none => none
      | some cs =>
        evictLoopGuarded input_tp window_length rest
          { n_tps_to_erase := (st.n_tps_to_erase + 1) % 4294967296
            adc_integral := (st.adc_integral + 4294967296 - tp.adc_integral) % 4294967296
            channel_states := cs }

end TriggerActivityMakerHorizontalMuon.Window

/-- A primitive with start time `t`, channel `c` and ADC integral `a` (the other
fields 0), for the worked examples. -/
def mkPrimitive (t c a : Nat) : TriggerPrimitive :=
  { time_start := t, time_peak := 0, time_over_threshold := 0, channel := c,
    adc_integral := a, adc_peak := 0, detid := 0 }

/-- A prior window state that is consistent with nothing: stale accumulator,
stale map entry, no primitives. -/
def staleWindow : TriggerActivityMakerHorizontalMuon.Window :=
  { time_start := 7, adc_integral := 9, channel_states := [(3, 3)], inputs := [] }

/-- Worked example: `reset`, two `add` calls and a `move` that evicts the first
two primitives. -/
def exampleWindow : TriggerActivityMakerHorizontalMuon.Window :=
  (((staleWindow.reset (mkPrimitive 0 5 100)).add (mkPrimitive 1 5 10)).add
    (mkPrimitive 2 6 10)).move (mkPrimitive 11 7 1) 10

namespace TriggerActivityMakerHorizontalMuon.Window

/-- The window after `reset(f 0)` followed by `add(f 1)`, ..., `add(f n)`. -/
def growWindow (f : Nat → TriggerPrimitive) : Nat → Window
  | 0 => staleWindow.reset (f 0)
  | n + 1 => (growWindow f n).add (f (n + 1))

end TriggerActivityMakerHorizontalMuon.Window

/-- Primitive number `i` of a long call sequence on one channel at time 0: the
first one carries ADC integral 1, all later ones 0. -/
def onesPrimitive (i : Nat) : TriggerPrimitive := mkPrimitive 0 0 (1 - i)

/-- Primitive number `i` of a call sequence with one hit per channel. -/
def chanPrimitive (i : Nat) : TriggerPrimitive := mkPrimitive 0 i 0

/-- Primitive number `i` of a call sequence with two hits per channel. -/
def pairPrimitive (i : Nat) : TriggerPrimitive := mkPrimitive 0 (i / 2) 0

/-- An activity starting at time `t` with ADC integral `a` and the primitive
list `tps` (the other fields 0), for the worked examples. -/
def mkActivity (t a : Nat) (tps : List TriggerPrimitive) : TriggerActivity :=
  { time_start := t, time_end := 0, time_peak := 0, time_activity := 0,
    channel_start := 0, channel_end := 0, channel_peak := 0, adc_integral := a,
    adc_peak := 0, detid := 0, type := TAType.kTPC, algorithm := TAAlgorithm.kHorizontalMuon,
    version := 0, inputs := tps }

namespace TriggerCandidateMakerHorizontalMuon.Window

/-- Number of leading activities of `l` that are not within the window of
`input_ta`. -/
def evictCount (input_ta : TriggerActivity) (window_length : Nat) (l : List TriggerActivity) : Nat :=
  (l.takeWhile (fun ta => !within input_ta window_length ta)).length

/-- A candidate window holding one activity (time 0, ADC integral 7, one
primitive on channel 1), as `reset` leaves it. -/
def singleWindow : Window :=
  reset { time_start := 0, adc_integral := 0, channel_states := [], ta_list := [] }
    (mkActivity 0 7 [mkPrimitive 0 1 7])

/-- Number of leading activities of `l` that do not start after `input_ta`:
the activities the search loop of `add` passes over. -/
def insertCount (input_ta : TriggerActivity) (l : List TriggerActivity) : Nat :=
  (l.takeWhile (fun ta => !decide (input_ta.time_start < ta.time_start))).length

/-- A candidate window holding 65536 copies of an activity that starts at
time 0. -/
def fullWindow : Window :=
  { time_start := 0, adc_integral := 0, channel_states := [],
    ta_list := List.replicate 65536 (mkActivity 0 0 []) }

/-- A candidate window whose activities start at times 3, 5 and 8. -/
def sortedWindow : Window :=
  { time_start := 3, adc_integral := 0, channel_states := [],
    ta_list := [mkActivity 3 0 [], mkActivity 5 1 [], mkActivity 8 0 []] }

end TriggerCandidateMakerHorizontalMuon.Window

/-- A geometry-variant maker with an empty window, window length 500,
prescale 1, only the multiplicity trigger enabled and `n_channels_threshold = 5`
(the other thresholds at their defaults). -/
def multiplicityMaker : TriggerActivityMakerHorizontalMuon :=
  { m_current_window := { time_start := 0, adc_integral := 0, channel_states := [], inputs := [] }
    m_primitive_count := 0
    m_trigger_on_adc := false
    m_trigger_on_n_channels := true
    m_trigger_on_adjacency := false
    m_trigger_on_tot := false
    m_tot_threshold := 5000
    m_adjacency_threshold := 15
    m_max_adjacency := 0
    m_adc_threshold := 3000000
    m_n_channels_threshold := 5
    m_adj_tolerance := 3
    m_window_length := 500
    ta_count := 0
    m_prescale := 1 }

/-- A Michel-variant maker with an empty window, adjacency threshold 15,
tolerance 3 and window length 8000. -/
def michelMaker : TriggerActivityMakerMichelElectron :=
  { m_current_window := { time_start := 0, adc_integral := 0, channel_states := [], inputs := [] }
    m_primitive_count := 0
    m_trigger_on_adjacency := true
    m_adjacency_threshold := 15
    m_adj_tolerance := 3
    m_window_length := 8000 }

/-- The example maker after its first primitive (time 40, channel 7). -/
def startedMaker : TriggerActivityMakerHorizontalMuon :=
  { multiplicityMaker with
    m_current_window :=
      { time_start := 40, adc_integral := 100, channel_states := [(7, 1)],
        inputs := [mkPrimitive 40 7 100] }
    m_primitive_count := 1 }

/-- The channel map after `reset(tps 0)`, `add(tps 1)`, ..., `add(tps (n − 1))`
when the primitives lie on pairwise different channels. -/
def scenarioChannels (tps : Nat → TriggerPrimitive) : Nat → ChannelMap
  | 0 => []
  | n + 1 => ((tps n).channel, 1) :: scenarioChannels tps n

/-- The maker state after the first `n` primitives of the multiplicity
scenario (`1 ≤ n ≤ 50`): all of them sit in the window. -/
def scenarioMaker (m : TriggerActivityMakerHorizontalMuon) (tps : Nat → TriggerPrimitive)
    (n : Nat) : TriggerActivityMakerHorizontalMuon :=
  { m with
    m_current_window :=
      { time_start := 0, adc_integral := 100 * n, channel_states := scenarioChannels tps n,
        inputs := (List.range n).map tps }
    m_primitive_count := (m.m_primitive_count + n) % 18446744073709551616 }

/-- Primitive number `i` of the multiplicity scenario: start time `10 * i`,
channel `i + 1`, ADC integral 100. -/
def scenarioPrimitive (i : Nat) : TriggerPrimitive := mkPrimitive (10 * i) (i + 1) 100

namespace TriggerActivityMakerHorizontalMuon

/-- The test of the multiplicity branch of `operator()`. -/
def multiplicityFires (m : TriggerActivityMakerHorizontalMuon) : Prop :=
  m.m_current_window.n_channels_hit > m.m_n_channels_threshold ∧ m.m_trigger_on_n_channels = true

/-- The test of the adjacency branch of `operator()`. -/
def adjacencyFires (m : TriggerActivityMakerHorizontalMuon) : Prop :=
  check_adjacency m > m.m_adjacency_threshold ∧ m.m_trigger_on_adjacency = true

instance (m : TriggerActivityMakerHorizontalMuon) : Decidable (multiplicityFires m) := by
  unfold multiplicityFires; infer_instance

instance (m : TriggerActivityMakerHorizontalMuon) : Decidable (adjacencyFires m) := by
  unfold adjacencyFires; infer_instance

/-- The incoming primitive passes the test
`input_tp.time_start - m_current_window.time_start < m_window_length`. -/
def inWindow (m : TriggerActivityMakerHorizontalMuon) (input_tp : TriggerPrimitive) : Prop :=
  tsub input_tp.time_start m.m_current_window.time_start < m.m_window_length

instance (m : TriggerActivityMakerHorizontalMuon) (tp : TriggerPrimitive) :
    Decidable (inWindow m tp) := by
  unfold inWindow; infer_instance

/-- The maker states reached from a maker with an empty window by a finite
sequence of `operator()` calls on well-formed primitives, where the window
satisfies `P` after every call. -/
inductive Reachable (P : Window → Prop) : TriggerActivityMakerHorizontalMuon → Prop
  | init (m : TriggerActivityMakerHorizontalMuon) :
      m.m_current_window.is_empty = true → Reachable P m
  | call (m m1 : TriggerActivityMakerHorizontalMuon) (tp : TriggerPrimitive)
      (out out1 : List TriggerActivity) :
      Reachable P m → tp.wf → operator_call m tp out = some (m1, out1) →
      P m1.m_current_window → Reachable P m1

end TriggerActivityMakerHorizontalMuon

/-- A primitive as `mkPrimitive` builds it, with ADC peak `p`. -/
def mkPeakPrimitive (t c a p : Nat) : TriggerPrimitive :=
  { mkPrimitive t c a with adc_peak := p }

/-- A geometry-variant maker with an empty window, window length 500,
prescale 1 and only `trigger_on_adc` enabled, with `adc_threshold = 50`. -/
def adcOnlyMaker : TriggerActivityMakerHorizontalMuon :=
  { multiplicityMaker with
    m_trigger_on_adc := true
    m_trigger_on_n_channels := false
    m_adc_threshold := 50 }

/-- The maker `adcOnlyMaker` after its first primitive (time 0, channel 1,
ADC integral 100): the window sum 100 is above `adc_threshold = 50`. -/
def adcOnlyStarted : TriggerActivityMakerHorizontalMuon :=
  { adcOnlyMaker with
    m_current_window :=
      { time_start := 0, adc_integral := 100, channel_states := [(1, 1)],
        inputs := [mkPrimitive 0 1 100] }
    m_primitive_count := 1 }

/-- A primitive with start time `t`, channel `c`, ADC integral `a`, ADC peak
`p` and peak time `t + 3`. -/
def peakedPrimitive (t c a p : Nat) : TriggerPrimitive :=
  { mkPrimitive t c a with adc_peak := p, time_peak := t + 3 }

/-- A geometry-variant maker with an empty window, window length 500,
prescale 1 and the multiplicity trigger with `n_channels_threshold = 1`. -/
def pairMaker : TriggerActivityMakerHorizontalMuon :=
  { multiplicityMaker with m_n_channels_threshold := 1 }

namespace TriggerActivityMakerHorizontalMuon

/-- The calls of `operator()` on which a trigger branch is entered and its
`ta_count % m_prescale == 0` test fails: the window is not empty, the
primitive is out of the window, a trigger condition holds and the incremented
`uint16_t` counter is not a multiple of the prescale. -/
def prescaleSuppressed (m : TriggerActivityMakerHorizontalMuon) (input_tp : TriggerPrimitive) :
    Prop :=
  m.m_current_window.is_empty = false ∧ ¬ inWindow m input_tp
    ∧ (multiplicityFires m ∨ adjacencyFires m)
    ∧ (m.ta_count + 1) % 65536 % m.m_prescale ≠ 0

instance (m : TriggerActivityMakerHorizontalMuon) (tp : TriggerPrimitive) :
    Decidable (prescaleSuppressed m tp) := by
  unfold prescaleSuppressed; infer_instance

end TriggerActivityMakerHorizontalMuon

/-- The maker `pairMaker` with `prescale = 2`. -/
def prescaledMaker : TriggerActivityMakerHorizontalMuon :=
  { pairMaker with m_prescale := 2 }

/-- The maker `multiplicityMaker` with `window_length = 0`. -/
def zeroLengthMaker : TriggerActivityMakerHorizontalMuon :=
  { multiplicityMaker with m_window_length := 0 }

/-- An activity starting at time 0 with one primitive on channel 5. -/
def exampleActivity : TriggerActivity := mkActivity 0 100 [mkPrimitive 0 5 100]

/-- A candidate maker with an empty window and the defaults of the header:
no trigger flag set, window length 80000. -/
def candidateMaker : TriggerCandidateMakerHorizontalMuon :=
  { m_current_window := { time_start := 0, adc_integral := 0, channel_states := [], ta_list := [] }
    m_activity_count := 0
    m_trigger_on_adc := false
    m_trigger_on_n_channels := false
    m_trigger_on_adjacency := false
    m_adc_threshold := 1200000
    m_n_channels_threshold := 600
    m_window_length := 80000
    m_readout_window_ticks_before := 30000
    m_readout_window_ticks_after := 30000
    tc_number := 0 }

namespace TriggerActivityMakerMichelElectron

/-- The test `input_tp.time_start - m_current_window.time_start < m_window_length`
of `operator()` (Michel variant). -/
def inWindow (m : TriggerActivityMakerMichelElectron) (input_tp : TriggerPrimitive) : Prop :=
  tsub input_tp.time_start m.m_current_window.time_start < m.m_window_length

instance (m : TriggerActivityMakerMichelElectron) (tp : TriggerPrimitive) :
    Decidable (inWindow m tp) := by
  unfold inWindow; infer_instance

/-- The first two operands of the trigger test of `operator()` (Michel
variant): `check_adjacency() > m_adjacency_threshold && m_trigger_on_adjacency`. -/
def adjacencyFires (m : TriggerActivityMakerMichelElectron) : Prop :=
  check_adjacency m > m.m_adjacency_threshold ∧ m.m_trigger_on_adjacency = true

instance (m : TriggerActivityMakerMichelElectron) : Decidable (adjacencyFires m) := by
  unfold adjacencyFires; infer_instance

end TriggerActivityMakerMichelElectron

/-- The Michel maker `michelMaker` with `adjacency_threshold = 0` after two
primitives (channels 7 and 20): `check_adjacency` returns 1. -/
def michelStarted : TriggerActivityMakerMichelElectron :=
  { michelMaker with
    m_current_window :=
      { time_start := 40, adc_integral := 200, channel_states := [(20, 1), (7, 1)],
        inputs := [mkPrimitive 40 7 100, mkPrimitive 50 20 100] }
    m_primitive_count := 2
    m_adjacency_threshold := 0 }

/-- Primitive number `i` of a long call sequence with two hits per channel at
time 0: the first one carries ADC integral 1, all later ones 0. -/
def heavyPrimitive (i : Nat) : TriggerPrimitive := mkPrimitive 0 (i / 2) (1 - i)

/-- A geometry-variant maker with an empty window, window length 1, prescale
1 and only the multiplicity trigger enabled, with `n_channels_threshold = 0`. -/
def wrapMaker : TriggerActivityMakerHorizontalMuon :=
  { multiplicityMaker with m_n_channels_threshold := 0, m_window_length := 1 }

/-- The maker `wrapMaker` holding the window `w`, with `c` primitives counted. -/
def wrapState (w : TriggerActivityMakerHorizontalMuon.Window) (c : Nat) :
    TriggerActivityMakerHorizontalMuon :=
  { wrapMaker with m_current_window := w, m_primitive_count := c }

/-- Closing a run: it is recorded when it is the new maximum, and the walk
restarts with run length 1 and consumed tolerance 0. -/
def AdjState.close (st : AdjState) : AdjState :=
  { adj := 1, max := if st.adj > st.max then st.adj else st.max, tol_count := 0 }

/-- One step of the walk as spec section 4.2 words it, in unbounded
arithmetic: an equal next channel is skipped; `next = channel + 1` extends the
run; a gap of 2, 3, 4 or 5 extends the run when the consumed tolerance is
below the budget and consumes `gap − 1` units; anything else closes the run. -/
def specStep (budget : Nat) (st : AdjState) (channel next : Nat) : AdjState :=
  if next = channel then st
  else if next = channel + 1 then { st with adj := st.adj + 1 }
  else if (next = channel + 2 ∨ next = channel + 3 ∨ next = channel + 4 ∨ next = channel + 5)
      ∧ st.tol_count < budget then
    { st with adj := st.adj + 1, tol_count := st.tol_count + (next - channel - 1) }
  else st.close

/-- The specified walk over the ascending channel list taken circularly; the
largest recorded run is returned. -/
def specAdjacency (budget : Nat) (channels : List Nat) : Nat :=
  ((circularPairs (channels.insertionSort (· ≤ ·))).foldl
    (fun st p => specStep budget st p.1 p.2) { adj := 1, max := 0, tol_count := 0 }).max

/-- One step of the walk the two `check_adjacency` bodies perform, in
unbounded arithmetic: a next channel equal to 0 closes the run (the
end-of-vector rule `next_channel = channel - 1`); an equal next channel is
skipped; `next = channel + 1` extends the run; a gap of 2 up to `maxGap`
extends the run when the consumed tolerance is below the budget and consumes
`cost gap` units; anything else closes the run. -/
def tolerantStep (maxGap : Nat) (cost : Nat → Nat) (budget : Nat) (st : AdjState)
    (channel next : Nat) : AdjState :=
  if next = 0 then st.close
  else if next = channel then st
  else if next = channel + 1 then { st with adj := st.adj + 1 }
  else if channel + 2 ≤ next ∧ next ≤ channel + maxGap ∧ st.tol_count < budget then
    { st with adj := st.adj + 1, tol_count := st.tol_count + cost (next - channel) }
  else st.close

/-- The walk of `tolerantStep` over the ascending channel list taken
circularly; the largest recorded run is returned. -/
def tolerantAdjacency (maxGap : Nat) (cost : Nat → Nat) (budget : Nat) (channels : List Nat) :
    Nat :=
  ((circularPairs (channels.insertionSort (· ≤ ·))).foldl
    (fun st p => tolerantStep maxGap cost budget st p.1 p.2)
    { adj := 1, max := 0, tol_count := 0 }).max

/-- The walk of the geometry variant in unbounded arithmetic: gaps of 2 to 5
are bridged and consume `gap` units. -/
def geometryAdjacency (budget : Nat) (channels : List Nat) : Nat :=
  tolerantAdjacency 5 (fun gap => gap) budget channels

/-- The walk of the Michel variant in unbounded arithmetic: gaps of 2 to 4
are bridged and consume `gap − 1` units. -/
def michelAdjacency (budget : Nat) (channels : List Nat) : Nat :=
  tolerantAdjacency 4 (fun gap => gap - 1) budget channels

/-- One step of the walk as the comments of the two `check_adjacency` bodies
word it (the tolerance "allows up to adj_tolerance" misses, the counter
"should not pass adj_tolerance"): as `tolerantStep`, except that a gap is
bridged only when the tolerance it consumes still fits into the budget. -/
def cappedStep (maxGap : Nat) (cost : Nat → Nat) (budget : Nat) (st : AdjState)
    (channel next : Nat) : AdjState :=
  if next = 0 then st.close
  else if next = channel then st
  else if next = channel + 1 then { st with adj := st.adj + 1 }
  else if channel + 2 ≤ next ∧ next ≤ channel + maxGap
      ∧ st.tol_count + cost (next - channel) ≤ budget then
    { st with adj := st.adj + 1, tol_count := st.tol_count + cost (next - channel) }
  else st.close

/-- The walk of `cappedStep` over the ascending channel list taken circularly;
the largest recorded run is returned. -/
def cappedAdjacency (maxGap : Nat) (cost : Nat → Nat) (budget : Nat) (channels : List Nat) :
    Nat :=
  ((circularPairs (channels.insertionSort (· ≤ ·))).foldl
    (fun st p => cappedStep maxGap cost budget st p.1 p.2)
    { adj := 1, max := 0, tol_count := 0 }).max

/-- The walk over the consecutive pairs of `a :: t`, from the state `st`: the
state after the last pair, and the last element. -/
def walkFrom (step : AdjState → Nat → Nat → AdjState) : AdjState → Nat → List Nat → AdjState × Nat
  | st, a, [] => (st, a)
  | st, a, b :: t => walkFrom step (step st a b) b t

/-- Number of strict increases along `a :: t`. -/
def ascents : Nat → List Nat → Nat
  | _, [] => 0
  | a, b :: t => (if a < b then 1 else 0) + ascents b t

/-- Two walk states with the same run length and consumed tolerance whose
recorded maxima differ at most in being 0 or 1. -/
def SameRun (st st' : AdjState) : Prop :=
  st.adj = st'.adj ∧ st.tol_count = st'.tol_count ∧ max st.max 1 = max st'.max 1

/-- The window after `reset` with a primitive on the first channel of the list
and one `add` per further channel, in list order (all primitives at time 0
with ADC integral 0); the empty window of a new maker for the empty list. -/
def channelWindow : List Nat → TriggerActivityMakerHorizontalMuon.Window
  | [] => { time_start := 0, adc_integral := 0, channel_states := [], inputs := [] }
  | c :: cs =>
    cs.foldl (fun w c1 => w.add (mkPrimitive 0 c1 0))
      (TriggerActivityMakerHorizontalMuon.Window.reset
        { time_start := 0, adc_integral := 0, channel_states := [], inputs := [] }
        (mkPrimitive 0 c 0))

/-- A geometry-variant maker holding `channelWindow channels`, with tolerance
budget `tol`. -/
def geometryMaker (channels : List Nat) (tol : Nat) : TriggerActivityMakerHorizontalMuon :=
  { multiplicityMaker with m_current_window := channelWindow channels, m_adj_tolerance := tol }

/-- A Michel-variant maker holding `channelWindow channels`, with tolerance
budget `tol`. -/
def michelMakerOn (channels : List Nat) (tol : Nat) : TriggerActivityMakerMichelElectron :=
  { michelMaker with m_current_window := channelWindow channels, m_adj_tolerance := tol }

namespace TriggerCandidateMakerHorizontalMuon

/-- The test `activity.time_start - m_current_window.time_start < m_window_length`
of `operator()`. -/
def inWindow (c : TriggerCandidateMakerHorizontalMuon) (activity : TriggerActivity) : Prop :=
  tsub activity.time_start c.m_current_window.time_start < c.m_window_length

instance (c : TriggerCandidateMakerHorizontalMuon) (a : TriggerActivity) :
    Decidable (inWindow c a) := by
  unfold inWindow; infer_instance

/-- The disjunction of the tests of the three trigger branches of `operator()`. -/
def fires (c : TriggerCandidateMakerHorizontalMuon) : Prop :=
  (c.m_current_window.adc_integral > c.m_adc_threshold ∧ c.m_trigger_on_adc = true)
    ∨ (c.m_current_window.n_channels_hit > c.m_n_channels_threshold
        ∧ c.m_trigger_on_n_channels = true)
    ∨ c.m_trigger_on_adjacency = true

instance (c : TriggerCandidateMakerHorizontalMuon) : Decidable (fires c) := by
  unfold fires; infer_instance

/-- The test of the trivial branch: no trigger flag is set. -/
def passThrough (c : TriggerCandidateMakerHorizontalMuon) : Prop :=
  c.m_trigger_on_adc = false ∧ c.m_trigger_on_n_channels = false
    ∧ c.m_trigger_on_adjacency = false

instance (c : TriggerCandidateMakerHorizontalMuon) : Decidable (passThrough c) := by
  unfold passThrough; infer_instance

/-- The configuration members are the same in both maker states. -/
def sameConfig (c c1 : TriggerCandidateMakerHorizontalMuon) : Prop :=
  c1.m_trigger_on_adc = c.m_trigger_on_adc
    ∧ c1.m_trigger_on_n_channels = c.m_trigger_on_n_channels
    ∧ c1.m_trigger_on_adjacency = c.m_trigger_on_adjacency
    ∧ c1.m_adc_threshold = c.m_adc_threshold
    ∧ c1.m_n_channels_threshold = c.m_n_channels_threshold
    ∧ c1.m_window_length = c.m_window_length
    ∧ c1.m_readout_window_ticks_before = c.m_readout_window_ticks_before
    ∧ c1.m_readout_window_ticks_after = c.m_readout_window_ticks_after

/-- Feed a list of activities, one call of `operator()` each, into the same
output vector. -/
def feed (c : TriggerCandidateMakerHorizontalMuon) (output_tc : List TriggerCandidate) :
    List TriggerActivity → Option (TriggerCandidateMakerHorizontalMuon × List TriggerCandidate)
  | [] => some (c, output_tc)
  | activity :: rest =>
    match operator_call c activity output_tc with
    | none => none
    | some (c1, out1) => feed c1 out1 rest

end TriggerCandidateMakerHorizontalMuon

/-- A candidate maker with `trigger_on_adjacency` set, holding a window with
the one activity `exampleActivity`. -/
def candidateStarted : TriggerCandidateMakerHorizontalMuon :=
  { candidateMaker with
    m_trigger_on_adjacency := true
    m_current_window :=
      { time_start := 0, adc_integral := 100, channel_states := [(5, 1)],
        ta_list := [exampleActivity] }
    m_activity_count := 1 }

/-- A bundling maker with `bundle_size = 3`, `prescale = 1` and no activity
collected yet. -/
def bundleMaker : TriggerCandidateMakerBundleN :=
  { m_current_tc := TriggerCandidate.blank, m_prescale_counter := 0, m_bundle_size := 3,
    m_prescale := 1 }

/-- Every field of the activity fits its machine type, and so do the fields
of its primitives. -/
def TriggerActivity.wf (ta : TriggerActivity) : Prop :=
  ta.time_start < 18446744073709551616 ∧ ta.adc_integral < 18446744073709551616
    ∧ ∀ tp ∈ ta.inputs, tp.wf

instance (ta : TriggerActivity) : Decidable ta.wf := by
  unfold TriggerActivity.wf; infer_instance

/-- Sum of `adc_integral` over the activities of the list. -/
def adcSumActivities (l : List TriggerActivity) : Nat :=
  (l.map (fun ta => ta.adc_integral)).sum

/-- The primitives of all activities of the list. -/
def allPrimitives (l : List TriggerActivity) : List TriggerPrimitive :=
  (l.map (fun ta => ta.inputs)).flatten

namespace TriggerCandidateMakerHorizontalMuon.Window

/-- The candidate-window states reached from `reset(a0)` by a finite sequence
of `add`, `move` and `reset` calls on well-formed activities, where every
state of the sequence (the first one included) satisfies `P`. -/
inductive Reachable (P : Window → Prop) : Window → Prop
  | init (s : Window) (a0 : TriggerActivity) :
      a0.wf → P (s.reset a0) → Reachable P (s.reset a0)
  | add (w : Window) (x : TriggerActivity) :
      Reachable P w → x.wf → P (w.add x) → Reachable P (w.add x)
  | move (w : Window) (x : TriggerActivity) (window_length : Nat) :
      Reachable P w → x.wf → P (w.move x window_length) → Reachable P (w.move x window_length)
  | reset (w : Window) (x : TriggerActivity) :
      Reachable P w → x.wf → P (w.reset x) → Reachable P (w.reset x)

/-- The window holds fewer than 2^32 activities, and their primitives are
fewer than 65536 on any one channel. -/
def Bounded (w : Window) : Prop :=
  w.ta_list.length < 4294967296 ∧ ∀ c, chanCount (allPrimitives w.ta_list) c < 65536

/-- The accumulator equals the sum over the held activities modulo 2^64, the
channel map agrees with the primitives of the held activities, and every held
activity has a 64-bit `adc_integral`. -/
def Consistent (w : Window) : Prop :=
  w.adc_integral = adcSumActivities w.ta_list % 18446744073709551616
    ∧ ChannelMap.Counts w.channel_states (allPrimitives w.ta_list)
    ∧ ∀ ta ∈ w.ta_list, ta.adc_integral < 18446744073709551616

end TriggerCandidateMakerHorizontalMuon.Window

namespace TriggerCandidateMakerHorizontalMuon.Window

/-- The empty candidate window of a new maker. -/
def emptyWindow : Window :=
  { time_start := 0, adc_integral := 0, channel_states := [], ta_list := [] }

/-- The candidate window after `reset(a)` followed by `n` calls `add(a)`. -/
def repeatWindow (a : TriggerActivity) : Nat → Window
  | 0 => emptyWindow.reset a
  | n + 1 => (repeatWindow a n).add a

end TriggerCandidateMakerHorizontalMuon.Window

/-- An activity at time 0 with ADC integral 1 and no primitive. -/
def unitActivity : TriggerActivity := mkActivity 0 1 []

/-- An activity at time 0 with `k` primitives, all on channel 0. -/
def stackedActivity (k : Nat) : TriggerActivity :=
  mkActivity 0 0 (List.replicate k (mkPrimitive 0 0 0))

/-- An activity at time 0 with one primitive on each of the channels
`0, ..., n`. -/
def wideActivity (n : Nat) : TriggerActivity :=
  mkActivity 0 0 ((List.range (n + 1)).map chanPrimitive)

/-- The signal as the claim words it: the cluster list is not empty and its
largest cluster is the first or the last one of the list. -/
def specPeakSignal : List ℚ → Bool
  | [] => false
  | c :: cs =>
    decide (TriggerActivityMakerMichelElectron.max_charge c cs = c
      ∨ TriggerActivityMakerMichelElectron.max_charge c cs
          = (c :: cs).getLast (List.cons_ne_nil c cs))

/-- The window after `reset` with the first primitive of the list and one
`add` per further primitive, in list order; the empty window of a new maker
for the empty list. -/
def primitiveWindow : List TriggerPrimitive → TriggerActivityMakerHorizontalMuon.Window
  | [] => { time_start := 0, adc_integral := 0, channel_states := [], inputs := [] }
  | tp :: tps =>
    tps.foldl (fun w tp1 => w.add tp1)
      (TriggerActivityMakerHorizontalMuon.Window.reset
        { time_start := 0, adc_integral := 0, channel_states := [], inputs := [] } tp)

/-- The example Michel maker (tolerance budget 3) holding `primitiveWindow tps`. -/
def braggMaker (tps : List TriggerPrimitive) : TriggerActivityMakerMichelElectron :=
  { michelMaker with m_current_window := primitiveWindow tps }

/-- Five primitives on the channels 1 to 5 with ADC integrals 16, 8, 32, 8, 24. -/
def twoClusterTrack : List TriggerPrimitive :=
  [mkPrimitive 0 1 16, mkPrimitive 0 2 8, mkPrimitive 0 3 32, mkPrimitive 0 4 8,
    mkPrimitive 0 5 24]

/-- Seven primitives on the channels 1 to 7 with ADC integrals
0, 16, 0, 24, 0, 8, 0. -/
def threeClusterTrack : List TriggerPrimitive :=
  [mkPrimitive 0 1 0, mkPrimitive 0 2 16, mkPrimitive 0 3 0, mkPrimitive 0 4 24,
    mkPrimitive 0 5 0, mkPrimitive 0 6 8, mkPrimitive 0 7 0]

/-- Three primitives on the channels 1 to 3, each with ADC integral 5. -/
def uniformTrack : List TriggerPrimitive :=
  [mkPrimitive 0 1 5, mkPrimitive 0 2 5, mkPrimitive 0 3 5]

/-- Three primitives on the channels 1 to 3 with ADC integrals 8, 8, 16. -/
def risingTrack : List TriggerPrimitive :=
  [mkPrimitive 0 1 8, mkPrimitive 0 2 8, mkPrimitive 0 3 16]

/-- ADC value of hit `i` of a linear ramp over 20 hits with base `a` and slope
`d`: rising with the channel, or falling. -/
def rampAdc (rising : Bool) (a d i : Nat) : Nat :=
  if rising then a + i * d else a + (19 - i) * d

/-- Twenty hits on the channels `c, ..., c + 19`, one per channel: hit `i` has
start time `t i` and ADC value `adc i`. -/
def rampHits (c : Nat) (t adc : Nat → Nat) : List TriggerActivityMakerMichelElectron.Hit :=
  (List.range 20).map (fun i => ⟨c + i, t i, adc i⟩)

/-- Twenty primitives on the channels 100 to 119, arriving from the highest
channel down: the primitive on channel `100 + i` has start time `10 * i` and
ADC integral `50 + 3 * i`. -/
def rampTrack : List TriggerPrimitive :=
  ((List.range 20).map (fun i => mkPrimitive (10 * i) (100 + i) (50 + i * 3))).reverse

namespace TriggerCandidateMakerBundleN

/-- The statements of `operator()` before its last `if`: the counter
increment, the `push_back` under the prescale test and the block under
`bundle_condition()`.  The last `if` tests `inputs.size() > m_bundle_size` on
the maker state returned here. -/
def beforeLargeTest (m : TriggerCandidateMakerBundleN) (input_ta : TriggerActivity)
    (output_tcs : List TriggerCandidate) :
    Option (TriggerCandidateMakerBundleN × List TriggerCandidate) :=
  let m1 := { m with m_prescale_counter := (m.m_prescale_counter + 1) % 18446744073709551616 }
  if m1.m_bundle_size = 0 ∨ m1.m_prescale = 0 then none
  else
    let m2 :=
      if m1.m_prescale_counter / m1.m_bundle_size % m1.m_prescale = 0 then
        { m1 with
          m_current_tc :=
            { m1.m_current_tc with inputs := m1.m_current_tc.inputs ++ [input_ta.toData] } }
      else m1
    if bundle_condition m2 then emit m2 output_tcs else some (m2, output_tcs)

end TriggerCandidateMakerBundleN

/-- The bundling maker `bundleMaker` with `prescale = 2`. -/
def prescaledBundleMaker : TriggerCandidateMakerBundleN :=
  { bundleMaker with m_prescale := 2 }

namespace TriggerActivityMakerMichelElectron

/-- One iteration of the cluster loop as the claim words it: a running mean at
or below the baseline closes an open (non-zero) cluster. -/
def specClusterStep (ped : ℚ) (st : ClusterState) (a : ℚ) : ClusterState :=
  if a > ped then { st with charge := st.charge + a }
  else if st.charge ≠ 0 then
    { charge := 0, charge_dumps := st.charge_dumps ++ [st.charge] }
  else st

end TriggerActivityMakerMichelElectron

/-- Five primitives on the channels 1 to 5 with ADC integrals 8, 0, 24, 0, 8. -/
def levelTrack : List TriggerPrimitive :=
  [mkPrimitive 0 1 8, mkPrimitive 0 2 0, mkPrimitive 0 3 24, mkPrimitive 0 4 0,
    mkPrimitive 0 5 8]

/-- The maker `startedMaker` with `n_channels_threshold = 0`: its window of
one channel satisfies the multiplicity condition. -/
def firingMaker : TriggerActivityMakerHorizontalMuon :=
  { startedMaker with m_n_channels_threshold := 0 }

/-- The maker `firingMaker` with `prescale = 0`. -/
def zeroPrescaleMaker : TriggerActivityMakerHorizontalMuon :=
  { firingMaker with m_prescale := 0 }

/-- The primitives of a track of `n` hits on the channels `1, ..., n`, all at
time 0 with ADC integral 0. -/
def runTrack (n : Nat) : List TriggerPrimitive :=
  (List.range n).map (fun i => mkPrimitive 0 (1 + i) 0)

/-- Primitive number `i` of a window whose hit channels lie 6 apart: channel
`6 * i`, time 0, ADC integral 0. -/
def sparsePrimitive (i : Nat) : TriggerPrimitive := mkPrimitive 0 (6 * i) 0

/-- The example geometry-variant maker with the adjacency trigger enabled at
`adjacency_threshold = 0`, holding the window after `reset` and `n` calls of
`add` with the primitives `sparsePrimitive 0, ..., sparsePrimitive n`. -/
def sparseMaker (n : Nat) : TriggerActivityMakerHorizontalMuon :=
  { multiplicityMaker with
    m_current_window := TriggerActivityMakerHorizontalMuon.Window.growWindow sparsePrimitive n
    m_trigger_on_adjacency := true
    m_adjacency_threshold := 0 }

/-- The channels `x, x + 1, ..., x + k - 1` are all hit: a run of `k`
consecutive integers in the set of hit channels. -/
def IsRun (channels : List Nat) (x k : Nat) : Prop := ∀ i, i < k → x + i ∈ channels

instance (channels : List Nat) (x k : Nat) : Decidable (IsRun channels x k) := by
  unfold IsRun; infer_instance

/-- The number `n` is the length of the longest run of consecutive integers in
the set of hit channels. -/
def LongestRun (channels : List Nat) (n : Nat) : Prop :=
  (∃ x, IsRun channels x n) ∧ ∀ x k, IsRun channels x k → k ≤ n

namespace TriggerActivityMakerHorizontalMuon

/-- The window spans less than `L` ticks: its primitives are in start-time
order, `time_start` is the start time of the first primitive, and every
primitive starts at or after `time_start` and less than `L` ticks after it. -/
def Window.TimeSpan (w : Window) (L : Nat) : Prop :=
  w.inputs.Pairwise (fun a b => a.time_start ≤ b.time_start)
    ∧ (∀ first, w.inputs.head? = some first → w.time_start = first.time_start)
    ∧ ∀ p ∈ w.inputs, w.time_start ≤ p.time_start ∧ p.time_start - w.time_start < L

/-- The Activity spans less than `L` ticks: `time_start ≤ time_end` and every
input starts at or after `time_start` and less than `L` ticks after it. -/
def ActivityInSpan (ta : TriggerActivity) (L : Nat) : Prop :=
  ta.time_start ≤ ta.time_end
    ∧ ∀ p ∈ ta.inputs, ta.time_start ≤ p.time_start ∧ p.time_start - ta.time_start < L

end TriggerActivityMakerHorizontalMuon

/-! ## `check_bragg_peak` in machine floating point

The running means, the baseline and the cluster sums of `check_bragg_peak` are
`float` values (IEEE 754 binary32); the baseline is accumulated and divided in
`double` (binary64) and then narrowed.  Each conversion and each arithmetic
operation is rounded to nearest, ties to even, in the precision of its type.
The values that occur are 0 or lie between 2^-20 and 2^51, far inside the
exponent range of both formats, so the exponent range is not limited here. -/

/-- Round to nearest, ties to even, onto the binary floating-point numbers
with a significand of `prec` bits.  For `q` not 0, `e` is the exponent of the
unit in the last place of the binade of `|q|`, `m = |q| / 2^e` lies in
`[2^(prec-1), 2^prec)` and is rounded to an integer. -/
def roundNearestEven (prec : Nat) (q : ℚ) : ℚ :=
  if q = 0 then 0
  else
    let e : ℤ := Int.log 2 |q| - ((prec : ℤ) - 1)
    let m : ℚ := |q| / (2 : ℚ) ^ e
    let f : ℤ := ⌊m⌋
    let r : ℤ :=
      if m - f < 1 / 2 then f
      else if 1 / 2 < m - f then f + 1
      else if f % 2 = 0 then f else f + 1
    (if q < 0 then -1 else 1) * r * (2 : ℚ) ^ e

/-- Conversion to, and rounding of a result in, `float` (IEEE 754 binary32,
24-bit significand). -/
def toFloat (q : ℚ) : ℚ := roundNearestEven 24 q

/-- Conversion to, and rounding of a result in, `double` (IEEE 754 binary64,
53-bit significand). -/
def toDouble (q : ℚ) : ℚ := roundNearestEven 53 q

/-- The value is a binary floating-point number with a significand of `prec`
bits: `k * 2^j` with `k < 2^prec`. -/
def Representable (prec : Nat) (q : ℚ) : Prop :=
  ∃ (k : Nat) (j : ℤ), k < 2 ^ prec ∧ q = (k : ℚ) * (2 : ℚ) ^ j

namespace TriggerActivityMakerMichelElectron.Binary32

/-- The variable `float adc_sum` after the inner loop for position `i`: from 0,
one `adc_sum += finalHits.at(j % finalHits.size()).adc` for each
`j = i, ..., i + convolve_value - 1`.  The `uint32_t` value is converted to
`float` and the sum is rounded to `float`. -/
def adc_sum (convolve_value : Nat) (finalHits : List Hit) (i : Nat) : ℚ :=
  ((List.range convolve_value).map
      (fun k => (finalHits.getD ((i + k) % finalHits.length) ⟨0, 0, 0⟩).adc)).foldl
    (fun (adc_sum : ℚ) (adc : Nat) => toFloat (adc_sum + toFloat (adc : ℚ))) 0

/-- The running mean pushed for position `i`:
`adc_mean = adc_sum / convolve_value`, a `float` division. -/
def runningMean (convolve_value : Nat) (finalHits : List Hit) (i : Nat) : ℚ :=
  toFloat (adc_sum convolve_value finalHits i / toFloat (convolve_value : ℚ))

/-- The vector `adc_means_list3` (`convolve_value3 = 8`). -/
def adc_means_list3 (finalHits : List Hit) : List ℚ :=
  (List.range finalHits.length).map (runningMean 8 finalHits)

/-- The baseline
`float ped = std::accumulate(begin, end, 0.0) / adc_means_list3.size()`: the
sum is accumulated in `double`, the size is converted to `double`, the
quotient is a `double` and is then narrowed to `float`. -/
def ped (means : List ℚ) : ℚ :=
  toFloat (toDouble (means.foldl (fun acc a => toDouble (acc + a)) 0
    / toDouble (means.length : ℚ)))

/-- One iteration of the cluster loop, on the running mean `a`; `charge += a`
is a `float` addition. -/
def clusterStep (ped : ℚ) (st : ClusterState) (a : ℚ) : ClusterState :=
  if a > ped then { st with charge := toFloat (st.charge + a) }
  else if a < ped ∧ st.charge ≠ 0 then
    { charge := 0, charge_dumps := st.charge_dumps ++ [st.charge] }
  else st

/-- The vector `charge_dumps` after the cluster loop over the running means of
`finalHits`. -/
def charge_dumps (finalHits : List Hit) : List ℚ :=
  ((adc_means_list3 finalHits).foldl (clusterStep (ped (adc_means_list3 finalHits)))
    { charge := 0, charge_dumps := [] }).charge_dumps

/-- Body of `check_bragg_peak()` with the `float` and `double` operations of
the source rounded.  `none` stands for a call that does not return a value, as
in the exact version: an empty window, an undefined step of the track walk,
more than 65521 final hits, an empty `charge_dumps`.  In the final test the
`int` variable `max` is converted to `float`. -/
def check_bragg_peak (m : TriggerActivityMakerMichelElectron) : Option Bool :=
  match trackWalk m with
  | none => none
  | some st =>
    if 65521 < st.finalHits.length then none
    else
      match charge_dumps st.finalHits with
      | [] => none
      | c :: cs =>
        some (decide (max_charge c cs = c
          ∨ toFloat (st.max : ℚ) = (c :: cs).getLast (List.cons_ne_nil c cs)))

end TriggerActivityMakerMichelElectron.Binary32

/-- Twenty primitives on the channels 100 to 119, all at time 0: the primitive
on channel `100 + i` has ADC integral `2^30 + i`, a ramp with base 2^30 and
slope 1. -/
def largeRampTrack : List TriggerPrimitive :=
  (List.range 20).map (fun i => mkPrimitive 0 (100 + i) (1073741824 + i))

/-- Sixteen primitives on the channels 1 to 16, all at time 0, with ADC
integrals 32, 8, 24, 24, 32, 8, 16, 8, 8, 24, 16, 0, 24, 32, 0, 8. -/
def middleTrack : List TriggerPrimitive :=
  [mkPrimitive 0 1 32, mkPrimitive 0 2 8, mkPrimitive 0 3 24, mkPrimitive 0 4 24,
    mkPrimitive 0 5 32, mkPrimitive 0 6 8, mkPrimitive 0 7 16, mkPrimitive 0 8 8,
    mkPrimitive 0 9 8, mkPrimitive 0 10 24, mkPrimitive 0 11 16, mkPrimitive 0 12 0,
    mkPrimitive 0 13 24, mkPrimitive 0 14 32, mkPrimitive 0 15 0, mkPrimitive 0 16 8]

/-! # Theorems -/

/-! ## The channel map -/

theorem ChannelMap.find_erase (m : ChannelMap) (c c' : Nat) :
    ChannelMap.find (ChannelMap.erase m c) c' = if c' = c then none else ChannelMap.find m c' := by
  induction m with
  | nil => simp [ChannelMap.erase, ChannelMap.find]
  | cons p m ih =>
    obtain ⟨k, v⟩ := p
    unfold ChannelMap.erase at ih ⊢
    by_cases hk : k = c
    · subst hk
      simp only [List.filter, ne_eq, not_true_eq_false, decide_False]
      rw [ih]
      by_cases h : c' = k
      · simp [h]
      · have : ¬ k = c' := fun e => h e.symm
        simp [h, ChannelMap.find, this]
    · simp only [List.filter, ne_eq, hk, not_false_eq_true, decide_True, ChannelMap.find]
      rw [ih]
      by_cases h : c' = c
      · subst h; simp [hk]
      · simp [h]

theorem ChannelMap.find_put (m : ChannelMap) (c v c' : Nat) :
    ChannelMap.find (ChannelMap.put m c v) c' = if c' = c then some v else ChannelMap.find m c' := by
  unfold ChannelMap.put
  by_cases h : c' = c
  · subst h; simp [ChannelMap.find]
  · have : ¬ c = c' := fun e => h e.symm
    simp [ChannelMap.find, this, h, ChannelMap.find_erase]

theorem ChannelMap.find_eq_none_iff (m : ChannelMap) (c : Nat) :
    ChannelMap.find m c = none ↔ c ∉ ChannelMap.keys m := by
  induction m with
  | nil => simp [ChannelMap.find, ChannelMap.keys]
  | cons p m ih =>
    obtain ⟨k, v⟩ := p
    by_cases hk : k = c
    · simp [ChannelMap.find, ChannelMap.keys, hk]
    · have : ¬ c = k := fun e => hk e.symm
      simp only [ChannelMap.find, hk, if_false, ih]
      simp [ChannelMap.keys, this]

theorem ChannelMap.keys_erase (m : ChannelMap) (c : Nat) :
    ChannelMap.keys (ChannelMap.erase m c) = (ChannelMap.keys m).filter (fun k => decide (k ≠ c)) := by
  unfold ChannelMap.erase ChannelMap.keys
  rw [List.filter_map]
  rfl

theorem ChannelMap.nodup_erase (m : ChannelMap) (c : Nat) (h : (ChannelMap.keys m).Nodup) :
    (ChannelMap.keys (ChannelMap.erase m c)).Nodup := by
  rw [ChannelMap.keys_erase]; exact h.filter _

theorem ChannelMap.nodup_put (m : ChannelMap) (c v : Nat) (h : (ChannelMap.keys m).Nodup) :
    (ChannelMap.keys (ChannelMap.put m c v)).Nodup := by
  have h1 := ChannelMap.nodup_erase m c h
  have h2 : c ∉ ChannelMap.keys (ChannelMap.erase m c) := by
    rw [ChannelMap.keys_erase]; simp
  unfold ChannelMap.put
  simpa [ChannelMap.keys] using And.intro h2 h1

theorem ChannelMap.find_of_mem (m : ChannelMap) (h : (ChannelMap.keys m).Nodup) (k v : Nat)
    (hm : (k, v) ∈ m) : ChannelMap.find m k = some v := by
  induction m with
  | nil => simp at hm
  | cons p m ih =>
    obtain ⟨k', v'⟩ := p
    simp only [ChannelMap.keys, List.map_cons, List.nodup_cons] at h
    rcases List.mem_cons.mp hm with e | hm'
    · cases e; simp [ChannelMap.find]
    · have hne : k' ≠ k := by
        intro e; subst e
        exact h.1 (List.mem_map.mpr ⟨(k', v), hm', rfl⟩)
      simp only [ChannelMap.find, hne, if_false]
      exact ih h.2 hm'

open TriggerActivityMakerHorizontalMuon

theorem chanCount_cons (tp : TriggerPrimitive) (l : List TriggerPrimitive) (c : Nat) :
    chanCount (tp :: l) c = chanCount l c + if tp.channel = c then 1 else 0 := by
  unfold chanCount
  simp [List.count_cons]

theorem chanCount_append_single (tp : TriggerPrimitive) (l : List TriggerPrimitive) (c : Nat) :
    chanCount (l ++ [tp]) c = chanCount l c + if tp.channel = c then 1 else 0 := by
  unfold chanCount
  simp [List.count_cons]

theorem ChannelMap.Counts.get_eq {m : ChannelMap} {l : List TriggerPrimitive}
    (h : ChannelMap.Counts m l) (c : Nat) : ChannelMap.get m c = chanCount l c := by
  unfold ChannelMap.get
  rw [h.2 c]
  by_cases h0 : chanCount l c = 0
  · simp [h0]
  · simp [h0]

theorem ChannelMap.counts_nil : ChannelMap.Counts [] [] := by
  refine ⟨by simp [ChannelMap.keys], fun c => ?_⟩
  simp [ChannelMap.find, chanCount]

theorem ChannelMap.Counts.incr {m : ChannelMap} {l : List TriggerPrimitive}
    (h : ChannelMap.Counts m l) (tp : TriggerPrimitive)
    (hb : chanCount l tp.channel + 1 < 65536) :
    ChannelMap.Counts (ChannelMap.incr m tp.channel) (l ++ [tp]) := by
  refine ⟨ChannelMap.nodup_put _ _ _ h.1, fun c => ?_⟩
  unfold ChannelMap.incr
  rw [ChannelMap.find_put, h.get_eq, chanCount_append_single, Nat.mod_eq_of_lt hb]
  by_cases hc : c = tp.channel
  · subst hc; simp
  · have : ¬ tp.channel = c := fun e => hc e.symm
    simp [hc, this, h.2 c]

theorem ChannelMap.Counts.evictChannel {m : ChannelMap} {tp : TriggerPrimitive}
    {l : List TriggerPrimitive} (h : ChannelMap.Counts m (tp :: l))
    (hb : chanCount (tp :: l) tp.channel < 65536) :
    ChannelMap.Counts (Window.evictChannel m tp.channel) l := by
  have hget : ChannelMap.get m tp.channel = chanCount l tp.channel + 1 := by
    rw [h.get_eq, chanCount_cons]; simp
  have hb' : chanCount l tp.channel + 1 < 65536 := by
    rw [chanCount_cons] at hb; simpa using hb
  have hdecr : ChannelMap.decr m tp.channel = ChannelMap.put m tp.channel (chanCount l tp.channel) := by
    unfold ChannelMap.decr
    rw [hget]
    have e : (chanCount l tp.channel + 1 + 65535) % 65536 = chanCount l tp.channel := by omega
    rw [e]
  have hfind : ∀ c, c ≠ tp.channel → ChannelMap.find m c =
      if chanCount l c = 0 then none else some (chanCount l c) := by
    intro c hc
    have : ¬ tp.channel = c := fun e => hc e.symm
    rw [h.2 c, chanCount_cons]; simp [this]
  unfold Window.evictChannel
  rw [hdecr]
  have hg : ChannelMap.get (ChannelMap.put m tp.channel (chanCount l tp.channel)) tp.channel
      = chanCount l tp.channel := by
    simp [ChannelMap.get, ChannelMap.find_put]
  rw [hg]
  by_cases h0 : chanCount l tp.channel = 0
  · rw [if_pos h0]
    refine ⟨ChannelMap.nodup_erase _ _ (ChannelMap.nodup_put _ _ _ h.1), fun c => ?_⟩
    rw [ChannelMap.find_erase]
    by_cases hc : c = tp.channel
    · subst hc; simp [h0]
    · rw [if_neg hc, ChannelMap.find_put, if_neg hc]; exact hfind c hc
  · rw [if_neg h0]
    refine ⟨ChannelMap.nodup_put _ _ _ h.1, fun c => ?_⟩
    rw [ChannelMap.find_put]
    by_cases hc : c = tp.channel
    · subst hc; simp [h0]
    · rw [if_neg hc]; exact hfind c hc

theorem ChannelMap.Counts.mem_keys_iff {m : ChannelMap} {l : List TriggerPrimitive}
    (h : ChannelMap.Counts m l) (c : Nat) :
    c ∈ ChannelMap.keys m ↔ c ∈ l.map (fun tp => tp.channel) := by
  have h1 := ChannelMap.find_eq_none_iff m c
  rw [h.2 c] at h1
  by_cases h0 : chanCount l c = 0
  · have hn : c ∉ ChannelMap.keys m := h1.mp (by simp [h0])
    have : c ∉ l.map (fun tp => tp.channel) := List.count_eq_zero.mp h0
    exact ⟨fun x => absurd x hn, fun x => absurd x this⟩
  · have hn : ¬ c ∉ ChannelMap.keys m := fun x => by
      have := h1.mpr x; simp [h0] at this
    have : c ∈ l.map (fun tp => tp.channel) := by
      by_contra hx; exact h0 (List.count_eq_zero.mpr hx)
    exact ⟨fun _ => this, fun _ => not_not.mp hn⟩

theorem ChannelMap.Counts.size_eq {m : ChannelMap} {l : List TriggerPrimitive}
    (h : ChannelMap.Counts m l) : ChannelMap.size m = distinctChannels l := by
  unfold ChannelMap.size distinctChannels
  have hp : (ChannelMap.keys m).Perm ((l.map (fun tp => tp.channel)).dedup) := by
    rw [List.perm_ext_iff_of_nodup h.1 (List.nodup_dedup _)]
    intro c
    rw [h.mem_keys_iff, List.mem_dedup]
  have := hp.length_eq
  simpa [ChannelMap.keys] using this

theorem ChannelMap.Counts.entry {m : ChannelMap} {l : List TriggerPrimitive}
    (h : ChannelMap.Counts m l) (k v : Nat) (hm : (k, v) ∈ m) :
    v = chanCount l k ∧ v ≠ 0 := by
  have hf := ChannelMap.find_of_mem m h.1 k v hm
  rw [h.2 k] at hf
  by_cases h0 : chanCount l k = 0
  · simp [h0] at hf
  · simp only [h0, if_false, Option.some.injEq] at hf
    exact ⟨hf.symm, hf ▸ h0⟩

namespace TriggerActivityMakerHorizontalMuon.Window

theorem evictCount_le (x : TriggerPrimitive) (L : Nat) (l : List TriggerPrimitive) :
    evictCount x L l ≤ l.length := by
  unfold evictCount
  exact (List.takeWhile_sublist _).length_le

theorem evictCount_cons_out (x : TriggerPrimitive) (L : Nat) (tp : TriggerPrimitive)
    (l : List TriggerPrimitive) (h : within x L tp = false) :
    evictCount x L (tp :: l) = evictCount x L l + 1 := by
  simp [evictCount, List.takeWhile, h]

theorem evictCount_cons_in (x : TriggerPrimitive) (L : Nat) (tp : TriggerPrimitive)
    (l : List TriggerPrimitive) (h : within x L tp = true) :
    evictCount x L (tp :: l) = 0 := by
  simp [evictCount, List.takeWhile, h]

theorem evictLoop_n (x : TriggerPrimitive) (L : Nat) (l : List TriggerPrimitive) (st : EvictState) :
    (evictLoop x L l st).n_tps_to_erase % 4294967296
      = (st.n_tps_to_erase + evictCount x L l) % 4294967296 := by
  induction l generalizing st with
  | nil => simp [evictLoop, evictCount]
  | cons tp rest ih =>
    by_cases h : within x L tp = true
    · simp [evictLoop, h, evictCount_cons_in]
    · have h' : within x L tp = false := by simpa using h
      simp only [evictLoop, h', Bool.false_eq_true, if_false]
      rw [ih, evictCount_cons_out x L tp rest h']
      simp only
      omega

theorem evictLoop_n_lt (x : TriggerPrimitive) (L : Nat) (l : List TriggerPrimitive) (st : EvictState)
    (h0 : st.n_tps_to_erase < 4294967296) :
    (evictLoop x L l st).n_tps_to_erase < 4294967296 := by
  induction l generalizing st with
  | nil => simpa [evictLoop] using h0
  | cons tp rest ih =>
    by_cases h : within x L tp = true
    · simpa [evictLoop, h] using h0
    · have h' : within x L tp = false := by simpa using h
      simp only [evictLoop, h', Bool.false_eq_true, if_false]
      apply ih
      simp only
      omega

theorem evictLoop_adc (x : TriggerPrimitive) (L : Nat) (l : List TriggerPrimitive) (st : EvictState)
    (hwf : ∀ tp ∈ l, tp.adc_integral < 4294967296) :
    ((evictLoop x L l st).adc_integral + adcSum (l.take (evictCount x L l))) % 4294967296
      = st.adc_integral % 4294967296 := by
  induction l generalizing st with
  | nil => simp [evictLoop, evictCount, adcSum]
  | cons tp rest ih =>
    by_cases h : within x L tp = true
    · simp [evictLoop, h, evictCount_cons_in, adcSum]
    · have h' : within x L tp = false := by simpa using h
      have hr : ∀ tp ∈ rest, tp.adc_integral < 4294967296 :=
        fun t ht => hwf t (List.mem_cons_of_mem _ ht)
      have ht : tp.adc_integral < 4294967296 := hwf tp (List.mem_cons_self _ _)
      simp only [evictLoop, h', Bool.false_eq_true, if_false]
      have := ih
        { n_tps_to_erase := (st.n_tps_to_erase + 1) % 4294967296
          adc_integral := (st.adc_integral + 4294967296 - tp.adc_integral) % 4294967296
          channel_states := evictChannel st.channel_states tp.channel } hr
      rw [evictCount_cons_out x L tp rest h']
      simp only [List.take_succ_cons, adcSum, List.map_cons, List.sum_cons] at this ⊢
      omega

theorem evictLoop_adc_lt (x : TriggerPrimitive) (L : Nat) (l : List TriggerPrimitive) (st : EvictState)
    (h0 : st.adc_integral < 4294967296) :
    (evictLoop x L l st).adc_integral < 4294967296 := by
  induction l generalizing st with
  | nil => simpa [evictLoop] using h0
  | cons tp rest ih =>
    by_cases h : within x L tp = true
    · simpa [evictLoop, h] using h0
    · have h' : within x L tp = false := by simpa using h
      simp only [evictLoop, h', Bool.false_eq_true, if_false]
      apply ih
      simp only
      omega

theorem chanCount_le_cons (tp : TriggerPrimitive) (l : List TriggerPrimitive) (c : Nat) :
    chanCount l c ≤ chanCount (tp :: l) c := by
  rw [chanCount_cons]; omega

theorem evictLoop_counts (x : TriggerPrimitive) (L : Nat) (l : List TriggerPrimitive) (st : EvictState)
    (h : ChannelMap.Counts st.channel_states l) (hb : ∀ c, chanCount l c < 65536) :
    ChannelMap.Counts (evictLoop x L l st).channel_states (l.drop (evictCount x L l)) := by
  induction l generalizing st with
  | nil => simpa [evictLoop, evictCount] using h
  | cons tp rest ih =>
    by_cases hw : within x L tp = true
    · simpa [evictLoop, hw, evictCount_cons_in] using h
    · have h' : within x L tp = false := by simpa using hw
      simp only [evictLoop, h', Bool.false_eq_true, if_false]
      rw [evictCount_cons_out x L tp rest h', List.drop_succ_cons]
      apply ih
      · exact h.evictChannel (hb tp.channel)
      · intro c; exact lt_of_le_of_lt (chanCount_le_cons tp rest c) (hb c)

theorem adcSum_append (l1 l2 : List TriggerPrimitive) :
    adcSum (l1 ++ l2) = adcSum l1 + adcSum l2 := by
  simp [adcSum]

theorem move_inputs (w : Window) (x : TriggerPrimitive) (L : Nat)
    (hs : w.inputs.length < 4294967296) :
    (evictLoop x L w.inputs
        { n_tps_to_erase := 0, adc_integral := w.adc_integral,
          channel_states := w.channel_states }).n_tps_to_erase = evictCount x L w.inputs := by
  have h1 := evictLoop_n x L w.inputs
    { n_tps_to_erase := 0, adc_integral := w.adc_integral, channel_states := w.channel_states }
  have h2 := evictLoop_n_lt x L w.inputs
    { n_tps_to_erase := 0, adc_integral := w.adc_integral, channel_states := w.channel_states }
    (by simp)
  have h3 := evictCount_le x L w.inputs
  simp only at h1
  omega

theorem move_eq (w : Window) (x : TriggerPrimitive) (L : Nat)
    (hs : w.inputs.length < 4294967296) :
    w.move x L =
      match w.inputs.drop (evictCount x L w.inputs) with
      | front :: _ =>
        add { time_start := front.time_start
              adc_integral := (evictLoop x L w.inputs ⟨0, w.adc_integral, w.channel_states⟩).adc_integral
              channel_states := (evictLoop x L w.inputs ⟨0, w.adc_integral, w.channel_states⟩).channel_states
              inputs := w.inputs.drop (evictCount x L w.inputs) } x
      | [] => reset w x := by
  unfold move
  simp only [move_inputs w x L hs]
  cases h : w.inputs.drop (evictCount x L w.inputs) with
  | nil => simp [reset]
  | cons f r => simp

theorem inputs_move (w : Window) (x : TriggerPrimitive) (L : Nat)
    (hs : w.inputs.length < 4294967296) :
    (w.move x L).inputs = w.inputs.drop (evictCount x L w.inputs) ++ [x] := by
  rw [move_eq w x L hs]
  cases h : w.inputs.drop (evictCount x L w.inputs) with
  | nil => simp [reset]
  | cons f r => simp [add]

theorem inputsOk_reset (s : Window) (x : TriggerPrimitive) (hx : x.wf) : InputsOk (s.reset x) := by
  intro tp htp
  simp only [reset, List.mem_singleton] at htp
  subst htp; exact hx.2.2.2.2.1

theorem inputsOk_add (w : Window) (x : TriggerPrimitive) (hx : x.wf) (h : InputsOk w) :
    InputsOk (w.add x) := by
  intro tp htp
  simp only [add, List.mem_append, List.mem_singleton] at htp
  rcases htp with h1 | h1
  · exact h tp h1
  · subst h1; exact hx.2.2.2.2.1

theorem inputsOk_move (w : Window) (x : TriggerPrimitive) (L : Nat) (hx : x.wf)
    (hs : w.inputs.length < 4294967296) (h : InputsOk w) : InputsOk (w.move x L) := by
  intro tp htp
  rw [inputs_move w x L hs, List.mem_append, List.mem_singleton] at htp
  rcases htp with h1 | h1
  · exact h tp (List.mem_of_mem_drop h1)
  · subst h1; exact hx.2.2.2.2.1

theorem adcOk_reset (s : Window) (x : TriggerPrimitive) (hx : x.wf) : AdcOk (s.reset x) := by
  have := hx.2.2.2.2.1
  simp only [AdcOk, reset, adcSum, List.map_cons, List.map_nil, List.sum_cons, List.sum_nil]
  omega

theorem adcOk_add (w : Window) (x : TriggerPrimitive) (h : AdcOk w) : AdcOk (w.add x) := by
  unfold AdcOk at h ⊢
  simp only [add, adcSum_append]
  rw [h]
  simp only [adcSum, List.map_cons, List.map_nil, List.sum_cons, List.sum_nil]
  omega

theorem adcOk_move (w : Window) (x : TriggerPrimitive) (L : Nat) (hx : x.wf)
    (hs : w.inputs.length < 4294967296) (hi : InputsOk w) (h : AdcOk w) :
    AdcOk (w.move x L) := by
  have hlt : w.adc_integral < 4294967296 := by
    rw [h]; exact Nat.mod_lt _ (by norm_num)
  have h1 := evictLoop_adc x L w.inputs ⟨0, w.adc_integral, w.channel_states⟩ hi
  have h2 := evictLoop_adc_lt x L w.inputs ⟨0, w.adc_integral, w.channel_states⟩ hlt
  have h3 : adcSum w.inputs = adcSum (w.inputs.take (evictCount x L w.inputs))
      + adcSum (w.inputs.drop (evictCount x L w.inputs)) := by
    rw [← adcSum_append, List.take_append_drop]
  simp only at h1
  rw [move_eq w x L hs]
  generalize evictLoop x L w.inputs ⟨0, w.adc_integral, w.channel_states⟩ = st at h1 h2 ⊢
  rw [h] at h1
  cases hd : w.inputs.drop (evictCount x L w.inputs) with
  | nil => exact adcOk_reset w x hx
  | cons f r =>
    rw [hd] at h3
    simp only [AdcOk, add, adcSum_append]
    simp only [adcSum, List.map_cons, List.map_nil, List.sum_cons, List.sum_nil] at h1 h3 ⊢
    omega

theorem Reachable.holds {P : Window → Prop} {w : Window} (h : Reachable P w) : P w := by
  cases h <;> assumption

theorem Reachable.mono {P Q : Window → Prop} (hpq : ∀ w, P w → Q w) {w : Window}
    (h : Reachable P w) : Reachable Q w := by
  induction h with
  | init s x0 hx hp => exact Reachable.init s x0 hx (hpq _ hp)
  | add w x _ hx hp ih => exact Reachable.add w x ih hx (hpq _ hp)
  | move w x L _ hx hp ih => exact Reachable.move w x L ih hx (hpq _ hp)
  | reset w x _ hx hp ih => exact Reachable.reset w x ih hx (hpq _ hp)

theorem reachable_adcOk {w : Window} (h : Reachable SizeBounded w) : InputsOk w ∧ AdcOk w := by
  induction h with
  | init s x0 hx _ => exact ⟨inputsOk_reset s x0 hx, adcOk_reset s x0 hx⟩
  | add w x _ hx _ ih => exact ⟨inputsOk_add w x hx ih.1, adcOk_add w x ih.2⟩
  | move w x L hw hx _ ih =>
    exact ⟨inputsOk_move w x L hx hw.holds ih.1, adcOk_move w x L hx hw.holds ih.1 ih.2⟩
  | reset w x _ hx _ _ => exact ⟨inputsOk_reset w x hx, adcOk_reset w x hx⟩

theorem countsOk_reset (s : Window) (x : TriggerPrimitive) : CountsOk (s.reset x) := by
  have := ChannelMap.counts_nil.incr x (by simp [chanCount])
  simpa [CountsOk, reset] using this

theorem countsOk_add (w : Window) (x : TriggerPrimitive) (h : CountsOk w)
    (hb : HitsBounded (w.add x)) : CountsOk (w.add x) := by
  have h1 := hb x.channel
  simp only [add, chanCount_append_single, if_true] at h1
  exact ChannelMap.Counts.incr h x h1

theorem countsOk_move (w : Window) (x : TriggerPrimitive) (L : Nat) (h : CountsOk w)
    (hs : SizeBounded w) (hb : HitsBounded w) (hb' : HitsBounded (w.move x L)) :
    CountsOk (w.move x L) := by
  have h1 := evictLoop_counts x L w.inputs ⟨0, w.adc_integral, w.channel_states⟩ h hb
  have h2 := hb' x.channel
  rw [inputs_move w x L hs, chanCount_append_single] at h2
  simp only [if_true] at h2
  unfold CountsOk
  rw [move_eq w x L hs]
  cases hd : w.inputs.drop (evictCount x L w.inputs) with
  | nil => exact countsOk_reset w x
  | cons f r =>
    rw [hd] at h1 h2
    exact ChannelMap.Counts.incr h1 x h2

theorem reachable_countsOk {w : Window} (h : Reachable Bounded w) : CountsOk w := by
  induction h with
  | init s x0 _ _ => exact countsOk_reset s x0
  | add w x _ _ hp ih => exact countsOk_add w x ih hp.2
  | move w x L hw _ hp ih => exact countsOk_move w x L ih hw.holds.1 hw.holds.2 hp.2
  | reset w x _ _ _ _ => exact countsOk_reset w x

theorem evictLoopGuarded_eq (x : TriggerPrimitive) (L : Nat) (l : List TriggerPrimitive)
    (st : EvictState) (h : ChannelMap.Counts st.channel_states l)
    (hb : ∀ c, chanCount l c < 65536) :
    evictLoopGuarded x L l st = some (evictLoop x L l st) := by
  induction l generalizing st with
  | nil => simp [evictLoopGuarded, evictLoop]
  | cons tp rest ih =>
    by_cases hw : within x L tp = true
    · simp [evictLoopGuarded, evictLoop, hw]
    · have h' : within x L tp = false := by simpa using hw
      have hg : 1 ≤ ChannelMap.get st.channel_states tp.channel := by
        rw [h.get_eq, chanCount_cons]; simp
      simp only [evictLoopGuarded, evictLoop, h', Bool.false_eq_true, if_false,
        evictChannelGuarded, hg, if_true]
      apply ih
      · exact h.evictChannel (hb tp.channel)
      · intro c; exact lt_of_le_of_lt (chanCount_le_cons tp rest c) (hb c)

theorem tsub_of_le {a b : Nat} (hab : b ≤ a) (ha : a < 18446744073709551616) :
    tsub a b = a - b := by
  unfold tsub; omega

theorem dropWhile_eq_filter_of_sorted (x : TriggerPrimitive) (L : Nat) (l : List TriggerPrimitive)
    (hsorted : l.Pairwise (fun a b => a.time_start ≤ b.time_start))
    (hle : ∀ e ∈ l, e.time_start ≤ x.time_start) :
    l.dropWhile (fun e => !decide (x.time_start - e.time_start < L))
      = l.filter (fun e => decide (x.time_start - e.time_start < L)) := by
  induction l with
  | nil => rfl
  | cons a t ih =>
    rw [List.pairwise_cons] at hsorted
    by_cases ha : x.time_start - a.time_start < L
    · have hall : ∀ e ∈ a :: t, decide (x.time_start - e.time_start < L) = true := by
        intro e he
        rcases List.mem_cons.mp he with h | h
        · subst h; simpa using ha
        · have := hsorted.1 e h
          have : x.time_start - e.time_start < L := by omega
          simpa using this
      rw [List.filter_eq_self.mpr hall]
      simp [List.dropWhile, ha]
    · simp only [List.dropWhile, ha, decide_False, Bool.not_false, List.filter, Bool.false_eq_true]
      exact ih hsorted.2 (fun e he => hle e (List.mem_cons_of_mem _ he))

theorem le_of_sorted_of_last (x : TriggerPrimitive) (l : List TriggerPrimitive)
    (hsorted : l.Pairwise (fun a b => a.time_start ≤ b.time_start))
    (hlast : ∀ e ∈ l.getLast?, e.time_start ≤ x.time_start) :
    ∀ e ∈ l, e.time_start ≤ x.time_start := by
  induction l with
  | nil => simp
  | cons a t ih =>
    rw [List.pairwise_cons] at hsorted
    cases t with
    | nil =>
      intro e he
      simp only [List.mem_singleton] at he
      subst he
      exact hlast e (by simp)
    | cons b t' =>
      have hl : ∀ e ∈ (b :: t').getLast?, e.time_start ≤ x.time_start := by
        intro e he
        apply hlast e
        simpa [List.getLast?_cons_cons] using he
      have hrest := ih hsorted.2 hl
      intro e he
      rcases List.mem_cons.mp he with h | h
      · subst h
        exact le_trans (hsorted.1 b (List.mem_cons_self _ _)) (hrest b (List.mem_cons_self _ _))
      · exact hrest e h

theorem drop_evictCount (x : TriggerPrimitive) (L : Nat) (l : List TriggerPrimitive) :
    l.drop (evictCount x L l) = l.dropWhile (fun tp => !within x L tp) := by
  unfold evictCount
  induction l with
  | nil => rfl
  | cons a t ih =>
    by_cases h : within x L a = true
    · simp [List.takeWhile, List.dropWhile, h]
    · have h' : within x L a = false := by simpa using h
      simpa [List.takeWhile, List.dropWhile, h'] using ih

theorem dropWhile_within_eq (x : TriggerPrimitive) (L : Nat) (l : List TriggerPrimitive)
    (hx : x.time_start < 18446744073709551616) (hle : ∀ e ∈ l, e.time_start ≤ x.time_start) :
    l.dropWhile (fun tp => !within x L tp)
      = l.dropWhile (fun e => !decide (x.time_start - e.time_start < L)) := by
  induction l with
  | nil => rfl
  | cons a t ih =>
    have ha : within x L a = decide (x.time_start - a.time_start < L) := by
      unfold within
      rw [tsub_of_le (hle a (List.mem_cons_self _ _)) hx]
    simp only [List.dropWhile, ha]
    split
    · exact ih (fun e he => hle e (List.mem_cons_of_mem _ he))
    · rfl

theorem move_inputs_sorted (w : Window) (x : TriggerPrimitive) (L : Nat)
    (hsorted : w.inputs.Pairwise (fun a b => a.time_start ≤ b.time_start))
    (hlast : ∀ e ∈ w.inputs.getLast?, e.time_start ≤ x.time_start)
    (hx : x.time_start < 18446744073709551616)
    (hs : w.inputs.length < 4294967296) :
    (w.move x L).inputs
        = w.inputs.filter (fun e => decide (x.time_start - e.time_start < L)) ++ [x]
      ∧ w.inputs.filter (fun e => decide (x.time_start - e.time_start < L))
          = w.inputs.drop (evictCount x L w.inputs) := by
  have hle := le_of_sorted_of_last x w.inputs hsorted hlast
  have e1 : w.inputs.drop (evictCount x L w.inputs)
      = w.inputs.filter (fun e => decide (x.time_start - e.time_start < L)) := by
    rw [drop_evictCount, dropWhile_within_eq x L w.inputs hx hle,
      dropWhile_eq_filter_of_sorted x L w.inputs hsorted hle]
  rw [inputs_move w x L hs, e1]
  exact ⟨rfl, rfl⟩

/-- C4: for every prior window state `s` (consistent or not, empty or not) and
every primitive `x`, `reset(x)` yields the window with `inputs = [x]`,
`time_start = x.time_start`, `adc_integral = x.adc_integral` and
`channel_states = {x.channel ↦ 1}`; the result is the same from any other prior
state `s2`, and resetting twice with `x` gives the same state as resetting once. -/
theorem reset_single_element (s s2 : Window) (x : TriggerPrimitive) :
    s.reset x =
        { time_start := x.time_start, adc_integral := x.adc_integral,
          channel_states := [(x.channel, 1)], inputs := [x] }
      ∧ s.reset x = s2.reset x
      ∧ (s.reset x).reset x = s.reset x := by
  refine ⟨?_, rfl, rfl⟩
  simp [reset, ChannelMap.incr, ChannelMap.put, ChannelMap.get, ChannelMap.find, ChannelMap.erase]

theorem chanCount_le_length (l : List TriggerPrimitive) (c : Nat) : chanCount l c ≤ l.length := by
  unfold chanCount
  simpa using List.count_le_length c (l.map (fun tp => tp.channel))

theorem bounded_of_length {w : Window} (h : w.inputs.length < 65536) : Bounded w := by
  refine ⟨?_, fun c => lt_of_le_of_lt (chanCount_le_length _ c) h⟩
  unfold SizeBounded; omega

theorem exampleWindow_reachable : Reachable Bounded exampleWindow := by
  unfold exampleWindow
  refine Reachable.move _ _ _ (Reachable.add _ _ (Reachable.add _ _
    (Reachable.init _ _ ?_ ?_) ?_ ?_) ?_ ?_) ?_ ?_
  all_goals first
    | exact bounded_of_length (by decide)
    | decide

/-- C1 (amended): in every state reached from `reset(x0)` by a finite sequence
of `add`, `move` and `reset` calls during which the window always holds fewer
than 2^32 primitives, `adc_integral` equals the sum of `adc_integral` over the
primitives held in `inputs`, taken modulo 2^32. -/
theorem adc_integral_eq_sum (w : Window) (h : Reachable SizeBounded w) :
    w.adc_integral = adcSum w.inputs % 4294967296 :=
  (reachable_adcOk h).2

/-- C1 witness: the invariant at the worked example window. -/
theorem adc_integral_eq_sum_witness :
    Reachable SizeBounded exampleWindow
      ∧ exampleWindow.adc_integral = adcSum exampleWindow.inputs % 4294967296 :=
  ⟨exampleWindow_reachable.mono (fun _ hb => hb.1),
   adc_integral_eq_sum exampleWindow (exampleWindow_reachable.mono (fun _ hb => hb.1))⟩

/-- C2 (amended): in every state reached from `reset(x0)` by a finite sequence
of `add`, `move` and `reset` calls during which the window always holds fewer
than 65536 primitives on any one channel and fewer than 2^32 primitives in
all, `channel_states` has exactly one entry per distinct channel occurring in
`inputs`, mapped to the number of held primitives on that channel, and
`n_channels_hit()` equals the number of distinct channels modulo 65536: it is
that number whenever fewer than 65536 distinct channels are held. -/
theorem channel_states_counts (w : Window) (h : Reachable Bounded w) :
    ChannelMap.Counts w.channel_states w.inputs
      ∧ ChannelMap.size w.channel_states = distinctChannels w.inputs
      ∧ w.n_channels_hit = distinctChannels w.inputs % 65536
      ∧ (distinctChannels w.inputs < 65536 → w.n_channels_hit = distinctChannels w.inputs) := by
  have hc : ChannelMap.Counts w.channel_states w.inputs := reachable_countsOk h
  have hn : w.n_channels_hit = distinctChannels w.inputs % 65536 := by
    unfold n_channels_hit; rw [hc.size_eq]
  exact ⟨hc, hc.size_eq, hn, fun hlt => by rw [hn, Nat.mod_eq_of_lt hlt]⟩

/-- C2 witness: the channel map of the worked example window. -/
theorem channel_states_counts_witness :
    Reachable Bounded exampleWindow
      ∧ ChannelMap.Counts exampleWindow.channel_states exampleWindow.inputs
      ∧ exampleWindow.n_channels_hit = 2 := by
  have h := channel_states_counts exampleWindow exampleWindow_reachable
  exact ⟨exampleWindow_reachable, h.1, by decide⟩

/-- C5 (amended): in every state reached from `reset(x0)` by a finite sequence
of `add`, `move` and `reset` calls during which the window always holds fewer
than 65536 primitives on any one channel and fewer than 2^32 primitives in
all, the eviction loop of any following `move` finds a count of at least 1
before each decrement (the guarded loop succeeds and computes what the
unguarded loop computes), and no entry of `channel_states` has value 0. -/
theorem eviction_never_underflows (w : Window) (h : Reachable Bounded w) :
    (∀ (x : TriggerPrimitive) (window_length : Nat),
        evictLoopGuarded x window_length w.inputs ⟨0, w.adc_integral, w.channel_states⟩
          = some (evictLoop x window_length w.inputs ⟨0, w.adc_integral, w.channel_states⟩))
      ∧ ∀ p ∈ w.channel_states, p.2 ≠ 0 := by
  have hc : ChannelMap.Counts w.channel_states w.inputs := reachable_countsOk h
  refine ⟨fun x L => evictLoopGuarded_eq x L w.inputs _ hc h.holds.2, ?_⟩
  rintro ⟨k, v⟩ hp
  exact (hc.entry k v hp).2

/-- C5 witness: the guarded eviction at the worked example window. -/
theorem eviction_never_underflows_witness :
    Reachable Bounded exampleWindow
      ∧ evictLoopGuarded (mkPrimitive 30 1 1) 10 exampleWindow.inputs
          ⟨0, exampleWindow.adc_integral, exampleWindow.channel_states⟩
        = some ⟨2, 0, []⟩ := by
  have h := (eviction_never_underflows exampleWindow exampleWindow_reachable).1
    (mkPrimitive 30 1 1) 10
  exact ⟨exampleWindow_reachable, h.trans (by decide)⟩

/-- C3 (amended): for a window holding fewer than 2^32 primitives sorted by
non-decreasing `time_start`, and a primitive `x` whose `time_start` is at least
that of the last held primitive, `move(x, L)` removes exactly a leading segment
of the list: the new list is the old primitives `e` with
`x.time_start − e.time_start < L`, in their old order, followed by `x`; the
kept old primitives are the old list without its first `k` elements; and every
primitive of the new list before the last one satisfies
`x.time_start − e.time_start < L`. -/
theorem move_keeps_recent (w : Window) (x : TriggerPrimitive) (L : Nat)
    (hsorted : w.inputs.Pairwise (fun a b => a.time_start ≤ b.time_start))
    (hlast : ∀ e ∈ w.inputs.getLast?, e.time_start ≤ x.time_start)
    (hx : x.time_start < 18446744073709551616)
    (hs : w.inputs.length < 4294967296) :
    (w.move x L).inputs
        = w.inputs.filter (fun e => decide (x.time_start - e.time_start < L)) ++ [x]
      ∧ (∃ k, w.inputs.filter (fun e => decide (x.time_start - e.time_start < L))
          = w.inputs.drop k)
      ∧ (w.move x L).inputs.getLast? = some x
      ∧ ∀ e ∈ (w.move x L).inputs.dropLast, x.time_start - e.time_start < L := by
  obtain ⟨h1, h2⟩ := move_inputs_sorted w x L hsorted hlast hx hs
  refine ⟨h1, ⟨_, h2⟩, ?_, ?_⟩
  · rw [h1]; simp
  · intro e he
    rw [h1, List.dropLast_concat] at he
    simpa using (List.mem_filter.mp he).2

/-- C3 witness: sliding the window `[0, 1, 2]` of the worked example to a
primitive at time 11 with length 10 keeps the primitive at time 2. -/
theorem move_keeps_recent_witness :
    (((staleWindow.reset (mkPrimitive 0 5 100)).add (mkPrimitive 1 5 10)).add
        (mkPrimitive 2 6 10)).inputs.Pairwise (fun a b => a.time_start ≤ b.time_start)
      ∧ exampleWindow.inputs = [mkPrimitive 2 6 10, mkPrimitive 11 7 1] := by
  have h := move_keeps_recent
    (((staleWindow.reset (mkPrimitive 0 5 100)).add (mkPrimitive 1 5 10)).add (mkPrimitive 2 6 10))
    (mkPrimitive 11 7 1) 10 (by decide) (by decide) (by decide) (by decide)
  exact ⟨by decide, h.1.trans (by decide)⟩

theorem growWindow_inputs (f : Nat → TriggerPrimitive) (n : Nat) :
    (growWindow f n).inputs = (List.range (n + 1)).map f := by
  induction n with
  | zero => rfl
  | succ n ih =>
    rw [growWindow, List.range_succ, List.map_append]
    simp only [add, ih, List.map_cons, List.map_nil]

theorem growWindow_inputs_cons (f : Nat → TriggerPrimitive) (n : Nat) :
    (growWindow f n).inputs = f 0 :: (List.range n).map (fun i => f (i + 1)) := by
  rw [growWindow_inputs, List.range_succ_eq_map]
  simp only [List.map_cons, List.map_map]
  rfl

theorem growWindow_length (f : Nat → TriggerPrimitive) (n : Nat) :
    (growWindow f n).inputs.length = n + 1 := by
  rw [growWindow_inputs, List.length_map, List.length_range]

theorem growWindow_reachable (P : Window → Prop) (f : Nat → TriggerPrimitive) (n : Nat)
    (hwf : ∀ i, i ≤ n → (f i).wf) (hP : ∀ i, i ≤ n → P (growWindow f i)) :
    Reachable P (growWindow f n) := by
  induction n with
  | zero => exact Reachable.init _ _ (hwf 0 le_rfl) (hP 0 le_rfl)
  | succ n ih =>
    exact Reachable.add _ _
      (ih (fun i hi => hwf i (Nat.le_succ_of_le hi)) (fun i hi => hP i (Nat.le_succ_of_le hi)))
      (hwf (n + 1) le_rfl) (hP (n + 1) le_rfl)

theorem growWindow_adcOk (f : Nat → TriggerPrimitive) (n : Nat) (hwf : ∀ i, i ≤ n → (f i).wf) :
    InputsOk (growWindow f n) ∧ AdcOk (growWindow f n) := by
  induction n with
  | zero => exact ⟨inputsOk_reset _ _ (hwf 0 le_rfl), adcOk_reset _ _ (hwf 0 le_rfl)⟩
  | succ n ih =>
    have := ih (fun i hi => hwf i (Nat.le_succ_of_le hi))
    exact ⟨inputsOk_add _ _ (hwf (n + 1) le_rfl) this.1, adcOk_add _ _ this.2⟩

theorem growWindow_countsOk (f : Nat → TriggerPrimitive) (n : Nat)
    (hb : ∀ i, i ≤ n → HitsBounded (growWindow f i)) : CountsOk (growWindow f n) := by
  induction n with
  | zero => exact countsOk_reset _ _
  | succ n ih =>
    exact countsOk_add _ _ (ih (fun i hi => hb i (Nat.le_succ_of_le hi))) (hb (n + 1) le_rfl)

theorem evictCount_all_out (x : TriggerPrimitive) (L : Nat) (l : List TriggerPrimitive)
    (h : ∀ e ∈ l, within x L e = false) : evictCount x L l = l.length := by
  induction l with
  | nil => rfl
  | cons a t ih =>
    rw [evictCount_cons_out x L a t (h a (List.mem_cons_self _ _)),
      ih (fun e he => h e (List.mem_cons_of_mem _ he)), List.length_cons]

/-- A `move` that evicts exactly 2^32 primitives erases none of them: the
counter `n_tps_to_erase` is back at 0 when the loop ends. -/
theorem move_wrap (w : Window) (x : TriggerPrimitive) (L : Nat)
    (hlen : w.inputs.length = 4294967296) (hout : ∀ e ∈ w.inputs, within x L e = false) :
    (w.move x L).inputs = w.inputs ++ [x]
      ∧ (w.move x L).adc_integral
          = ((evictLoop x L w.inputs ⟨0, w.adc_integral, w.channel_states⟩).adc_integral
              + x.adc_integral) % 4294967296
      ∧ (w.move x L).channel_states
          = ChannelMap.incr
              (evictLoop x L w.inputs ⟨0, w.adc_integral, w.channel_states⟩).channel_states
              x.channel := by
  have h1 := evictLoop_n x L w.inputs ⟨0, w.adc_integral, w.channel_states⟩
  have h2 := evictLoop_n_lt x L w.inputs ⟨0, w.adc_integral, w.channel_states⟩ (by simp)
  rw [evictCount_all_out x L w.inputs hout, hlen] at h1
  have hn : (evictLoop x L w.inputs ⟨0, w.adc_integral, w.channel_states⟩).n_tps_to_erase = 0 := by
    simp only at h1; omega
  unfold move
  simp only [hn, List.drop_zero]
  cases hi : w.inputs with
  | nil => rw [hi] at hlen; simp at hlen
  | cons a t => simp [add]

theorem onesPrimitive_wf (i : Nat) : (onesPrimitive i).wf := by
  unfold TriggerPrimitive.wf onesPrimitive mkPrimitive
  simp only
  omega

theorem adcSum_ones_tail (l : List Nat) :
    adcSum (l.map (fun i => onesPrimitive (i + 1))) = 0 := by
  induction l with
  | nil => rfl
  | cons a t ih =>
    simp only [adcSum, List.map_cons, List.sum_cons] at ih ⊢
    rw [ih]
    simp [onesPrimitive, mkPrimitive]

theorem adcSum_ones (n : Nat) : adcSum (growWindow onesPrimitive n).inputs = 1 := by
  rw [growWindow_inputs_cons]
  have := adcSum_ones_tail (List.range n)
  simp only [adcSum, List.map_cons, List.sum_cons] at this ⊢
  rw [this]
  rfl

theorem ones_move (n : Nat) (hn : n + 1 = 4294967296) :
    Reachable Unrestricted ((growWindow onesPrimitive n).move (mkPrimitive 1 0 0) 1)
      ∧ ((growWindow onesPrimitive n).move (mkPrimitive 1 0 0) 1).adc_integral = 0
      ∧ adcSum ((growWindow onesPrimitive n).move (mkPrimitive 1 0 0) 1).inputs = 1 := by
  have hlen : (growWindow onesPrimitive n).inputs.length = 4294967296 := by
    rw [growWindow_length, hn]
  have hout : ∀ e ∈ (growWindow onesPrimitive n).inputs,
      within (mkPrimitive 1 0 0) 1 e = false := by
    intro e he
    rw [growWindow_inputs, List.mem_map] at he
    obtain ⟨i, _, rfl⟩ := he
    simp [within, onesPrimitive, mkPrimitive, tsub]
  obtain ⟨hin, hadc, _⟩ := move_wrap (growWindow onesPrimitive n) (mkPrimitive 1 0 0) 1 hlen hout
  have hok := growWindow_adcOk onesPrimitive n (fun i _ => onesPrimitive_wf i)
  have hw : (growWindow onesPrimitive n).adc_integral = 1 := by
    rw [hok.2, adcSum_ones]
  have h1 := evictLoop_adc (mkPrimitive 1 0 0) 1 (growWindow onesPrimitive n).inputs
    ⟨0, (growWindow onesPrimitive n).adc_integral, (growWindow onesPrimitive n).channel_states⟩
    hok.1
  have h2 := evictLoop_adc_lt (mkPrimitive 1 0 0) 1 (growWindow onesPrimitive n).inputs
    ⟨0, (growWindow onesPrimitive n).adc_integral, (growWindow onesPrimitive n).channel_states⟩
    (by simp only [hw]; norm_num)
  rw [evictCount_all_out _ _ _ hout, List.take_length, adcSum_ones] at h1
  simp only [hw] at h1 h2 hadc
  have hx : (mkPrimitive 1 0 0).adc_integral = 0 := rfl
  rw [hx] at hadc
  generalize (evictLoop (mkPrimitive 1 0 0) 1 (growWindow onesPrimitive n).inputs
    ⟨0, 1, (growWindow onesPrimitive n).channel_states⟩).adc_integral = r at h1 h2 hadc
  refine ⟨?_, ?_, ?_⟩
  · exact Reachable.move _ _ _
      (growWindow_reachable Unrestricted onesPrimitive n (fun i _ => onesPrimitive_wf i)
        (fun _ _ => trivial))
      (by decide) trivial
  · rw [hadc]
    omega
  · rw [hin, adcSum_append, adcSum_ones]
    rfl

/-- C1 counterexample: after `reset`, 2^32 − 1 calls of `add` and one `move`
that evicts all 2^32 held primitives, the counter `n_tps_to_erase` has wrapped
to 0, nothing is erased from `inputs`, and `adc_integral` is 0 while the held
primitives sum to 1. -/
theorem adc_integral_counterexample :
    Reachable Unrestricted ((growWindow onesPrimitive 4294967295).move (mkPrimitive 1 0 0) 1)
      ∧ ((growWindow onesPrimitive 4294967295).move (mkPrimitive 1 0 0) 1).adc_integral
        ≠ adcSum ((growWindow onesPrimitive 4294967295).move (mkPrimitive 1 0 0) 1).inputs
            % 4294967296 := by
  obtain ⟨h1, h2, h3⟩ := ones_move 4294967295 (by norm_num)
  refine ⟨h1, ?_⟩
  rw [h2, h3]
  decide

theorem ones_sorted (n : Nat) :
    (growWindow onesPrimitive n).inputs.Pairwise (fun a b => a.time_start ≤ b.time_start) := by
  rw [growWindow_inputs, List.pairwise_map]
  exact List.pairwise_of_forall (fun _ _ => le_rfl)

theorem ones_filter (n : Nat) :
    (growWindow onesPrimitive n).inputs.filter
      (fun e => decide ((mkPrimitive 1 0 0).time_start - e.time_start < 1)) = [] := by
  rw [List.filter_eq_nil_iff]
  intro e he
  rw [growWindow_inputs, List.mem_map] at he
  obtain ⟨i, _, rfl⟩ := he
  simp [onesPrimitive, mkPrimitive]

/-- C3 counterexample: a window of 2^32 primitives, all at time 0 (so sorted),
slid to a primitive at time 1 with `window_length = 1`: every held primitive is
out of the window, the counter `n_tps_to_erase` wraps to 0 and all 2^32 old
primitives are kept. -/
theorem move_keeps_counterexample :
    (growWindow onesPrimitive 4294967295).inputs.Pairwise
        (fun a b => a.time_start ≤ b.time_start)
      ∧ (∀ e ∈ (growWindow onesPrimitive 4294967295).inputs.getLast?,
          e.time_start ≤ (mkPrimitive 1 0 0).time_start)
      ∧ ((growWindow onesPrimitive 4294967295).move (mkPrimitive 1 0 0) 1).inputs
        ≠ (growWindow onesPrimitive 4294967295).inputs.filter
            (fun e => decide ((mkPrimitive 1 0 0).time_start - e.time_start < 1))
          ++ [mkPrimitive 1 0 0] := by
  refine ⟨ones_sorted _, ?_, ?_⟩
  · intro e he
    have hm := List.mem_of_mem_getLast? he
    rw [growWindow_inputs, List.mem_map] at hm
    obtain ⟨i, _, rfl⟩ := hm
    simp [onesPrimitive, mkPrimitive]
  · have hlen : (growWindow onesPrimitive 4294967295).inputs.length = 4294967296 :=
      growWindow_length _ _
    have hout : ∀ e ∈ (growWindow onesPrimitive 4294967295).inputs,
        within (mkPrimitive 1 0 0) 1 e = false := by
      intro e he
      rw [growWindow_inputs, List.mem_map] at he
      obtain ⟨i, _, rfl⟩ := he
      simp [within, onesPrimitive, mkPrimitive, tsub]
    rw [(move_wrap _ _ 1 hlen hout).1, ones_filter]
    intro h
    have := congrArg List.length h
    rw [List.length_append, hlen] at this
    simp at this

theorem chan_channels (n : Nat) :
    (growWindow chanPrimitive n).inputs.map (fun tp => tp.channel) = List.range (n + 1) := by
  rw [growWindow_inputs, List.map_map]
  exact List.map_id _

theorem chan_hitsBounded (n : Nat) : HitsBounded (growWindow chanPrimitive n) := by
  intro c
  unfold chanCount
  rw [chan_channels]
  exact lt_of_le_of_lt (List.nodup_iff_count_le_one.mp (List.nodup_range _) c) (by norm_num)

theorem chan_wf (i : Nat) (hi : i ≤ 65535) : (chanPrimitive i).wf := by
  unfold TriggerPrimitive.wf chanPrimitive mkPrimitive
  simp only
  omega

theorem chan_distinct (n : Nat) : distinctChannels (growWindow chanPrimitive n).inputs = n + 1 := by
  unfold distinctChannels
  rw [chan_channels, (List.nodup_range _).dedup, List.length_range]

theorem chan_n_channels_hit (n : Nat) :
    (growWindow chanPrimitive n).n_channels_hit = (n + 1) % 65536 := by
  have hc : CountsOk (growWindow chanPrimitive n) :=
    growWindow_countsOk chanPrimitive n (fun i _ => chan_hitsBounded i)
  unfold n_channels_hit
  rw [ChannelMap.Counts.size_eq hc, chan_distinct]

theorem count_half_le (m c : Nat) : ((List.range m).map (fun i => i / 2)).count c ≤ 2 := by
  rw [List.count, List.countP_map, List.countP_eq_length_filter]
  have hnd : ((List.range m).filter ((fun x => x == c) ∘ fun i => i / 2)).Nodup :=
    (List.nodup_range m).filter _
  have hsub : (List.range m).filter ((fun x => x == c) ∘ fun i => i / 2) ⊆ [2 * c, 2 * c + 1] := by
    intro i hi
    simp only [List.mem_filter, Function.comp_apply, beq_iff_eq] at hi
    simp only [List.mem_cons, List.mem_singleton, List.not_mem_nil, or_false]
    omega
  exact (List.subperm_of_subset hnd hsub).length_le

theorem pair_count_le (n c : Nat) : chanCount (growWindow pairPrimitive n).inputs c ≤ 2 := by
  unfold chanCount
  rw [growWindow_inputs, List.map_map]
  exact count_half_le (n + 1) c

theorem pair_hitsBounded (n : Nat) : HitsBounded (growWindow pairPrimitive n) :=
  fun c => lt_of_le_of_lt (pair_count_le n c) (by norm_num)

theorem pair_wf (i : Nat) (hi : i ≤ 4294967295) : (pairPrimitive i).wf := by
  unfold TriggerPrimitive.wf pairPrimitive mkPrimitive
  simp only
  omega

theorem counts_nil_eq {m : ChannelMap} (h : ChannelMap.Counts m []) : m = [] := by
  cases m with
  | nil => rfl
  | cons p t =>
    obtain ⟨k, v⟩ := p
    have := h.2 k
    simp [ChannelMap.find, chanCount] at this

theorem pair_move (n : Nat) (hn : n + 1 = 4294967296) :
    ((growWindow pairPrimitive n).move (mkPrimitive 1 1 0) 1).inputs
        = (growWindow pairPrimitive n).inputs ++ [mkPrimitive 1 1 0]
      ∧ ((growWindow pairPrimitive n).move (mkPrimitive 1 1 0) 1).channel_states = [(1, 1)] := by
  have hlen : (growWindow pairPrimitive n).inputs.length = 4294967296 := by
    rw [growWindow_length, hn]
  have hout : ∀ e ∈ (growWindow pairPrimitive n).inputs,
      within (mkPrimitive 1 1 0) 1 e = false := by
    intro e he
    rw [growWindow_inputs, List.mem_map] at he
    obtain ⟨i, _, rfl⟩ := he
    simp [within, pairPrimitive, mkPrimitive, tsub]
  obtain ⟨hin, _, hcs⟩ := move_wrap (growWindow pairPrimitive n) (mkPrimitive 1 1 0) 1 hlen hout
  have hc : CountsOk (growWindow pairPrimitive n) :=
    growWindow_countsOk pairPrimitive n (fun i _ => pair_hitsBounded i)
  have h1 := evictLoop_counts (mkPrimitive 1 1 0) 1 (growWindow pairPrimitive n).inputs
    ⟨0, (growWindow pairPrimitive n).adc_integral, (growWindow pairPrimitive n).channel_states⟩
    hc (pair_hitsBounded n)
  rw [evictCount_all_out _ _ _ hout, List.drop_length] at h1
  rw [hcs, counts_nil_eq h1]
  exact ⟨hin, rfl⟩

theorem pair_move_hitsBounded (n : Nat) (hn : n + 1 = 4294967296) :
    HitsBounded ((growWindow pairPrimitive n).move (mkPrimitive 1 1 0) 1) := by
  intro c
  rw [(pair_move n hn).1, chanCount_append_single]
  have := pair_count_le n c
  split <;> omega

theorem pair_move_reachable (P : Window → Prop) (n : Nat) (hn : n + 1 = 4294967296)
    (hP : ∀ i, P (growWindow pairPrimitive i))
    (hP' : P ((growWindow pairPrimitive n).move (mkPrimitive 1 1 0) 1)) :
    Reachable P ((growWindow pairPrimitive n).move (mkPrimitive 1 1 0) 1) :=
  Reachable.move _ _ _
    (growWindow_reachable P pairPrimitive n (fun i hi => pair_wf i (by omega)) (fun i _ => hP i))
    (by decide) hP'

theorem pair_move_not_counts (n : Nat) (hn : n + 1 = 4294967296) :
    ¬ ChannelMap.Counts ((growWindow pairPrimitive n).move (mkPrimitive 1 1 0) 1).channel_states
        ((growWindow pairPrimitive n).move (mkPrimitive 1 1 0) 1).inputs := by
  intro h
  have h0 := h.2 0
  rw [(pair_move n hn).1, (pair_move n hn).2, chanCount_append_single,
    growWindow_inputs_cons, chanCount_cons] at h0
  simp [ChannelMap.find, pairPrimitive, mkPrimitive] at h0

/-- C2 counterexample, in two parts.  First: after `reset` and 65535 `add`
calls on 65536 pairwise different channels (one hit per channel),
`n_channels_hit()` returns 0 and not 65536, the `uint16_t` return type cutting
the map size.  Second: after `reset`, 2^32 − 1 `add` calls (two hits per
channel) and one `move` that evicts all 2^32 primitives, the wrapped counter
`n_tps_to_erase` leaves every evicted primitive in `inputs` while the map only
knows the new primitive. -/
theorem channel_states_counterexample :
    (Reachable HitsBounded (growWindow chanPrimitive 65535)
        ∧ (growWindow chanPrimitive 65535).n_channels_hit
          ≠ distinctChannels (growWindow chanPrimitive 65535).inputs)
      ∧ (Reachable HitsBounded ((growWindow pairPrimitive 4294967295).move (mkPrimitive 1 1 0) 1)
        ∧ ¬ ChannelMap.Counts
            ((growWindow pairPrimitive 4294967295).move (mkPrimitive 1 1 0) 1).channel_states
            ((growWindow pairPrimitive 4294967295).move (mkPrimitive 1 1 0) 1).inputs) := by
  refine ⟨⟨?_, ?_⟩, ⟨?_, ?_⟩⟩
  · exact growWindow_reachable HitsBounded chanPrimitive 65535 (fun i hi => chan_wf i hi)
      (fun i _ => chan_hitsBounded i)
  · rw [chan_n_channels_hit, chan_distinct]
    decide
  · exact pair_move_reachable HitsBounded 4294967295 (by norm_num) pair_hitsBounded
      (pair_move_hitsBounded 4294967295 (by norm_num))
  · exact pair_move_not_counts 4294967295 (by norm_num)

theorem ones_channel_states (n : Nat) :
    (growWindow onesPrimitive n).channel_states = [(0, (n + 1) % 65536)] := by
  induction n with
  | zero => rfl
  | succ n ih =>
    have hc : (onesPrimitive (n + 1)).channel = 0 := rfl
    rw [growWindow]
    simp only [add, ih, hc, ChannelMap.incr, ChannelMap.put, ChannelMap.get, ChannelMap.find,
      ChannelMap.erase, if_true, Option.getD_some, List.filter, ne_eq, not_true_eq_false,
      decide_False]
    congr 2
    omega

theorem pair_move_guard_fails (n : Nat) (hn : n + 1 = 4294967296) :
    evictLoopGuarded (mkPrimitive 2 0 0) 1
        ((growWindow pairPrimitive n).move (mkPrimitive 1 1 0) 1).inputs
        ⟨0, ((growWindow pairPrimitive n).move (mkPrimitive 1 1 0) 1).adc_integral,
          ((growWindow pairPrimitive n).move (mkPrimitive 1 1 0) 1).channel_states⟩
      = none := by
  rw [(pair_move n hn).1, (pair_move n hn).2, growWindow_inputs_cons, List.cons_append]
  simp [evictLoopGuarded, evictChannelGuarded, within, tsub, pairPrimitive, mkPrimitive,
    ChannelMap.get, ChannelMap.find]

/-- C5 counterexample, in two parts.  First: after `reset` and 65535 `add`
calls on channel 0 the `uint16_t` count of the channel has wrapped, and
`channel_states` holds the entry `(0, 0)`.  Second: after `reset`, 2^32 − 1
`add` calls and a `move` that evicts all 2^32 primitives (none is erased from
`inputs`, the counter `n_tps_to_erase` having wrapped), the next `move` evicts
the primitive on channel 0 again while the map has no count for that channel:
the guarded loop fails at its first decrement. -/
theorem eviction_underflow_counterexample :
    (Reachable Unrestricted (growWindow onesPrimitive 65535)
        ∧ ∃ p ∈ (growWindow onesPrimitive 65535).channel_states, p.2 = 0)
      ∧ (Reachable Unrestricted ((growWindow pairPrimitive 4294967295).move (mkPrimitive 1 1 0) 1)
        ∧ evictLoopGuarded (mkPrimitive 2 0 0) 1
            ((growWindow pairPrimitive 4294967295).move (mkPrimitive 1 1 0) 1).inputs
            ⟨0, ((growWindow pairPrimitive 4294967295).move (mkPrimitive 1 1 0) 1).adc_integral,
              ((growWindow pairPrimitive 4294967295).move (mkPrimitive 1 1 0) 1).channel_states⟩
          = none) := by
  refine ⟨⟨?_, ?_⟩, ⟨?_, ?_⟩⟩
  · exact growWindow_reachable Unrestricted onesPrimitive 65535 (fun i _ => onesPrimitive_wf i)
      (fun _ _ => trivial)
  · rw [ones_channel_states]
    exact ⟨(0, 0), by decide, rfl⟩
  · exact pair_move_reachable Unrestricted 4294967295 (by norm_num) (fun _ => trivial) trivial
  · exact pair_move_guard_fails 4294967295 (by norm_num)

end TriggerActivityMakerHorizontalMuon.Window

namespace TriggerCandidateMakerHorizontalMuon.Window

theorem ta_evictCount_all_out (x : TriggerActivity) (L : Nat) (l : List TriggerActivity)
    (h : ∀ e ∈ l, within x L e = false) : evictCount x L l = l.length := by
  induction l with
  | nil => rfl
  | cons a t ih =>
    have ha := h a (List.mem_cons_self _ _)
    have := ih (fun e he => h e (List.mem_cons_of_mem _ he))
    simp only [evictCount, List.takeWhile, ha, Bool.not_false, List.length_cons] at this ⊢
    rw [this]

theorem ta_evictLoop_n (x : TriggerActivity) (L : Nat) (l : List TriggerActivity) (st : EvictState) :
    (evictLoop x L l st).n_tas_to_erase % 4294967296
      = (st.n_tas_to_erase + evictCount x L l) % 4294967296 := by
  induction l generalizing st with
  | nil => simp [evictLoop, evictCount]
  | cons ta rest ih =>
    by_cases h : within x L ta = true
    · simp [evictLoop, h, evictCount, List.takeWhile]
    · have h' : within x L ta = false := by simpa using h
      simp only [evictLoop, h', Bool.false_eq_true, if_false]
      rw [ih]
      simp only [evictCount, List.takeWhile, h', Bool.not_false, List.length_cons]
      omega

theorem ta_evictLoop_n_lt (x : TriggerActivity) (L : Nat) (l : List TriggerActivity)
    (st : EvictState) (h0 : st.n_tas_to_erase < 4294967296) :
    (evictLoop x L l st).n_tas_to_erase < 4294967296 := by
  induction l generalizing st with
  | nil => simpa [evictLoop] using h0
  | cons ta rest ih =>
    by_cases h : within x L ta = true
    · simpa [evictLoop, h] using h0
    · have h' : within x L ta = false := by simpa using h
      simp only [evictLoop, h', Bool.false_eq_true, if_false]
      apply ih
      simp only
      omega

/-- C6: when `move(x, L)` of the candidate-maker window evicts every held
activity (fewer than 2^32 of them), the window ends up holding exactly `x`, but
`time_start` keeps its old value, whereas `reset(x)` sets it to `x.time_start`:
the two states differ whenever `x.time_start` is not the old `time_start`. -/
theorem candidate_move_keeps_time_start (w : Window) (x : TriggerActivity) (L : Nat)
    (hlen : w.ta_list.length < 4294967296) (hout : ∀ ta ∈ w.ta_list, within x L ta = false) :
    (w.move x L).ta_list = [x]
      ∧ (w.move x L).time_start = w.time_start
      ∧ (w.reset x).time_start = x.time_start
      ∧ (x.time_start ≠ w.time_start → w.move x L ≠ w.reset x) := by
  have h1 := ta_evictLoop_n x L w.ta_list ⟨0, w.adc_integral, w.channel_states⟩
  have h2 := ta_evictLoop_n_lt x L w.ta_list ⟨0, w.adc_integral, w.channel_states⟩ (by simp)
  rw [ta_evictCount_all_out x L w.ta_list hout] at h1
  have hn : (evictLoop x L w.ta_list ⟨0, w.adc_integral, w.channel_states⟩).n_tas_to_erase
      = w.ta_list.length := by
    simp only at h1; omega
  have hm : (w.move x L).ta_list = [x] ∧ (w.move x L).time_start = w.time_start := by
    unfold move
    simp only [hn, List.drop_length]
    simp [add, insertAt]
  refine ⟨hm.1, hm.2, rfl, fun hne heq => ?_⟩
  have := congrArg Window.time_start heq
  rw [hm.2] at this
  exact hne this.symm

/-- C6 failing input: a window holding one activity that starts at time 0,
slid to an activity that starts at time 100 with `window_length = 10`. -/
theorem candidate_move_keeps_time_start_witness :
    (singleWindow.move (mkActivity 100 9 [mkPrimitive 100 2 9]) 10).time_start = 0
      ∧ (singleWindow.reset (mkActivity 100 9 [mkPrimitive 100 2 9])).time_start = 100
      ∧ singleWindow.move (mkActivity 100 9 [mkPrimitive 100 2 9]) 10
        ≠ singleWindow.reset (mkActivity 100 9 [mkPrimitive 100 2 9]) := by
  have h := candidate_move_keeps_time_start singleWindow
    (mkActivity 100 9 [mkPrimitive 100 2 9]) 10 (by decide) (by decide)
  exact ⟨h.2.1, h.2.2.1, h.2.2.2 (by decide)⟩

theorem insertCount_le (x : TriggerActivity) (l : List TriggerActivity) :
    insertCount x l ≤ l.length := by
  unfold insertCount
  exact (List.takeWhile_sublist _).length_le

theorem insertAt_mod (x : TriggerActivity) (l : List TriggerActivity) (i : Nat) :
    insertAt x l i % 65536 = (i + insertCount x l) % 65536 := by
  induction l generalizing i with
  | nil => simp [insertAt, insertCount]
  | cons ta rest ih =>
    by_cases h : x.time_start < ta.time_start
    · simp [insertAt, insertCount, List.takeWhile, h]
    · simp only [insertAt, h, if_false, insertCount, List.takeWhile, decide_False, Bool.not_false,
        List.length_cons]
      rw [ih]
      unfold insertCount
      omega

theorem insertAt_lt (x : TriggerActivity) (l : List TriggerActivity) (i : Nat) (hi : i < 65536) :
    insertAt x l i < 65536 := by
  induction l generalizing i with
  | nil => simpa [insertAt] using hi
  | cons ta rest ih =>
    by_cases h : x.time_start < ta.time_start
    · simpa [insertAt, h] using hi
    · simp only [insertAt, h, if_false]
      exact ih _ (Nat.mod_lt _ (by norm_num))

theorem insertAt_eq (x : TriggerActivity) (l : List TriggerActivity) (hlen : l.length < 65536) :
    insertAt x l 0 = insertCount x l := by
  have h1 := insertAt_mod x l 0
  have h2 := insertAt_lt x l 0 (by norm_num)
  have h3 := insertCount_le x l
  omega

theorem take_insertCount (x : TriggerActivity) (l : List TriggerActivity) :
    l.take (insertCount x l) = l.takeWhile (fun ta => !decide (x.time_start < ta.time_start))
      ∧ l.drop (insertCount x l)
        = l.dropWhile (fun ta => !decide (x.time_start < ta.time_start)) := by
  unfold insertCount
  induction l with
  | nil => exact ⟨rfl, rfl⟩
  | cons a t ih =>
    by_cases h : x.time_start < a.time_start
    · simp [List.takeWhile, List.dropWhile, h]
    · simpa [List.takeWhile, List.dropWhile, h] using ih

theorem insert_split (x : TriggerActivity) (l : List TriggerActivity)
    (hsorted : l.Pairwise (fun a b => a.time_start ≤ b.time_start)) :
    (∀ ta ∈ l.take (insertCount x l), ta.time_start ≤ x.time_start)
      ∧ (∀ ta ∈ l.drop (insertCount x l), x.time_start < ta.time_start) := by
  rw [(take_insertCount x l).1, (take_insertCount x l).2]
  constructor
  · intro ta hta
    have := List.mem_takeWhile_imp hta
    simpa using this
  · induction l with
    | nil => simp
    | cons a t ih =>
      rw [List.pairwise_cons] at hsorted
      by_cases h : x.time_start < a.time_start
      · intro ta hta
        simp only [List.dropWhile, h, decide_True, Bool.not_true] at hta
        rcases List.mem_cons.mp hta with e | e
        · subst e; exact h
        · exact lt_of_lt_of_le h (hsorted.1 ta e)
      · simp only [List.dropWhile, h, decide_False, Bool.not_false]
        exact ih hsorted.2

theorem add_ta_list (w : Window) (x : TriggerActivity) (hlen : w.ta_list.length < 65536) :
    (w.add x).ta_list
      = w.ta_list.take (insertCount x w.ta_list) ++ x :: w.ta_list.drop (insertCount x w.ta_list) := by
  simp only [add, insertAt_eq x w.ta_list hlen]

/-- C7 (amended): if the activity list of the candidate-maker window holds
fewer than 65536 activities and is sorted by non-decreasing `time_start`, then
after `add(x)` the list is the old list with `x` inserted at one position `k`:
the old activities before it (all with `time_start ≤ x.time_start`) and after
it (all with `time_start > x.time_start`) keep their order; the new list is
again sorted and is a permutation of `x` and the old list.  This holds for any
`x`, also one earlier than every held activity. -/
theorem add_keeps_sorted (w : Window) (x : TriggerActivity)
    (hsorted : w.ta_list.Pairwise (fun a b => a.time_start ≤ b.time_start))
    (hlen : w.ta_list.length < 65536) :
    (∃ k, (w.add x).ta_list = w.ta_list.take k ++ x :: w.ta_list.drop k
        ∧ (∀ ta ∈ w.ta_list.take k, ta.time_start ≤ x.time_start)
        ∧ (∀ ta ∈ w.ta_list.drop k, x.time_start < ta.time_start))
      ∧ (w.add x).ta_list.Pairwise (fun a b => a.time_start ≤ b.time_start)
      ∧ (w.add x).ta_list.Perm (x :: w.ta_list) := by
  have hsplit := insert_split x w.ta_list hsorted
  have heq := add_ta_list w x hlen
  refine ⟨⟨_, heq, hsplit.1, hsplit.2⟩, ?_, ?_⟩
  · rw [heq, List.pairwise_append]
    refine ⟨hsorted.sublist (List.take_sublist _ _), ?_, ?_⟩
    · rw [List.pairwise_cons]
      exact ⟨fun b hb => le_of_lt (hsplit.2 b hb), hsorted.sublist (List.drop_sublist _ _)⟩
    · intro a ha b hb
      rcases List.mem_cons.mp hb with e | e
      · subst e; exact hsplit.1 a ha
      · exact le_trans (hsplit.1 a ha) (le_of_lt (hsplit.2 b e))
  · rw [heq]
    have : (x :: w.ta_list).Perm
        (x :: (w.ta_list.take (insertCount x w.ta_list)
          ++ w.ta_list.drop (insertCount x w.ta_list))) := by
      rw [List.take_append_drop]
    exact (List.perm_middle).trans this.symm

/-- C7 witness: an activity starting at time 5 added to the sorted list of
start times `[3, 5, 8]` lands behind the held activity of time 5; one starting
at time 1 lands in front. -/
theorem add_keeps_sorted_witness :
    (sortedWindow.add (mkActivity 5 2 [])).ta_list
        = [mkActivity 3 0 [], mkActivity 5 1 [], mkActivity 5 2 [], mkActivity 8 0 []]
      ∧ (sortedWindow.add (mkActivity 1 2 [])).ta_list.Pairwise
          (fun a b => a.time_start ≤ b.time_start) := by
  have h := add_keeps_sorted sortedWindow (mkActivity 1 2 []) (by decide) (by decide)
  exact ⟨by decide, h.2.1⟩

theorem insertCount_all (x : TriggerActivity) (l : List TriggerActivity)
    (h : ∀ ta ∈ l, ¬ x.time_start < ta.time_start) : insertCount x l = l.length := by
  induction l with
  | nil => rfl
  | cons a t ih =>
    have ha := h a (List.mem_cons_self _ _)
    have := ih (fun e he => h e (List.mem_cons_of_mem _ he))
    simp only [insertCount, List.takeWhile, ha, decide_False, Bool.not_false,
      List.length_cons] at this ⊢
    rw [this]

/-- C7 counterexample: the window holds 65536 activities, all starting at
time 0 (a sorted list); `add` of an activity starting at time 1 runs the
`uint16_t` index `insert_at` over all of them, back to 0, and inserts the new
activity in front: the list is no longer sorted. -/
theorem add_sorted_counterexample :
    fullWindow.ta_list.Pairwise (fun a b => a.time_start ≤ b.time_start)
      ∧ ¬ (fullWindow.add (mkActivity 1 0 [])).ta_list.Pairwise
          (fun a b => a.time_start ≤ b.time_start) := by
  have hlen : fullWindow.ta_list.length = 65536 := List.length_replicate _ _
  have hall : ∀ ta ∈ fullWindow.ta_list, ¬ (mkActivity 1 0 []).time_start < ta.time_start := by
    intro ta hta
    rw [List.eq_of_mem_replicate hta]
    decide
  have h1 := insertAt_mod (mkActivity 1 0 []) fullWindow.ta_list 0
  have h2 := insertAt_lt (mkActivity 1 0 []) fullWindow.ta_list 0 (by norm_num)
  rw [insertCount_all _ _ hall, hlen] at h1
  have h0 : insertAt (mkActivity 1 0 []) fullWindow.ta_list 0 = 0 := by omega
  refine ⟨List.pairwise_replicate.mpr (Or.inr le_rfl), fun hp => ?_⟩
  simp only [add, h0, List.take_zero, List.drop_zero, List.nil_append, List.pairwise_cons] at hp
  have hmem : mkActivity 0 0 [] ∈ fullWindow.ta_list :=
    List.mem_replicate.mpr ⟨by norm_num, rfl⟩
  have := hp.1 _ hmem
  revert this
  decide

end TriggerCandidateMakerHorizontalMuon.Window

theorem TriggerActivityMakerHorizontalMuon.Window.reset_eq
    (s : TriggerActivityMakerHorizontalMuon.Window) (x : TriggerPrimitive) :
    s.reset x =
      { time_start := x.time_start, adc_integral := x.adc_integral,
        channel_states := [(x.channel, 1)], inputs := [x] } := by
  simp [TriggerActivityMakerHorizontalMuon.Window.reset, ChannelMap.incr, ChannelMap.put,
    ChannelMap.get, ChannelMap.find, ChannelMap.erase]

/-- C8: for both activity makers, a call of `operator()` while the window is
empty appends nothing to the output vector and leaves the window holding
exactly the incoming primitive: `inputs = [tp]`, `time_start = tp.time_start`,
`adc_integral = tp.adc_integral` (and the channel map `{tp.channel ↦ 1}`).
For the Michel variant this holds whatever `check_bragg_peak` would return. -/
theorem first_primitive_resets (m : TriggerActivityMakerHorizontalMuon)
    (mm : TriggerActivityMakerMichelElectron)
    (check_bragg_peak : TriggerActivityMakerMichelElectron → Option Bool)
    (tp : TriggerPrimitive) (output_ta : List TriggerActivity)
    (hm : m.m_current_window.is_empty = true) (hmm : mm.m_current_window.is_empty = true) :
    (∃ m1, m.operator_call tp output_ta = some (m1, output_ta)
        ∧ m1.m_current_window =
            { time_start := tp.time_start, adc_integral := tp.adc_integral,
              channel_states := [(tp.channel, 1)], inputs := [tp] })
      ∧ (∃ mm1, mm.operator_call check_bragg_peak tp output_ta = some (mm1, output_ta)
        ∧ mm1.m_current_window =
            { time_start := tp.time_start, adc_integral := tp.adc_integral,
              channel_states := [(tp.channel, 1)], inputs := [tp] }) := by
  constructor
  · refine ⟨TriggerActivityMakerHorizontalMuon.countPrimitive
      { m with m_current_window := m.m_current_window.reset tp }, ?_, ?_⟩
    · simp only [TriggerActivityMakerHorizontalMuon.operator_call, hm, if_true]
    · exact (TriggerActivityMakerHorizontalMuon.Window.reset_eq m.m_current_window tp)
  · refine ⟨TriggerActivityMakerMichelElectron.countPrimitive
      { mm with m_current_window := mm.m_current_window.reset tp }, ?_, ?_⟩
    · simp only [TriggerActivityMakerMichelElectron.operator_call, hmm, if_true]
    · exact (TriggerActivityMakerHorizontalMuon.Window.reset_eq mm.m_current_window tp)

/-- C8 witness: the first primitive fed to the two example makers. -/
theorem first_primitive_resets_witness :
    multiplicityMaker.operator_call (mkPrimitive 40 7 100) []
        = some ({ multiplicityMaker with
                  m_current_window :=
                    { time_start := 40, adc_integral := 100, channel_states := [(7, 1)],
                      inputs := [mkPrimitive 40 7 100] }
                  m_primitive_count := 1 }, [])
      ∧ ∃ mm1, michelMaker.operator_call (fun _ => none) (mkPrimitive 40 7 100) []
          = some (mm1, [])
        ∧ mm1.m_current_window =
            { time_start := 40, adc_integral := 100, channel_states := [(7, 1)],
              inputs := [mkPrimitive 40 7 100] } :=
  ⟨by decide,
   (first_primitive_resets multiplicityMaker michelMaker (fun _ => none) (mkPrimitive 40 7 100) []
      (by decide) (by decide)).2⟩

namespace TriggerActivityMakerHorizontalMuon

theorem feed_append (m : TriggerActivityMakerHorizontalMuon) (out : List TriggerActivity)
    (l1 l2 : List TriggerPrimitive) :
    feed m out (l1 ++ l2) = (feed m out l1).bind (fun r => feed r.1 r.2 l2) := by
  induction l1 generalizing m out with
  | nil => simp [feed]
  | cons tp rest ih =>
    simp only [List.cons_append, feed]
    cases h : operator_call m tp out with
    | none => simp
    | some r => obtain ⟨m1, out1⟩ := r; exact ih m1 out1

theorem feed_single (m : TriggerActivityMakerHorizontalMuon) (out : List TriggerActivity)
    (tp : TriggerPrimitive) : feed m out [tp] = operator_call m tp out := by
  simp only [feed]
  cases operator_call m tp out with
  | none => rfl
  | some r => rfl

theorem scenarioChannels_find (tps : Nat → TriggerPrimitive) (n c : Nat)
    (h : ∀ i, i < n → (tps i).channel ≠ c) : ChannelMap.find (scenarioChannels tps n) c = none := by
  induction n with
  | zero => rfl
  | succ n ih =>
    simp only [scenarioChannels, ChannelMap.find, h n (Nat.lt_succ_self n), if_false]
    exact ih (fun i hi => h i (Nat.lt_succ_of_lt hi))

theorem erase_of_find_none (m : ChannelMap) (c : Nat) (h : ChannelMap.find m c = none) :
    ChannelMap.erase m c = m := by
  induction m with
  | nil => rfl
  | cons p t ih =>
    obtain ⟨k, v⟩ := p
    by_cases hk : k = c
    · simp [ChannelMap.find, hk] at h
    · simp only [ChannelMap.find, hk, if_false] at h
      have := ih h
      unfold ChannelMap.erase at this ⊢
      simp only [List.filter, ne_eq, hk, not_false_eq_true, decide_True]
      rw [← ne_eq] at *
      simp only [ne_eq] at this ⊢
      rw [this]

theorem scenarioChannels_length (tps : Nat → TriggerPrimitive) (n : Nat) :
    (scenarioChannels tps n).length = n := by
  induction n with
  | zero => rfl
  | succ n ih => simp [scenarioChannels, ih]

theorem scenario_step (m : TriggerActivityMakerHorizontalMuon) (tps : Nat → TriggerPrimitive)
    (hL : m.m_window_length = 500)
    (ht : ∀ i, (tps i).time_start = 10 * i) (ha : ∀ i, (tps i).adc_integral = 100)
    (hc : ∀ i j, (tps i).channel = (tps j).channel → i = j)
    (n : Nat) (h1 : 1 ≤ n) (h50 : n < 50) :
    operator_call (scenarioMaker m tps n) (tps n) [] = some (scenarioMaker m tps (n + 1), []) := by
  have hne : (scenarioMaker m tps n).m_current_window.is_empty = false := by
    obtain ⟨k, rfl⟩ : ∃ k, n = k + 1 := ⟨n - 1, by omega⟩
    simp [scenarioMaker, Window.is_empty, List.range_succ]
  have hin : tsub (tps n).time_start (scenarioMaker m tps n).m_current_window.time_start
      < (scenarioMaker m tps n).m_window_length := by
    have e : tsub (10 * n) 0 = 10 * n := by
      unfold tsub
      rw [Nat.sub_zero, Nat.add_mod_right, Nat.mod_eq_of_lt (by omega)]
    simp only [scenarioMaker, hL, ht, e]
    omega
  have hfind : ChannelMap.find (scenarioChannels tps n) (tps n).channel = none :=
    scenarioChannels_find tps n _ (fun i hi e => by have := hc i n e; omega)
  simp only [operator_call, hne, Bool.false_eq_true, if_false, triggerChain, hin, if_true,
    Option.map_some']
  simp only [scenarioMaker, countPrimitive, Window.add, ChannelMap.incr, ChannelMap.put,
    ChannelMap.get, hfind, erase_of_find_none _ _ hfind, ha, List.range_succ, List.map_append,
    List.map_cons, List.map_nil, scenarioChannels, Option.getD_none]
  congr 3
  · congr 1
    omega
  · omega

theorem scenario_feed (m : TriggerActivityMakerHorizontalMuon) (tps : Nat → TriggerPrimitive)
    (hempty : m.m_current_window.is_empty = true)
    (hL : m.m_window_length = 500)
    (ht : ∀ i, (tps i).time_start = 10 * i) (ha : ∀ i, (tps i).adc_integral = 100)
    (hc : ∀ i j, (tps i).channel = (tps j).channel → i = j)
    (n : Nat) (h50 : n < 50) :
    feed m [] ((List.range (n + 1)).map tps) = some (scenarioMaker m tps (n + 1), []) := by
  induction n with
  | zero =>
    simp only [List.range_succ, List.range_zero, List.nil_append, List.map_cons, List.map_nil,
      feed_single, operator_call, hempty, if_true]
    simp only [scenarioMaker, countPrimitive, Window.reset_eq, ht, ha, scenarioChannels,
      List.range_succ, List.range_zero, List.nil_append, List.map_cons, List.map_nil]
  | succ n ih =>
    rw [List.range_succ, List.map_append, feed_append, ih (by omega)]
    simp only [Option.bind_some, List.map_cons, List.map_nil, feed_single]
    exact scenario_step m tps hL ht ha hc (n + 1) (by omega) h50

theorem scenario_emit (m : TriggerActivityMakerHorizontalMuon) (tps : Nat → TriggerPrimitive)
    (hL : m.m_window_length = 500) (hp : m.m_prescale = 1)
    (hn : m.m_trigger_on_n_channels = true) (hthr : m.m_n_channels_threshold = 5)
    (ht : ∀ i, (tps i).time_start = 10 * i) :
    ∃ m1 ta, operator_call (scenarioMaker m tps 50) (tps 50) [] = some (m1, [ta])
      ∧ ta.adc_integral = 5000 ∧ ta.inputs = (List.range 50).map tps := by
  have hne : (scenarioMaker m tps 50).m_current_window.is_empty = false := by
    simp [scenarioMaker, Window.is_empty, List.range_succ]
  have hout : ¬ tsub (tps 50).time_start (scenarioMaker m tps 50).m_current_window.time_start
      < (scenarioMaker m tps 50).m_window_length := by
    simp only [scenarioMaker, hL, ht, tsub]
    decide
  have hmult : (scenarioMaker m tps 50).m_current_window.n_channels_hit
      > (scenarioMaker m tps 50).m_n_channels_threshold
      ∧ (scenarioMaker m tps 50).m_trigger_on_n_channels = true := by
    simp only [scenarioMaker, Window.n_channels_hit, ChannelMap.size, scenarioChannels_length,
      hthr, hn]
    decide
  have hlast : ((List.range 50).map tps).getLast? = some (tps 49) := by
    rw [List.range_succ, List.map_append]
    simp
  have hmod : ∀ k : Nat, k % 1 = 0 := fun k => Nat.mod_one k
  simp only [operator_call, hne, Bool.false_eq_true, if_false, triggerChain, hout, hmult,
    and_self, if_true]
  simp only [scenarioMaker, hp, one_ne_zero, if_false, hmod, if_true, emitAndReset,
    construct_ta, hlast, Option.map_some', List.nil_append]
  exact ⟨_, _, rfl, rfl, rfl⟩

/-- C10 (amended): with `window_length = 500`, `prescale = 1`, the multiplicity
trigger enabled with `n_channels_threshold = 5` (whatever the other flags and
thresholds are) and primitives of `adc_integral` 100 on pairwise distinct
channels with start times 0, 10, 20, ..., the geometry-variant maker starting
from an empty window emits nothing during its first 50 calls and emits its
first Activity on the call delivering the 51st primitive (start time 500, the
first one not within `window_length` of the window start); that Activity holds
the first 50 primitives and has `adc_integral` 5000. -/
theorem multiplicity_scenario (m : TriggerActivityMakerHorizontalMuon)
    (tps : Nat → TriggerPrimitive)
    (hempty : m.m_current_window.is_empty = true)
    (hL : m.m_window_length = 500) (hp : m.m_prescale = 1)
    (hn : m.m_trigger_on_n_channels = true) (hthr : m.m_n_channels_threshold = 5)
    (ht : ∀ i, (tps i).time_start = 10 * i) (ha : ∀ i, (tps i).adc_integral = 100)
    (hc : ∀ i j, (tps i).channel = (tps j).channel → i = j) :
    (∀ n, n ≤ 50 → ∃ m1, feed m [] ((List.range n).map tps) = some (m1, []))
      ∧ ∃ m1 ta, feed m [] ((List.range 51).map tps) = some (m1, [ta])
          ∧ ta.adc_integral = 5000 ∧ ta.inputs = (List.range 50).map tps := by
  constructor
  · intro n hn50
    cases n with
    | zero => exact ⟨m, rfl⟩
    | succ k => exact ⟨_, scenario_feed m tps hempty hL ht ha hc k (by omega)⟩
  · obtain ⟨m1, ta, h1, h2, h3⟩ := scenario_emit m tps hL hp hn hthr ht
    refine ⟨m1, ta, ?_, h2, h3⟩
    rw [List.range_succ, List.map_append, feed_append,
      scenario_feed m tps hempty hL ht ha hc 49 (by omega)]
    simp only [Option.bind_some, List.map_cons, List.map_nil, feed_single]
    exact h1

/-- C10 witness: the scenario with the primitives on channels 1, 2, 3, ...
fed to the example maker. -/
theorem multiplicity_scenario_witness :
    (∀ n, n ≤ 50 → ∃ m1, feed multiplicityMaker [] ((List.range n).map scenarioPrimitive)
        = some (m1, []))
      ∧ ∃ m1 ta, feed multiplicityMaker [] ((List.range 51).map scenarioPrimitive)
          = some (m1, [ta])
          ∧ ta.adc_integral = 5000 ∧ ta.inputs = (List.range 50).map scenarioPrimitive :=
  multiplicity_scenario multiplicityMaker scenarioPrimitive (by decide) rfl rfl rfl rfl
    (fun _ => rfl) (fun _ => rfl)
    (fun i j h => by simpa [scenarioPrimitive, mkPrimitive] using h)

/-- C10 counterexample: in the scenario with the primitives on channels
1, 2, 3, ..., the output vector is still empty after the call delivering the
7th primitive (start time 60, within the window that started at time 0). -/
theorem multiplicity_counterexample :
    (feed multiplicityMaker [] ((List.range 7).map scenarioPrimitive)).map (fun r => r.2)
      = some [] := by
  decide

end TriggerActivityMakerHorizontalMuon

namespace TriggerActivityMakerHorizontalMuon

theorem construct_ta_window (m m1 : TriggerActivityMakerHorizontalMuon)
    (h : m1.m_current_window = m.m_current_window) : construct_ta m1 = construct_ta m := by
  unfold construct_ta
  rw [h]

theorem construct_ta_some (m : TriggerActivityMakerHorizontalMuon)
    (hne : m.m_current_window.is_empty = false) :
    ∃ last, m.m_current_window.inputs.getLast? = some last
      ∧ construct_ta m = some
        { time_start := m.m_current_window.time_start
          time_end := last.time_start
          time_peak := last.time_peak
          time_activity := last.time_peak
          channel_start := last.channel
          channel_end := last.channel
          channel_peak := last.channel
          adc_integral := m.m_current_window.adc_integral
          adc_peak := last.adc_peak
          detid := last.detid
          type := TAType.kTPC
          algorithm := TAAlgorithm.kHorizontalMuon
          version := INVALID_VERSION
          inputs := m.m_current_window.inputs } := by
  unfold Window.is_empty at hne
  cases hl : m.m_current_window.inputs.getLast? with
  | none =>
    rw [List.getLast?_eq_none_iff] at hl
    simp [hl] at hne
  | some last =>
    refine ⟨last, rfl, ?_⟩
    simp only [construct_ta, hl]

/-- The five ways a call of `operator()` can end, with the window, the output
vector, the counters and the configuration it leaves behind. -/
theorem operator_call_cases (m m1 : TriggerActivityMakerHorizontalMuon) (tp : TriggerPrimitive)
    (out out1 : List TriggerActivity) (h : operator_call m tp out = some (m1, out1)) :
    (m.m_current_window.is_empty = true
        ∧ m1.m_current_window = m.m_current_window.reset tp ∧ out1 = out)
      ∨ (m.m_current_window.is_empty = false ∧ inWindow m tp
        ∧ m1.m_current_window = m.m_current_window.add tp ∧ out1 = out)
      ∨ (m.m_current_window.is_empty = false ∧ ¬ inWindow m tp
        ∧ (multiplicityFires m ∨ adjacencyFires m)
        ∧ m.m_prescale ≠ 0 ∧ (m.ta_count + 1) % 65536 % m.m_prescale = 0
        ∧ m1.m_current_window = m.m_current_window.reset tp
        ∧ ∃ ta, construct_ta m = some ta ∧ out1 = out ++ [ta])
      ∨ (m.m_current_window.is_empty = false ∧ ¬ inWindow m tp
        ∧ (multiplicityFires m ∨ adjacencyFires m)
        ∧ m.m_prescale ≠ 0 ∧ (m.ta_count + 1) % 65536 % m.m_prescale ≠ 0
        ∧ m1.m_current_window = m.m_current_window ∧ out1 = out)
      ∨ (m.m_current_window.is_empty = false ∧ ¬ inWindow m tp
        ∧ ¬ multiplicityFires m ∧ ¬ adjacencyFires m
        ∧ m1.m_current_window = m.m_current_window.move tp m.m_window_length ∧ out1 = out) := by
  unfold operator_call at h
  by_cases he : m.m_current_window.is_empty = true
  · simp only [he, if_true, Option.some.injEq, Prod.mk.injEq] at h
    left
    exact ⟨he, by rw [← h.1]; rfl, h.2.symm⟩
  · have he' : m.m_current_window.is_empty = false := by simpa using he
    right
    simp only [he', Bool.false_eq_true, if_false, Option.map_eq_some'] at h
    obtain ⟨⟨m2, out2⟩, h2, h3⟩ := h
    simp only [Prod.mk.injEq] at h3
    obtain ⟨h3a, h3b⟩ := h3
    have hw : m1.m_current_window = m2.m_current_window := by rw [← h3a]; rfl
    subst h3b
    have hc1 : ∀ tc, construct_ta { m with ta_count := tc } = construct_ta m := fun _ => rfl
    have hc2 : ∀ tc mx, construct_ta { m with ta_count := tc, m_max_adjacency := mx }
        = construct_ta m := fun _ _ => rfl
    unfold triggerChain at h2
    by_cases hin : inWindow m tp
    · left
      have hin' : tsub tp.time_start m.m_current_window.time_start < m.m_window_length := hin
      rw [if_pos hin'] at h2
      simp only [Option.some.injEq, Prod.mk.injEq] at h2
      exact ⟨he', hin, by rw [hw, ← h2.1], h2.2.symm⟩
    · right
      have hin' : ¬ tsub tp.time_start m.m_current_window.time_start < m.m_window_length := hin
      rw [if_neg hin'] at h2
      by_cases hmult : multiplicityFires m
      · have hmult' : m.m_current_window.n_channels_hit > m.m_n_channels_threshold
            ∧ m.m_trigger_on_n_channels = true := hmult
        rw [if_pos hmult'] at h2
        dsimp only at h2
        by_cases hp0 : m.m_prescale = 0
        · rw [if_pos hp0] at h2; cases h2
        · rw [if_neg hp0] at h2
          by_cases hps : (m.ta_count + 1) % 65536 % m.m_prescale = 0
          · left
            rw [if_pos hps] at h2
            unfold emitAndReset at h2
            rw [hc1] at h2
            cases hc : construct_ta m with
            | none => rw [hc] at h2; cases h2
            | some ta =>
              rw [hc] at h2
              simp only [Option.some.injEq, Prod.mk.injEq] at h2
              exact ⟨he', hin, Or.inl hmult, hp0, hps, by rw [hw, ← h2.1], ta, rfl, h2.2.symm⟩
          · right; left
            rw [if_neg hps] at h2
            simp only [Option.some.injEq, Prod.mk.injEq] at h2
            exact ⟨he', hin, Or.inl hmult, hp0, hps, by rw [hw, ← h2.1], h2.2.symm⟩
      · have hmult' : ¬ (m.m_current_window.n_channels_hit > m.m_n_channels_threshold
            ∧ m.m_trigger_on_n_channels = true) := hmult
        rw [if_neg hmult'] at h2
        by_cases hadj : adjacencyFires m
        · have hadj' : check_adjacency m > m.m_adjacency_threshold
              ∧ m.m_trigger_on_adjacency = true := hadj
          rw [if_pos hadj'] at h2
          dsimp only at h2
          by_cases hp0 : m.m_prescale = 0
          · rw [if_pos hp0] at h2; cases h2
          · rw [if_neg hp0] at h2
            by_cases hps : (m.ta_count + 1) % 65536 % m.m_prescale = 0
            · left
              rw [if_pos hps] at h2
              unfold emitAndReset at h2
              rw [hc2] at h2
              cases hc : construct_ta m with
              | none => rw [hc] at h2; cases h2
              | some ta =>
                rw [hc] at h2
                simp only [Option.some.injEq, Prod.mk.injEq] at h2
                exact ⟨he', hin, Or.inr hadj, hp0, hps, by rw [hw, ← h2.1], ta, rfl, h2.2.symm⟩
            · right; left
              rw [if_neg hps] at h2
              simp only [Option.some.injEq, Prod.mk.injEq] at h2
              exact ⟨he', hin, Or.inr hadj, hp0, hps, by rw [hw, ← h2.1], h2.2.symm⟩
        · right; right
          have hadj' : ¬ (check_adjacency m > m.m_adjacency_threshold
              ∧ m.m_trigger_on_adjacency = true) := hadj
          rw [if_neg hadj'] at h2
          simp only [Option.some.injEq, Prod.mk.injEq] at h2
          exact ⟨he', hin, hmult, hadj, by rw [hw, ← h2.1], h2.2.symm⟩

end TriggerActivityMakerHorizontalMuon

namespace TriggerActivityMakerHorizontalMuon

theorem operator_call_defined (m : TriggerActivityMakerHorizontalMuon) (tp : TriggerPrimitive)
    (out : List TriggerActivity) (hp : m.m_prescale ≠ 0) :
    ∃ m1 out1, operator_call m tp out = some (m1, out1) := by
  unfold operator_call
  by_cases he : m.m_current_window.is_empty = true
  · rw [if_pos he]; exact ⟨_, _, rfl⟩
  · have he' : m.m_current_window.is_empty = false := by simpa using he
    rw [if_neg he]
    obtain ⟨last, _, hc⟩ := construct_ta_some m he'
    have hc1 : ∀ tc, construct_ta { m with ta_count := tc } = construct_ta m := fun _ => rfl
    have hc2 : ∀ tc mx, construct_ta { m with ta_count := tc, m_max_adjacency := mx }
        = construct_ta m := fun _ _ => rfl
    unfold triggerChain
    split
    · exact ⟨_, _, rfl⟩
    · split
      · dsimp only
        rw [if_neg hp]
        split
        · unfold emitAndReset
          rw [hc1, hc]
          exact ⟨_, _, rfl⟩
        · exact ⟨_, _, rfl⟩
      · split
        · dsimp only
          rw [if_neg hp]
          split
          · unfold emitAndReset
            rw [hc2, hc]
            exact ⟨_, _, rfl⟩
          · exact ⟨_, _, rfl⟩
        · exact ⟨_, _, rfl⟩

end TriggerActivityMakerHorizontalMuon

namespace TriggerActivityMakerHorizontalMuon

theorem append_single_ne {α : Type} (l : List α) (a : α) : l ++ [a] ≠ l := by
  intro h
  have := congrArg List.length h
  simp at this

theorem emitted_cases (m m1 : TriggerActivityMakerHorizontalMuon) (tp : TriggerPrimitive)
    (out out1 : List TriggerActivity) (ta : TriggerActivity)
    (h : operator_call m tp out = some (m1, out1)) (hem : out1 = out ++ [ta]) :
    m.m_current_window.is_empty = false ∧ ¬ inWindow m tp
      ∧ (multiplicityFires m ∨ adjacencyFires m)
      ∧ m1.m_current_window = m.m_current_window.reset tp
      ∧ construct_ta m = some ta := by
  rcases operator_call_cases m m1 tp out out1 h with
    ⟨_, _, ho⟩ | ⟨_, _, _, ho⟩ | ⟨he, hin, hf, _, _, hw, ta', hc, ho⟩ | ⟨_, _, _, _, _, _, ho⟩
      | ⟨_, _, _, _, _, ho⟩
  · rw [ho] at hem; exact absurd hem.symm (append_single_ne _ _)
  · rw [ho] at hem; exact absurd hem.symm (append_single_ne _ _)
  · rw [ho] at hem
    have := List.append_cancel_left hem
    simp only [List.cons.injEq, and_true] at this
    subst this
    exact ⟨he, hin, hf, hw, hc⟩
  · rw [ho] at hem; exact absurd hem.symm (append_single_ne _ _)
  · rw [ho] at hem; exact absurd hem.symm (append_single_ne _ _)

end TriggerActivityMakerHorizontalMuon

namespace TriggerActivityMakerHorizontalMuon

theorem Window.move_general (w : Window) (x : TriggerPrimitive) (L : Nat) :
    (w.move x L).inputs
        = w.inputs.drop (Window.evictLoop x L w.inputs
            ⟨0, w.adc_integral, w.channel_states⟩).n_tps_to_erase ++ [x]
      ∧ ∃ first, (w.move x L).inputs.head? = some first
          ∧ (w.move x L).time_start = first.time_start := by
  unfold Window.move
  dsimp only
  cases h : w.inputs.drop (Window.evictLoop x L w.inputs
      ⟨0, w.adc_integral, w.channel_states⟩).n_tps_to_erase with
  | nil => exact ⟨rfl, x, rfl, rfl⟩
  | cons f r => exact ⟨by simp [Window.add], f, by simp [Window.add], rfl⟩

theorem Window.Reachable.front_time {P : Window → Prop} {w : Window}
    (h : Window.Reachable P w) :
    ∃ first, w.inputs.head? = some first ∧ w.time_start = first.time_start := by
  induction h with
  | init s x0 _ _ => exact ⟨x0, rfl, rfl⟩
  | add w x _ _ _ ih =>
    obtain ⟨first, h1, h2⟩ := ih
    refine ⟨first, ?_, h2⟩
    cases hi : w.inputs with
    | nil => rw [hi] at h1; cases h1
    | cons a t => rw [hi] at h1; simpa [Window.add, hi] using h1
  | move w x L _ _ _ _ => exact (Window.move_general w x L).2
  | reset w x _ _ _ _ => exact ⟨x, rfl, rfl⟩

theorem Reachable.window {P : Window → Prop} {m : TriggerActivityMakerHorizontalMuon}
    (h : Reachable P m) :
    m.m_current_window.is_empty = true ∨ Window.Reachable P m.m_current_window := by
  induction h with
  | init m he => exact Or.inl he
  | call m m1 tp out out1 _ hwf hcall hP ih =>
    right
    have hne : m.m_current_window.is_empty = false → Window.Reachable P m.m_current_window := by
      intro he
      rcases ih with h0 | h0
      · rw [he] at h0; cases h0
      · exact h0
    rcases operator_call_cases m m1 tp out out1 hcall with
      ⟨_, hw, _⟩ | ⟨he, _, hw, _⟩ | ⟨he, _, _, _, _, hw, _⟩ | ⟨he, _, _, _, _, hw, _⟩
        | ⟨he, _, _, _, hw, _⟩
    · rw [hw] at hP ⊢; exact Window.Reachable.init _ _ hwf hP
    · rw [hw] at hP ⊢; exact Window.Reachable.add _ _ (hne he) hwf hP
    · rw [hw] at hP ⊢; exact Window.Reachable.reset _ _ (hne he) hwf hP
    · rw [hw]; exact hne he
    · rw [hw] at hP ⊢; exact Window.Reachable.move _ _ _ (hne he) hwf hP

theorem feed_reachable (P : Window → Prop) (m : TriggerActivityMakerHorizontalMuon)
    (he : m.m_current_window.is_empty = true) (tps : List TriggerPrimitive)
    (m1 : TriggerActivityMakerHorizontalMuon) (out1 : List TriggerActivity)
    (hwf : ∀ tp ∈ tps, tp.wf) (hP : ∀ w, P w) (h : feed m [] tps = some (m1, out1)) :
    Reachable P m1 := by
  have key : ∀ (tps : List TriggerPrimitive) (m : TriggerActivityMakerHorizontalMuon)
      (out : List TriggerActivity), Reachable P m → (∀ tp ∈ tps, tp.wf) →
      feed m out tps = some (m1, out1) → Reachable P m1 := by
    intro tps
    induction tps with
    | nil =>
      intro m out hr _ h
      simp only [feed, Option.some.injEq, Prod.mk.injEq] at h
      rw [← h.1]; exact hr
    | cons tp rest ih =>
      intro m out hr hwf h
      simp only [feed] at h
      cases hc : operator_call m tp out with
      | none => rw [hc] at h; cases h
      | some r =>
        obtain ⟨m2, out2⟩ := r
        rw [hc] at h
        exact ih m2 out2
          (Reachable.call m m2 tp out out2 hr (hwf tp (List.mem_cons_self _ _)) hc (hP _))
          (fun t ht => hwf t (List.mem_cons_of_mem _ ht)) h
  exact key tps m [] (Reachable.init m he) hwf h

/-- C13 (amended): every Activity emitted by the geometry-variant maker takes
`time_start` from the window's first primitive (it is the window's
`time_start`), and all its other start, end and peak fields from the window's
last primitive: `time_end` is the last primitive's `time_start`,
`channel_start`, `channel_end` and `channel_peak` are its channel, `time_peak`
its `time_peak` and `adc_peak` its `adc_peak`. -/
theorem activity_fields (m m1 : TriggerActivityMakerHorizontalMuon) (tp : TriggerPrimitive)
    (out out1 : List TriggerActivity) (ta : TriggerActivity)
    (hr : Reachable Window.Unrestricted m)
    (h : operator_call m tp out = some (m1, out1)) (hem : out1 = out ++ [ta]) :
    ∃ first last, m.m_current_window.inputs.head? = some first
      ∧ m.m_current_window.inputs.getLast? = some last
      ∧ ta.time_start = first.time_start
      ∧ ta.time_end = last.time_start
      ∧ ta.channel_start = last.channel
      ∧ ta.channel_end = last.channel
      ∧ ta.time_peak = last.time_peak
      ∧ ta.channel_peak = last.channel
      ∧ ta.adc_peak = last.adc_peak := by
  obtain ⟨he, _, _, _, hc⟩ := emitted_cases m m1 tp out out1 ta h hem
  obtain ⟨last, hlast, hc'⟩ := construct_ta_some m he
  rw [hc] at hc'
  simp only [Option.some.injEq] at hc'
  have hw : Window.Reachable Window.Unrestricted m.m_current_window := by
    rcases hr.window with h0 | h0
    · rw [he] at h0; cases h0
    · exact h0
  obtain ⟨first, hfirst, htime⟩ := hw.front_time
  refine ⟨first, last, hfirst, hlast, ?_⟩
  rw [hc']
  exact ⟨htime, rfl, rfl, rfl, rfl, rfl, rfl⟩

/-- C13 witness: the Activity the example maker `pairMaker` emits for a window
of two primitives (channels 5 and 6). -/
theorem activity_fields_witness :
    ∃ m m1 ta, feed pairMaker [] [peakedPrimitive 0 5 100 900, peakedPrimitive 10 6 50 10]
        = some (m, [])
      ∧ operator_call m (peakedPrimitive 600 7 1 1) [] = some (m1, [] ++ [ta])
      ∧ ta.time_start = 0 ∧ ta.channel_end = 6 := by
  have hfeed : feed pairMaker [] [peakedPrimitive 0 5 100 900, peakedPrimitive 10 6 50 10]
      = some ((feed pairMaker [] [peakedPrimitive 0 5 100 900, peakedPrimitive 10 6 50 10]).get
          (by decide)) := by simp
  generalize (feed pairMaker [] [peakedPrimitive 0 5 100 900, peakedPrimitive 10 6 50 10]).get
    (by decide) = r at hfeed
  obtain ⟨m, out⟩ := r
  have hout : out = [] := by
    have : (feed pairMaker [] [peakedPrimitive 0 5 100 900, peakedPrimitive 10 6 50 10]).map
        (fun r => r.2) = some [] := by decide
    rw [hfeed] at this
    simpa using this
  subst hout
  have hr : Reachable Window.Unrestricted m :=
    feed_reachable Window.Unrestricted pairMaker (by decide) _ m [] (by decide)
      (fun _ => trivial) hfeed
  have hcall : (feed pairMaker []
      [peakedPrimitive 0 5 100 900, peakedPrimitive 10 6 50 10, peakedPrimitive 600 7 1 1]).map
        (fun r => r.2.map (fun ta => (ta.time_start, ta.channel_end))) = some [(0, 6)] := by
    decide
  have happ : feed pairMaker []
      [peakedPrimitive 0 5 100 900, peakedPrimitive 10 6 50 10, peakedPrimitive 600 7 1 1]
      = operator_call m (peakedPrimitive 600 7 1 1) [] := by
    have := feed_append pairMaker [] [peakedPrimitive 0 5 100 900, peakedPrimitive 10 6 50 10]
      [peakedPrimitive 600 7 1 1]
    rw [hfeed] at this
    simpa [feed_single] using this
  rw [happ] at hcall
  cases hc : operator_call m (peakedPrimitive 600 7 1 1) [] with
  | none => rw [hc] at hcall; cases hcall
  | some r =>
    obtain ⟨m1, out1⟩ := r
    rw [hc] at hcall
    simp only [Option.map_some', Option.some.injEq] at hcall
    cases out1 with
    | nil => simp at hcall
    | cons ta rest =>
      cases rest with
      | cons _ _ => simp at hcall
      | nil =>
        obtain ⟨first, last, _, _, h3, _, _, h6, _⟩ :=
          activity_fields m m1 (peakedPrimitive 600 7 1 1) [] [ta] ta hr hc rfl
        simp only [List.map_cons, List.map_nil, List.cons.injEq, Prod.mk.injEq, and_true] at hcall
        exact ⟨m, m1, ta, hfeed, hc, hcall.1, hcall.2⟩

/-- C13 counterexample: the window holds a primitive on channel 5 (ADC peak
900, peak time 3) followed by one on channel 6 (ADC peak 10, peak time 13);
the emitted Activity has `channel_start = 6`, not the first primitive's
channel 5, and its peak fields `channel_peak = 6`, `adc_peak = 10`,
`time_peak = 13` are those of the last primitive, not of the primitive with
the largest ADC peak. -/
theorem activity_fields_counterexample :
    (feed pairMaker []
        [peakedPrimitive 0 5 100 900, peakedPrimitive 10 6 50 10, peakedPrimitive 600 7 1 1]).map
      (fun r => r.2.map (fun ta =>
        (ta.inputs.map (fun tp => (tp.channel, tp.adc_peak, tp.time_peak)),
          ta.channel_start, ta.channel_peak, ta.adc_peak, ta.time_peak)))
      = some [([(5, 900, 3), (6, 10, 13)], 6, 6, 10, 13)] := by
  decide

end TriggerActivityMakerHorizontalMuon

namespace TriggerActivityMakerHorizontalMuon

theorem append_single_eq_cons {α : Type} (x a : α) (t : List α) (h : t ++ [x] = a :: t) :
    a = x := by
  induction t generalizing a with
  | nil => simpa using h.symm
  | cons b t ih =>
    simp only [List.cons_append, List.cons.injEq] at h
    obtain ⟨hb, ht⟩ := h
    rw [← hb]
    exact ih b ht

theorem tsub_self (t : Nat) : tsub t t = 0 := by
  unfold tsub
  have : t + 18446744073709551616 - t = 18446744073709551616 := by omega
  rw [this]

theorem Window.move_ne (w : Window) (x : TriggerPrimitive) (L : Nat) (hL : 0 < L) :
    w.move x L ≠ w := by
  intro h
  have hi := (Window.move_general w x L).1
  rw [h] at hi
  cases hl : w.inputs with
  | nil =>
    rw [hl] at hi
    simp at hi
  | cons a t =>
    by_cases hin : Window.within x L a = true
    · have hn : (Window.evictLoop x L w.inputs
          ⟨0, w.adc_integral, w.channel_states⟩).n_tps_to_erase = 0 := by
        rw [hl]; simp [Window.evictLoop, hin]
      rw [hn] at hi
      have := congrArg List.length hi
      simp at this
    · have hlen := congrArg List.length hi
      simp only [List.length_append, List.length_drop, List.length_singleton] at hlen
      have hlen1 : 1 ≤ w.inputs.length := by rw [hl]; simp
      have h1 := Window.evictLoop_n x L w.inputs ⟨0, w.adc_integral, w.channel_states⟩
      have h2 := Window.evictLoop_n_lt x L w.inputs ⟨0, w.adc_integral, w.channel_states⟩
        (by show 0 < 4294967296; omega)
      have h3 := Window.evictCount_le x L w.inputs
      rw [Nat.mod_eq_of_lt h2] at h1
      have h4 := Nat.mod_le (0 + Window.evictCount x L w.inputs) 4294967296
      simp only at h1
      have hn : (Window.evictLoop x L w.inputs
          ⟨0, w.adc_integral, w.channel_states⟩).n_tps_to_erase = 1 := by omega
      rw [hn, hl] at hi
      simp only [List.drop_succ_cons, List.drop_zero] at hi
      have hax := append_single_eq_cons x a t hi.symm
      apply hin
      rw [hax]
      simp [Window.within, tsub_self, hL]

end TriggerActivityMakerHorizontalMuon

theorem TriggerCandidateMakerHorizontalMuon.construct_tc_some
    (m : TriggerCandidateMakerHorizontalMuon)
    (hne : m.m_current_window.ta_list ≠ [])
    (h : ∀ ta ∈ m.m_current_window.ta_list, ta.inputs ≠ []) :
    ∃ tc, TriggerCandidateMakerHorizontalMuon.construct_tc m = some tc := by
  unfold TriggerCandidateMakerHorizontalMuon.construct_tc
  cases h1 : m.m_current_window.ta_list.getLast? with
  | none => exact absurd (List.getLast?_eq_none_iff.mp h1) hne
  | some ta =>
    have hm := List.mem_of_mem_getLast? h1
    dsimp only
    cases h2 : ta.inputs.getLast? with
    | none => exact absurd (List.getLast?_eq_none_iff.mp h2) (h ta hm)
    | some tp => exact ⟨_, rfl⟩

theorem TriggerCandidateMakerHorizontalMuon.candidate_call_frame
    (c : TriggerCandidateMakerHorizontalMuon) (activity : TriggerActivity)
    (out_tc : List TriggerCandidate) (ha : activity.inputs ≠ [])
    (hw : ∀ ta ∈ c.m_current_window.ta_list, ta.inputs ≠ []) :
    ∃ c1 new, TriggerCandidateMakerHorizontalMuon.operator_call c activity out_tc
        = some (c1, out_tc ++ new) ∧ new.length ≤ 1 := by
  unfold TriggerCandidateMakerHorizontalMuon.operator_call
  by_cases he : c.m_current_window.is_empty = true
  · rw [if_pos he]
    dsimp only
    split
    · obtain ⟨tc, htc⟩ := TriggerCandidateMakerHorizontalMuon.construct_tc_some
        (TriggerCandidateMakerHorizontalMuon.countActivity
          { c with m_current_window := c.m_current_window.reset activity })
        (by simp [TriggerCandidateMakerHorizontalMuon.countActivity,
              TriggerCandidateMakerHorizontalMuon.Window.reset])
        (by
          intro ta hta
          simp only [TriggerCandidateMakerHorizontalMuon.countActivity,
            TriggerCandidateMakerHorizontalMuon.Window.reset, List.mem_singleton] at hta
          rw [hta]; exact ha)
      rw [htc]
      exact ⟨_, [tc], rfl, by simp⟩
    · exact ⟨_, [], by rw [List.append_nil], by simp⟩
  · rw [if_neg he]
    have hne : c.m_current_window.ta_list ≠ [] := by
      intro h0
      apply he
      simp [TriggerCandidateMakerHorizontalMuon.Window.is_empty, h0]
    obtain ⟨tc, htc⟩ := TriggerCandidateMakerHorizontalMuon.construct_tc_some c hne hw
    unfold TriggerCandidateMakerHorizontalMuon.triggerChain
      TriggerCandidateMakerHorizontalMuon.emitAndReset
    rw [htc]
    split
    · exact ⟨_, [], by rw [List.append_nil]; rfl, by simp⟩
    · split
      · exact ⟨_, [tc], rfl, by simp⟩
      · split
        · exact ⟨_, [tc], rfl, by simp⟩
        · split
          · exact ⟨_, [tc], rfl, by simp⟩
          · exact ⟨_, [], by rw [List.append_nil]; rfl, by simp⟩

theorem TriggerActivityMakerHorizontalMuon.operator_call_frame
    (m : TriggerActivityMakerHorizontalMuon) (tp : TriggerPrimitive)
    (out : List TriggerActivity) (hp : m.m_prescale ≠ 0) :
    ∃ m1 new, TriggerActivityMakerHorizontalMuon.operator_call m tp out = some (m1, out ++ new)
      ∧ new.length ≤ 1 := by
  obtain ⟨m1, out1, h⟩ := TriggerActivityMakerHorizontalMuon.operator_call_defined m tp out hp
  rcases TriggerActivityMakerHorizontalMuon.operator_call_cases m m1 tp out out1 h with
    ⟨_, _, ho⟩ | ⟨_, _, _, ho⟩ | ⟨_, _, _, _, _, _, ta, _, ho⟩ | ⟨_, _, _, _, _, _, ho⟩
      | ⟨_, _, _, _, _, ho⟩
  · exact ⟨m1, [], by rw [h, ho]; simp, by simp⟩
  · exact ⟨m1, [], by rw [h, ho]; simp, by simp⟩
  · exact ⟨m1, [ta], by rw [h, ho], by simp⟩
  · exact ⟨m1, [], by rw [h, ho]; simp, by simp⟩
  · exact ⟨m1, [], by rw [h, ho]; simp, by simp⟩

namespace TriggerActivityMakerHorizontalMuon

theorem operator_call_length (m m1 : TriggerActivityMakerHorizontalMuon) (tp : TriggerPrimitive)
    (out out1 : List TriggerActivity) (h : operator_call m tp out = some (m1, out1)) :
    m1.m_current_window.inputs.length ≤ m.m_current_window.inputs.length + 1 := by
  rcases operator_call_cases m m1 tp out out1 h with
    ⟨_, hw, _⟩ | ⟨_, _, hw, _⟩ | ⟨_, _, _, _, _, hw, _⟩ | ⟨_, _, _, _, _, hw, _⟩
      | ⟨_, _, _, _, hw, _⟩
  · rw [hw]; simp [Window.reset]
  · rw [hw]; simp [Window.add]
  · rw [hw]; simp [Window.reset]
  · rw [hw]; omega
  · rw [hw, (Window.move_general _ tp _).1]
    simp only [List.length_append, List.length_drop, List.length_singleton]
    omega

theorem feed_sizeBounded (tps : List TriggerPrimitive) (m : TriggerActivityMakerHorizontalMuon)
    (out : List TriggerActivity) (m1 : TriggerActivityMakerHorizontalMuon)
    (out1 : List TriggerActivity) (hr : Reachable Window.SizeBounded m)
    (hwf : ∀ tp ∈ tps, tp.wf)
    (hlen : m.m_current_window.inputs.length + tps.length < 4294967296)
    (h : feed m out tps = some (m1, out1)) : Reachable Window.SizeBounded m1 := by
  induction tps generalizing m out with
  | nil =>
    simp only [feed, Option.some.injEq, Prod.mk.injEq] at h
    rw [← h.1]; exact hr
  | cons tp rest ih =>
    simp only [feed] at h
    cases hc : operator_call m tp out with
    | none => rw [hc] at h; cases h
    | some r =>
      obtain ⟨m2, out2⟩ := r
      rw [hc] at h
      have hl := operator_call_length m m2 tp out out2 hc
      simp only [List.length_cons] at hlen
      exact ih m2 out2
        (Reachable.call m m2 tp out out2 hr (hwf tp (List.mem_cons_self _ _)) hc
          (by unfold Window.SizeBounded; omega))
        (fun t ht => hwf t (List.mem_cons_of_mem _ ht)) (by omega) h

end TriggerActivityMakerHorizontalMuon

namespace TriggerActivityMakerHorizontalMuon

theorem heavy_wf (i : Nat) (hi : i ≤ 4294967295) : (heavyPrimitive i).wf := by
  unfold TriggerPrimitive.wf heavyPrimitive mkPrimitive
  simp only
  omega

theorem heavy_count_le (n c : Nat) :
    chanCount (Window.growWindow heavyPrimitive n).inputs c ≤ 2 := by
  unfold chanCount
  rw [Window.growWindow_inputs, List.map_map]
  exact Window.count_half_le (n + 1) c

theorem heavy_hitsBounded (n : Nat) : Window.HitsBounded (Window.growWindow heavyPrimitive n) :=
  fun c => lt_of_le_of_lt (heavy_count_le n c) (by norm_num)

theorem adcSum_heavy_tail (l : List Nat) :
    adcSum (l.map (fun i => heavyPrimitive (i + 1))) = 0 := by
  induction l with
  | nil => rfl
  | cons a t ih =>
    simp only [adcSum, List.map_cons, List.sum_cons] at ih ⊢
    rw [ih]
    simp [heavyPrimitive, mkPrimitive]

theorem adcSum_heavy (n : Nat) : adcSum (Window.growWindow heavyPrimitive n).inputs = 1 := by
  rw [Window.growWindow_inputs_cons]
  have := adcSum_heavy_tail (List.range n)
  simp only [adcSum, List.map_cons, List.sum_cons] at this ⊢
  rw [this]
  rfl

theorem heavy_distinct (n k : Nat) (hn : n + 1 = 2 * k) :
    distinctChannels (Window.growWindow heavyPrimitive n).inputs = k := by
  unfold distinctChannels
  rw [Window.growWindow_inputs, List.map_map, hn]
  show ((List.range (2 * k)).map (fun i => i / 2)).dedup.length = k
  rw [← List.card_toFinset]
  have : ((List.range (2 * k)).map (fun i => i / 2)).toFinset = Finset.range k := by
    ext c
    simp only [List.mem_toFinset, List.mem_map, List.mem_range, Finset.mem_range]
    constructor
    · rintro ⟨i, hi, rfl⟩
      omega
    · intro h
      exact ⟨2 * c, by omega, by omega⟩
  rw [this, Finset.card_range]

theorem heavy_n_channels_hit (n : Nat) (hn : n + 1 = 4294967296) :
    (Window.growWindow heavyPrimitive n).n_channels_hit = 0 := by
  have hc : Window.CountsOk (Window.growWindow heavyPrimitive n) :=
    Window.growWindow_countsOk heavyPrimitive n (fun i _ => heavy_hitsBounded i)
  unfold Window.n_channels_hit
  rw [ChannelMap.Counts.size_eq hc, heavy_distinct n 2147483648 (by omega)]

theorem growWindow_time_start (f : Nat → TriggerPrimitive) (n : Nat) :
    (Window.growWindow f n).time_start = (f 0).time_start := by
  induction n with
  | zero => rfl
  | succ n ih => rw [Window.growWindow]; simpa [Window.add] using ih

theorem growWindow_not_empty (f : Nat → TriggerPrimitive) (n : Nat) :
    (Window.growWindow f n).is_empty = false := by
  simp [Window.is_empty, Window.growWindow_inputs_cons]

theorem heavy_move (n : Nat) (hn : n + 1 = 4294967296) :
    ((Window.growWindow heavyPrimitive n).move (mkPrimitive 1 1 0) 1).inputs
        = (Window.growWindow heavyPrimitive n).inputs ++ [mkPrimitive 1 1 0]
      ∧ ((Window.growWindow heavyPrimitive n).move (mkPrimitive 1 1 0) 1).channel_states
          = [(1, 1)]
      ∧ ((Window.growWindow heavyPrimitive n).move (mkPrimitive 1 1 0) 1).adc_integral = 0
      ∧ ((Window.growWindow heavyPrimitive n).move (mkPrimitive 1 1 0) 1).time_start = 0 := by
  have hlen : (Window.growWindow heavyPrimitive n).inputs.length = 4294967296 := by
    rw [Window.growWindow_length, hn]
  have hout : ∀ e ∈ (Window.growWindow heavyPrimitive n).inputs,
      Window.within (mkPrimitive 1 1 0) 1 e = false := by
    intro e he
    rw [Window.growWindow_inputs, List.mem_map] at he
    obtain ⟨i, _, rfl⟩ := he
    simp [Window.within, heavyPrimitive, mkPrimitive, tsub]
  obtain ⟨hin, hadc, hcs⟩ :=
    Window.move_wrap (Window.growWindow heavyPrimitive n) (mkPrimitive 1 1 0) 1 hlen hout
  have hc : Window.CountsOk (Window.growWindow heavyPrimitive n) :=
    Window.growWindow_countsOk heavyPrimitive n (fun i _ => heavy_hitsBounded i)
  have h1 := Window.evictLoop_counts (mkPrimitive 1 1 0) 1
    (Window.growWindow heavyPrimitive n).inputs
    ⟨0, (Window.growWindow heavyPrimitive n).adc_integral,
      (Window.growWindow heavyPrimitive n).channel_states⟩
    hc (heavy_hitsBounded n)
  rw [Window.evictCount_all_out _ _ _ hout, List.drop_length] at h1
  have hok := Window.growWindow_adcOk heavyPrimitive n (fun i hi => heavy_wf i (by omega))
  have hw : (Window.growWindow heavyPrimitive n).adc_integral = 1 := by
    rw [hok.2, adcSum_heavy]
  have h2 := Window.evictLoop_adc (mkPrimitive 1 1 0) 1
    (Window.growWindow heavyPrimitive n).inputs
    ⟨0, (Window.growWindow heavyPrimitive n).adc_integral,
      (Window.growWindow heavyPrimitive n).channel_states⟩
    hok.1
  have h3 := Window.evictLoop_adc_lt (mkPrimitive 1 1 0) 1
    (Window.growWindow heavyPrimitive n).inputs
    ⟨0, (Window.growWindow heavyPrimitive n).adc_integral,
      (Window.growWindow heavyPrimitive n).channel_states⟩
    (by simp only [hw]; norm_num)
  rw [Window.evictCount_all_out _ _ _ hout, List.take_length, adcSum_heavy] at h2
  simp only [hw] at h2 h3 hadc
  have hx : (mkPrimitive 1 1 0).adc_integral = 0 := rfl
  rw [hx] at hadc
  refine ⟨hin, ?_, ?_, ?_⟩
  · rw [hcs, Window.counts_nil_eq h1]
    rfl
  · generalize (Window.evictLoop (mkPrimitive 1 1 0) 1 (Window.growWindow heavyPrimitive n).inputs
      ⟨0, 1, (Window.growWindow heavyPrimitive n).channel_states⟩).adc_integral = r at h2 h3 hadc
    rw [hadc]
    omega
  · obtain ⟨first, hf, ht⟩ :=
      (Window.move_general (Window.growWindow heavyPrimitive n) (mkPrimitive 1 1 0) 1).2
    rw [hin, Window.growWindow_inputs_cons] at hf
    simp only [List.cons_append, List.head?_cons, Option.some.injEq] at hf
    rw [ht, ← hf]
    rfl

theorem wrapState_add (w : Window) (c : Nat) (tp : TriggerPrimitive) (out : List TriggerActivity)
    (hne : w.is_empty = false) (hin : tsub tp.time_start w.time_start < 1) :
    operator_call (wrapState w c) tp out
      = some (wrapState (w.add tp) ((c + 1) % 18446744073709551616), out) := by
  have hin' : tsub tp.time_start (wrapState w c).m_current_window.time_start
      < (wrapState w c).m_window_length := hin
  have hne' : (wrapState w c).m_current_window.is_empty = false := hne
  unfold operator_call triggerChain
  rw [hne', if_pos hin']
  rfl

theorem wrapState_move (w : Window) (c : Nat) (tp : TriggerPrimitive) (out : List TriggerActivity)
    (hne : w.is_empty = false) (hin : ¬ tsub tp.time_start w.time_start < 1)
    (hn : w.n_channels_hit = 0) :
    operator_call (wrapState w c) tp out
      = some (wrapState (w.move tp 1) ((c + 1) % 18446744073709551616), out) := by
  have hin' : ¬ tsub tp.time_start (wrapState w c).m_current_window.time_start
      < (wrapState w c).m_window_length := hin
  have hne' : (wrapState w c).m_current_window.is_empty = false := hne
  have hm : ¬ ((wrapState w c).m_current_window.n_channels_hit
      > (wrapState w c).m_n_channels_threshold
        ∧ (wrapState w c).m_trigger_on_n_channels = true) := by
    intro h
    have h1 : w.n_channels_hit > 0 := h.1
    omega
  have ha : ¬ (check_adjacency (wrapState w c) > (wrapState w c).m_adjacency_threshold
      ∧ (wrapState w c).m_trigger_on_adjacency = true) := by
    intro h
    have hf : (wrapState w c).m_trigger_on_adjacency = false := rfl
    rw [hf] at h
    exact absurd h.2 (by decide)
  unfold operator_call triggerChain
  rw [hne', if_neg hin', if_neg hm, if_neg ha]
  rfl

theorem wrapState_emit (w : Window) (c : Nat) (tp : TriggerPrimitive) (out : List TriggerActivity)
    (hne : w.is_empty = false) (hin : ¬ tsub tp.time_start w.time_start < 1)
    (hn : w.n_channels_hit > 0) :
    ∃ m1 ta, operator_call (wrapState w c) tp out = some (m1, out ++ [ta])
      ∧ ta.adc_integral = w.adc_integral ∧ ta.inputs = w.inputs := by
  obtain ⟨m1, out1, h⟩ := operator_call_defined (wrapState w c) tp out
    (by show (1 : Nat) ≠ 0; decide)
  have hne' : (wrapState w c).m_current_window.is_empty = false := hne
  obtain ⟨last, _, hc'⟩ := construct_ta_some (wrapState w c) hne'
  rcases operator_call_cases _ m1 tp out out1 h with
    ⟨he, _, _⟩ | ⟨_, hi, _, _⟩ | ⟨_, _, _, _, _, _, ta, hc, ho⟩ | ⟨_, _, _, _, hg, _, _⟩
      | ⟨_, _, hnm, _, _, _⟩
  · rw [hne'] at he; cases he
  · exact absurd hi hin
  · rw [hc'] at hc
    simp only [Option.some.injEq] at hc
    refine ⟨m1, ta, by rw [h, ho], ?_, ?_⟩
    · rw [← hc]; rfl
    · rw [← hc]; rfl
  · exact absurd (Nat.mod_one _) hg
  · exact absurd ⟨hn, rfl⟩ hnm

theorem heavy_feed (n : Nat) :
    ∃ c, feed wrapMaker [] ((List.range (n + 1)).map heavyPrimitive)
      = some (wrapState (Window.growWindow heavyPrimitive n) c, []) := by
  induction n with
  | zero => exact ⟨1, rfl⟩
  | succ n ih =>
    obtain ⟨c, hc⟩ := ih
    refine ⟨(c + 1) % 18446744073709551616, ?_⟩
    rw [List.range_succ, List.map_append, feed_append, hc]
    simp only [Option.some_bind, List.map_cons, List.map_nil, feed_single]
    rw [wrapState_add _ _ _ _ (growWindow_not_empty _ _)
      (by rw [growWindow_time_start]; show tsub 0 0 < 1; rw [tsub_self]; exact Nat.one_pos)]
    rfl

theorem heavy_emit (n : Nat) (hn : n + 1 = 4294967296) :
    (feed wrapMaker []
        ((List.range (n + 1)).map heavyPrimitive ++ [mkPrimitive 1 1 0, mkPrimitive 2 2 0])).map
      (fun r => r.2.map (fun ta => (ta.adc_integral, adcSum ta.inputs % 4294967296)))
      = some [(0, 1)] := by
  obtain ⟨c, hc⟩ := heavy_feed n
  obtain ⟨hin, hcs, hadc, hts⟩ := heavy_move n hn
  have hne : ((Window.growWindow heavyPrimitive n).move (mkPrimitive 1 1 0) 1).is_empty
      = false := by
    simp [Window.is_empty, hin]
  obtain ⟨m1, ta, h1, h2, h3⟩ := wrapState_emit
    ((Window.growWindow heavyPrimitive n).move (mkPrimitive 1 1 0) 1)
    ((c + 1) % 18446744073709551616) (mkPrimitive 2 2 0) [] hne
    (by rw [hts]; decide)
    (by unfold Window.n_channels_hit; rw [hcs]; decide)
  rw [feed_append, hc]
  simp only [Option.some_bind, feed]
  rw [wrapState_move _ _ _ _ (growWindow_not_empty _ _)
    (by rw [growWindow_time_start]; decide) (heavy_n_channels_hit n hn)]
  simp only [h1, List.nil_append, Option.map_some', List.map_cons, List.map_nil, h2, h3, hadc,
    hin, Window.adcSum_append, adcSum_heavy]
  rfl

end TriggerActivityMakerHorizontalMuon

theorem foldl_zip_walk (step : AdjState → Nat → Nat → AdjState) (t : List Nat) (st : AdjState)
    (a z : Nat) :
    (List.zip (a :: t) (t ++ [z])).foldl (fun st p => step st p.1 p.2) st
      = step (walkFrom step st a t).1 (walkFrom step st a t).2 z := by
  induction t generalizing st a with
  | nil => rfl
  | cons b t ih =>
    simp only [List.cons_append, List.zip_cons_cons, List.foldl_cons, walkFrom]
    exact ih (step st a b) b

theorem foldl_circularPairs (step : AdjState → Nat → Nat → AdjState) (st : AdjState) (a : Nat)
    (t : List Nat) :
    (circularPairs (a :: t)).foldl (fun st p => step st p.1 p.2) st
      = step (walkFrom step st a t).1 (walkFrom step st a t).2 a := by
  unfold circularPairs
  rw [List.rotate_cons_succ, List.rotate_zero]
  exact foldl_zip_walk step t st a a

theorem walkFrom_mem (step : AdjState → Nat → Nat → AdjState) (t : List Nat) (st : AdjState)
    (a : Nat) : (walkFrom step st a t).2 ∈ a :: t := by
  induction t generalizing st a with
  | nil => simp [walkFrom]
  | cons b t ih =>
    rw [walkFrom]
    exact List.mem_cons_of_mem _ (ih _ b)

theorem ascents_dedup (t : List Nat) (a : Nat) (hs : (a :: t).Sorted (· ≤ ·)) :
    ascents a t + 1 = (a :: t).dedup.length := by
  induction t generalizing a with
  | nil => rfl
  | cons b t ih =>
    have hab : a ≤ b := List.rel_of_sorted_cons hs b (List.mem_cons_self _ _)
    have hs' : (b :: t).Sorted (· ≤ ·) := List.Sorted.of_cons hs
    rw [ascents]
    by_cases h : a < b
    · have hnm : a ∉ b :: t := by
        intro hm
        have := List.rel_of_sorted_cons hs' a
        rcases List.mem_cons.mp hm with h1 | h1
        · omega
        · have := this h1; omega
      rw [List.dedup_cons_of_not_mem hnm, List.length_cons, ← ih b hs', if_pos h]
      omega
    · have hm : a ∈ b :: t := by
        have : a = b := by omega
        rw [this]; exact List.mem_cons_self _ _
      rw [List.dedup_cons_of_mem hm, ← ih b hs', if_neg h]
      omega

theorem tolerantStep_inv (maxGap : Nat) (cost : Nat → Nat) (budget : Nat)
    (hcost : ∀ g, g ≤ maxGap → cost g ≤ 5) (st : AdjState) (c n : Nat)
    (h1 : 1 ≤ st.adj) (htol : st.tol_count < budget + 5) :
    1 ≤ (tolerantStep maxGap cost budget st c n).adj
      ∧ (tolerantStep maxGap cost budget st c n).adj ≤ st.adj + (if c < n then 1 else 0)
      ∧ (tolerantStep maxGap cost budget st c n).tol_count < budget + 5 := by
  unfold tolerantStep AdjState.close
  split_ifs with h2 h3 h4 h5 <;> (try simp only) <;> try omega
  all_goals
    have := hcost (n - c) (by omega)
    omega

theorem TriggerActivityMakerHorizontalMuon.adjacencyStep_eq (budget : Nat) (st : AdjState)
    (c n : Nat) (hc : c < 2147483648) (hn : n < 2147483648)
    (hadj : c < n → st.adj + 1 < 65536) (htol : st.tol_count + 5 < 4294967296) :
    TriggerActivityMakerHorizontalMuon.adjacencyStep budget st c n
      = tolerantStep 5 (fun gap => gap) budget st c n := by
  unfold TriggerActivityMakerHorizontalMuon.adjacencyStep tolerantStep AdjState.close
  by_cases h0 : n = 0
  · subst h0
    simp only [if_true]
    rw [if_neg (by omega), if_neg (by omega), if_neg (by omega)]
  · simp only [h0, if_false]
    by_cases h1 : n = c
    · rw [if_pos h1, if_pos h1]
    · rw [if_neg h1, if_neg h1]
      by_cases h2 : n = c + 1
      · rw [if_pos (by omega), if_pos h2, Nat.mod_eq_of_lt (by omega)]
      · rw [if_neg (by omega), if_neg h2]
        by_cases h3 : c + 2 ≤ n ∧ n ≤ c + 5 ∧ st.tol_count < budget
        · rw [if_pos (by omega), if_pos h3, Nat.mod_eq_of_lt (by omega)]
          have e : (n + 4294967296 - c) % 4294967296 = n - c := by omega
          rw [e, Nat.mod_eq_of_lt (by omega)]
        · rw [if_neg (by omega), if_neg h3]

theorem TriggerActivityMakerMichelElectron.michelStep_eq (budget : Nat) (st : AdjState)
    (c n : Nat) (hc : c < 2147483648) (hn : n < 2147483648)
    (hadj : c < n → st.adj + 1 < 65536) (htol : st.tol_count + 5 < 4294967296) :
    TriggerActivityMakerMichelElectron.adjacencyStep budget st c n
      = tolerantStep 4 (fun gap => gap - 1) budget st c n := by
  unfold TriggerActivityMakerMichelElectron.adjacencyStep tolerantStep AdjState.close
  by_cases h0 : n = 0
  · subst h0
    simp only [if_true]
    rw [if_neg (by omega), if_neg (by omega), if_neg (by omega), if_neg (by omega),
      if_neg (by omega)]
  · simp only [h0, if_false]
    by_cases h1 : n = c
    · rw [if_pos h1, if_pos h1]
    · rw [if_neg h1, if_neg h1]
      by_cases h2 : n = c + 1
      · rw [if_pos (by omega), if_pos h2, Nat.mod_eq_of_lt (by omega)]
      · rw [if_neg (by omega), if_neg h2]
        by_cases h3 : c + 2 ≤ n ∧ n ≤ c + 4 ∧ st.tol_count < budget
        · rw [if_pos h3]
          by_cases h4 : n = c + 2
          · rw [if_pos (by omega), Nat.mod_eq_of_lt (by omega), Nat.mod_eq_of_lt (by omega)]
            have e : n - c - 1 = 1 := by omega
            simp only [e]
          · rw [if_neg (by omega)]
            by_cases h5 : n = c + 3
            · rw [if_pos (by omega), Nat.mod_eq_of_lt (by omega), Nat.mod_eq_of_lt (by omega)]
              have e : n - c - 1 = 2 := by omega
              simp only [e]
            · rw [if_neg (by omega), if_pos (by omega), Nat.mod_eq_of_lt (by omega),
                Nat.mod_eq_of_lt (by omega)]
              have e : n - c - 1 = 3 := by omega
              simp only [e]
        · rw [if_neg (by omega), if_neg (by omega), if_neg (by omega), if_neg h3]

theorem walkFrom_eq (codeStep : AdjState → Nat → Nat → AdjState) (maxGap : Nat)
    (cost : Nat → Nat) (budget : Nat) (hcost : ∀ g, g ≤ maxGap → cost g ≤ 5)
    (hb : budget < 65536)
    (heq : ∀ st c n, c < 2147483648 → n < 2147483648 → (c < n → st.adj + 1 < 65536) →
      st.tol_count + 5 < 4294967296 → codeStep st c n = tolerantStep maxGap cost budget st c n)
    (t : List Nat) (a : Nat) (st : AdjState) (hwf : ∀ x ∈ a :: t, x < 2147483648)
    (h1 : 1 ≤ st.adj) (hadj : st.adj + ascents a t < 65536)
    (htol : st.tol_count < budget + 5) :
    walkFrom codeStep st a t = walkFrom (tolerantStep maxGap cost budget) st a t
      ∧ 1 ≤ (walkFrom (tolerantStep maxGap cost budget) st a t).1.adj
      ∧ (walkFrom (tolerantStep maxGap cost budget) st a t).1.adj < 65536
      ∧ (walkFrom (tolerantStep maxGap cost budget) st a t).1.tol_count < budget + 5 := by
  induction t generalizing a st with
  | nil => exact ⟨rfl, h1, by simpa [ascents] using hadj, htol⟩
  | cons b t ih =>
    have ha : a < 2147483648 := hwf a (List.mem_cons_self _ _)
    have hb' : b < 2147483648 := hwf b (List.mem_cons_of_mem _ (List.mem_cons_self _ _))
    rw [ascents] at hadj
    have hstep : codeStep st a b = tolerantStep maxGap cost budget st a b :=
      heq st a b ha hb' (fun hlt => by rw [if_pos hlt] at hadj; omega) (by omega)
    obtain ⟨i1, i2, i3⟩ := tolerantStep_inv maxGap cost budget hcost st a b h1 htol
    simp only [walkFrom]
    rw [hstep]
    exact ih b _ (fun x hx => hwf x (List.mem_cons_of_mem _ hx)) i1 (by omega) i3

theorem adjacency_eq (codeStep : AdjState → Nat → Nat → AdjState) (maxGap : Nat)
    (cost : Nat → Nat) (budget : Nat) (hcost : ∀ g, g ≤ maxGap → cost g ≤ 5)
    (hb : budget < 65536)
    (heq : ∀ st c n, c < 2147483648 → n < 2147483648 → (c < n → st.adj + 1 < 65536) →
      st.tol_count + 5 < 4294967296 → codeStep st c n = tolerantStep maxGap cost budget st c n)
    (l : List Nat) (hwf : ∀ x ∈ l, x < 2147483648) (hd : l.dedup.length < 65536) :
    ((circularPairs (l.insertionSort (· ≤ ·))).foldl (fun st p => codeStep st p.1 p.2)
        { adj := 1, max := 0, tol_count := 0 }).max
      = tolerantAdjacency maxGap cost budget l := by
  unfold tolerantAdjacency
  have hperm := List.perm_insertionSort (· ≤ ·) l
  have hsorted := List.sorted_insertionSort (· ≤ ·) l
  cases hS : l.insertionSort (· ≤ ·) with
  | nil => rfl
  | cons a t =>
    rw [hS] at hperm hsorted
    have hwf' : ∀ x ∈ a :: t, x < 2147483648 := fun x hx => hwf x (hperm.subset hx)
    have hlen : (a :: t).dedup.length = l.dedup.length := (hperm.dedup).length_eq
    have hasc := ascents_dedup t a hsorted
    obtain ⟨e, i1, i2, i3⟩ := walkFrom_eq codeStep maxGap cost budget hcost hb heq t a
      { adj := 1, max := 0, tol_count := 0 } hwf' (by simp) (by simp only; omega)
      (by simp only; omega)
    rw [foldl_circularPairs, foldl_circularPairs, e]
    have hm := walkFrom_mem (tolerantStep maxGap cost budget) t
      { adj := 1, max := 0, tol_count := 0 } a
    have hle : a ≤ (walkFrom (tolerantStep maxGap cost budget)
        { adj := 1, max := 0, tol_count := 0 } a t).2 := by
      rcases List.mem_cons.mp hm with h | h
      · rw [h]
      · exact List.rel_of_sorted_cons hsorted _ h
    rw [heq _ _ _ (hwf' _ hm) (hwf' a (List.mem_cons_self _ _)) (fun hlt => by omega) (by omega)]

theorem channels_wf (l : List TriggerPrimitive) (hwf : ∀ tp ∈ l, tp.wf) :
    ∀ x ∈ l.map (fun tp => tp.channel), x < 2147483648 := by
  intro x hx
  obtain ⟨tp, htp, rfl⟩ := List.mem_map.mp hx
  exact (hwf tp htp).2.2.2.1

theorem TriggerActivityMakerHorizontalMuon.check_adjacency_eq
    (m : TriggerActivityMakerHorizontalMuon)
    (hwf : ∀ x ∈ m.m_current_window.inputs.map (fun tp => tp.channel), x < 2147483648)
    (hd : distinctChannels m.m_current_window.inputs < 65536) (hb : m.m_adj_tolerance < 65536) :
    TriggerActivityMakerHorizontalMuon.check_adjacency m
      = geometryAdjacency m.m_adj_tolerance
          (m.m_current_window.inputs.map (fun tp => tp.channel)) :=
  adjacency_eq (TriggerActivityMakerHorizontalMuon.adjacencyStep m.m_adj_tolerance) 5
    (fun gap => gap) m.m_adj_tolerance (fun _ hg => hg) hb
    (TriggerActivityMakerHorizontalMuon.adjacencyStep_eq m.m_adj_tolerance) _
    hwf hd

theorem TriggerActivityMakerMichelElectron.michel_check_adjacency_eq
    (m : TriggerActivityMakerMichelElectron)
    (hwf : ∀ x ∈ m.m_current_window.inputs.map (fun tp => tp.channel), x < 2147483648)
    (hd : distinctChannels m.m_current_window.inputs < 65536) (hb : m.m_adj_tolerance < 65536) :
    TriggerActivityMakerMichelElectron.check_adjacency m
      = michelAdjacency m.m_adj_tolerance
          (m.m_current_window.inputs.map (fun tp => tp.channel)) :=
  adjacency_eq (TriggerActivityMakerMichelElectron.adjacencyStep m.m_adj_tolerance) 4
    (fun gap => gap - 1) m.m_adj_tolerance (fun g hg => by show g - 1 ≤ 5; omega) hb
    (TriggerActivityMakerMichelElectron.michelStep_eq m.m_adj_tolerance) _
    hwf hd

theorem sameRun_refl (st : AdjState) : SameRun st st := ⟨rfl, rfl, rfl⟩

theorem sameRun_trans {a b c : AdjState} (h1 : SameRun a b)
    (h2 : SameRun b c) : SameRun a c :=
  ⟨h1.1.trans h2.1, h1.2.1.trans h2.2.1, h1.2.2.trans h2.2.2⟩

theorem sameRun_close (st : AdjState) (h1 : st.adj = 1) (h0 : st.tol_count = 0) :
    SameRun st.close st := by
  unfold SameRun AdjState.close
  refine ⟨h1.symm, h0.symm, ?_⟩
  simp only
  split_ifs <;> omega

theorem sameRun_close_close (st st' : AdjState) (h : SameRun st st') :
    SameRun st.close st'.close := by
  obtain ⟨ha, ht, hm⟩ := h
  unfold SameRun AdjState.close
  simp only
  rw [← ha]
  refine ⟨trivial, trivial, ?_⟩
  split_ifs <;> omega

theorem tolerantStep_same (maxGap : Nat) (cost : Nat → Nat) (budget : Nat) (st st' : AdjState)
    (c n : Nat) (h : SameRun st st') :
    SameRun (tolerantStep maxGap cost budget st c n)
      (tolerantStep maxGap cost budget st' c n) := by
  have hc := sameRun_close_close st st' h
  obtain ⟨ha, ht, hm⟩ := h
  unfold tolerantStep
  rw [← ht]
  by_cases h0 : n = 0
  · rw [if_pos h0, if_pos h0]; exact hc
  · rw [if_neg h0, if_neg h0]
    by_cases h1 : n = c
    · rw [if_pos h1, if_pos h1]; exact ⟨ha, ht, hm⟩
    · rw [if_neg h1, if_neg h1]
      by_cases h2 : n = c + 1
      · rw [if_pos h2, if_pos h2]
        exact ⟨by simp only [ha], rfl, hm⟩
      · rw [if_neg h2, if_neg h2]
        by_cases h3 : c + 2 ≤ n ∧ n ≤ c + maxGap ∧ st.tol_count < budget
        · rw [if_pos h3, if_pos h3]
          exact ⟨by simp only [ha], rfl, hm⟩
        · rw [if_neg h3, if_neg h3]; exact hc

theorem walkFrom_same (maxGap : Nat) (cost : Nat → Nat) (budget : Nat) (t : List Nat)
    (a : Nat) (st st' : AdjState) (h : SameRun st st') :
    SameRun (walkFrom (tolerantStep maxGap cost budget) st a t).1
        (walkFrom (tolerantStep maxGap cost budget) st' a t).1
      ∧ (walkFrom (tolerantStep maxGap cost budget) st a t).2
        = (walkFrom (tolerantStep maxGap cost budget) st' a t).2 := by
  induction t generalizing a st st' with
  | nil => exact ⟨h, rfl⟩
  | cons b t ih =>
    simp only [walkFrom]
    exact ih b _ _ (tolerantStep_same maxGap cost budget st st' a b h)

theorem tolerantStep_self (maxGap : Nat) (cost : Nat → Nat) (budget : Nat) (st : AdjState)
    (c : Nat) (hc : c ≠ 0) : tolerantStep maxGap cost budget st c c = st := by
  unfold tolerantStep
  rw [if_neg hc, if_pos rfl]

theorem tolerantStep_zero (maxGap : Nat) (cost : Nat → Nat) (budget : Nat) (st : AdjState)
    (c : Nat) : tolerantStep maxGap cost budget st c 0 = st.close := by
  unfold tolerantStep
  rw [if_pos rfl]

theorem tolerantStep_adj_pos (maxGap : Nat) (cost : Nat → Nat) (budget : Nat) (st : AdjState)
    (c n : Nat) (h1 : 1 ≤ st.adj) : 1 ≤ (tolerantStep maxGap cost budget st c n).adj := by
  unfold tolerantStep AdjState.close
  split_ifs <;> (try simp only) <;> omega

theorem walkFrom_adj_pos (maxGap : Nat) (cost : Nat → Nat) (budget : Nat) (t : List Nat)
    (a : Nat) (st : AdjState) (h1 : 1 ≤ st.adj) :
    1 ≤ (walkFrom (tolerantStep maxGap cost budget) st a t).1.adj := by
  induction t generalizing a st with
  | nil => exact h1
  | cons b t ih =>
    simp only [walkFrom]
    exact ih b _ (tolerantStep_adj_pos maxGap cost budget st a b h1)

theorem walkFrom_dedup_pos (maxGap : Nat) (cost : Nat → Nat) (budget : Nat) (t : List Nat)
    (a : Nat) (st : AdjState) (ha : a ≠ 0) (hs : (a :: t).Sorted (· ≤ ·)) :
    ∃ s, (a :: t).dedup = a :: s
      ∧ walkFrom (tolerantStep maxGap cost budget) st a t
        = walkFrom (tolerantStep maxGap cost budget) st a s := by
  induction t generalizing a st with
  | nil => exact ⟨[], by simp, rfl⟩
  | cons b t ih =>
    have hab : a ≤ b := List.rel_of_sorted_cons hs b (List.mem_cons_self _ _)
    have hs' : (b :: t).Sorted (· ≤ ·) := List.Sorted.of_cons hs
    by_cases h : a < b
    · have hnm : a ∉ b :: t := by
        intro hm
        rcases List.mem_cons.mp hm with h1 | h1
        · omega
        · have := List.rel_of_sorted_cons hs' a h1; omega
      obtain ⟨s, hd, hw⟩ := ih b (tolerantStep maxGap cost budget st a b) (by omega) hs'
      exact ⟨b :: s, by rw [List.dedup_cons_of_not_mem hnm, hd], by simp only [walkFrom]; exact hw⟩
    · have hba : b = a := by omega
      subst hba
      obtain ⟨s, hd, hw⟩ := ih b st ha hs'
      refine ⟨s, by rw [List.dedup_cons_of_mem (List.mem_cons_self _ _), hd], ?_⟩
      simp only [walkFrom]
      rw [tolerantStep_self maxGap cost budget st b ha]
      exact hw

theorem walkFrom_dedup_zero (maxGap : Nat) (cost : Nat → Nat) (budget : Nat) (t : List Nat)
    (st : AdjState) (hs : (0 :: t).Sorted (· ≤ ·)) (h1 : st.adj = 1) (h0 : st.tol_count = 0) :
    ∃ s, (0 :: t).dedup = 0 :: s
      ∧ SameRun (walkFrom (tolerantStep maxGap cost budget) st 0 t).1
          (walkFrom (tolerantStep maxGap cost budget) st 0 s).1
      ∧ (walkFrom (tolerantStep maxGap cost budget) st 0 t).2
          = (walkFrom (tolerantStep maxGap cost budget) st 0 s).2 := by
  induction t generalizing st with
  | nil => exact ⟨[], by simp, sameRun_refl _, rfl⟩
  | cons b t ih =>
    have hs' : (b :: t).Sorted (· ≤ ·) := List.Sorted.of_cons hs
    by_cases h : b = 0
    · subst h
      obtain ⟨s, hd, hw, hl⟩ := ih st.close hs' rfl rfl
      obtain ⟨hw2, hl2⟩ := walkFrom_same maxGap cost budget s 0 st.close st
        (sameRun_close st h1 h0)
      refine ⟨s, by rw [List.dedup_cons_of_mem (List.mem_cons_self _ _), hd], ?_, ?_⟩
      · simp only [walkFrom]
        rw [tolerantStep_zero]
        exact sameRun_trans hw hw2
      · simp only [walkFrom]
        rw [tolerantStep_zero]
        exact hl.trans hl2
    · have hnm : 0 ∉ b :: t := by
        intro hm
        rcases List.mem_cons.mp hm with h1 | h1
        · exact h h1.symm
        · have := List.rel_of_sorted_cons hs' 0 h1; omega
      obtain ⟨s, hd, hw⟩ := walkFrom_dedup_pos maxGap cost budget t b
        (tolerantStep maxGap cost budget st 0 b) h hs'
      refine ⟨b :: s, by rw [List.dedup_cons_of_not_mem hnm, hd], ?_, ?_⟩
      · simp only [walkFrom]; rw [hw]; exact sameRun_refl _
      · simp only [walkFrom]; rw [hw]

theorem insertionSort_eq_of_perm (l l' : List Nat) (h : l.Perm l') :
    l.insertionSort (· ≤ ·) = l'.insertionSort (· ≤ ·) :=
  List.eq_of_perm_of_sorted
    (((List.perm_insertionSort (· ≤ ·) l).trans h).trans (List.perm_insertionSort (· ≤ ·) l').symm)
    (List.sorted_insertionSort (· ≤ ·) l) (List.sorted_insertionSort (· ≤ ·) l')

theorem insertionSort_dedup (l : List Nat) :
    l.dedup.insertionSort (· ≤ ·) = (l.insertionSort (· ≤ ·)).dedup :=
  List.eq_of_perm_of_sorted
    ((List.perm_insertionSort (· ≤ ·) l.dedup).trans
      (List.perm_insertionSort (· ≤ ·) l).dedup.symm)
    (List.sorted_insertionSort (· ≤ ·) l.dedup)
    ((List.sorted_insertionSort (· ≤ ·) l).sublist (List.dedup_sublist _))

theorem tolerantAdjacency_perm (maxGap : Nat) (cost : Nat → Nat) (budget : Nat) (l l' : List Nat)
    (h : l.Perm l') :
    tolerantAdjacency maxGap cost budget l = tolerantAdjacency maxGap cost budget l' := by
  unfold tolerantAdjacency
  rw [insertionSort_eq_of_perm l l' h]

theorem tolerantAdjacency_dedup (maxGap : Nat) (cost : Nat → Nat) (budget : Nat) (l : List Nat) :
    tolerantAdjacency maxGap cost budget l.dedup = tolerantAdjacency maxGap cost budget l := by
  unfold tolerantAdjacency
  rw [insertionSort_dedup]
  have hsorted := List.sorted_insertionSort (· ≤ ·) l
  cases hS : l.insertionSort (· ≤ ·) with
  | nil => rfl
  | cons a t =>
    rw [hS] at hsorted
    by_cases ha : a = 0
    · subst ha
      obtain ⟨s, hd, hw, hl⟩ := walkFrom_dedup_zero maxGap cost budget t
        { adj := 1, max := 0, tol_count := 0 } hsorted rfl rfl
      rw [hd, foldl_circularPairs, foldl_circularPairs, tolerantStep_zero, tolerantStep_zero]
      have p1 := walkFrom_adj_pos maxGap cost budget t 0 { adj := 1, max := 0, tol_count := 0 }
        (by simp)
      obtain ⟨e1, _, e3⟩ := hw
      unfold AdjState.close
      simp only
      rw [← e1]
      split_ifs <;> omega
    · obtain ⟨s, hd, hw⟩ := walkFrom_dedup_pos maxGap cost budget t a
        { adj := 1, max := 0, tol_count := 0 } ha hsorted
      rw [hd, foldl_circularPairs, foldl_circularPairs, hw]

theorem tolerantAdjacency_of_channels (maxGap : Nat) (cost : Nat → Nat) (budget : Nat)
    (l l' : List Nat) (hn : l'.Nodup) (h : ∀ c, c ∈ l ↔ c ∈ l') :
    tolerantAdjacency maxGap cost budget l = tolerantAdjacency maxGap cost budget l' := by
  rw [← tolerantAdjacency_dedup]
  apply tolerantAdjacency_perm
  rw [List.perm_ext_iff_of_nodup (List.nodup_dedup l) hn]
  intro c
  rw [List.mem_dedup]
  exact h c

theorem foldl_add_inputs (cs : List Nat) (w : TriggerActivityMakerHorizontalMuon.Window) :
    (cs.foldl (fun w c1 => w.add (mkPrimitive 0 c1 0)) w).inputs
      = w.inputs ++ cs.map (fun c => mkPrimitive 0 c 0) := by
  induction cs generalizing w with
  | nil => simp
  | cons c cs ih =>
    rw [List.foldl_cons, ih]
    simp [TriggerActivityMakerHorizontalMuon.Window.add]

theorem channelWindow_channels (l : List Nat) :
    (channelWindow l).inputs.map (fun tp => tp.channel) = l := by
  cases l with
  | nil => rfl
  | cons c cs =>
    rw [channelWindow, foldl_add_inputs]
    simp only [TriggerActivityMakerHorizontalMuon.Window.reset, List.singleton_append,
      List.map_cons, List.map_map]
    have : ((fun tp : TriggerPrimitive => tp.channel) ∘ fun c => mkPrimitive 0 c 0) = id := rfl
    rw [this, List.map_id]
    rfl

theorem walkFrom_run (step : AdjState → Nat → Nat → AdjState) (M B : Nat)
    (hstep : ∀ st a, a < B → step st a (a + 1) = { st with adj := (st.adj + 1) % M })
    (k : Nat) (a : Nat) (st : AdjState) (hk : a + k ≤ B) (h1 : st.adj % M = st.adj) :
    walkFrom step st a (List.range' (a + 1) k) = ({ st with adj := (st.adj + k) % M }, a + k) := by
  induction k generalizing a st with
  | zero =>
    simp only [List.range'_zero, walkFrom, Nat.add_zero, h1]
  | succ k ih =>
    rw [List.range'_succ]
    simp only [walkFrom]
    rw [hstep st a (by omega), ih (a + 1) _ (by omega) (by simp only [Nat.mod_mod])]
    simp only [Prod.mk.injEq, AdjState.mk.injEq, and_true, true_and]
    refine ⟨?_, by omega⟩
    rw [Nat.add_mod, Nat.mod_mod, ← Nat.add_mod]
    congr 1
    omega

theorem sorted_run (a k : Nat) : (a :: List.range' (a + 1) k).Sorted (· ≤ ·) := by
  have h := List.pairwise_lt_range' a (k + 1)
  rw [List.range'_succ] at h
  exact h.imp (fun hlt => Nat.le_of_lt hlt)

theorem TriggerActivityMakerHorizontalMuon.adjacencyStep_succ (budget : Nat) (st : AdjState)
    (a : Nat) (ha : a < 2147483648) :
    TriggerActivityMakerHorizontalMuon.adjacencyStep budget st a (a + 1)
      = { st with adj := (st.adj + 1) % 65536 } := by
  unfold TriggerActivityMakerHorizontalMuon.adjacencyStep
  have h0 : ¬ (a + 1 = 0) := by omega
  simp only [h0, if_false]
  rw [if_neg (by omega), if_pos (by omega)]

theorem TriggerActivityMakerMichelElectron.michelStep_succ (budget : Nat) (st : AdjState)
    (a : Nat) (ha : a < 2147483648) :
    TriggerActivityMakerMichelElectron.adjacencyStep budget st a (a + 1)
      = { st with adj := (st.adj + 1) % 65536 } := by
  unfold TriggerActivityMakerMichelElectron.adjacencyStep
  have h0 : ¬ (a + 1 = 0) := by omega
  simp only [h0, if_false]
  rw [if_neg (by omega), if_pos (by omega)]

theorem specStep_succ (budget : Nat) (st : AdjState) (a : Nat) :
    specStep budget st a (a + 1) = { st with adj := (st.adj + 1) % 0 } := by
  unfold specStep
  rw [if_neg (by omega), if_pos rfl, Nat.mod_zero]

/-- The walk of any of the step functions over the channels
`a, a + 1, ..., a + k`, taken circularly, from the state `st`. -/
theorem run_pairs (step : AdjState → Nat → Nat → AdjState) (M B : Nat)
    (hstep : ∀ st a, a < B → step st a (a + 1) = { st with adj := (st.adj + 1) % M })
    (k a : Nat) (st : AdjState) (hk : a + k ≤ B) (h1 : st.adj % M = st.adj) :
    (circularPairs ((a :: List.range' (a + 1) k).insertionSort (· ≤ ·))).foldl
        (fun st p => step st p.1 p.2) st
      = step { st with adj := (st.adj + k) % M } (a + k) a := by
  rw [(sorted_run a k).insertionSort_eq, foldl_circularPairs, walkFrom_run step M B hstep k a st hk h1]

theorem TriggerActivityMakerHorizontalMuon.check_adjacency_run (a k tol : Nat)
    (hk : a + k ≤ 2147483648) :
    TriggerActivityMakerHorizontalMuon.check_adjacency
        (geometryMaker (a :: List.range' (a + 1) k) tol)
      = (TriggerActivityMakerHorizontalMuon.adjacencyStep tol
          { adj := (1 + k) % 65536, max := 0, tol_count := 0 } (a + k) a).max := by
  unfold TriggerActivityMakerHorizontalMuon.check_adjacency
  simp only [geometryMaker, channelWindow_channels]
  rw [run_pairs (TriggerActivityMakerHorizontalMuon.adjacencyStep tol) 65536 2147483648
    (fun st a ha => TriggerActivityMakerHorizontalMuon.adjacencyStep_succ tol st a ha) k a _ hk
    (by decide)]

theorem TriggerActivityMakerMichelElectron.michel_check_adjacency_run (a k tol : Nat)
    (hk : a + k ≤ 2147483648) :
    TriggerActivityMakerMichelElectron.check_adjacency
        (michelMakerOn (a :: List.range' (a + 1) k) tol)
      = (TriggerActivityMakerMichelElectron.adjacencyStep tol
          { adj := (1 + k) % 65536, max := 0, tol_count := 0 } (a + k) a).max := by
  unfold TriggerActivityMakerMichelElectron.check_adjacency
  simp only [michelMakerOn, channelWindow_channels]
  rw [run_pairs (TriggerActivityMakerMichelElectron.adjacencyStep tol) 65536 2147483648
    (fun st a ha => TriggerActivityMakerMichelElectron.michelStep_succ tol st a ha) k a _ hk
    (by decide)]

theorem specAdjacency_run (a k tol : Nat) :
    specAdjacency tol (a :: List.range' (a + 1) k)
      = (specStep tol { adj := 1 + k, max := 0, tol_count := 0 } (a + k) a).max := by
  unfold specAdjacency
  rw [run_pairs (specStep tol) 0 (a + k) (fun st a _ => specStep_succ tol st a) k a _ le_rfl
    (Nat.mod_zero _)]
  simp only [Nat.mod_zero]

namespace TriggerActivityMakerHorizontalMuon

end TriggerActivityMakerHorizontalMuon

theorem michel_pair (tol c : Nat) (h : 1 ≤ tol) : michelAdjacency tol [c, c + 4] = 2 := by
  unfold michelAdjacency tolerantAdjacency
  have hs : [c, c + 4].insertionSort (· ≤ ·) = [c, c + 4] :=
    List.Sorted.insertionSort_eq (by simp)
  rw [hs, foldl_circularPairs]
  simp only [walkFrom]
  have h1 : tolerantStep 4 (fun gap => gap - 1) tol { adj := 1, max := 0, tol_count := 0 }
      c (c + 4) = { adj := 2, max := 0, tol_count := 3 } := by
    unfold tolerantStep
    rw [if_neg (by omega), if_neg (by omega), if_neg (by omega), if_pos ⟨by omega, by omega, h⟩]
    simp
  rw [h1]
  unfold tolerantStep AdjState.close
  by_cases hc : c = 0
  · rw [if_pos hc]; rfl
  · rw [if_neg hc, if_neg (by omega), if_neg (by omega), if_neg (by omega)]; rfl

namespace TriggerActivityMakerMichelElectron

end TriggerActivityMakerMichelElectron

theorem channelWindow_inputs (l : List Nat) :
    (channelWindow l).inputs = l.map (fun c => mkPrimitive 0 c 0) := by
  cases l with
  | nil => rfl
  | cons c cs =>
    rw [channelWindow, foldl_add_inputs]
    rfl

theorem distinct_of_channels (l : List TriggerPrimitive) (l' : List Nat) (hn : l'.Nodup)
    (h : ∀ c, c ∈ l.map (fun tp => tp.channel) ↔ c ∈ l') :
    distinctChannels l = l'.length := by
  unfold distinctChannels
  apply List.Perm.length_eq
  rw [List.perm_ext_iff_of_nodup (List.nodup_dedup _) hn]
  intro c
  rw [List.mem_dedup]
  exact h c

theorem TriggerActivityMakerHorizontalMuon.check_adjacency_dup_run (k tol : Nat)
    (hk : k ≤ 2147483648) :
    TriggerActivityMakerHorizontalMuon.check_adjacency
        (geometryMaker (0 :: 0 :: List.range' (0 + 1) k) tol)
      = (TriggerActivityMakerHorizontalMuon.adjacencyStep tol
          { adj := (1 + k) % 65536, max := 1, tol_count := 0 } (0 + k) 0).max := by
  unfold TriggerActivityMakerHorizontalMuon.check_adjacency
  simp only [geometryMaker, channelWindow_channels]
  have hs : (0 :: 0 :: List.range' (0 + 1) k).Sorted (· ≤ ·) :=
    List.sorted_cons.mpr ⟨fun b _ => Nat.zero_le b, sorted_run 0 k⟩
  have h0 : TriggerActivityMakerHorizontalMuon.adjacencyStep tol
      { adj := 1, max := 0, tol_count := 0 } 0 0 = { adj := 1, max := 1, tol_count := 0 } := by
    unfold TriggerActivityMakerHorizontalMuon.adjacencyStep
    simp
  rw [hs.insertionSort_eq, foldl_circularPairs]
  simp only [walkFrom]
  rw [h0, walkFrom_run (TriggerActivityMakerHorizontalMuon.adjacencyStep tol) 65536 2147483648
    (fun st a ha => TriggerActivityMakerHorizontalMuon.adjacencyStep_succ tol st a ha) k 0 _
    (by omega) (by decide)]

/-- C19 (behaviour of the code): for a geometry-variant window and a
Michel-variant window whose hit channels are exactly {1, 2, 3, 5, 9}, with
`adj_tolerance = 3`, each `check_adjacency` returns 5.  The run starting at 1
extends through 2 and 3 and bridges the gap to 5; the walk then stands at
channel 5 with run length 4 and consumed tolerance 2 (geometry) or 1 (Michel).
The test `tol_count < m_adj_tolerance` passes, the gap to 9 is bridged as
well, and the counter ends at 6, respectively 4, above the budget 3.  The walk
that keeps the counter within the budget, as the comments of both bodies
describe it, does not bridge the gap to 9 and returns 4. -/
theorem fixture_adjacency (m : TriggerActivityMakerHorizontalMuon)
    (mm : TriggerActivityMakerMichelElectron)
    (hm : ∀ c, c ∈ m.m_current_window.inputs.map (fun tp => tp.channel) ↔ c ∈ [1, 2, 3, 5, 9])
    (hmm : ∀ c, c ∈ mm.m_current_window.inputs.map (fun tp => tp.channel) ↔ c ∈ [1, 2, 3, 5, 9])
    (ht : m.m_adj_tolerance = 3) (htm : mm.m_adj_tolerance = 3) :
    TriggerActivityMakerHorizontalMuon.check_adjacency m = 5
      ∧ TriggerActivityMakerMichelElectron.check_adjacency mm = 5
      ∧ walkFrom (TriggerActivityMakerHorizontalMuon.adjacencyStep m.m_adj_tolerance)
          { adj := 1, max := 0, tol_count := 0 } 1 [2, 3, 5]
          = ({ adj := 4, max := 0, tol_count := 2 }, 5)
      ∧ TriggerActivityMakerHorizontalMuon.adjacencyStep m.m_adj_tolerance
          { adj := 4, max := 0, tol_count := 2 } 5 9 = { adj := 5, max := 0, tol_count := 6 }
      ∧ walkFrom (TriggerActivityMakerMichelElectron.adjacencyStep mm.m_adj_tolerance)
          { adj := 1, max := 0, tol_count := 0 } 1 [2, 3, 5]
          = ({ adj := 4, max := 0, tol_count := 1 }, 5)
      ∧ TriggerActivityMakerMichelElectron.adjacencyStep mm.m_adj_tolerance
          { adj := 4, max := 0, tol_count := 1 } 5 9 = { adj := 5, max := 0, tol_count := 4 }
      ∧ cappedAdjacency 5 (fun gap => gap) m.m_adj_tolerance [1, 2, 3, 5, 9] = 4
      ∧ cappedAdjacency 4 (fun gap => gap - 1) mm.m_adj_tolerance [1, 2, 3, 5, 9] = 4 := by
  have hb : ∀ l : List Nat, (∀ c, c ∈ l ↔ c ∈ [1, 2, 3, 5, 9]) → ∀ x ∈ l, x < 2147483648 := by
    intro l h x hx
    have := (h x).mp hx
    simp only [List.mem_cons, List.mem_singleton, List.not_mem_nil, or_false] at this
    omega
  refine ⟨?_, ?_, by rw [ht]; decide, by rw [ht]; decide, by rw [htm]; decide,
    by rw [htm]; decide, by rw [ht]; decide, by rw [htm]; decide⟩
  · rw [TriggerActivityMakerHorizontalMuon.check_adjacency_eq m (hb _ hm)
      (by rw [distinct_of_channels _ [1, 2, 3, 5, 9] (by decide) hm]; decide)
      (by rw [ht]; decide), ht]
    unfold geometryAdjacency
    rw [tolerantAdjacency_of_channels 5 (fun gap => gap) 3 _ [1, 2, 3, 5, 9] (by decide) hm]
    decide
  · rw [TriggerActivityMakerMichelElectron.michel_check_adjacency_eq mm (hb _ hmm)
      (by rw [distinct_of_channels _ [1, 2, 3, 5, 9] (by decide) hmm]; decide)
      (by rw [htm]; decide), htm]
    unfold michelAdjacency
    rw [tolerantAdjacency_of_channels 4 (fun gap => gap - 1) 3 _ [1, 2, 3, 5, 9] (by decide) hmm]
    decide

/-- C19 (witness): windows holding the channels in a different order, one of
them with duplicate hits. -/
theorem fixture_adjacency_witness :
    (∀ c, c ∈ (geometryMaker [9, 1, 5, 2, 3, 5] 3).m_current_window.inputs.map
        (fun tp => tp.channel) ↔ c ∈ [1, 2, 3, 5, 9])
      ∧ (∀ c, c ∈ (michelMakerOn [3, 2, 9, 5, 1] 3).m_current_window.inputs.map
        (fun tp => tp.channel) ↔ c ∈ [1, 2, 3, 5, 9])
      ∧ TriggerActivityMakerHorizontalMuon.check_adjacency (geometryMaker [9, 1, 5, 2, 3, 5] 3) = 5
      ∧ TriggerActivityMakerMichelElectron.check_adjacency (michelMakerOn [3, 2, 9, 5, 1] 3) = 5
      ∧ (TriggerActivityMakerHorizontalMuon.adjacencyStep 3
          { adj := 4, max := 0, tol_count := 2 } 5 9).tol_count = 6
      ∧ (TriggerActivityMakerMichelElectron.adjacencyStep 3
          { adj := 4, max := 0, tol_count := 1 } 5 9).tol_count = 4
      ∧ cappedAdjacency 5 (fun gap => gap) 3 [1, 2, 3, 5, 9] = 4
      ∧ cappedAdjacency 4 (fun gap => gap - 1) 3 [1, 2, 3, 5, 9] = 4 :=
  have h1 : ∀ c, c ∈ (geometryMaker [9, 1, 5, 2, 3, 5] 3).m_current_window.inputs.map
      (fun tp => tp.channel) ↔ c ∈ [1, 2, 3, 5, 9] := by
    intro c
    simp only [geometryMaker, channelWindow_channels, List.mem_cons, List.mem_singleton,
      List.not_mem_nil, or_false]
    omega
  have h2 : ∀ c, c ∈ (michelMakerOn [3, 2, 9, 5, 1] 3).m_current_window.inputs.map
      (fun tp => tp.channel) ↔ c ∈ [1, 2, 3, 5, 9] := by
    intro c
    simp only [michelMakerOn, channelWindow_channels, List.mem_cons, List.mem_singleton,
      List.not_mem_nil, or_false]
    omega
  have h := fixture_adjacency (geometryMaker [9, 1, 5, 2, 3, 5] 3)
    (michelMakerOn [3, 2, 9, 5, 1] 3) h1 h2 rfl rfl
  ⟨h1, h2, h.1, h.2.1, congrArg AdjState.tol_count h.2.2.2.1,
    congrArg AdjState.tol_count h.2.2.2.2.2.1, h.2.2.2.2.2.2.1, h.2.2.2.2.2.2.2⟩

namespace TriggerActivityMakerHorizontalMuon

end TriggerActivityMakerHorizontalMuon

/-- C21: the two `check_adjacency` implementations are not equivalent.  On
the window with hit channels 1, 3, 5 and budget 2 the geometry variant
returns 2 and the Michel variant 3: after bridging the gap from 1 to 3 the
geometry walk has consumed 2 units of tolerance and the Michel walk 1, so only
the Michel walk bridges the gap from 3 to 5. -/
theorem adjacency_variants_differ :
    (geometryMaker [1, 3, 5] 2).m_current_window = (michelMakerOn [1, 3, 5] 2).m_current_window
      ∧ (geometryMaker [1, 3, 5] 2).m_adj_tolerance = (michelMakerOn [1, 3, 5] 2).m_adj_tolerance
      ∧ TriggerActivityMakerHorizontalMuon.check_adjacency (geometryMaker [1, 3, 5] 2)
        ≠ TriggerActivityMakerMichelElectron.check_adjacency (michelMakerOn [1, 3, 5] 2)
      ∧ TriggerActivityMakerHorizontalMuon.check_adjacency (geometryMaker [1, 3, 5] 2) = 2
      ∧ TriggerActivityMakerMichelElectron.check_adjacency (michelMakerOn [1, 3, 5] 2) = 3
      ∧ (TriggerActivityMakerHorizontalMuon.adjacencyStep 2
          { adj := 1, max := 0, tol_count := 0 } 1 3).tol_count = 2
      ∧ (TriggerActivityMakerMichelElectron.adjacencyStep 2
          { adj := 1, max := 0, tol_count := 0 } 1 3).tol_count = 1 := by
  decide

namespace TriggerActivityMakerHorizontalMuon

end TriggerActivityMakerHorizontalMuon

namespace TriggerCandidateMakerHorizontalMuon

theorem construct_tc_window (c c1 : TriggerCandidateMakerHorizontalMuon)
    (hw : c1.m_current_window = c.m_current_window)
    (hb : c1.m_readout_window_ticks_before = c.m_readout_window_ticks_before)
    (ha : c1.m_readout_window_ticks_after = c.m_readout_window_ticks_after) :
    construct_tc c1 = construct_tc c := by
  unfold construct_tc
  rw [hw, hb, ha]

/-- The five ways a call of the candidate maker's `operator()` can end. -/
theorem candidate_call_cases (c c1 : TriggerCandidateMakerHorizontalMuon)
    (activity : TriggerActivity) (out out1 : List TriggerCandidate)
    (h : operator_call c activity out = some (c1, out1)) :
    sameConfig c c1 ∧
    ((c.m_current_window.is_empty = true ∧ passThrough c
        ∧ c1.m_current_window = (c.m_current_window.reset activity).clear
        ∧ ∃ tc, construct_tc { c with m_current_window := c.m_current_window.reset activity }
            = some tc ∧ out1 = out ++ [tc])
      ∨ (c.m_current_window.is_empty = true ∧ ¬ passThrough c
        ∧ c1.m_current_window = c.m_current_window.reset activity ∧ out1 = out)
      ∨ (c.m_current_window.is_empty = false ∧ inWindow c activity
        ∧ c1.m_current_window = c.m_current_window.add activity ∧ out1 = out)
      ∨ (c.m_current_window.is_empty = false ∧ ¬ inWindow c activity ∧ fires c
        ∧ c1.m_current_window = c.m_current_window.reset activity
        ∧ ∃ tc, construct_tc c = some tc ∧ out1 = out ++ [tc])
      ∨ (c.m_current_window.is_empty = false ∧ ¬ inWindow c activity ∧ ¬ fires c
        ∧ c1.m_current_window = c.m_current_window.move activity c.m_window_length
        ∧ out1 = out)) := by
  unfold operator_call at h
  by_cases he : c.m_current_window.is_empty = true
  · rw [if_pos he] at h
    dsimp only at h
    by_cases hp : passThrough c
    · have hp' : (countActivity { c with m_current_window := c.m_current_window.reset activity
          }).m_trigger_on_adc = false
          ∧ (countActivity { c with m_current_window := c.m_current_window.reset activity
            }).m_trigger_on_n_channels = false
          ∧ (countActivity { c with m_current_window := c.m_current_window.reset activity
            }).m_trigger_on_adjacency = false := hp
      rw [if_pos hp'] at h
      have hc : construct_tc (countActivity
          { c with m_current_window := c.m_current_window.reset activity })
          = construct_tc { c with m_current_window := c.m_current_window.reset activity } := rfl
      rw [hc] at h
      cases htc : construct_tc { c with m_current_window := c.m_current_window.reset activity }
        with
      | none => rw [htc] at h; cases h
      | some tc =>
        rw [htc] at h
        simp only [Option.some.injEq, Prod.mk.injEq] at h
        obtain ⟨h1, h2⟩ := h
        subst h1
        exact ⟨⟨rfl, rfl, rfl, rfl, rfl, rfl, rfl, rfl⟩,
          Or.inl ⟨he, hp, rfl, tc, rfl, h2.symm⟩⟩
    · have hp' : ¬ ((countActivity { c with m_current_window := c.m_current_window.reset activity
          }).m_trigger_on_adc = false
          ∧ (countActivity { c with m_current_window := c.m_current_window.reset activity
            }).m_trigger_on_n_channels = false
          ∧ (countActivity { c with m_current_window := c.m_current_window.reset activity
            }).m_trigger_on_adjacency = false) := hp
      rw [if_neg hp'] at h
      simp only [Option.some.injEq, Prod.mk.injEq] at h
      obtain ⟨h1, h2⟩ := h
      subst h1
      exact ⟨⟨rfl, rfl, rfl, rfl, rfl, rfl, rfl, rfl⟩, Or.inr (Or.inl ⟨he, hp, rfl, h2.symm⟩)⟩
  · have he' : c.m_current_window.is_empty = false := by simpa using he
    rw [if_neg he] at h
    simp only [Option.map_eq_some'] at h
    obtain ⟨⟨c2, out2⟩, h2, h3⟩ := h
    simp only [Prod.mk.injEq] at h3
    obtain ⟨h3a, h3b⟩ := h3
    subst h3a h3b
    have key : sameConfig c c2
        ∧ ((inWindow c activity ∧ c2.m_current_window = c.m_current_window.add activity
            ∧ out2 = out)
          ∨ (¬ inWindow c activity ∧ fires c
            ∧ c2.m_current_window = c.m_current_window.reset activity
            ∧ ∃ tc, construct_tc c = some tc ∧ out2 = out ++ [tc])
          ∨ (¬ inWindow c activity ∧ ¬ fires c
            ∧ c2.m_current_window = c.m_current_window.move activity c.m_window_length
            ∧ out2 = out)) := by
      unfold triggerChain emitAndReset at h2
      by_cases hin : inWindow c activity
      · have hin' : tsub activity.time_start c.m_current_window.time_start
            < c.m_window_length := hin
        rw [if_pos hin'] at h2
        simp only [Option.some.injEq, Prod.mk.injEq] at h2
        obtain ⟨e1, e2⟩ := h2
        subst e1
        exact ⟨⟨rfl, rfl, rfl, rfl, rfl, rfl, rfl, rfl⟩, Or.inl ⟨hin, rfl, e2.symm⟩⟩
      · have hin' : ¬ tsub activity.time_start c.m_current_window.time_start
            < c.m_window_length := hin
        rw [if_neg hin'] at h2
        by_cases hf : fires c
        · have hemit : (match construct_tc c with
              | none => none
              | some tc =>
                some ({ c with
                        tc_number := c.tc_number + 1
                        m_current_window := c.m_current_window.reset activity },
                      out ++ [tc])) = some (c2, out2) := by
            rcases hf with h1 | h1 | h1
            · rw [if_pos h1] at h2; exact h2
            · by_cases h0 : c.m_current_window.adc_integral > c.m_adc_threshold
                  ∧ c.m_trigger_on_adc = true
              · rw [if_pos h0] at h2; exact h2
              · rw [if_neg h0, if_pos h1] at h2; exact h2
            · by_cases h0 : c.m_current_window.adc_integral > c.m_adc_threshold
                  ∧ c.m_trigger_on_adc = true
              · rw [if_pos h0] at h2; exact h2
              · rw [if_neg h0] at h2
                by_cases h00 : c.m_current_window.n_channels_hit > c.m_n_channels_threshold
                    ∧ c.m_trigger_on_n_channels = true
                · rw [if_pos h00] at h2; exact h2
                · rw [if_neg h00, if_pos h1] at h2; exact h2
          cases htc : construct_tc c with
          | none => rw [htc] at hemit; cases hemit
          | some tc =>
            rw [htc] at hemit
            simp only [Option.some.injEq, Prod.mk.injEq] at hemit
            obtain ⟨e1, e2⟩ := hemit
            subst e1
            exact ⟨⟨rfl, rfl, rfl, rfl, rfl, rfl, rfl, rfl⟩,
              Or.inr (Or.inl ⟨hin, hf, rfl, tc, rfl, e2.symm⟩)⟩
        · have n1 : ¬ (c.m_current_window.adc_integral > c.m_adc_threshold
              ∧ c.m_trigger_on_adc = true) := fun h0 => hf (Or.inl h0)
          have n2 : ¬ (c.m_current_window.n_channels_hit > c.m_n_channels_threshold
              ∧ c.m_trigger_on_n_channels = true) := fun h0 => hf (Or.inr (Or.inl h0))
          have n3 : ¬ (c.m_trigger_on_adjacency = true) := fun h0 => hf (Or.inr (Or.inr h0))
          rw [if_neg n1, if_neg n2, if_neg n3] at h2
          simp only [Option.some.injEq, Prod.mk.injEq] at h2
          obtain ⟨e1, e2⟩ := h2
          subst e1
          exact ⟨⟨rfl, rfl, rfl, rfl, rfl, rfl, rfl, rfl⟩,
            Or.inr (Or.inr ⟨hin, hf, rfl, e2.symm⟩)⟩
    obtain ⟨hcfg, hcases⟩ := key
    refine ⟨hcfg, ?_⟩
    rcases hcases with ⟨a, b, d⟩ | ⟨a, b, d, e⟩ | ⟨a, b, d, e⟩
    · exact Or.inr (Or.inr (Or.inl ⟨he', a, b, d⟩))
    · exact Or.inr (Or.inr (Or.inr (Or.inl ⟨he', a, b, d, e⟩)))
    · exact Or.inr (Or.inr (Or.inr (Or.inr ⟨he', a, b, d, e⟩)))

end TriggerCandidateMakerHorizontalMuon

namespace TriggerCandidateMakerHorizontalMuon

theorem construct_tc_fields (c : TriggerCandidateMakerHorizontalMuon) (tc : TriggerCandidate)
    (h : construct_tc c = some tc) :
    ∃ lastTa lastTp, c.m_current_window.ta_list.getLast? = some lastTa
      ∧ lastTa.inputs.getLast? = some lastTp
      ∧ tc.time_start = tsub c.m_current_window.time_start c.m_readout_window_ticks_before
      ∧ tc.time_candidate = c.m_current_window.time_start
      ∧ tc.time_end = (lastTp.time_start + lastTp.time_over_threshold
          + c.m_readout_window_ticks_after) % 18446744073709551616
      ∧ tc.detid = lastTa.detid
      ∧ tc.type = TCType.kHorizontalMuon ∧ tc.algorithm = TCAlgorithm.kHorizontalMuon
      ∧ tc.inputs = c.m_current_window.ta_list.map TriggerActivity.toData := by
  unfold construct_tc at h
  cases h1 : c.m_current_window.ta_list.getLast? with
  | none => rw [h1] at h; cases h
  | some lastTa =>
    rw [h1] at h
    dsimp only at h
    cases h2 : lastTa.inputs.getLast? with
    | none => rw [h2] at h; cases h
    | some lastTp =>
      rw [h2] at h
      simp only [Option.some.injEq] at h
      subst h
      exact ⟨lastTa, lastTp, rfl, h2, rfl, rfl, rfl, rfl, rfl, rfl, rfl⟩

theorem candidate_call_defined (c : TriggerCandidateMakerHorizontalMuon)
    (activity : TriggerActivity) (out : List TriggerCandidate)
    (hne : c.m_current_window.is_empty = false)
    (hw : ∀ ta ∈ c.m_current_window.ta_list, ta.inputs ≠ []) :
    ∃ c1 out1, operator_call c activity out = some (c1, out1) := by
  have hne' : c.m_current_window.ta_list ≠ [] := by
    intro h0
    simp [Window.is_empty, h0] at hne
  obtain ⟨tc, htc⟩ := construct_tc_some c hne' hw
  unfold operator_call
  rw [if_neg (by simp [hne])]
  unfold triggerChain emitAndReset
  rw [htc]
  split
  · exact ⟨_, _, rfl⟩
  · split
    · exact ⟨_, _, rfl⟩
    · split
      · exact ⟨_, _, rfl⟩
      · split
        · exact ⟨_, _, rfl⟩
        · exact ⟨_, _, rfl⟩

theorem candidateStarted_emits :
    ∃ c1 tc, operator_call candidateStarted (mkActivity 90000 1 [mkPrimitive 90000 6 1]) []
      = some (c1, [] ++ [tc]) := by
  obtain ⟨c1, out1, h⟩ := candidate_call_defined candidateStarted
    (mkActivity 90000 1 [mkPrimitive 90000 6 1]) [] (by decide) (by decide)
  rcases (candidate_call_cases _ c1 _ [] out1 h).2 with
    ⟨he, _⟩ | ⟨he, _⟩ | ⟨_, hin, _⟩ | ⟨_, _, _, _, tc, _, ho⟩ | ⟨_, _, hf, _⟩
  · exact absurd he (by decide)
  · exact absurd he (by decide)
  · exact absurd hin (by decide)
  · exact ⟨c1, tc, by rw [h, ho]⟩
  · exact absurd (Or.inr (Or.inr rfl)) hf

end TriggerCandidateMakerHorizontalMuon

namespace TriggerCandidateMakerHorizontalMuon

theorem pass_call (c : TriggerCandidateMakerHorizontalMuon) (activity : TriggerActivity)
    (out : List TriggerCandidate) (hp : passThrough c)
    (he : c.m_current_window.is_empty = true) (ha : activity.inputs ≠ []) :
    ∃ c1 tc, operator_call c activity out = some (c1, out ++ [tc])
      ∧ tc.inputs = [activity.toData]
      ∧ c1.m_current_window.is_empty = true ∧ passThrough c1 := by
  have hw : ∀ ta ∈ c.m_current_window.ta_list, ta.inputs ≠ [] := by
    intro ta hta
    have : c.m_current_window.ta_list = [] := by
      simpa [Window.is_empty] using he
    rw [this] at hta
    cases hta
  obtain ⟨c1, new, h, _⟩ := candidate_call_frame c activity out ha hw
  obtain ⟨hcfg, hcases⟩ := candidate_call_cases c c1 activity out _ h
  have hp1 : passThrough c1 := by
    obtain ⟨h1, h2, h3, _⟩ := hcfg
    unfold passThrough
    rw [h1, h2, h3]
    exact hp
  rcases hcases with
    ⟨_, _, hwin, tc, hc, ho⟩ | ⟨_, hnp, _⟩ | ⟨hne, _⟩ | ⟨hne, _⟩ | ⟨hne, _⟩
  · obtain ⟨_, _, _, _, _, _, _, _, _, _, f9⟩ := construct_tc_fields _ _ hc
    refine ⟨c1, tc, by rw [h, ho], f9, ?_, hp1⟩
    rw [hwin]
    rfl
  · exact absurd hp hnp
  · rw [he] at hne; cases hne
  · rw [he] at hne; cases hne
  · rw [he] at hne; cases hne

/-- C25: pass-through mode of the HorizontalMuon candidate maker.  When the
three trigger flags are false and the window is empty, then for every sequence
of activities with at least one primitive each there is a list of Candidates,
the i-th containing exactly the i-th activity as its only input, such that
after the first `k` calls, for every `k`, the output vector holds the first
`k` of them behind what it held before, the window is empty and the flags are
unchanged. -/
theorem pass_through (acts : List TriggerActivity) (c : TriggerCandidateMakerHorizontalMuon)
    (out : List TriggerCandidate) (hp : passThrough c)
    (he : c.m_current_window.is_empty = true) (ha : ∀ a ∈ acts, a.inputs ≠ []) :
    ∃ tcs : List TriggerCandidate,
      tcs.map (fun tc => tc.inputs) = acts.map (fun a => [a.toData])
        ∧ ∀ k, ∃ ck, feed c out (acts.take k) = some (ck, out ++ tcs.take k)
            ∧ ck.m_current_window.is_empty = true ∧ passThrough ck := by
  induction acts generalizing c out with
  | nil =>
    refine ⟨[], rfl, fun k => ⟨c, ?_, he, hp⟩⟩
    simp [feed]
  | cons a rest ih =>
    obtain ⟨c1, tc, hcall, hin, he1, hp1⟩ := pass_call c a out hp he
      (ha a (List.mem_cons_self _ _))
    obtain ⟨tcs, hmap, hk⟩ := ih c1 (out ++ [tc]) hp1 he1
      (fun b hb => ha b (List.mem_cons_of_mem _ hb))
    refine ⟨tc :: tcs, by simp only [List.map_cons, hin, hmap], fun k => ?_⟩
    cases k with
    | zero => exact ⟨c, by simp [feed], he, hp⟩
    | succ k =>
      obtain ⟨ck, hf, hek, hpk⟩ := hk k
      refine ⟨ck, ?_, hek, hpk⟩
      simp only [List.take_succ_cons, feed, hcall]
      rw [hf]
      simp

/-- C25 witness: the maker `candidateMaker` fed two activities. -/
theorem pass_through_witness :
    passThrough candidateMaker ∧ candidateMaker.m_current_window.is_empty = true
      ∧ ∃ tcs : List TriggerCandidate,
        tcs.map (fun tc => tc.inputs)
            = [exampleActivity, mkActivity 7 1 [mkPrimitive 7 6 1]].map (fun a => [a.toData])
          ∧ ∀ k, ∃ ck, feed candidateMaker []
                ([exampleActivity, mkActivity 7 1 [mkPrimitive 7 6 1]].take k)
                = some (ck, [] ++ tcs.take k)
              ∧ ck.m_current_window.is_empty = true ∧ passThrough ck :=
  ⟨by decide, by decide,
    pass_through [exampleActivity, mkActivity 7 1 [mkPrimitive 7 6 1]] candidateMaker []
      (by decide) (by decide) (by decide)⟩

end TriggerCandidateMakerHorizontalMuon

namespace TriggerCandidateMakerBundleN

theorem feed_append_bundle (m : TriggerCandidateMakerBundleN) (out : List TriggerCandidate)
    (l1 l2 : List TriggerActivity) :
    feed m out (l1 ++ l2) = (feed m out l1).bind (fun r => feed r.1 r.2 l2) := by
  induction l1 generalizing m out with
  | nil => simp [feed]
  | cons a rest ih =>
    simp only [List.cons_append, feed]
    cases h : operator_call m a out with
    | none => simp
    | some r =>
      obtain ⟨m1, out1⟩ := r
      exact ih m1 out1

/-- One call with `prescale = 1` on a maker that holds fewer than
`bundle_size` activities: the activity is appended; when that completes the
bundle, the candidate with exactly these activities is emitted and the
collection starts again from empty. -/
theorem bundle_call (m : TriggerCandidateMakerBundleN) (a : TriggerActivity)
    (out : List TriggerCandidate) (hp : m.m_prescale = 1)
    (hlt : m.m_current_tc.inputs.length < m.m_bundle_size) :
    ∃ m1 out1, operator_call m a out = some (m1, out1)
      ∧ m1.m_prescale = 1 ∧ m1.m_bundle_size = m.m_bundle_size
      ∧ (m.m_current_tc.inputs.length + 1 = m.m_bundle_size →
          m1.m_current_tc.inputs = []
            ∧ ∃ tc, out1 = out ++ [tc] ∧ tc.inputs = m.m_current_tc.inputs ++ [a.toData]
              ∧ tc.type = TCType.kBundle ∧ tc.algorithm = TCAlgorithm.kBundle)
      ∧ (m.m_current_tc.inputs.length + 1 ≠ m.m_bundle_size →
          m1.m_current_tc.inputs = m.m_current_tc.inputs ++ [a.toData] ∧ out1 = out) := by
  have hb : ¬ (m.m_bundle_size = 0 ∨ m.m_prescale = 0) := by
    rw [hp]; omega
  unfold operator_call
  dsimp only
  rw [if_neg hb, hp, Nat.mod_one, if_pos rfl]
  unfold bundle_condition
  dsimp only
  by_cases hfull : m.m_current_tc.inputs.length + 1 = m.m_bundle_size
  · have hc : (m.m_current_tc.inputs ++ [a.toData]).length = m.m_bundle_size := by
      simpa using hfull
    simp only [hc, decide_True, if_true]
    unfold emit set_tc_attributes
    dsimp only
    cases hh : (m.m_current_tc.inputs ++ [a.toData]).head? with
    | none => simp at hh
    | some front_ta =>
      cases hl : (m.m_current_tc.inputs ++ [a.toData]).getLast? with
      | none => simp at hl
      | some back_ta =>
        dsimp only
        have hz : ¬ (TriggerCandidate.blank.inputs.length > m.m_bundle_size) := by
          simp [TriggerCandidate.blank]
        rw [if_neg hz]
        exact ⟨_, _, rfl, rfl, rfl, fun _ => ⟨rfl, _, rfl, rfl, rfl, rfl⟩,
          fun hn => absurd hfull hn⟩
  · have hc : ¬ ((m.m_current_tc.inputs ++ [a.toData]).length = m.m_bundle_size) := by
      simpa using hfull
    simp only [hc, decide_False, Bool.false_eq_true, if_false]
    have hz : ¬ ((m.m_current_tc.inputs ++ [a.toData]).length > m.m_bundle_size) := by
      simp only [List.length_append, List.length_singleton]
      omega
    rw [if_neg hz]
    exact ⟨_, _, rfl, rfl, rfl, fun hy => absurd hy hfull, fun _ => ⟨rfl, rfl⟩⟩

/-- Feeding fewer activities than complete the bundle: nothing is emitted. -/
theorem bundle_partial (part : List TriggerActivity) (m : TriggerCandidateMakerBundleN)
    (out : List TriggerCandidate) (hp : m.m_prescale = 1)
    (hlt : m.m_current_tc.inputs.length + part.length < m.m_bundle_size) :
    ∃ m1, feed m out part = some (m1, out)
      ∧ m1.m_prescale = 1 ∧ m1.m_bundle_size = m.m_bundle_size
      ∧ m1.m_current_tc.inputs = m.m_current_tc.inputs ++ part.map TriggerActivity.toData := by
  induction part generalizing m with
  | nil => exact ⟨m, rfl, hp, rfl, by simp⟩
  | cons a rest ih =>
    simp only [List.length_cons] at hlt
    obtain ⟨m1, out1, hc, hp1, hb1, _, hno⟩ := bundle_call m a out hp (by omega)
    obtain ⟨hin, ho⟩ := hno (by omega)
    subst ho
    obtain ⟨m2, hf, hp2, hb2, hin2⟩ := ih m1 hp1
      (by rw [hin, hb1]; simp only [List.length_append, List.length_singleton]; omega)
    refine ⟨m2, ?_, hp2, hb2.trans hb1, ?_⟩
    · simp only [feed, hc]; exact hf
    · rw [hin2, hin]; simp

/-- Feeding exactly one bundle to a maker that holds no activity. -/
theorem bundle_full (g : List TriggerActivity) (m : TriggerCandidateMakerBundleN)
    (out : List TriggerCandidate) (hp : m.m_prescale = 1) (h1 : 1 ≤ m.m_bundle_size)
    (he : m.m_current_tc.inputs = []) (hg : g.length = m.m_bundle_size) :
    ∃ m1 tc, feed m out g = some (m1, out ++ [tc])
      ∧ m1.m_prescale = 1 ∧ m1.m_bundle_size = m.m_bundle_size
      ∧ m1.m_current_tc.inputs = [] ∧ tc.inputs = g.map TriggerActivity.toData := by
  have hne : g ≠ [] := by
    intro h0; rw [h0] at hg; simp at hg; omega
  obtain ⟨a, hgl⟩ : ∃ a, g = g.dropLast ++ [a] :=
    ⟨g.getLast hne, (List.dropLast_append_getLast hne).symm⟩
  have hlen : g.dropLast.length + 1 = m.m_bundle_size := by
    rw [List.length_dropLast, ← hg]
    have : 0 < g.length := List.length_pos.mpr hne
    omega
  obtain ⟨m1, hf, hp1, hb1, hin1⟩ := bundle_partial g.dropLast m out hp
    (by rw [he]; simp only [List.length_nil]; omega)
  rw [he, List.nil_append] at hin1
  obtain ⟨m2, out2, hc, hp2, hb2, hyes, _⟩ := bundle_call m1 a out hp1
    (by rw [hin1, hb1, List.length_map]; omega)
  obtain ⟨hin2, tc, ho, htc, _⟩ := hyes (by rw [hin1, hb1, List.length_map]; exact hlen)
  refine ⟨m2, tc, ?_, hp2, hb2.trans hb1, hin2, ?_⟩
  · rw [hgl, feed_append_bundle, hf]
    simp only [Option.some_bind, feed, hc, ho]
  · rw [htc, hin1]
    conv_rhs => rw [hgl]
    simp

/-- C27: bundle scenario with `prescale = 1` and any `bundle_size ≥ 1`, from a
maker that holds no activity.  After feeding `k` complete groups of
`bundle_size` activities followed by fewer than `bundle_size` further ones,
exactly `k` Candidates have been appended to the output vector, the j-th
containing exactly the activities of the j-th group in arrival order, and the
further activities are held for the next bundle.  So the j-th Candidate is
emitted on the call delivering activity number `j * bundle_size`, and no
Candidate is emitted on any other call. -/
theorem bundle_scenario (groups : List (List TriggerActivity)) (part : List TriggerActivity)
    (m : TriggerCandidateMakerBundleN) (out : List TriggerCandidate)
    (hp : m.m_prescale = 1) (h1 : 1 ≤ m.m_bundle_size) (he : m.m_current_tc.inputs = [])
    (hg : ∀ g ∈ groups, g.length = m.m_bundle_size) (hpart : part.length < m.m_bundle_size) :
    ∃ m1 tcs, feed m out (groups.flatten ++ part) = some (m1, out ++ tcs)
      ∧ tcs.length = groups.length
      ∧ tcs.map (fun tc => tc.inputs) = groups.map (fun g => g.map TriggerActivity.toData)
      ∧ m1.m_current_tc.inputs = part.map TriggerActivity.toData := by
  induction groups generalizing m out with
  | nil =>
    obtain ⟨m1, hf, _, _, hin⟩ := bundle_partial part m out hp
      (by rw [he]; simpa using hpart)
    refine ⟨m1, [], by simpa using hf, rfl, rfl, ?_⟩
    rw [hin, he]; rfl
  | cons g rest ih =>
    obtain ⟨m1, tc, hf, hp1, hb1, he1, htc⟩ := bundle_full g m out hp h1 he
      (hg g (List.mem_cons_self _ _))
    obtain ⟨m2, tcs, hf2, hl2, hm2, hin2⟩ := ih m1 (out ++ [tc]) hp1 (by rw [hb1]; exact h1) he1
      (fun g' hg' => by rw [hb1]; exact hg g' (List.mem_cons_of_mem _ hg'))
      (by rw [hb1]; exact hpart)
    refine ⟨m2, tc :: tcs, ?_, by simp [hl2], by simp [htc, hm2], hin2⟩
    rw [List.flatten_cons, List.append_assoc, feed_append_bundle, hf]
    simp only [Option.some_bind]
    rw [hf2]
    simp

/-- C27 witness: `bundle_size = 3`, seven activities: two complete groups and
one further activity. -/
theorem bundle_scenario_witness :
    bundleMaker.m_prescale = 1 ∧ 1 ≤ bundleMaker.m_bundle_size
      ∧ bundleMaker.m_current_tc.inputs = []
      ∧ ∃ m1 tcs, feed bundleMaker []
          ([[mkActivity 1 0 [], mkActivity 2 0 [], mkActivity 3 0 []],
              [mkActivity 4 0 [], mkActivity 5 0 [], mkActivity 6 0 []]].flatten
            ++ [mkActivity 7 0 []]) = some (m1, [] ++ tcs)
        ∧ tcs.length = 2
        ∧ tcs.map (fun tc => tc.inputs)
          = [[mkActivity 1 0 [], mkActivity 2 0 [], mkActivity 3 0 []],
              [mkActivity 4 0 [], mkActivity 5 0 [], mkActivity 6 0 []]].map
                (fun g => g.map TriggerActivity.toData)
        ∧ m1.m_current_tc.inputs = [mkActivity 7 0 []].map TriggerActivity.toData :=
  ⟨rfl, by decide, rfl,
    bundle_scenario
      [[mkActivity 1 0 [], mkActivity 2 0 [], mkActivity 3 0 []],
        [mkActivity 4 0 [], mkActivity 5 0 [], mkActivity 6 0 []]]
      [mkActivity 7 0 []] bundleMaker [] rfl (by decide) rfl (by decide) (by decide)⟩

end TriggerCandidateMakerBundleN

theorem chanCount_append (l1 l2 : List TriggerPrimitive) (c : Nat) :
    chanCount (l1 ++ l2) c = chanCount l1 c + chanCount l2 c := by
  unfold chanCount
  simp

theorem allPrimitives_append (l1 l2 : List TriggerActivity) :
    allPrimitives (l1 ++ l2) = allPrimitives l1 ++ allPrimitives l2 := by
  unfold allPrimitives
  simp

theorem allPrimitives_cons (a : TriggerActivity) (l : List TriggerActivity) :
    allPrimitives (a :: l) = a.inputs ++ allPrimitives l := by
  unfold allPrimitives
  simp

theorem adcSumActivities_append (l1 l2 : List TriggerActivity) :
    adcSumActivities (l1 ++ l2) = adcSumActivities l1 + adcSumActivities l2 := by
  unfold adcSumActivities
  simp

theorem adcSumActivities_cons (a : TriggerActivity) (l : List TriggerActivity) :
    adcSumActivities (a :: l) = a.adc_integral + adcSumActivities l := by
  unfold adcSumActivities
  simp

theorem ChannelMap.Counts.congr {m : ChannelMap} {l l1 : List TriggerPrimitive}
    (h : ChannelMap.Counts m l) (hc : ∀ c, chanCount l c = chanCount l1 c) :
    ChannelMap.Counts m l1 :=
  ⟨h.1, fun c => by rw [h.2 c, hc c]⟩

namespace TriggerCandidateMakerHorizontalMuon.Window

theorem incrChannels_counts (tps : List TriggerPrimitive) (m : ChannelMap)
    (l : List TriggerPrimitive) (h : ChannelMap.Counts m l)
    (hb : ∀ c, chanCount (l ++ tps) c < 65536) :
    ChannelMap.Counts (incrChannels m tps) (l ++ tps) := by
  induction tps generalizing m l with
  | nil => simpa [incrChannels] using h
  | cons tp rest ih =>
    have hb1 : chanCount l tp.channel + 1 < 65536 := by
      have := hb tp.channel
      rw [chanCount_append, chanCount_cons] at this
      simp only [if_true] at this
      omega
    have h1 := h.incr tp hb1
    have := ih (ChannelMap.incr m tp.channel) (l ++ [tp]) h1
      (by intro c; rw [List.append_assoc]; exact hb c)
    rw [List.append_assoc] at this
    exact this

theorem evictChannels_counts (tps : List TriggerPrimitive) (m : ChannelMap)
    (l : List TriggerPrimitive) (h : ChannelMap.Counts m (tps ++ l))
    (hb : ∀ c, chanCount (tps ++ l) c < 65536) :
    ChannelMap.Counts (evictChannels m tps) l := by
  induction tps generalizing m with
  | nil => simpa [evictChannels] using h
  | cons tp rest ih =>
    have h1 : ChannelMap.Counts
        (TriggerActivityMakerHorizontalMuon.Window.evictChannel m tp.channel) (rest ++ l) :=
      ChannelMap.Counts.evictChannel h (hb tp.channel)
    have hb1 : ∀ c, chanCount (rest ++ l) c < 65536 := by
      intro c
      have := hb c
      rw [List.cons_append, chanCount_cons] at this
      omega
    exact ih _ h1 hb1

theorem cand_evictLoop_counts (x : TriggerActivity) (L : Nat) (l : List TriggerActivity)
    (st : EvictState) (h : ChannelMap.Counts st.channel_states (allPrimitives l))
    (hb : ∀ c, chanCount (allPrimitives l) c < 65536) :
    ChannelMap.Counts (evictLoop x L l st).channel_states
      (allPrimitives (l.drop (evictCount x L l))) := by
  induction l generalizing st with
  | nil => simpa [evictLoop, evictCount] using h
  | cons ta rest ih =>
    by_cases hw : within x L ta = true
    · simpa [evictLoop, hw, evictCount, List.takeWhile] using h
    · have h' : within x L ta = false := by simpa using hw
      simp only [evictLoop, h', Bool.false_eq_true, if_false]
      have hc : evictCount x L (ta :: rest) = evictCount x L rest + 1 := by
        simp [evictCount, List.takeWhile, h']
      rw [hc, List.drop_succ_cons]
      rw [allPrimitives_cons] at h hb
      apply ih
      · exact evictChannels_counts ta.inputs _ _ h hb
      · intro c
        have := hb c
        rw [chanCount_append] at this
        omega

theorem cand_evictLoop_adc (x : TriggerActivity) (L : Nat) (l : List TriggerActivity)
    (st : EvictState) (hwf : ∀ ta ∈ l, ta.adc_integral < 18446744073709551616) :
    ((evictLoop x L l st).adc_integral + adcSumActivities (l.take (evictCount x L l)))
        % 18446744073709551616
      = st.adc_integral % 18446744073709551616 := by
  induction l generalizing st with
  | nil => simp [evictLoop, evictCount, adcSumActivities]
  | cons ta rest ih =>
    by_cases h : within x L ta = true
    · simp [evictLoop, h, evictCount, List.takeWhile, adcSumActivities]
    · have h' : within x L ta = false := by simpa using h
      have hr : ∀ ta ∈ rest, ta.adc_integral < 18446744073709551616 :=
        fun t ht => hwf t (List.mem_cons_of_mem _ ht)
      have ht : ta.adc_integral < 18446744073709551616 := hwf ta (List.mem_cons_self _ _)
      have hc : evictCount x L (ta :: rest) = evictCount x L rest + 1 := by
        simp [evictCount, List.takeWhile, h']
      simp only [evictLoop, h', Bool.false_eq_true, if_false]
      rw [hc, List.take_succ_cons, adcSumActivities_cons]
      have := ih { n_tas_to_erase := (st.n_tas_to_erase + 1) % 4294967296
                   adc_integral := (st.adc_integral + 18446744073709551616 - ta.adc_integral)
                     % 18446744073709551616
                   channel_states := evictChannels st.channel_states ta.inputs } hr
      simp only at this
      omega

end TriggerCandidateMakerHorizontalMuon.Window

namespace TriggerCandidateMakerHorizontalMuon.Window

theorem cand_evictCount_le (x : TriggerActivity) (L : Nat) (l : List TriggerActivity) :
    evictCount x L l ≤ l.length := by
  unfold evictCount
  exact (List.takeWhile_sublist _).length_le

theorem cand_evictLoop_adc_lt (x : TriggerActivity) (L : Nat) (l : List TriggerActivity)
    (st : EvictState) (h0 : st.adc_integral < 18446744073709551616) :
    (evictLoop x L l st).adc_integral < 18446744073709551616 := by
  induction l generalizing st with
  | nil => simpa [evictLoop] using h0
  | cons ta rest ih =>
    by_cases h : within x L ta = true
    · simpa [evictLoop, h] using h0
    · have h' : within x L ta = false := by simpa using h
      simp only [evictLoop, h', Bool.false_eq_true, if_false]
      exact ih _ (Nat.mod_lt _ (by norm_num))

theorem cand_evictLoop_n_eq (w : Window) (x : TriggerActivity) (L : Nat)
    (hs : w.ta_list.length < 4294967296) :
    (evictLoop x L w.ta_list
        { n_tas_to_erase := 0, adc_integral := w.adc_integral,
          channel_states := w.channel_states }).n_tas_to_erase = evictCount x L w.ta_list := by
  have h1 := ta_evictLoop_n x L w.ta_list
    { n_tas_to_erase := 0, adc_integral := w.adc_integral, channel_states := w.channel_states }
  have h2 := ta_evictLoop_n_lt x L w.ta_list
    { n_tas_to_erase := 0, adc_integral := w.adc_integral, channel_states := w.channel_states }
    (by show 0 < 4294967296; omega)
  have h3 := cand_evictCount_le x L w.ta_list
  simp only at h1
  omega

theorem Reachable.cand_holds {P : Window → Prop} {w : Window} (h : Reachable P w) : P w := by
  cases h with
  | init _ _ _ hp => exact hp
  | add _ _ _ _ hp => exact hp
  | move _ _ _ _ _ hp => exact hp
  | reset _ _ _ _ hp => exact hp

theorem consistent_reset (s : Window) (x : TriggerActivity)
    (hx : x.adc_integral < 18446744073709551616)
    (hb : ∀ c, chanCount (allPrimitives (s.reset x).ta_list) c < 65536) :
    Consistent (s.reset x) := by
  have hp : allPrimitives [x] = x.inputs := by simp [allPrimitives]
  refine ⟨?_, ?_, ?_⟩
  · simp only [reset, adcSumActivities, List.map_cons, List.map_nil, List.sum_cons,
      List.sum_nil, Nat.add_zero]
    exact (Nat.mod_eq_of_lt hx).symm
  · have := incrChannels_counts x.inputs [] [] ChannelMap.counts_nil
      (by
        intro c
        have := hb c
        simp only [reset, hp] at this
        simpa using this)
    simpa [reset, hp] using this
  · intro ta hta
    simp only [reset, List.mem_singleton] at hta
    rw [hta]; exact hx

theorem insert_chanCount (l : List TriggerActivity) (x : TriggerActivity) (k c : Nat) :
    chanCount (allPrimitives (l.take k ++ x :: l.drop k)) c
      = chanCount (allPrimitives l ++ x.inputs) c := by
  have h : chanCount (allPrimitives l) c
      = chanCount (allPrimitives (l.take k)) c + chanCount (allPrimitives (l.drop k)) c := by
    conv_lhs => rw [← List.take_append_drop k l]
    rw [allPrimitives_append, chanCount_append]
  rw [allPrimitives_append, allPrimitives_cons, chanCount_append, chanCount_append,
    chanCount_append, h]
  omega

theorem insert_adcSum (l : List TriggerActivity) (x : TriggerActivity) (k : Nat) :
    adcSumActivities (l.take k ++ x :: l.drop k) = adcSumActivities l + x.adc_integral := by
  have h : adcSumActivities l
      = adcSumActivities (l.take k) + adcSumActivities (l.drop k) := by
    conv_lhs => rw [← List.take_append_drop k l]
    rw [adcSumActivities_append]
  rw [adcSumActivities_append, adcSumActivities_cons, h]
  omega

theorem consistent_add (w : Window) (x : TriggerActivity) (h : Consistent w)
    (hx : x.adc_integral < 18446744073709551616)
    (hb : ∀ c, chanCount (allPrimitives (w.add x).ta_list) c < 65536) :
    Consistent (w.add x) := by
  obtain ⟨hadc, hcs, hin⟩ := h
  refine ⟨?_, ?_, ?_⟩
  · simp only [add, insert_adcSum, hadc]
    omega
  · have hb1 : ∀ c, chanCount (allPrimitives w.ta_list ++ x.inputs) c < 65536 := by
      intro c
      have := hb c
      simp only [add, insert_chanCount] at this
      exact this
    have := incrChannels_counts x.inputs _ _ hcs hb1
    exact this.congr (fun c => by simp only [add, insert_chanCount])
  · intro ta hta
    simp only [add, List.mem_append, List.mem_cons] at hta
    rcases hta with h1 | h1 | h1
    · exact hin ta (List.mem_of_mem_take h1)
    · rw [h1]; exact hx
    · exact hin ta (List.mem_of_mem_drop h1)

theorem consistent_move (w : Window) (x : TriggerActivity) (L : Nat) (h : Consistent w)
    (hx : x.adc_integral < 18446744073709551616) (hw : Bounded w)
    (hb : ∀ c, chanCount (allPrimitives (w.move x L).ta_list) c < 65536) :
    Consistent (w.move x L) := by
  obtain ⟨hadc, hcs, hin⟩ := h
  have hn := cand_evictLoop_n_eq w x L hw.1
  have h1 := cand_evictLoop_adc x L w.ta_list
    ⟨0, w.adc_integral, w.channel_states⟩ hin
  have h2 := cand_evictLoop_adc_lt x L w.ta_list ⟨0, w.adc_integral, w.channel_states⟩
    (by show w.adc_integral < _; rw [hadc]; exact Nat.mod_lt _ (by norm_num))
  have h3 := cand_evictLoop_counts x L w.ta_list ⟨0, w.adc_integral, w.channel_states⟩ hcs hw.2
  have hsplit : adcSumActivities w.ta_list
      = adcSumActivities (w.ta_list.take (evictCount x L w.ta_list))
        + adcSumActivities (w.ta_list.drop (evictCount x L w.ta_list)) := by
    conv_lhs => rw [← List.take_append_drop (evictCount x L w.ta_list) w.ta_list]
    rw [adcSumActivities_append]
  have hadc' : (evictLoop x L w.ta_list ⟨0, w.adc_integral, w.channel_states⟩).adc_integral
      = adcSumActivities (w.ta_list.drop (evictCount x L w.ta_list))
        % 18446744073709551616 := by
    simp only at h1 h2
    generalize (evictLoop x L w.ta_list ⟨0, w.adc_integral, w.channel_states⟩).adc_integral
      = r at h1 h2
    rw [hadc, hsplit] at h1
    omega
  have hc1 : ∀ t : Nat, Consistent
      { time_start := t
        adc_integral := (evictLoop x L w.ta_list ⟨0, w.adc_integral, w.channel_states⟩).adc_integral
        channel_states :=
          (evictLoop x L w.ta_list ⟨0, w.adc_integral, w.channel_states⟩).channel_states
        ta_list := w.ta_list.drop (evictCount x L w.ta_list) } := by
    intro t
    exact ⟨hadc', h3, fun ta hta => hin ta (List.mem_of_mem_drop hta)⟩
  unfold move at hb ⊢
  simp only [hn] at hb ⊢
  cases hd : w.ta_list.drop (evictCount x L w.ta_list) with
  | nil =>
    rw [hd] at hb hc1
    exact consistent_add _ x (hc1 w.time_start) hx hb
  | cons front rest =>
    rw [hd] at hb hc1
    exact consistent_add _ x (hc1 front.time_start) hx hb

theorem reachable_consistent {w : Window} (h : Reachable Bounded w) : Consistent w := by
  induction h with
  | init s a0 hx hp => exact consistent_reset s a0 hx.2.1 hp.2
  | add w x _ hx hp ih => exact consistent_add w x ih hx.2.1 hp.2
  | move w x L hw hx hp ih => exact consistent_move w x L ih hx.2.1 hw.cand_holds hp.2
  | reset w x _ hx hp _ => exact consistent_reset w x hx.2.1 hp.2

theorem cand_bounded_of_length (w : Window) (h1 : w.ta_list.length < 4294967296)
    (h2 : (allPrimitives w.ta_list).length < 65536) : Bounded w :=
  ⟨h1, fun c => lt_of_le_of_lt
    (TriggerActivityMakerHorizontalMuon.Window.chanCount_le_length _ c) h2⟩

/-- C30 (amended): in every state of the candidate-maker window reached from
`reset(a0)` by a finite sequence of `add`, `move` and `reset` calls during
which the window always holds fewer than 2^32 activities and fewer than 65536
primitives on any one channel, `adc_integral` equals the sum of `adc_integral`
over the held activities modulo 2^64, `channel_states` has exactly one entry
per distinct channel occurring among the primitives of all held activities,
mapped to the number of such primitives, and `n_channels_hit()` equals the
number of distinct channels modulo 65536. -/
theorem candidate_window_consistent (w : Window) (h : Reachable Bounded w) :
    w.adc_integral = adcSumActivities w.ta_list % 18446744073709551616
      ∧ ChannelMap.Counts w.channel_states (allPrimitives w.ta_list)
      ∧ w.n_channels_hit = distinctChannels (allPrimitives w.ta_list) % 65536 := by
  obtain ⟨h1, h2, _⟩ := reachable_consistent h
  refine ⟨h1, h2, ?_⟩
  unfold n_channels_hit
  rw [ChannelMap.Counts.size_eq h2]

theorem singleWindow_move_reachable :
    Reachable Bounded (singleWindow.move (mkActivity 100 9 [mkPrimitive 100 2 9]) 10) :=
  Reachable.move _ _ _
    (Reachable.init _ _ (by decide) (cand_bounded_of_length _ (by decide) (by decide)))
    (by decide) (cand_bounded_of_length _ (by decide) (by decide))

/-- C30 witness: the window after `reset(a0)` and a `move` that evicts `a0`. -/
theorem candidate_window_consistent_witness :
    Reachable Bounded (singleWindow.move (mkActivity 100 9 [mkPrimitive 100 2 9]) 10)
      ∧ (singleWindow.move (mkActivity 100 9 [mkPrimitive 100 2 9]) 10).ta_list
          = [mkActivity 100 9 [mkPrimitive 100 2 9]]
      ∧ (singleWindow.move (mkActivity 100 9 [mkPrimitive 100 2 9]) 10).adc_integral
          = adcSumActivities
              (singleWindow.move (mkActivity 100 9 [mkPrimitive 100 2 9]) 10).ta_list
            % 18446744073709551616
      ∧ ChannelMap.Counts
          (singleWindow.move (mkActivity 100 9 [mkPrimitive 100 2 9]) 10).channel_states
          (allPrimitives (singleWindow.move (mkActivity 100 9 [mkPrimitive 100 2 9]) 10).ta_list)
      ∧ (singleWindow.move (mkActivity 100 9 [mkPrimitive 100 2 9]) 10).n_channels_hit
          = distinctChannels
              (allPrimitives
                (singleWindow.move (mkActivity 100 9 [mkPrimitive 100 2 9]) 10).ta_list)
            % 65536 :=
  ⟨singleWindow_move_reachable, by decide,
    candidate_window_consistent _ singleWindow_move_reachable⟩

end TriggerCandidateMakerHorizontalMuon.Window

namespace TriggerCandidateMakerHorizontalMuon.Window

theorem insert_replicate (a : TriggerActivity) (m k : Nat) :
    (List.replicate m a).take k ++ a :: (List.replicate m a).drop k
      = List.replicate (m + 1) a := by
  rw [List.eq_replicate_iff]
  constructor
  · simp only [List.take_replicate, List.drop_replicate, List.length_append,
      List.length_replicate, List.length_cons]
    omega
  · intro b hb
    simp only [List.take_replicate, List.drop_replicate, List.mem_append, List.mem_cons] at hb
    rcases hb with h | h | h
    · exact (List.mem_replicate.mp h).2
    · exact h
    · exact (List.mem_replicate.mp h).2

theorem repeatWindow_fields (n : Nat) :
    (repeatWindow unitActivity n).ta_list = List.replicate (n + 1) unitActivity
      ∧ (repeatWindow unitActivity n).adc_integral = (n + 1) % 18446744073709551616
      ∧ (repeatWindow unitActivity n).channel_states = [] := by
  induction n with
  | zero => exact ⟨rfl, rfl, rfl⟩
  | succ n ih =>
    obtain ⟨h1, h2, h3⟩ := ih
    rw [repeatWindow]
    refine ⟨?_, ?_, ?_⟩
    · simp only [add, h1, insert_replicate]
    · simp only [add, h2]
      have : unitActivity.adc_integral = 1 := rfl
      rw [this]
      omega
    · simp only [add, h3]
      rfl

theorem repeatWindow_reachable (n : Nat) :
    Reachable (fun _ => True) (repeatWindow unitActivity n) := by
  induction n with
  | zero => exact Reachable.init _ _ (by decide) trivial
  | succ n ih => exact Reachable.add _ _ ih (by decide) trivial

theorem adcSum_replicate (m : Nat) :
    adcSumActivities (List.replicate m unitActivity) = m := by
  have : unitActivity.adc_integral = 1 := rfl
  simp [adcSumActivities, List.map_replicate, List.sum_replicate, this]

theorem repeat_move (n : Nat) (hn : n + 1 = 4294967296) :
    ((repeatWindow unitActivity n).move (mkActivity 1 0 []) 1).adc_integral = 0
      ∧ adcSumActivities ((repeatWindow unitActivity n).move (mkActivity 1 0 []) 1).ta_list
          = n + 1 := by
  obtain ⟨h1, h2, h3⟩ := repeatWindow_fields n
  have hout : ∀ e ∈ (repeatWindow unitActivity n).ta_list,
      within (mkActivity 1 0 []) 1 e = false := by
    intro e he
    rw [h1] at he
    rw [(List.mem_replicate.mp he).2]
    decide
  have hcount := ta_evictCount_all_out (mkActivity 1 0 []) 1 _ hout
  have hlen : (repeatWindow unitActivity n).ta_list.length = n + 1 := by
    rw [h1, List.length_replicate]
  have e1 := ta_evictLoop_n (mkActivity 1 0 []) 1 (repeatWindow unitActivity n).ta_list
    ⟨0, (repeatWindow unitActivity n).adc_integral, (repeatWindow unitActivity n).channel_states⟩
  have e2 := ta_evictLoop_n_lt (mkActivity 1 0 []) 1 (repeatWindow unitActivity n).ta_list
    ⟨0, (repeatWindow unitActivity n).adc_integral, (repeatWindow unitActivity n).channel_states⟩
    (by show 0 < 4294967296; omega)
  have hzero : (evictLoop (mkActivity 1 0 []) 1 (repeatWindow unitActivity n).ta_list
      ⟨0, (repeatWindow unitActivity n).adc_integral,
        (repeatWindow unitActivity n).channel_states⟩).n_tas_to_erase = 0 := by
    rw [hcount, hlen] at e1
    simp only at e1
    omega
  have a1 := cand_evictLoop_adc (mkActivity 1 0 []) 1 (repeatWindow unitActivity n).ta_list
    ⟨0, (repeatWindow unitActivity n).adc_integral, (repeatWindow unitActivity n).channel_states⟩
    (by
      intro ta hta
      rw [h1] at hta
      rw [(List.mem_replicate.mp hta).2]
      decide)
  have a2 := cand_evictLoop_adc_lt (mkActivity 1 0 []) 1 (repeatWindow unitActivity n).ta_list
    ⟨0, (repeatWindow unitActivity n).adc_integral, (repeatWindow unitActivity n).channel_states⟩
    (by show (repeatWindow unitActivity n).adc_integral < _; rw [h2];
        exact Nat.mod_lt _ (by norm_num))
  rw [hcount, List.take_length, h1, adcSum_replicate] at a1
  have hadc : (evictLoop (mkActivity 1 0 []) 1 (repeatWindow unitActivity n).ta_list
      ⟨0, (repeatWindow unitActivity n).adc_integral,
        (repeatWindow unitActivity n).channel_states⟩).adc_integral = 0 := by
    rw [← h1] at a1
    simp only at a1 a2
    generalize (evictLoop (mkActivity 1 0 []) 1 (repeatWindow unitActivity n).ta_list
      ⟨0, (repeatWindow unitActivity n).adc_integral,
        (repeatWindow unitActivity n).channel_states⟩).adc_integral = r at a1 a2
    rw [h2] at a1
    omega
  unfold move
  simp only [hzero, hadc, List.drop_zero]
  rw [h1]
  simp only [List.replicate_succ]
  have hx : (mkActivity 1 0 []).adc_integral = 0 := rfl
  refine ⟨by simp only [add, hx], ?_⟩
  simp only [add, insert_adcSum, hx, adcSumActivities_cons, adcSum_replicate]
  have : unitActivity.adc_integral = 1 := rfl
  omega

theorem incrChannels_stacked (k v : Nat) :
    incrChannels [(0, v)] (List.replicate k (mkPrimitive 0 0 0)) = [(0, (v + k) % 65536)]
      ∨ (k = 0 ∧ incrChannels [(0, v)] (List.replicate k (mkPrimitive 0 0 0)) = [(0, v)]) := by
  induction k generalizing v with
  | zero => exact Or.inr ⟨rfl, rfl⟩
  | succ k ih =>
    left
    have hstep : ChannelMap.incr [(0, v)] (mkPrimitive 0 0 0).channel = [(0, (v + 1) % 65536)] := by
      simp [ChannelMap.incr, ChannelMap.put, ChannelMap.get, ChannelMap.find, ChannelMap.erase,
        mkPrimitive]
    simp only [List.replicate_succ, incrChannels, List.foldl_cons, hstep]
    rcases ih ((v + 1) % 65536) with h | ⟨h0, h⟩
    · simp only [incrChannels] at h
      rw [h]
      congr 2
      omega
    · simp only [incrChannels] at h
      rw [h, h0]

theorem stacked_reset (k : Nat) :
    (emptyWindow.reset (stackedActivity (k + 1))).channel_states = [(0, (k + 1) % 65536)]
      ∧ chanCount (allPrimitives (emptyWindow.reset (stackedActivity (k + 1))).ta_list) 0
          = k + 1
      ∧ Reachable (fun _ => True) (emptyWindow.reset (stackedActivity (k + 1))) := by
  refine ⟨?_, ?_, ?_⟩
  · have h0 : ChannelMap.incr [] (mkPrimitive 0 0 0).channel = [(0, 1)] := by
      simp [ChannelMap.incr, ChannelMap.put, ChannelMap.get, ChannelMap.find, ChannelMap.erase,
        mkPrimitive]
    simp only [reset, stackedActivity, mkActivity, List.replicate_succ, incrChannels,
      List.foldl_cons, h0]
    rcases incrChannels_stacked k 1 with h | ⟨hk, h⟩
    · simp only [incrChannels] at h
      rw [h]
      congr 2
      omega
    · simp only [incrChannels] at h
      rw [h, hk]
  · simp [reset, stackedActivity, mkActivity, allPrimitives, chanCount, List.map_replicate,
      mkPrimitive]
  · refine Reachable.init _ _ ⟨?_, ?_, ?_⟩ trivial
    · show 0 < 18446744073709551616
      norm_num
    · show 0 < 18446744073709551616
      norm_num
    intro tp htp
    simp only [stackedActivity, mkActivity] at htp
    rw [(List.mem_replicate.mp htp).2]
    decide

theorem wide_reset (n : Nat) (hn : n ≤ 65535) :
    Reachable Bounded (emptyWindow.reset (wideActivity n))
      ∧ distinctChannels (allPrimitives (emptyWindow.reset (wideActivity n)).ta_list) = n + 1
      ∧ (emptyWindow.reset (wideActivity n)).n_channels_hit = (n + 1) % 65536 := by
  have hp : allPrimitives (emptyWindow.reset (wideActivity n)).ta_list
      = (TriggerActivityMakerHorizontalMuon.Window.growWindow chanPrimitive n).inputs := by
    rw [TriggerActivityMakerHorizontalMuon.Window.growWindow_inputs]
    simp [reset, wideActivity, mkActivity, allPrimitives]
  have hr : Reachable Bounded (emptyWindow.reset (wideActivity n)) := by
    refine Reachable.init _ _ ⟨?_, ?_, ?_⟩ ⟨by simp [reset], fun c => ?_⟩
    · show 0 < 18446744073709551616
      norm_num
    · show 0 < 18446744073709551616
      norm_num
    · intro tp htp
      simp only [wideActivity, mkActivity, List.mem_map, List.mem_range] at htp
      obtain ⟨i, hi, rfl⟩ := htp
      exact TriggerActivityMakerHorizontalMuon.Window.chan_wf i (by omega)
    · rw [hp]
      exact TriggerActivityMakerHorizontalMuon.Window.chan_hitsBounded n c
  have hd : distinctChannels (allPrimitives (emptyWindow.reset (wideActivity n)).ta_list)
      = n + 1 := by
    rw [hp]
    exact TriggerActivityMakerHorizontalMuon.Window.chan_distinct n
  refine ⟨hr, hd, ?_⟩
  unfold n_channels_hit
  rw [ChannelMap.Counts.size_eq (reachable_consistent hr).2.1, hd]

/-- C30 counterexample, in four parts.  (1) After `reset` with an activity of
ADC integral 2^64 − 1 and `add` of one with ADC integral 1 the `uint64_t`
accumulator is 0 while the held activities sum to 2^64.  (2) After `reset`,
2^32 − 1 calls of `add` and a `move` that evicts all 2^32 held activities, the
`uint32_t` counter `n_tas_to_erase` has wrapped to 0 and nothing is erased:
the accumulator is 0 while the held activities sum to 2^32.  (3) After `reset`
with an activity of 65536 primitives on channel 0 the `uint16_t` count of
channel 0 is 0, not 65536.  (4) After `reset` with an activity of one
primitive on each of the channels 0 to 65535, `n_channels_hit()` returns 0
while 65536 distinct channels are held. -/
theorem candidate_window_counterexample :
    ((emptyWindow.reset (mkActivity 0 18446744073709551615 [])).add unitActivity).adc_integral = 0
      ∧ adcSumActivities
          ((emptyWindow.reset (mkActivity 0 18446744073709551615 [])).add unitActivity).ta_list
          = 18446744073709551616
      ∧ ((repeatWindow unitActivity 4294967295).move (mkActivity 1 0 []) 1).adc_integral = 0
      ∧ adcSumActivities ((repeatWindow unitActivity 4294967295).move (mkActivity 1 0 []) 1).ta_list
          = 4294967295 + 1
      ∧ (emptyWindow.reset (stackedActivity (65535 + 1))).channel_states = [(0, 0)]
      ∧ chanCount (allPrimitives (emptyWindow.reset (stackedActivity (65535 + 1))).ta_list) 0
          = 65535 + 1
      ∧ (emptyWindow.reset (wideActivity 65535)).n_channels_hit = 0
      ∧ distinctChannels (allPrimitives (emptyWindow.reset (wideActivity 65535)).ta_list)
          = 65535 + 1 := by
  obtain ⟨m1, m2⟩ := repeat_move 4294967295 (by norm_num)
  obtain ⟨s1, s2, _⟩ := stacked_reset 65535
  obtain ⟨_, w2, w3⟩ := wide_reset 65535 (by norm_num)
  exact ⟨by decide, by decide, m1, m2, s1, s2, w3, w2⟩

end TriggerCandidateMakerHorizontalMuon.Window

namespace TriggerActivityMakerMichelElectron

theorem check_bragg_peak_eq (m : TriggerActivityMakerMichelElectron) (st : TrackState)
    (c : ℚ) (cs : List ℚ) (hw : trackWalk m = some st) (hlen : st.finalHits.length ≤ 65521)
    (hc : charge_dumps st.finalHits = c :: cs) :
    check_bragg_peak m
      = some (decide (max_charge c cs = c
          ∨ (st.max : ℚ) = (c :: cs).getLast (List.cons_ne_nil c cs))) := by
  unfold check_bragg_peak
  simp only [hw]
  rw [if_neg (by omega)]
  simp only [hc]

theorem check_bragg_peak_none (m : TriggerActivityMakerMichelElectron)
    (h : ∀ st, trackWalk m = some st → charge_dumps st.finalHits = []) :
    check_bragg_peak m = none := by
  unfold check_bragg_peak
  cases hw : trackWalk m with
  | none => rfl
  | some st =>
    simp only
    by_cases hl : 65521 < st.finalHits.length
    · rw [if_pos hl]
    · rw [if_neg hl]
      simp only [h st hw]

theorem clusterStep_closed (p a : ℚ) (l : List ℚ) (h : a ≤ p) :
    clusterStep p { charge := 0, charge_dumps := l } a = { charge := 0, charge_dumps := l } := by
  unfold clusterStep
  rw [if_neg (not_lt.mpr h), if_neg (by simp)]

theorem foldl_closed (p : ℚ) (l : List ℚ) (pre : List ℚ) (h : ∀ a ∈ pre, a ≤ p) :
    pre.foldl (clusterStep p) { charge := 0, charge_dumps := l }
      = { charge := 0, charge_dumps := l } := by
  induction pre with
  | nil => rfl
  | cons a pre ih =>
    rw [List.foldl_cons, clusterStep_closed p a l (h a (List.mem_cons_self _ _))]
    exact ih (fun b hb => h b (List.mem_cons_of_mem _ hb))

theorem foldl_open (p : ℚ) (suf : List ℚ) (st : ClusterState) (h : ∀ a ∈ suf, p ≤ a) :
    (suf.foldl (clusterStep p) st).charge_dumps = st.charge_dumps := by
  induction suf generalizing st with
  | nil => rfl
  | cons a suf ih =>
    rw [List.foldl_cons, ih _ (fun b hb => h b (List.mem_cons_of_mem _ hb))]
    unfold clusterStep
    have ha := h a (List.mem_cons_self _ _)
    by_cases h1 : a > p
    · rw [if_pos h1]
    · rw [if_neg h1, if_neg (fun hh => absurd hh.1 (not_lt.mpr ha))]

/-- A series of running means that stays at or below the baseline and then at
or above it closes no cluster. -/
theorem charge_dumps_open (hits : List Hit) (pre suf : List ℚ)
    (hm : adc_means_list3 hits = pre ++ suf)
    (hpre : ∀ a ∈ pre, a ≤ ped (adc_means_list3 hits))
    (hsuf : ∀ a ∈ suf, ped (adc_means_list3 hits) ≤ a) :
    charge_dumps hits = [] := by
  unfold charge_dumps
  generalize ped (adc_means_list3 hits) = p at hpre hsuf
  rw [hm, List.foldl_append, foldl_closed p [] pre hpre, foldl_open p suf _ hsuf]

theorem runningMean_uniform (hits : List Hit) (v i : Nat) (h : ∀ x ∈ hits, x.adc = v)
    (hi : i < hits.length) : runningMean 8 hits i = v := by
  have hk : ∀ k, (hits.getD ((i + k) % hits.length) ⟨0, 0, 0⟩).adc = v := by
    intro k
    have hlt : (i + k) % hits.length < hits.length := Nat.mod_lt _ (by omega)
    rw [List.getD_eq_getElem _ _ hlt]
    exact h _ (List.getElem_mem _)
  unfold runningMean
  simp only [hk]
  simp [List.range, List.range.loop]
  ring

theorem adc_means_uniform (hits : List Hit) (v : Nat) (h : ∀ x ∈ hits, x.adc = v) :
    adc_means_list3 hits = List.replicate hits.length (v : ℚ) := by
  unfold adc_means_list3
  rw [List.eq_replicate_iff]
  refine ⟨by simp, ?_⟩
  intro b hb
  obtain ⟨i, hi, rfl⟩ := List.mem_map.mp hb
  exact runningMean_uniform hits v i h (List.mem_range.mp hi)

/-- Hits that all carry the same ADC value close no cluster. -/
theorem charge_dumps_uniform (hits : List Hit) (v : Nat) (h : ∀ x ∈ hits, x.adc = v) :
    charge_dumps hits = [] := by
  refine charge_dumps_open hits (adc_means_list3 hits) [] (by simp) ?_ (by simp)
  intro a ha
  rw [adc_means_uniform hits v h] at ha ⊢
  have hv := (List.mem_replicate.mp ha).2
  have hn : hits.length ≠ 0 := (List.mem_replicate.mp ha).1
  unfold ped
  rw [List.sum_replicate, List.length_replicate, hv, nsmul_eq_mul,
    mul_div_cancel_left₀ _ (Nat.cast_ne_zero.mpr hn)]

theorem trackWalk_single (m : TriggerActivityMakerMichelElectron) (tp : TriggerPrimitive)
    (h : m.m_current_window.inputs = [tp]) :
    ∃ st, trackWalk m = some st ∧ charge_dumps st.finalHits = [] := by
  unfold trackWalk chanList
  rw [h]
  simp only [List.map_cons, List.map_nil, List.insertionSort, List.orderedInsert, hitPairs,
    List.rotate_singleton, List.zip_cons_cons, List.zip_nil_right, trackLoop]
  by_cases h0 : tp.channel = 0
  · refine ⟨⟨1, 1, 0, [], [⟨tp.channel, tp.time_start, tp.adc_integral⟩]⟩, ?_, ?_⟩
    · simp [trackStep, h0]
    · exact charge_dumps_uniform _ tp.adc_integral (by simp)
  · refine ⟨⟨1, 0, 0, [⟨tp.channel, tp.time_start, tp.adc_integral⟩,
      ⟨tp.channel, tp.time_start, tp.adc_integral⟩], []⟩, ?_, ?_⟩
    · simp [trackStep, h0, nearInTime, TriggerActivityMakerHorizontalMuon.tsub_self]
    · rfl

/-- C23 (behaviour of the code): whenever the track walk leaves a hit list
whose cluster list `charge_dumps` is empty, `check_bragg_peak` does not return
a value (the source dereferences `max_element` of the empty list); it does not
return false.  This is the case for a window of a single primitive, for track
hits that all carry the same ADC value, and for running means that stay at or
below the baseline and then at or above it to the end of the series. -/
theorem empty_clusters_undefined (m : TriggerActivityMakerMichelElectron) :
    ((∀ st, trackWalk m = some st → charge_dumps st.finalHits = []) →
        check_bragg_peak m = none)
      ∧ (∀ tp, m.m_current_window.inputs = [tp] → check_bragg_peak m = none)
      ∧ (∀ st v, trackWalk m = some st → (∀ x ∈ st.finalHits, x.adc = v) →
          check_bragg_peak m = none)
      ∧ (∀ st pre suf, trackWalk m = some st → adc_means_list3 st.finalHits = pre ++ suf →
          (∀ a ∈ pre, a ≤ ped (adc_means_list3 st.finalHits)) →
          (∀ a ∈ suf, ped (adc_means_list3 st.finalHits) ≤ a) →
          check_bragg_peak m = none) := by
  refine ⟨check_bragg_peak_none m, ?_, ?_, ?_⟩
  · intro tp h
    obtain ⟨st, hw, hc⟩ := trackWalk_single m tp h
    refine check_bragg_peak_none m (fun st1 h1 => ?_)
    rw [hw] at h1
    cases h1
    exact hc
  · intro st v hw hu
    refine check_bragg_peak_none m (fun st1 h1 => ?_)
    rw [hw] at h1
    cases h1
    exact charge_dumps_uniform _ v hu
  · intro st pre suf hw hm hpre hsuf
    refine check_bragg_peak_none m (fun st1 h1 => ?_)
    rw [hw] at h1
    cases h1
    exact charge_dumps_open _ pre suf hm hpre hsuf

theorem twoCluster_walk :
    trackWalk (braggMaker twoClusterTrack)
      = some ⟨1, 5, 0, [], [⟨1, 0, 16⟩, ⟨2, 0, 8⟩, ⟨3, 0, 32⟩, ⟨4, 0, 8⟩, ⟨5, 0, 24⟩]⟩ := by
  decide

theorem twoCluster_dumps :
    charge_dumps [⟨1, 0, 16⟩, ⟨2, 0, 8⟩, ⟨3, 0, 32⟩, ⟨4, 0, 8⟩, ⟨5, 0, 24⟩] = [18, 19] := by
  have h : adc_means_list3 [⟨1, 0, 16⟩, ⟨2, 0, 8⟩, ⟨3, 0, 32⟩, ⟨4, 0, 8⟩, ⟨5, 0, 24⟩]
      = [18, 17, 19, 17, 17] := by
    simp [adc_means_list3, runningMean, List.range, List.range.loop]
    norm_num
  rw [charge_dumps, h]
  norm_num [ped, clusterStep]

theorem threeCluster_walk :
    trackWalk (braggMaker threeClusterTrack)
      = some ⟨1, 7, 0, [], [⟨1, 0, 0⟩, ⟨2, 0, 16⟩, ⟨3, 0, 0⟩, ⟨4, 0, 24⟩, ⟨5, 0, 0⟩, ⟨6, 0, 8⟩,
          ⟨7, 0, 0⟩]⟩ := by
  decide

theorem threeCluster_dumps :
    charge_dumps [⟨1, 0, 0⟩, ⟨2, 0, 16⟩, ⟨3, 0, 0⟩, ⟨4, 0, 24⟩, ⟨5, 0, 0⟩, ⟨6, 0, 8⟩, ⟨7, 0, 0⟩]
      = [8, 9, 7] := by
  have h : adc_means_list3
      [⟨1, 0, 0⟩, ⟨2, 0, 16⟩, ⟨3, 0, 0⟩, ⟨4, 0, 24⟩, ⟨5, 0, 0⟩, ⟨6, 0, 8⟩, ⟨7, 0, 0⟩]
      = [6, 8, 6, 9, 6, 7, 6] := by
    simp [adc_means_list3, runningMean, List.range, List.range.loop]
    norm_num
  rw [charge_dumps, h]
  norm_num [ped, clusterStep]

theorem uniform_walk :
    trackWalk (braggMaker uniformTrack)
      = some ⟨1, 3, 0, [], [⟨1, 0, 5⟩, ⟨2, 0, 5⟩, ⟨3, 0, 5⟩]⟩ := by
  decide

theorem rising_walk :
    trackWalk (braggMaker risingTrack)
      = some ⟨1, 3, 0, [], [⟨1, 0, 8⟩, ⟨2, 0, 8⟩, ⟨3, 0, 16⟩]⟩ := by
  decide

theorem rising_means :
    adc_means_list3 [⟨1, 0, 8⟩, ⟨2, 0, 8⟩, ⟨3, 0, 16⟩] = [10] ++ [11, 11] := by
  simp [adc_means_list3, runningMean, List.range, List.range.loop]
  norm_num

/-- C22 (behaviour of the code): when the track walk returns the state `st`,
the loops over the running means end and the cluster list is `c :: cs`,
`check_bragg_peak` returns true iff the largest cluster equals the first
cluster or the adjacency maximum `max` of the track walk (not the largest
cluster) equals the last cluster.  So it returns false when the largest cluster
is not the first one and `max` differs from the last cluster, also when the
largest cluster is the last one; and it returns true when `max` equals the last
cluster, wherever the largest cluster is. -/
theorem bragg_peak_compares_adjacency (m : TriggerActivityMakerMichelElectron) (st : TrackState)
    (c : ℚ) (cs : List ℚ) (hw : trackWalk m = some st) (hlen : st.finalHits.length ≤ 65521)
    (hc : charge_dumps st.finalHits = c :: cs) :
    check_bragg_peak m
        = some (decide (max_charge c cs = c
            ∨ (st.max : ℚ) = (c :: cs).getLast (List.cons_ne_nil c cs)))
      ∧ (max_charge c cs ≠ c → (st.max : ℚ) ≠ (c :: cs).getLast (List.cons_ne_nil c cs) →
          check_bragg_peak m = some false)
      ∧ ((st.max : ℚ) = (c :: cs).getLast (List.cons_ne_nil c cs) →
          check_bragg_peak m = some true) := by
  have h := check_bragg_peak_eq m st c cs hw hlen hc
  refine ⟨h, ?_, ?_⟩
  · intro h1 h2
    rw [h]
    simp [h1, h2]
  · intro h1
    rw [h]
    simp [h1]

/-- On the track of `twoClusterTrack` the clusters are 18 and 19: the largest
one is the last, and `check_bragg_peak` returns false (`max` is 5).  On the
track of `threeClusterTrack` the clusters are 8, 9 and 7: the largest one is in
the middle, and `check_bragg_peak` returns true (`max` is 7, the last
cluster). -/
theorem bragg_peak_compares_adjacency_witness :
    trackWalk (braggMaker twoClusterTrack)
        = some ⟨1, 5, 0, [], [⟨1, 0, 16⟩, ⟨2, 0, 8⟩, ⟨3, 0, 32⟩, ⟨4, 0, 8⟩, ⟨5, 0, 24⟩]⟩
      ∧ charge_dumps [⟨1, 0, 16⟩, ⟨2, 0, 8⟩, ⟨3, 0, 32⟩, ⟨4, 0, 8⟩, ⟨5, 0, 24⟩] = [18, 19]
      ∧ specPeakSignal [18, 19] = true
      ∧ check_bragg_peak (braggMaker twoClusterTrack) = some false
      ∧ trackWalk (braggMaker threeClusterTrack)
          = some ⟨1, 7, 0, [], [⟨1, 0, 0⟩, ⟨2, 0, 16⟩, ⟨3, 0, 0⟩, ⟨4, 0, 24⟩, ⟨5, 0, 0⟩,
              ⟨6, 0, 8⟩, ⟨7, 0, 0⟩]⟩
      ∧ charge_dumps
          [⟨1, 0, 0⟩, ⟨2, 0, 16⟩, ⟨3, 0, 0⟩, ⟨4, 0, 24⟩, ⟨5, 0, 0⟩, ⟨6, 0, 8⟩, ⟨7, 0, 0⟩]
          = [8, 9, 7]
      ∧ specPeakSignal [8, 9, 7] = false
      ∧ check_bragg_peak (braggMaker threeClusterTrack) = some true :=
  ⟨twoCluster_walk, twoCluster_dumps, by norm_num [specPeakSignal, max_charge],
    (bragg_peak_compares_adjacency (braggMaker twoClusterTrack) _ 18 [19] twoCluster_walk
      (by decide) twoCluster_dumps).2.1 (by norm_num [max_charge]) (by norm_num),
    threeCluster_walk, threeCluster_dumps, by norm_num [specPeakSignal, max_charge],
    (bragg_peak_compares_adjacency (braggMaker threeClusterTrack) _ 8 [9, 7] threeCluster_walk
      (by decide) threeCluster_dumps).2.2 (by norm_num)⟩

/-- The three degenerate cases on examples: one primitive on channel 7; three
hits with ADC 5 each; three hits whose running means 10, 11, 11 rise above the
baseline 32/3 and stay there.  In each, `check_bragg_peak` returns no value. -/
theorem empty_clusters_undefined_witness :
    (∀ st, trackWalk (braggMaker [mkPrimitive 0 7 5]) = some st → charge_dumps st.finalHits = [])
      ∧ check_bragg_peak (braggMaker [mkPrimitive 0 7 5]) = none
      ∧ (braggMaker [mkPrimitive 40 0 5]).m_current_window.inputs = [mkPrimitive 40 0 5]
      ∧ check_bragg_peak (braggMaker [mkPrimitive 40 0 5]) = none
      ∧ trackWalk (braggMaker uniformTrack)
          = some ⟨1, 3, 0, [], [⟨1, 0, 5⟩, ⟨2, 0, 5⟩, ⟨3, 0, 5⟩]⟩
      ∧ check_bragg_peak (braggMaker uniformTrack) = none
      ∧ trackWalk (braggMaker risingTrack)
          = some ⟨1, 3, 0, [], [⟨1, 0, 8⟩, ⟨2, 0, 8⟩, ⟨3, 0, 16⟩]⟩
      ∧ adc_means_list3 [⟨1, 0, 8⟩, ⟨2, 0, 8⟩, ⟨3, 0, 16⟩] = [10] ++ [11, 11]
      ∧ ped (adc_means_list3 [⟨1, 0, 8⟩, ⟨2, 0, 8⟩, ⟨3, 0, 16⟩]) = 32 / 3
      ∧ check_bragg_peak (braggMaker risingTrack) = none := by
  have h7 : ∀ st, trackWalk (braggMaker [mkPrimitive 0 7 5]) = some st →
      charge_dumps st.finalHits = [] := by
    intro st hst
    have hw : trackWalk (braggMaker [mkPrimitive 0 7 5])
        = some ⟨1, 0, 0, [⟨7, 0, 5⟩, ⟨7, 0, 5⟩], []⟩ := by decide
    rw [hw] at hst
    cases hst
    rfl
  have hp : ped (adc_means_list3 [⟨1, 0, 8⟩, ⟨2, 0, 8⟩, ⟨3, 0, 16⟩]) = 32 / 3 := by
    rw [rising_means]
    norm_num [ped]
  exact ⟨h7, (empty_clusters_undefined _).1 h7, rfl,
    (empty_clusters_undefined _).2.1 (mkPrimitive 40 0 5) rfl,
    uniform_walk,
    (empty_clusters_undefined _).2.2.1 _ 5 uniform_walk (by decide),
    rising_walk, rising_means, hp,
    (empty_clusters_undefined _).2.2.2 _ [10] [11, 11] rising_walk rising_means
      (by rw [hp]; norm_num) (by rw [hp]; norm_num)⟩

end TriggerActivityMakerMichelElectron

namespace TriggerActivityMakerMichelElectron

theorem trackStep_next (tol : Nat) (st : TrackState) (cur next : Hit)
    (h1 : next.chan = cur.chan + 1) (h2 : next.chan < 4294967296)
    (h3 : st.adj + 1 < 2147483648) (h4 : st.tol_count < 4294967296)
    (h5 : st.trackHits ≠ []) :
    trackStep tol st cur next
      = some { st with adj := st.adj + 1, trackHits := st.trackHits ++ [next] } := by
  have hl : ¬ st.trackHits.length = 0 := fun h => h5 (List.length_eq_zero.mp h)
  have h0 : ¬ next.chan = 0 := by omega
  have ha : ¬ next.chan = cur.chan := by omega
  have hb : next.chan = (cur.chan + 1) % 4294967296 := by omega
  have ht : (st.tol_count + 0) % 4294967296 = st.tol_count := by omega
  unfold trackStep
  simp only [if_neg h0, if_neg hl, if_neg ha, if_pos hb]
  unfold extendTrack
  rw [if_pos h3, ht]

theorem trackStep_wrap (tol : Nat) (st : TrackState) (cur next : Hit)
    (h1 : next.chan < cur.chan) (h2 : cur.chan + 4 < 4294967296) (h5 : st.trackHits ≠ []) :
    trackStep tol st cur next
      = some
          { adj := 1
            max := if st.adj > st.max then st.adj else st.max
            tol_count := 0
            trackHits := []
            finalHits := if st.adj > st.max then st.trackHits else st.finalHits } := by
  have hl : ¬ st.trackHits.length = 0 := fun h => h5 (List.length_eq_zero.mp h)
  obtain ⟨n, hn, ha, hb, hc, hd, he⟩ :
      ∃ n, (if next.chan = 0 then (cur.chan + 4294967296 - 1) % 4294967296 else next.chan) = n
        ∧ ¬ n = cur.chan ∧ ¬ n = (cur.chan + 1) % 4294967296
        ∧ ¬ n = (cur.chan + 2) % 4294967296 ∧ ¬ n = (cur.chan + 3) % 4294967296
        ∧ ¬ n = (cur.chan + 4) % 4294967296 := by
    by_cases h0 : next.chan = 0
    · exact ⟨_, rfl, by rw [if_pos h0]; omega, by rw [if_pos h0]; omega,
        by rw [if_pos h0]; omega, by rw [if_pos h0]; omega, by rw [if_pos h0]; omega⟩
    · exact ⟨_, rfl, by rw [if_neg h0]; omega, by rw [if_neg h0]; omega,
        by rw [if_neg h0]; omega, by rw [if_neg h0]; omega, by rw [if_neg h0]; omega⟩
  unfold trackStep
  simp only [hn, if_neg hl, if_neg ha, if_neg hb, hc, hd, he, false_and, if_false]

theorem trackStep_seed (tol : Nat) (st : TrackState) (cur next : Hit) (h : st.trackHits = []) :
    trackStep tol st cur next = trackStep tol { st with trackHits := [cur] } cur next := by
  unfold trackStep extendTrack
  simp [h]

theorem trackLoop_cons (tol : Nat) (st : TrackState) (p : Hit × Hit) (ps : List (Hit × Hit)) :
    trackLoop tol st (p :: ps)
      = (trackStep tol st p.1 p.2).bind (fun st1 => trackLoop tol st1 ps) := by
  rw [trackLoop]
  cases trackStep tol st p.1 p.2 <;> rfl

/-- The track walk over hits on consecutive channels, up to the last pair. -/
theorem trackLoop_run (tol : Nat) (last : Hit) (rest : List Hit) (cur : Hit) (st : TrackState)
    (hchain : List.Chain (fun x y => y.chan = x.chan + 1) cur rest)
    (hb : ∀ x ∈ rest, x.chan < 4294967296)
    (hadj : st.adj + rest.length < 2147483648) (ht : st.tol_count < 4294967296)
    (hne : st.trackHits ≠ []) :
    trackLoop tol st ((cur :: rest).zip (rest ++ [last]))
      = trackStep tol { st with adj := st.adj + rest.length, trackHits := st.trackHits ++ rest }
          ((cur :: rest).getLast (List.cons_ne_nil _ _)) last := by
  induction rest generalizing cur st with
  | nil =>
    rw [List.nil_append, List.zip_cons_cons, List.zip_nil_right, trackLoop_cons]
    simp only [List.length_nil, Nat.add_zero, List.append_nil, List.getLast_singleton]
    cases h : trackStep tol st cur last <;> rfl
  | cons nxt rest ih =>
    have h1 : nxt.chan = cur.chan + 1 := (List.chain_cons.mp hchain).1
    have hch : List.Chain (fun x y => y.chan = x.chan + 1) nxt rest := (List.chain_cons.mp hchain).2
    have hlen : st.adj + (rest.length + 1) < 2147483648 := by
      simpa only [List.length_cons] using hadj
    rw [List.cons_append, List.zip_cons_cons, trackLoop_cons]
    simp only
    rw [trackStep_next tol st cur nxt h1 (hb nxt (List.mem_cons_self _ _)) (by omega) ht hne,
      Option.some_bind]
    rw [ih nxt { st with adj := st.adj + 1, trackHits := st.trackHits ++ [nxt] } hch
      (fun x hx => hb x (List.mem_cons_of_mem _ hx))
      (by show st.adj + 1 + rest.length < 2147483648; omega) ht (by simp)]
    simp only [List.length_cons, List.append_assoc, List.singleton_append,
      List.getLast_cons (List.cons_ne_nil nxt rest)]
    congr 2
    omega

theorem sorted_perm_eq (l1 l2 : List Hit) (hp : l1.Perm l2)
    (h1 : l1.Sorted (fun a b => a.chan ≤ b.chan)) (h2 : l2.Sorted (fun a b => a.chan ≤ b.chan))
    (hn : (l2.map (fun x => x.chan)).Nodup) : l1 = l2 := by
  have s1 : (l1.map (fun x => x.chan)).Sorted (· ≤ ·) := List.pairwise_map.mpr h1
  have s2 : (l2.map (fun x => x.chan)).Sorted (· ≤ ·) := List.pairwise_map.mpr h2
  have hm : l1.map (fun x => x.chan) = l2.map (fun x => x.chan) :=
    List.eq_of_perm_of_sorted (hp.map _) s1 s2
  have hinj : ∀ x ∈ l2, ∀ y ∈ l2, x.chan = y.chan → x = y :=
    fun x hx y hy h => List.inj_on_of_nodup_map hn hx hy h
  clear h1 h2 hn s1 s2
  induction l1 generalizing l2 with
  | nil =>
    cases l2 with
    | nil => rfl
    | cons b l2 => simp at hm
  | cons a l1 ih =>
    cases l2 with
    | nil => simp at hm
    | cons b l2 =>
      simp only [List.map_cons, List.cons.injEq] at hm
      have hab : a = b :=
        hinj a (hp.subset (List.mem_cons_self _ _)) b (List.mem_cons_self _ _) hm.1
      subst hab
      congr 1
      exact ih l2 (List.Perm.cons_inv hp) hm.2 (fun x hx y hy => hinj x (List.mem_cons_of_mem _ hx) y
        (List.mem_cons_of_mem _ hy))

theorem trackLoop_zip_seed (tol : Nat) (last : Hit) (rest : List Hit) (cur : Hit)
    (st : TrackState) (hs : st.trackHits = []) :
    trackLoop tol st ((cur :: rest).zip (rest ++ [last]))
      = trackLoop tol { st with trackHits := [cur] } ((cur :: rest).zip (rest ++ [last])) := by
  cases rest with
  | nil =>
    rw [List.nil_append, List.zip_cons_cons, trackLoop_cons, trackLoop_cons,
      trackStep_seed tol st cur last hs]
  | cons nxt rest =>
    rw [List.cons_append, List.zip_cons_cons, trackLoop_cons, trackLoop_cons,
      trackStep_seed tol st cur nxt hs]

theorem ramp_walk (tol c : Nat) (t adc : Nat → Nat) (hc : c + 19 < 2147483648) :
    trackLoop tol ⟨1, 0, 0, [], []⟩ (hitPairs (rampHits c t adc))
      = some ⟨1, 20, 0, [], rampHits c t adc⟩ := by
  have hr : rampHits c t adc
      = (⟨c + 0, t 0, adc 0⟩ : Hit)
          :: (List.range' 1 19).map (fun i => (⟨c + i, t i, adc i⟩ : Hit)) := rfl
  have hchain : List.Chain (fun x y : Hit => y.chan = x.chan + 1) ⟨c + 0, t 0, adc 0⟩
      ((List.range' 1 19).map (fun i => (⟨c + i, t i, adc i⟩ : Hit))) := by
    refine (List.chain_map (fun i => (⟨c + i, t i, adc i⟩ : Hit))).mpr ?_
    refine List.Chain.imp ?_ (List.chain_succ_range' 0 19 1)
    intro a b hab
    show c + b = c + a + 1
    omega
  have hb : ∀ x ∈ (List.range' 1 19).map (fun i => (⟨c + i, t i, adc i⟩ : Hit)),
      x.chan < 4294967296 := by
    intro x hx
    obtain ⟨i, hi, rfl⟩ := List.mem_map.mp hx
    have := (List.mem_range'_1.mp hi).2
    show c + i < 4294967296
    omega
  have hlast : ((⟨c + 0, t 0, adc 0⟩ : Hit)
      :: (List.range' 1 19).map (fun i => (⟨c + i, t i, adc i⟩ : Hit))).getLast
        (List.cons_ne_nil _ _) = ⟨c + 19, t 19, adc 19⟩ := rfl
  rw [hr, hitPairs, List.rotate_cons_succ, List.rotate_zero,
    trackLoop_zip_seed tol _ _ _ _ rfl,
    trackLoop_run tol _ _ _ _ hchain hb (by simp) (by simp) (by simp), hlast,
    trackStep_wrap tol _ _ _ (by show c + 0 < c + 19; omega) (by show c + 19 + 4 < _; omega)
      (by simp)]
  simp

theorem ramp_means_rising (c a d : Nat) (t : Nat → Nat) :
    adc_means_list3 (rampHits c t (rampAdc true a d)) =
      [(a : ℚ) + 7 / 2 * d, (a : ℚ) + 9 / 2 * d, (a : ℚ) + 11 / 2 * d, (a : ℚ) + 13 / 2 * d,
        (a : ℚ) + 15 / 2 * d, (a : ℚ) + 17 / 2 * d, (a : ℚ) + 19 / 2 * d, (a : ℚ) + 21 / 2 * d,
        (a : ℚ) + 23 / 2 * d, (a : ℚ) + 25 / 2 * d, (a : ℚ) + 27 / 2 * d, (a : ℚ) + 29 / 2 * d,
        (a : ℚ) + 31 / 2 * d, (a : ℚ) + 14 * d, (a : ℚ) + 25 / 2 * d, (a : ℚ) + 11 * d,
        (a : ℚ) + 19 / 2 * d, (a : ℚ) + 8 * d, (a : ℚ) + 13 / 2 * d, (a : ℚ) + 5 * d] := by
  simp [adc_means_list3, runningMean, rampHits, rampAdc, List.range, List.range.loop]
  refine ⟨?_, ?_, ?_, ?_, ?_, ?_, ?_, ?_, ?_, ?_, ?_, ?_, ?_, ?_, ?_, ?_, ?_, ?_, ?_, ?_⟩ <;> ring

theorem ramp_means_falling (c a d : Nat) (t : Nat → Nat) :
    adc_means_list3 (rampHits c t (rampAdc false a d)) =
      [(a : ℚ) + 31 / 2 * d, (a : ℚ) + 29 / 2 * d, (a : ℚ) + 27 / 2 * d, (a : ℚ) + 25 / 2 * d,
        (a : ℚ) + 23 / 2 * d, (a : ℚ) + 21 / 2 * d, (a : ℚ) + 19 / 2 * d, (a : ℚ) + 17 / 2 * d,
        (a : ℚ) + 15 / 2 * d, (a : ℚ) + 13 / 2 * d, (a : ℚ) + 11 / 2 * d, (a : ℚ) + 9 / 2 * d,
        (a : ℚ) + 7 / 2 * d, (a : ℚ) + 5 * d, (a : ℚ) + 13 / 2 * d, (a : ℚ) + 8 * d,
        (a : ℚ) + 19 / 2 * d, (a : ℚ) + 11 * d, (a : ℚ) + 25 / 2 * d, (a : ℚ) + 14 * d] := by
  simp [adc_means_list3, runningMean, rampHits, rampAdc, List.range, List.range.loop]
  refine ⟨?_, ?_, ?_, ?_, ?_, ?_, ?_, ?_, ?_, ?_, ?_, ?_, ?_, ?_, ?_, ?_, ?_, ?_, ?_, ?_⟩ <;> ring

theorem clusterStep_above (p a : ℚ) (st : ClusterState) (h : p < a) :
    clusterStep p st a = { st with charge := st.charge + a } := by
  unfold clusterStep
  rw [if_pos h]

theorem foldl_above (p : ℚ) (seg : List ℚ) (st : ClusterState) (h : ∀ a ∈ seg, p < a) :
    seg.foldl (clusterStep p) st = { st with charge := st.charge + seg.sum } := by
  induction seg generalizing st with
  | nil => simp
  | cons a seg ih =>
    rw [List.foldl_cons, clusterStep_above p a st (h a (List.mem_cons_self _ _)),
      ih _ (fun b hb => h b (List.mem_cons_of_mem _ hb)), List.sum_cons]
    simp only [add_assoc]

theorem clusterStep_level (p : ℚ) (st : ClusterState) : clusterStep p st p = st := by
  unfold clusterStep
  rw [if_neg (lt_irrefl p), if_neg (fun hh => lt_irrefl p hh.1)]

theorem clusterStep_push (p a : ℚ) (st : ClusterState) (h : a < p) (hc : st.charge ≠ 0) :
    clusterStep p st a = { charge := 0, charge_dumps := st.charge_dumps ++ [st.charge] } := by
  unfold clusterStep
  rw [if_neg (not_lt.mpr (le_of_lt h)), if_pos ⟨h, hc⟩]

/-- A series of running means with one stretch `seg` above the baseline that
is closed by a value below it: values at or below the baseline (`pre`), the
stretch, one value at the baseline, a value below it, further values at or
below the baseline (`low`) and values at or above it to the end (`high`).
The cluster list is the sum of the stretch alone. -/
theorem foldl_single_cluster (p b : ℚ) (pre seg low high : List ℚ)
    (hpre : ∀ a ∈ pre, a ≤ p) (hseg : ∀ a ∈ seg, p < a) (hsum : seg.sum ≠ 0) (hb : b < p)
    (hlow : ∀ a ∈ low, a ≤ p) (hhigh : ∀ a ∈ high, p ≤ a) :
    ((pre ++ (seg ++ (p :: b :: (low ++ high)))).foldl (clusterStep p)
        { charge := 0, charge_dumps := [] }).charge_dumps = [seg.sum] := by
  rw [List.foldl_append, foldl_closed p [] pre hpre, List.foldl_append, foldl_above p seg _ hseg,
    List.foldl_cons, clusterStep_level, List.foldl_cons,
    clusterStep_push p b _ hb (by simpa using hsum), List.foldl_append,
    foldl_closed p _ low hlow, foldl_open p high _ hhigh]
  simp

theorem ramp_dumps_rising (c a d : Nat) (t : Nat → Nat) (hd : 0 < d) :
    charge_dumps (rampHits c t (rampAdc true a d)) = [9 * (a : ℚ) + 231 / 2 * d] := by
  have hd1 : (0 : ℚ) < d := Nat.cast_pos.mpr hd
  have ha : (0 : ℚ) ≤ a := Nat.cast_nonneg a
  have hp : ped (adc_means_list3 (rampHits c t (rampAdc true a d))) = (a : ℚ) + 19 / 2 * d := by
    rw [ramp_means_rising]
    simp only [ped, List.sum_cons, List.sum_nil, List.length_cons, List.length_nil]
    push_cast
    ring
  have hpre : ∀ x ∈ ([(a : ℚ) + 7 / 2 * d, (a : ℚ) + 9 / 2 * d, (a : ℚ) + 11 / 2 * d, (a : ℚ) + 13 / 2 * d, (a : ℚ) + 15 / 2 * d, (a : ℚ) + 17 / 2 * d, (a : ℚ) + 19 / 2 * d] : List ℚ),
      x ≤ (a : ℚ) + 19 / 2 * d := by
    intro x hx
    simp only [List.mem_cons, List.mem_singleton, List.not_mem_nil, or_false] at hx
    rcases hx with rfl | rfl | rfl | rfl | rfl | rfl | rfl <;> linarith
  have hseg : ∀ x ∈ ([(a : ℚ) + 21 / 2 * d, (a : ℚ) + 23 / 2 * d, (a : ℚ) + 25 / 2 * d, (a : ℚ) + 27 / 2 * d, (a : ℚ) + 29 / 2 * d, (a : ℚ) + 31 / 2 * d, (a : ℚ) + 14 * d, (a : ℚ) + 25 / 2 * d, (a : ℚ) + 11 * d] : List ℚ),
      (a : ℚ) + 19 / 2 * d < x := by
    intro x hx
    simp only [List.mem_cons, List.mem_singleton, List.not_mem_nil, or_false] at hx
    rcases hx with rfl | rfl | rfl | rfl | rfl | rfl | rfl | rfl | rfl <;> linarith
  have hlow : ∀ x ∈ ([(a : ℚ) + 13 / 2 * d, (a : ℚ) + 5 * d] : List ℚ),
      x ≤ (a : ℚ) + 19 / 2 * d := by
    intro x hx
    simp only [List.mem_cons, List.mem_singleton, List.not_mem_nil, or_false] at hx
    rcases hx with rfl | rfl <;> linarith
  have hhigh : ∀ x ∈ ([] : List ℚ),
      (a : ℚ) + 19 / 2 * d ≤ x := by
    intro x hx
    simp at hx
  have hsum : ([(a : ℚ) + 21 / 2 * d, (a : ℚ) + 23 / 2 * d, (a : ℚ) + 25 / 2 * d, (a : ℚ) + 27 / 2 * d, (a : ℚ) + 29 / 2 * d, (a : ℚ) + 31 / 2 * d, (a : ℚ) + 14 * d, (a : ℚ) + 25 / 2 * d, (a : ℚ) + 11 * d] : List ℚ).sum
      = 9 * (a : ℚ) + 231 / 2 * d := by
    simp only [List.sum_cons, List.sum_nil]
    ring
  have h := foldl_single_cluster ((a : ℚ) + 19 / 2 * d) ((a : ℚ) + 8 * d) _ _ _ _ hpre hseg
    (by rw [hsum]; exact ne_of_gt (by linarith)) (by linarith) hlow hhigh
  rw [hsum] at h
  unfold charge_dumps
  rw [hp, ramp_means_rising]
  exact h

theorem ramp_dumps_falling (c a d : Nat) (t : Nat → Nat) (hd : 0 < d) :
    charge_dumps (rampHits c t (rampAdc false a d)) = [6 * (a : ℚ) + 78 * d] := by
  have hd1 : (0 : ℚ) < d := Nat.cast_pos.mpr hd
  have ha : (0 : ℚ) ≤ a := Nat.cast_nonneg a
  have hp : ped (adc_means_list3 (rampHits c t (rampAdc false a d))) = (a : ℚ) + 19 / 2 * d := by
    rw [ramp_means_falling]
    simp only [ped, List.sum_cons, List.sum_nil, List.length_cons, List.length_nil]
    push_cast
    ring
  have hpre : ∀ x ∈ ([] : List ℚ),
      x ≤ (a : ℚ) + 19 / 2 * d := by
    intro x hx
    simp at hx
  have hseg : ∀ x ∈ ([(a : ℚ) + 31 / 2 * d, (a : ℚ) + 29 / 2 * d, (a : ℚ) + 27 / 2 * d, (a : ℚ) + 25 / 2 * d, (a : ℚ) + 23 / 2 * d, (a : ℚ) + 21 / 2 * d] : List ℚ),
      (a : ℚ) + 19 / 2 * d < x := by
    intro x hx
    simp only [List.mem_cons, List.mem_singleton, List.not_mem_nil, or_false] at hx
    rcases hx with rfl | rfl | rfl | rfl | rfl | rfl <;> linarith
  have hlow : ∀ x ∈ ([(a : ℚ) + 15 / 2 * d, (a : ℚ) + 13 / 2 * d, (a : ℚ) + 11 / 2 * d, (a : ℚ) + 9 / 2 * d, (a : ℚ) + 7 / 2 * d, (a : ℚ) + 5 * d, (a : ℚ) + 13 / 2 * d, (a : ℚ) + 8 * d, (a : ℚ) + 19 / 2 * d] : List ℚ),
      x ≤ (a : ℚ) + 19 / 2 * d := by
    intro x hx
    simp only [List.mem_cons, List.mem_singleton, List.not_mem_nil, or_false] at hx
    rcases hx with rfl | rfl | rfl | rfl | rfl | rfl | rfl | rfl | rfl <;> linarith
  have hhigh : ∀ x ∈ ([(a : ℚ) + 11 * d, (a : ℚ) + 25 / 2 * d, (a : ℚ) + 14 * d] : List ℚ),
      (a : ℚ) + 19 / 2 * d ≤ x := by
    intro x hx
    simp only [List.mem_cons, List.mem_singleton, List.not_mem_nil, or_false] at hx
    rcases hx with rfl | rfl | rfl <;> linarith
  have hsum : ([(a : ℚ) + 31 / 2 * d, (a : ℚ) + 29 / 2 * d, (a : ℚ) + 27 / 2 * d, (a : ℚ) + 25 / 2 * d, (a : ℚ) + 23 / 2 * d, (a : ℚ) + 21 / 2 * d] : List ℚ).sum
      = 6 * (a : ℚ) + 78 * d := by
    simp only [List.sum_cons, List.sum_nil]
    ring
  have h := foldl_single_cluster ((a : ℚ) + 19 / 2 * d) ((a : ℚ) + 17 / 2 * d) _ _ _ _ hpre hseg
    (by rw [hsum]; exact ne_of_gt (by linarith)) (by linarith) hlow hhigh
  rw [hsum] at h
  unfold charge_dumps
  rw [hp, ramp_means_falling]
  exact h

theorem rampHits_chan (c : Nat) (t adc : Nat → Nat) :
    (rampHits c t adc).map (fun x => x.chan) = (List.range 20).map (fun i => c + i) := by
  simp [rampHits, Function.comp_def]

theorem rampHits_sorted (c : Nat) (t adc : Nat → Nat) :
    (rampHits c t adc).Sorted (fun x y => x.chan ≤ y.chan) := by
  refine List.pairwise_map.mpr (List.Pairwise.imp ?_ (List.pairwise_lt_range 20))
  intro i j hij
  show c + i ≤ c + j
  omega

theorem rampHits_nodup (c : Nat) (t adc : Nat → Nat) :
    ((rampHits c t adc).map (fun x => x.chan)).Nodup := by
  rw [rampHits_chan]
  exact List.Nodup.map (fun i j h => by simpa using h) (List.nodup_range 20)

theorem chanList_ramp (m : TriggerActivityMakerMichelElectron) (c : Nat) (t adc : Nat → Nat)
    (hin : (m.m_current_window.inputs.map
        (fun tp => ({ chan := tp.channel, startTime := tp.time_start, adc := tp.adc_integral }
          : Hit))).Perm (rampHits c t adc)) :
    chanList m = rampHits c t adc := by
  haveI : IsTotal Hit (fun a b => a.chan ≤ b.chan) := ⟨fun a b => Nat.le_total _ _⟩
  haveI : IsTrans Hit (fun a b => a.chan ≤ b.chan) := ⟨fun _ _ _ h1 h2 => Nat.le_trans h1 h2⟩
  refine sorted_perm_eq _ _ ((List.perm_insertionSort _ _).trans hin)
    (List.sorted_insertionSort _ _) (rampHits_sorted c t adc) (rampHits_nodup c t adc)

theorem trackWalk_ramp (m : TriggerActivityMakerMichelElectron) (c : Nat) (t adc : Nat → Nat)
    (hc : c + 19 < 2147483648)
    (hin : (m.m_current_window.inputs.map
        (fun tp => ({ chan := tp.channel, startTime := tp.time_start, adc := tp.adc_integral }
          : Hit))).Perm (rampHits c t adc)) :
    trackWalk m = some ⟨1, 20, 0, [], rampHits c t adc⟩ := by
  unfold trackWalk
  rw [chanList_ramp m c t adc hin]
  have hr : rampHits c t adc
      = (⟨c + 0, t 0, adc 0⟩ : Hit)
          :: (List.range' 1 19).map (fun i => (⟨c + i, t i, adc i⟩ : Hit)) := rfl
  rw [hr]
  simp only
  rw [← hr]
  exact ramp_walk m.m_adj_tolerance c t adc hc

/-- The ramp in exact arithmetic: a window whose primitives are, in any order,
twenty hits on the consecutive channels `c, ..., c + 19`, one per channel,
with ADC values on a linear ramp of slope `d > 0` (rising with the channel, or
falling).  The track walk keeps all twenty hits and, with the running means
taken as exact rationals, the cluster list holds one cluster: the sum of the
running means number 7 to 15 for the rising ramp and number 0 to 5 for the
falling ramp, the stretch of running means above the baseline. -/
theorem ramp_exact (m : TriggerActivityMakerMichelElectron) (c a d : Nat) (t : Nat → Nat)
    (rising : Bool) (hd : 0 < d) (hc : c + 19 < 2147483648)
    (hin : (m.m_current_window.inputs.map
        (fun tp => ({ chan := tp.channel, startTime := tp.time_start, adc := tp.adc_integral }
          : Hit))).Perm (rampHits c t (rampAdc rising a d))) :
    ∃ st, trackWalk m = some st
      ∧ st.max = 20
      ∧ st.finalHits = rampHits c t (rampAdc rising a d)
      ∧ charge_dumps st.finalHits
          = [if rising then (((adc_means_list3 st.finalHits).drop 7).take 9).sum
             else ((adc_means_list3 st.finalHits).take 6).sum]
      ∧ (∀ x ∈ (if rising then ((adc_means_list3 st.finalHits).drop 7).take 9
                 else (adc_means_list3 st.finalHits).take 6),
            ped (adc_means_list3 st.finalHits) < x)
      ∧ check_bragg_peak m = some true := by
  have hw := trackWalk_ramp m c t (rampAdc rising a d) hc hin
  have hd1 : (0 : ℚ) < d := Nat.cast_pos.mpr hd
  have hdumps : charge_dumps (rampHits c t (rampAdc rising a d))
      = [if rising then (((adc_means_list3 (rampHits c t (rampAdc rising a d))).drop 7).take 9).sum
         else ((adc_means_list3 (rampHits c t (rampAdc rising a d))).take 6).sum] := by
    cases rising with
    | true =>
      rw [ramp_dumps_rising c a d t hd, ramp_means_rising]
      simp only [List.drop, List.take, List.sum_cons, List.sum_nil, if_true]
      congr 1
      ring
    | false =>
      rw [ramp_dumps_falling c a d t hd, ramp_means_falling]
      simp only [List.take, List.sum_cons, List.sum_nil, Bool.false_eq_true, if_false]
      congr 1
      ring
  refine ⟨_, hw, rfl, rfl, hdumps, ?_, ?_⟩
  · have hp : ped (adc_means_list3 (rampHits c t (rampAdc rising a d))) = (a : ℚ) + 19 / 2 * d := by
      cases rising with
      | true =>
        rw [ramp_means_rising]
        simp only [ped, List.sum_cons, List.sum_nil, List.length_cons, List.length_nil]
        push_cast
        ring
      | false =>
        rw [ramp_means_falling]
        simp only [ped, List.sum_cons, List.sum_nil, List.length_cons, List.length_nil]
        push_cast
        ring
    intro x hx
    simp only at hx ⊢
    rw [hp]
    cases rising with
    | true =>
      rw [ramp_means_rising] at hx
      simp only [List.drop, List.take, if_true, List.mem_cons, List.mem_singleton,
        List.not_mem_nil, or_false] at hx
      rcases hx with rfl | rfl | rfl | rfl | rfl | rfl | rfl | rfl | rfl <;> linarith
    | false =>
      rw [ramp_means_falling] at hx
      simp only [List.take, Bool.false_eq_true, if_false, List.mem_cons, List.mem_singleton,
        List.not_mem_nil, or_false] at hx
      rcases hx with rfl | rfl | rfl | rfl | rfl | rfl <;> linarith
  · rw [check_bragg_peak_eq m _ _ [] hw (by simp [rampHits]) hdumps]
    simp [max_charge]

theorem rampTrack_perm :
    ((braggMaker rampTrack).m_current_window.inputs.map
        (fun tp => ({ chan := tp.channel, startTime := tp.time_start, adc := tp.adc_integral }
          : Hit))).Perm (rampHits 100 (fun i => 10 * i) (rampAdc true 50 3)) := by
  have h : (braggMaker rampTrack).m_current_window.inputs.map
      (fun tp => ({ chan := tp.channel, startTime := tp.time_start, adc := tp.adc_integral }
        : Hit)) = (rampHits 100 (fun i => 10 * i) (rampAdc true 50 3)).reverse := by
    decide
  rw [h]
  exact List.reverse_perm _

end TriggerActivityMakerMichelElectron

namespace TriggerCandidateMakerBundleN

theorem operator_call_eq (m : TriggerCandidateMakerBundleN) (a : TriggerActivity)
    (out : List TriggerCandidate) :
    operator_call m a out
      = match beforeLargeTest m a out with
        | none => none
        | some (m3, out3) =>
          if m3.m_current_tc.inputs.length > m3.m_bundle_size then emit m3 out3
          else some (m3, out3) := by
  unfold operator_call beforeLargeTest
  dsimp only
  by_cases hb : m.m_bundle_size = 0 ∨ m.m_prescale = 0
  · rw [if_pos hb, if_pos hb]
  · rw [if_neg hb, if_neg hb]

theorem emit_full (m : TriggerCandidateMakerBundleN) (out : List TriggerCandidate)
    (hne : m.m_current_tc.inputs ≠ []) :
    ∃ m1 tc, emit m out = some (m1, out ++ [tc])
      ∧ m1.m_current_tc.inputs = [] ∧ m1.m_bundle_size = m.m_bundle_size
      ∧ m1.m_prescale = m.m_prescale ∧ tc.inputs = m.m_current_tc.inputs := by
  unfold emit set_tc_attributes
  cases hh : m.m_current_tc.inputs.head? with
  | none => exact absurd (List.head?_eq_none_iff.mp hh) hne
  | some front_ta =>
    cases hl : m.m_current_tc.inputs.getLast? with
    | none => exact absurd (List.getLast?_eq_none_iff.mp hl) hne
    | some back_ta => exact ⟨_, _, rfl, rfl, rfl, rfl, rfl⟩

/-- One call on a maker that holds fewer than `bundle_size` activities, for any
prescale not 0: the state before the last `if` and the state after the call
are the same, and it holds fewer than `bundle_size` activities again. -/
theorem bundle_step (m : TriggerCandidateMakerBundleN) (a : TriggerActivity)
    (out : List TriggerCandidate) (hp : 1 ≤ m.m_prescale)
    (hlt : m.m_current_tc.inputs.length < m.m_bundle_size) :
    ∃ m3 out3, beforeLargeTest m a out = some (m3, out3)
      ∧ ¬ (m3.m_current_tc.inputs.length > m3.m_bundle_size)
      ∧ operator_call m a out = some (m3, out3)
      ∧ m3.m_current_tc.inputs.length < m3.m_bundle_size
      ∧ m3.m_bundle_size = m.m_bundle_size ∧ m3.m_prescale = m.m_prescale
      ∧ (out3 = out ∨ ∃ tc, out3 = out ++ [tc] ∧ tc.inputs.length = m.m_bundle_size) := by
  have key : ∃ m3 out3, beforeLargeTest m a out = some (m3, out3)
      ∧ m3.m_current_tc.inputs.length < m3.m_bundle_size
      ∧ m3.m_bundle_size = m.m_bundle_size ∧ m3.m_prescale = m.m_prescale
      ∧ (out3 = out ∨ ∃ tc, out3 = out ++ [tc] ∧ tc.inputs.length = m.m_bundle_size) := by
    have hb : ¬ (m.m_bundle_size = 0 ∨ m.m_prescale = 0) := by omega
    unfold beforeLargeTest
    dsimp only
    rw [if_neg hb]
    by_cases hpush : (m.m_prescale_counter + 1) % 18446744073709551616 / m.m_bundle_size
        % m.m_prescale = 0
    · rw [if_pos hpush]
      unfold bundle_condition
      dsimp only
      by_cases hfull : (m.m_current_tc.inputs ++ [a.toData]).length = m.m_bundle_size
      · simp only [hfull, decide_True, if_true]
        obtain ⟨m1, tc, he, hin, hbs, hps, htc⟩ := emit_full
          { m with
            m_prescale_counter := (m.m_prescale_counter + 1) % 18446744073709551616
            m_current_tc := { m.m_current_tc with inputs := m.m_current_tc.inputs ++ [a.toData] } }
          out (by simp)
        refine ⟨m1, _, he, ?_, hbs, hps, Or.inr ⟨tc, rfl, ?_⟩⟩
        · rw [hin, hbs]
          simp only [List.length_nil]
          omega
        · rw [htc]
          exact hfull
      · simp only [hfull, decide_False, Bool.false_eq_true, if_false]
        refine ⟨_, _, rfl, ?_, rfl, rfl, Or.inl rfl⟩
        simp only [List.length_append, List.length_singleton] at hfull ⊢
        omega
    · rw [if_neg hpush]
      unfold bundle_condition
      dsimp only
      have hfull : ¬ (m.m_current_tc.inputs.length = m.m_bundle_size) := by omega
      simp only [hfull, decide_False, Bool.false_eq_true, if_false]
      exact ⟨_, _, rfl, hlt, rfl, rfl, Or.inl rfl⟩
  obtain ⟨m3, out3, h1, h2, h3, h4, h5⟩ := key
  refine ⟨m3, out3, h1, by omega, ?_, h2, h3, h4, h5⟩
  rw [operator_call_eq, h1]
  simp only
  rw [if_neg (by omega)]

theorem bundle_feed (acts : List TriggerActivity) (m : TriggerCandidateMakerBundleN)
    (out : List TriggerCandidate) (hp : 1 ≤ m.m_prescale)
    (hlt : m.m_current_tc.inputs.length < m.m_bundle_size) :
    ∃ mk outk, feed m out acts = some (mk, outk)
      ∧ mk.m_current_tc.inputs.length < mk.m_bundle_size
      ∧ mk.m_bundle_size = m.m_bundle_size ∧ mk.m_prescale = m.m_prescale := by
  induction acts generalizing m out with
  | nil => exact ⟨m, out, rfl, hlt, rfl, rfl⟩
  | cons a rest ih =>
    obtain ⟨m3, out3, _, _, hc, h2, h3, h4, _⟩ := bundle_step m a out hp hlt
    obtain ⟨mk, outk, hf, k1, k2, k3⟩ := ih m3 out3 (by rw [h4]; exact hp) h2
    refine ⟨mk, outk, ?_, k1, k2.trans h3, k3.trans h4⟩
    simp only [feed, hc]
    exact hf

/-- C34: for a maker with `prescale ≥ 1` whose pending candidate holds fewer
than `bundle_size` activities (a new maker with `bundle_size ≥ 1` holds none),
after every sequence of calls the pending candidate again holds fewer than
`bundle_size` activities, and in the next call the state that reaches the last
`if` of `operator()` fails its test `inputs.size() > m_bundle_size`: the branch
is not taken, the call returns that state, and a Candidate emitted by the call
holds exactly `bundle_size` activities. -/
theorem large_bundle_unreachable (m : TriggerCandidateMakerBundleN)
    (out : List TriggerCandidate) (acts : List TriggerActivity) (a : TriggerActivity)
    (hp : 1 ≤ m.m_prescale)
    (hlt : m.m_current_tc.inputs.length < m.m_bundle_size) :
    ∃ mk outk, feed m out acts = some (mk, outk)
      ∧ mk.m_current_tc.inputs.length < m.m_bundle_size
      ∧ ∃ m3 out3, beforeLargeTest mk a outk = some (m3, out3)
        ∧ ¬ (m3.m_current_tc.inputs.length > m3.m_bundle_size)
        ∧ operator_call mk a outk = some (m3, out3)
        ∧ m3.m_current_tc.inputs.length < m.m_bundle_size
        ∧ (out3 = outk ∨ ∃ tc, out3 = outk ++ [tc] ∧ tc.inputs.length = m.m_bundle_size) := by
  obtain ⟨mk, outk, hf, k1, k2, k3⟩ := bundle_feed acts m out hp hlt
  obtain ⟨m3, out3, s1, s2, s3, s4, s5, _, s7⟩ := bundle_step mk a outk (by rw [k3]; exact hp) k1
  refine ⟨mk, outk, hf, by rw [← k2]; exact k1, m3, out3, s1, s2, s3, ?_, ?_⟩
  · rw [← k2, ← s5]; exact s4
  · rw [← k2]; exact s7

/-- C34 witness: a new maker with `bundle_size = 3` and `prescale = 2`, after
four activities and on the fifth. -/
theorem large_bundle_unreachable_witness :
    1 ≤ prescaledBundleMaker.m_prescale
      ∧ prescaledBundleMaker.m_current_tc.inputs.length
          < prescaledBundleMaker.m_bundle_size
      ∧ ∃ mk outk, feed prescaledBundleMaker []
            [mkActivity 1 0 [], mkActivity 2 0 [], mkActivity 3 0 [], mkActivity 4 0 []]
          = some (mk, outk)
        ∧ mk.m_current_tc.inputs.length < 3
        ∧ ∃ m3 out3, beforeLargeTest mk (mkActivity 5 0 []) outk = some (m3, out3)
          ∧ ¬ (m3.m_current_tc.inputs.length > m3.m_bundle_size)
          ∧ operator_call mk (mkActivity 5 0 []) outk = some (m3, out3)
          ∧ m3.m_current_tc.inputs.length < 3
          ∧ (out3 = outk ∨ ∃ tc, out3 = outk ++ [tc] ∧ tc.inputs.length = 3) :=
  ⟨by decide, by decide,
    large_bundle_unreachable prescaledBundleMaker []
      [mkActivity 1 0 [], mkActivity 2 0 [], mkActivity 3 0 [], mkActivity 4 0 []]
      (mkActivity 5 0 []) (by decide) (by decide)⟩

end TriggerCandidateMakerBundleN

namespace TriggerActivityMakerMichelElectron

/-- C33 (amended): in the cluster walk of `check_bragg_peak` a running mean
exactly equal to the baseline changes nothing: it is neither added to the open
cluster nor does it close it.  Only a value strictly below the baseline closes
an open (non-zero) cluster: the accumulated sum is recorded and a new cluster
is started.  A value above the baseline is added to the open cluster. -/
theorem baseline_value_ignored (p a : ℚ) (st : ClusterState) :
    clusterStep p st p = st
      ∧ (a < p → st.charge ≠ 0 →
          clusterStep p st a = { charge := 0, charge_dumps := st.charge_dumps ++ [st.charge] })
      ∧ (p < a → clusterStep p st a = { st with charge := st.charge + a }) :=
  ⟨clusterStep_level p st, fun h hc => clusterStep_push p a st h hc,
    fun h => clusterStep_above p a st h⟩

/-- C33 witness: baseline 8, open cluster 9; the value 8 leaves the state as
it is, the value 7 closes the cluster. -/
theorem baseline_value_ignored_witness :
    clusterStep 8 { charge := 9, charge_dumps := [] } 8 = { charge := 9, charge_dumps := [] }
      ∧ (7 : ℚ) < 8 ∧ (9 : ℚ) ≠ 0
      ∧ clusterStep 8 { charge := 9, charge_dumps := [] } 7
          = { charge := 0, charge_dumps := [] ++ [9] } :=
  ⟨(baseline_value_ignored 8 7 { charge := 9, charge_dumps := [] }).1, by norm_num, by norm_num,
    (baseline_value_ignored 8 7 { charge := 9, charge_dumps := [] }).2.1 (by norm_num)
      (by norm_num)⟩

/-- C33 counterexample: the window of `levelTrack` (channels 1 to 5, ADC
integrals 8, 0, 24, 0, 8).  All five hits are track hits, the running means are
9, 8, 9, 7, 7 and the baseline is 8.  The second running mean equals the
baseline while the cluster 9 is open; the source does not close it, goes on
adding the third running mean and records the single cluster 18.  With the
rule of the claim the clusters would be 9 and 9. -/
theorem baseline_value_counterexample :
    trackWalk (braggMaker levelTrack)
        = some ⟨1, 5, 0, [], [⟨1, 0, 8⟩, ⟨2, 0, 0⟩, ⟨3, 0, 24⟩, ⟨4, 0, 0⟩, ⟨5, 0, 8⟩]⟩
      ∧ adc_means_list3 [⟨1, 0, 8⟩, ⟨2, 0, 0⟩, ⟨3, 0, 24⟩, ⟨4, 0, 0⟩, ⟨5, 0, 8⟩]
          = [9, 8, 9, 7, 7]
      ∧ ped [9, 8, 9, 7, 7] = 8
      ∧ charge_dumps [⟨1, 0, 8⟩, ⟨2, 0, 0⟩, ⟨3, 0, 24⟩, ⟨4, 0, 0⟩, ⟨5, 0, 8⟩] = [18]
      ∧ (([9, 8, 9, 7, 7] : List ℚ).foldl (specClusterStep 8)
          { charge := 0, charge_dumps := [] }).charge_dumps = [9, 9] := by
  have h : adc_means_list3 [⟨1, 0, 8⟩, ⟨2, 0, 0⟩, ⟨3, 0, 24⟩, ⟨4, 0, 0⟩, ⟨5, 0, 8⟩]
      = [9, 8, 9, 7, 7] := by
    simp [adc_means_list3, runningMean, List.range, List.range.loop]
    norm_num
  refine ⟨by decide, h, by norm_num [ped], ?_, by norm_num [specClusterStep]⟩
  rw [charge_dumps, h]
  norm_num [ped, clusterStep]

end TriggerActivityMakerMichelElectron

namespace TriggerActivityMakerHorizontalMuon

theorem emitAndReset_prescale (m : TriggerActivityMakerHorizontalMuon) (tp : TriggerPrimitive)
    (out : List TriggerActivity)
    (r : TriggerActivityMakerHorizontalMuon × List TriggerActivity)
    (h : emitAndReset m tp out = some r) : r.1.m_prescale = m.m_prescale := by
  unfold emitAndReset at h
  cases hta : construct_ta m with
  | none => rw [hta] at h; simp at h
  | some ta =>
    rw [hta] at h
    simp only [Option.some.injEq] at h
    rw [← h]

theorem triggerChain_prescale (m : TriggerActivityMakerHorizontalMuon) (tp : TriggerPrimitive)
    (out : List TriggerActivity)
    (r : TriggerActivityMakerHorizontalMuon × List TriggerActivity)
    (h : triggerChain m tp out = some r) : r.1.m_prescale = m.m_prescale := by
  unfold triggerChain at h
  by_cases h1 : tsub tp.time_start m.m_current_window.time_start < m.m_window_length
  · rw [if_pos h1] at h
    simp only [Option.some.injEq] at h
    rw [← h]
  · rw [if_neg h1] at h
    by_cases h2 : m.m_current_window.n_channels_hit > m.m_n_channels_threshold
        ∧ m.m_trigger_on_n_channels = true
    · rw [if_pos h2] at h
      dsimp only at h
      by_cases h3 : m.m_prescale = 0
      · rw [if_pos h3] at h; simp at h
      · rw [if_neg h3] at h
        by_cases h4 : (m.ta_count + 1) % 65536 % m.m_prescale = 0
        · rw [if_pos h4] at h
          exact (emitAndReset_prescale _ tp out r h : r.1.m_prescale = _)
        · rw [if_neg h4] at h
          simp only [Option.some.injEq] at h
          rw [← h]
    · rw [if_neg h2] at h
      by_cases h5 : check_adjacency m > m.m_adjacency_threshold ∧ m.m_trigger_on_adjacency = true
      · rw [if_pos h5] at h
        dsimp only at h
        by_cases h3 : m.m_prescale = 0
        · rw [if_pos h3] at h; simp at h
        · rw [if_neg h3] at h
          by_cases h4 : (m.ta_count + 1) % 65536 % m.m_prescale = 0
          · rw [if_pos h4] at h
            exact (emitAndReset_prescale _ tp out r h : r.1.m_prescale = _)
          · rw [if_neg h4] at h
            simp only [Option.some.injEq] at h
            rw [← h]
      · rw [if_neg h5] at h
        simp only [Option.some.injEq] at h
        rw [← h]

theorem operator_call_prescale (m m1 : TriggerActivityMakerHorizontalMuon) (tp : TriggerPrimitive)
    (out out1 : List TriggerActivity) (h : operator_call m tp out = some (m1, out1)) :
    m1.m_prescale = m.m_prescale := by
  unfold operator_call at h
  by_cases he : m.m_current_window.is_empty = true
  · rw [if_pos he] at h
    simp only [Option.some.injEq, Prod.mk.injEq] at h
    rw [← h.1]
    rfl
  · rw [if_neg he] at h
    cases hc : triggerChain m tp out with
    | none => rw [hc] at h; simp at h
    | some r =>
      rw [hc] at h
      simp only [Option.map_some', Option.some.injEq, Prod.mk.injEq] at h
      rw [← h.1]
      exact triggerChain_prescale m tp out r hc

theorem call_not_empty (m m1 : TriggerActivityMakerHorizontalMuon) (tp : TriggerPrimitive)
    (out out1 : List TriggerActivity) (h : operator_call m tp out = some (m1, out1)) :
    m1.m_current_window.is_empty = false := by
  rcases operator_call_cases m m1 tp out out1 h with
    ⟨_, hw, _⟩ | ⟨_, _, hw, _⟩ | ⟨_, _, _, _, _, hw, _⟩ | ⟨hne, _, _, _, _, hw, _⟩
      | ⟨_, _, _, _, hw, _⟩
  · rw [hw]; rfl
  · rw [hw]; simp [Window.add, Window.is_empty]
  · rw [hw]; rfl
  · rw [hw]; exact hne
  · rw [hw]
    have := (Window.move_general m.m_current_window tp m.m_window_length).1
    simp [Window.is_empty, this]

theorem feed_not_empty (tps : List TriggerPrimitive) (m m1 : TriggerActivityMakerHorizontalMuon)
    (out out1 : List TriggerActivity) (hne : tps ≠ [])
    (h : feed m out tps = some (m1, out1)) : m1.m_current_window.is_empty = false := by
  induction tps generalizing m out with
  | nil => exact absurd rfl hne
  | cons tp rest ih =>
    simp only [feed] at h
    cases hc : operator_call m tp out with
    | none => rw [hc] at h; simp at h
    | some r =>
      obtain ⟨m2, out2⟩ := r
      rw [hc] at h
      simp only at h
      cases rest with
      | nil =>
        simp only [feed, Option.some.injEq, Prod.mk.injEq] at h
        rw [← h.1]
        exact call_not_empty m m2 tp out out2 hc
      | cons tp2 rest2 => exact ih m2 out2 (List.cons_ne_nil _ _) h

theorem feed_defined (tps : List TriggerPrimitive) (m : TriggerActivityMakerHorizontalMuon)
    (out : List TriggerActivity) (hp : m.m_prescale ≠ 0) :
    ∃ m1 out1, feed m out tps = some (m1, out1) := by
  induction tps generalizing m out with
  | nil => exact ⟨m, out, rfl⟩
  | cons tp rest ih =>
    obtain ⟨m2, out2, hc⟩ := operator_call_defined m tp out hp
    obtain ⟨m1, out1, hf⟩ := ih m2 out2 (by rw [operator_call_prescale m m2 tp out out2 hc]; exact hp)
    exact ⟨m1, out1, by simp only [feed, hc]; exact hf⟩

end TriggerActivityMakerHorizontalMuon

namespace TriggerActivityMakerMichelElectron

theorem rotated_adc_sum (l : List Hit) (d : Hit) (k : Nat) :
    ((List.range l.length).map (fun i => ((l.getD ((i + k) % l.length) d).adc : ℚ))).sum
      = (l.map (fun h => (h.adc : ℚ))).sum := by
  have h : (List.range l.length).map (fun i => ((l.getD ((i + k) % l.length) d).adc : ℚ))
      = (l.rotate k).map (fun h => (h.adc : ℚ)) := by
    apply List.ext_getElem
    · simp
    · intro i h1 h2
      have hi : i < l.length := by simpa using h1
      have hlt : (i + k) % l.length < l.length := Nat.mod_lt _ (by omega)
      simp only [List.getElem_map, List.getElem_range, List.getElem_rotate,
        List.getD_eq_getElem _ _ hlt]
  rw [h]
  exact ((List.rotate_perm l k).map _).sum_eq

theorem adc_means_sum (l : List Hit) :
    (adc_means_list3 l).sum = (l.map (fun h => (h.adc : ℚ))).sum := by
  have h8 : List.range 8 = [0, 1, 2, 3, 4, 5, 6, 7] := by decide
  unfold adc_means_list3 runningMean
  rw [h8]
  simp only [List.map_cons, List.map_nil, List.sum_cons, List.sum_nil, div_eq_mul_inv,
    List.sum_map_mul_right, List.sum_map_add, rotated_adc_sum]
  have h0 : ((List.range l.length).map (fun _ => (0 : ℚ))).sum = 0 := by simp
  rw [h0]
  push_cast
  ring

theorem primitiveWindow_inputs (tps : List TriggerPrimitive) :
    (primitiveWindow tps).inputs = tps := by
  cases tps with
  | nil => rfl
  | cons tp rest =>
    have h : ∀ (l : List TriggerPrimitive) (w : TriggerActivityMakerHorizontalMuon.Window),
        (l.foldl (fun w tp1 => w.add tp1) w).inputs = w.inputs ++ l := by
      intro l
      induction l with
      | nil => intro w; simp
      | cons x l ih =>
        intro w
        rw [List.foldl_cons, ih]
        simp [TriggerActivityMakerHorizontalMuon.Window.add]
    rw [primitiveWindow, h]
    rfl

/-- The track walk over `n + 1` hits on the consecutive channels
`c, ..., c + n` (`n ≥ 1`): all hits are track hits and `max = n + 1`. -/
theorem run_walk (tol c n : Nat) (t adc : Nat → Nat) (hn : 1 ≤ n) (hc : c + n < 2147483647) :
    trackLoop tol ⟨1, 0, 0, [], []⟩
        (hitPairs ((List.range (n + 1)).map (fun i => (⟨c + i, t i, adc i⟩ : Hit))))
      = some ⟨1, n + 1, 0, [], (List.range (n + 1)).map (fun i => (⟨c + i, t i, adc i⟩ : Hit))⟩ := by
  have hr : (List.range (n + 1)).map (fun i => (⟨c + i, t i, adc i⟩ : Hit))
      = (⟨c + 0, t 0, adc 0⟩ : Hit)
          :: (List.range' 1 n).map (fun i => (⟨c + i, t i, adc i⟩ : Hit)) := by
    rw [List.range_eq_range', List.range'_succ, List.map_cons]
  have hchain : List.Chain (fun x y : Hit => y.chan = x.chan + 1) ⟨c + 0, t 0, adc 0⟩
      ((List.range' 1 n).map (fun i => (⟨c + i, t i, adc i⟩ : Hit))) := by
    refine (List.chain_map (fun i => (⟨c + i, t i, adc i⟩ : Hit))).mpr ?_
    refine List.Chain.imp ?_ (List.chain_succ_range' 0 n 1)
    intro a b hab
    show c + b = c + a + 1
    omega
  have hb : ∀ x ∈ (List.range' 1 n).map (fun i => (⟨c + i, t i, adc i⟩ : Hit)),
      x.chan < 4294967296 := by
    intro x hx
    obtain ⟨i, hi, rfl⟩ := List.mem_map.mp hx
    have := (List.mem_range'_1.mp hi).2
    show c + i < 4294967296
    omega
  have hlast : ((⟨c + 0, t 0, adc 0⟩ : Hit)
      :: (List.range' 1 n).map (fun i => (⟨c + i, t i, adc i⟩ : Hit))).getLast
        (List.cons_ne_nil _ _) = ⟨c + n, t n, adc n⟩ := by
    obtain ⟨k, rfl⟩ : ∃ k, n = k + 1 := ⟨n - 1, by omega⟩
    have h1 : List.range' 1 (k + 1) = List.range' 1 k ++ [k + 1] := by
      rw [List.range'_concat]
      simp [Nat.add_comm]
    simp only [h1, List.map_append, List.map_cons, List.map_nil]
    exact List.getLast_append_singleton (_ :: _)
  have hlen : ((List.range' 1 n).map (fun i => (⟨c + i, t i, adc i⟩ : Hit))).length = n := by
    simp
  rw [hr, hitPairs, List.rotate_cons_succ, List.rotate_zero,
    trackLoop_zip_seed tol _ _ _ _ rfl,
    trackLoop_run tol _ _ _ _ hchain hb (by rw [hlen]; show 1 + n < 2147483648; omega)
      (by simp) (by simp), hlast,
    trackStep_wrap tol _ _ _ (by show c + 0 < c + n; omega) (by show c + n + 4 < _; omega)
      (by simp)]
  simp only [hlen, List.singleton_append, Option.some.injEq, TrackState.mk.injEq, and_true,
    true_and]
  constructor
  · rw [if_pos (by omega)]; omega
  · rw [if_pos (by omega)]

theorem trackWalk_run (n : Nat) (hn : 1 ≤ n) (hc : n < 2147483646) :
    trackWalk (braggMaker (runTrack (n + 1)))
      = some ⟨1, n + 1, 0, [], (List.range (n + 1)).map (fun i => (⟨1 + i, 0, 0⟩ : Hit))⟩ := by
  have hl : chanList (braggMaker (runTrack (n + 1)))
      = (List.range (n + 1)).map (fun i => (⟨1 + i, 0, 0⟩ : Hit)) := by
    unfold chanList
    have hi : (braggMaker (runTrack (n + 1))).m_current_window.inputs = runTrack (n + 1) :=
      primitiveWindow_inputs _
    rw [hi, runTrack, List.map_map]
    refine List.Sorted.insertionSort_eq ?_
    refine List.pairwise_map.mpr (List.Pairwise.imp ?_ (List.pairwise_lt_range (n + 1)))
    intro i j hij
    show 1 + i ≤ 1 + j
    omega
  have hr : (List.range (n + 1)).map (fun i => (⟨1 + i, 0, 0⟩ : Hit))
      = (⟨1 + 0, 0, 0⟩ : Hit) :: (List.range' 1 n).map (fun i => (⟨1 + i, 0, 0⟩ : Hit)) := by
    rw [List.range_eq_range', List.range'_succ, List.map_cons]
  unfold trackWalk
  rw [hl, hr]
  simp only
  rw [← hr]
  exact run_walk (braggMaker (runTrack (n + 1))).m_adj_tolerance 1 n (fun _ => 0) (fun _ => 0)
    hn (by omega)

theorem check_bragg_peak_long (m : TriggerActivityMakerMichelElectron) (st : TrackState)
    (hw : trackWalk m = some st) (hlen : 65521 < st.finalHits.length) :
    check_bragg_peak m = none := by
  unfold check_bragg_peak
  simp only [hw]
  rw [if_pos hlen]

end TriggerActivityMakerMichelElectron

theorem geometry_pair (tol c : Nat) (h : 1 ≤ tol) : geometryAdjacency tol [c, c + 5] = 2 := by
  unfold geometryAdjacency tolerantAdjacency
  have hs : [c, c + 5].insertionSort (· ≤ ·) = [c, c + 5] :=
    List.Sorted.insertionSort_eq (by simp)
  rw [hs, foldl_circularPairs]
  simp only [walkFrom]
  have h1 : tolerantStep 5 (fun gap => gap) tol { adj := 1, max := 0, tol_count := 0 }
      c (c + 5) = { adj := 2, max := 0, tol_count := 5 } := by
    unfold tolerantStep
    rw [if_neg (by omega), if_neg (by omega), if_neg (by omega), if_pos ⟨by omega, by omega, h⟩]
    simp
  rw [h1]
  unfold tolerantStep AdjState.close
  by_cases hc : c = 0
  · rw [if_pos hc]; rfl
  · rw [if_neg hc, if_neg (by omega), if_neg (by omega), if_neg (by omega)]; rfl

namespace TriggerActivityMakerHorizontalMuon

theorem adjacencyStep_bridge (tol : Nat) (st : AdjState) (c : Nat) (hc : c + 5 < 2147483648)
    (ht : st.tol_count < tol) (hs : st.tol_count + 5 < 4294967296) :
    adjacencyStep tol st c (c + 5)
      = { st with adj := (st.adj + 1) % 65536, tol_count := st.tol_count + 5 } := by
  unfold adjacencyStep
  have h0 : ¬ (c + 5 = 0) := by omega
  have hg : (c + 5 + 4294967296 - c) % 4294967296 = 5 := by omega
  have hm : (st.tol_count + 5) % 4294967296 = st.tol_count + 5 := by omega
  simp only [h0, if_false, hg, hm]
  rw [if_neg (by omega), if_neg (by omega),
    if_pos ⟨Or.inr (Or.inr (Or.inr (by omega))), ht⟩]

/-- C32 (behaviour of the code): the tolerance test `tol_count < m_adj_tolerance`
is made before a gap is bridged and the whole gap is added afterwards.  A
bridging step over a gap of 5 leaves `tol_count` at its old value plus 5, so
from `tol_count = m_adj_tolerance − 1` the counter ends at
`m_adj_tolerance + 4`; and for every tolerance of at least 1 a window whose hit
channels are `c` and `c + 5` has adjacency 2: the run bridges 4 missing
channels, whatever the tolerance is. -/
theorem tolerance_overrun (m : TriggerActivityMakerHorizontalMuon) (c : Nat)
    (hwf : ∀ tp ∈ m.m_current_window.inputs, tp.wf) (hb : m.m_adj_tolerance < 65536)
    (h1 : 1 ≤ m.m_adj_tolerance)
    (hc : ∀ x, x ∈ m.m_current_window.inputs.map (fun tp => tp.channel) ↔ x = c ∨ x = c + 5) :
    check_adjacency m = 2
      ∧ (∀ st : AdjState, st.tol_count + 1 = m.m_adj_tolerance →
          (adjacencyStep m.m_adj_tolerance st c (c + 5)).tol_count = m.m_adj_tolerance + 4
            ∧ (adjacencyStep m.m_adj_tolerance st c (c + 5)).adj = (st.adj + 1) % 65536) := by
  have hc5 : c + 5 < 2147483648 := by
    have hmem : c + 5 ∈ m.m_current_window.inputs.map (fun tp => tp.channel) :=
      (hc (c + 5)).mpr (Or.inr rfl)
    exact channels_wf _ hwf _ hmem
  have hd : distinctChannels m.m_current_window.inputs < 65536 := by
    rw [distinct_of_channels m.m_current_window.inputs [c, c + 5] (by simp)
      (fun x => by rw [hc x]; simp)]
    show 2 < 65536
    omega
  refine ⟨?_, ?_⟩
  · rw [check_adjacency_eq m (channels_wf _ hwf) hd hb]
    unfold geometryAdjacency
    rw [tolerantAdjacency_of_channels 5 (fun gap => gap) m.m_adj_tolerance _ [c, c + 5]
      (by simp) (fun x => by rw [hc x]; simp)]
    exact geometry_pair m.m_adj_tolerance c h1
  · intro st hst
    rw [adjacencyStep_bridge m.m_adj_tolerance st c hc5 (by omega) (by omega)]
    exact ⟨by show st.tol_count + 5 = _; omega, rfl⟩

/-- C32 witness: hit channels 1 and 6 with `adj_tolerance = 1`: the adjacency
is 2 and the bridging step leaves `tol_count = 5`. -/
theorem tolerance_overrun_witness :
    (∀ tp ∈ (geometryMaker [1, 6] 1).m_current_window.inputs, tp.wf)
      ∧ (geometryMaker [1, 6] 1).m_adj_tolerance < 65536
      ∧ 1 ≤ (geometryMaker [1, 6] 1).m_adj_tolerance
      ∧ (∀ x, x ∈ (geometryMaker [1, 6] 1).m_current_window.inputs.map (fun tp => tp.channel)
          ↔ x = 1 ∨ x = 1 + 5)
      ∧ check_adjacency (geometryMaker [1, 6] 1) = 2
      ∧ (0 : Nat) + 1 = (geometryMaker [1, 6] 1).m_adj_tolerance
      ∧ (adjacencyStep (geometryMaker [1, 6] 1).m_adj_tolerance
          { adj := 1, max := 0, tol_count := 0 } 1 (1 + 5)).tol_count
          = (geometryMaker [1, 6] 1).m_adj_tolerance + 4 := by
  have hx : ∀ x, x ∈ (geometryMaker [1, 6] 1).m_current_window.inputs.map (fun tp => tp.channel)
      ↔ x = 1 ∨ x = 1 + 5 := by
    intro x
    simp only [geometryMaker, channelWindow_channels, List.mem_cons, List.mem_singleton,
      List.not_mem_nil, or_false]
  have h := tolerance_overrun (geometryMaker [1, 6] 1) 1 (by decide) (by decide) (by decide) hx
  exact ⟨by decide, by decide, by decide, hx, h.1, rfl,
    (h.2 { adj := 1, max := 0, tol_count := 0 } rfl).1⟩

end TriggerActivityMakerHorizontalMuon

theorem strictChannels (l : List Nat) :
    ∃ s : List Nat, s.Sorted (· < ·) ∧ (∀ x, x ∈ l ↔ x ∈ s) ∧ s.length = l.dedup.length :=
  ⟨l.toFinset.sort (· ≤ ·), Finset.sort_sorted_lt _, fun x => by simp,
    by rw [Finset.length_sort, List.card_toFinset]⟩

theorem tolerantAdjacency_nil (maxGap : Nat) (cost : Nat → Nat) (budget : Nat) :
    tolerantAdjacency maxGap cost budget [] = 0 := rfl

theorem tolerantAdjacency_strict (maxGap : Nat) (cost : Nat → Nat) (budget : Nat)
    (l : List Nat) (a : Nat) (t : List Nat) (hs : (a :: t).Sorted (· < ·))
    (hm : ∀ x, x ∈ l ↔ x ∈ a :: t) :
    tolerantAdjacency maxGap cost budget l
      = (tolerantStep maxGap cost budget
          (walkFrom (tolerantStep maxGap cost budget) { adj := 1, max := 0, tol_count := 0 } a t).1
          (walkFrom (tolerantStep maxGap cost budget) { adj := 1, max := 0, tol_count := 0 } a t).2
          a).max := by
  rw [tolerantAdjacency_of_channels maxGap cost budget l (a :: t) hs.nodup hm]
  unfold tolerantAdjacency
  rw [List.Sorted.insertionSort_eq (hs.imp (fun h => Nat.le_of_lt h)), foldl_circularPairs]

theorem tolerantAdjacency_empty (maxGap : Nat) (cost : Nat → Nat) (budget : Nat)
    (l : List Nat) (hm : ∀ x, x ∉ l) : tolerantAdjacency maxGap cost budget l = 0 := by
  have : l = [] := List.eq_nil_iff_forall_not_mem.mpr hm
  rw [this]
  rfl

theorem walkFrom_snd (step : AdjState → Nat → Nat → AdjState) (t : List Nat) (st : AdjState)
    (a : Nat) : (walkFrom step st a t).2 = (a :: t).getLast (List.cons_ne_nil _ _) := by
  induction t generalizing st a with
  | nil => rfl
  | cons b t ih =>
    rw [walkFrom, ih, List.getLast_cons (List.cons_ne_nil b t)]

theorem strict_last_gt (a b : Nat) (t : List Nat) (hs : (a :: b :: t).Sorted (· < ·)) :
    a < (a :: b :: t).getLast (List.cons_ne_nil _ _) := by
  have hmem : (a :: b :: t).getLast (List.cons_ne_nil _ _) ∈ b :: t := by
    rw [List.getLast_cons (List.cons_ne_nil b t)]
    exact List.getLast_mem _
  exact List.rel_of_sorted_cons hs _ hmem

/-- On an ascending list of at least two different channels the last pair of
the circular walk closes the run. -/
theorem tolerantStep_wrap (maxGap : Nat) (cost : Nat → Nat) (budget : Nat) (st : AdjState)
    (a z : Nat) (h : a < z) : tolerantStep maxGap cost budget st z a = st.close := by
  unfold tolerantStep
  by_cases h0 : a = 0
  · rw [if_pos h0]
  · rw [if_neg h0, if_neg (by omega), if_neg (by omega), if_neg (by omega)]

theorem tolerantAdjacency_close (maxGap : Nat) (cost : Nat → Nat) (budget : Nat)
    (l : List Nat) (a b : Nat) (t : List Nat) (hs : (a :: b :: t).Sorted (· < ·))
    (hm : ∀ x, x ∈ l ↔ x ∈ a :: b :: t) :
    tolerantAdjacency maxGap cost budget l
      = (walkFrom (tolerantStep maxGap cost budget) { adj := 1, max := 0, tol_count := 0 } a
          (b :: t)).1.close.max := by
  rw [tolerantAdjacency_strict maxGap cost budget l a (b :: t) hs hm, walkFrom_snd,
    tolerantStep_wrap maxGap cost budget _ a _ (strict_last_gt a b t hs)]

theorem tolerantAdjacency_single (maxGap : Nat) (cost : Nat → Nat) (budget : Nat)
    (l : List Nat) (c : Nat) (hm : ∀ x, x ∈ l ↔ x = c) :
    tolerantAdjacency maxGap cost budget l = if c = 0 then 1 else 0 := by
  rw [tolerantAdjacency_strict maxGap cost budget l c [] (by simp) (fun x => by rw [hm x]; simp)]
  simp only [walkFrom]
  by_cases h0 : c = 0
  · rw [if_pos h0, h0, tolerantStep_zero]
    rfl
  · rw [if_neg h0, tolerantStep_self _ _ _ _ _ h0]

theorem close_max_pos (st : AdjState) (h : 1 ≤ st.adj) : 1 ≤ st.close.max := by
  unfold AdjState.close
  dsimp only
  split_ifs <;> omega

/-- A window with at least two different hit channels has adjacency at
least 1 in the walk with unbounded arithmetic. -/
theorem tolerantAdjacency_pos (maxGap : Nat) (cost : Nat → Nat) (budget : Nat)
    (l : List Nat) (a b : Nat) (t : List Nat) (hs : (a :: b :: t).Sorted (· < ·))
    (hm : ∀ x, x ∈ l ↔ x ∈ a :: b :: t) :
    1 ≤ tolerantAdjacency maxGap cost budget l := by
  rw [tolerantAdjacency_close maxGap cost budget l a b t hs hm]
  exact close_max_pos _ (walkFrom_adj_pos maxGap cost budget _ _ _ (by decide))

/-- The adjacency of the walk with unbounded arithmetic is 0 exactly when no
channel is hit or the only hit channel is not channel 0. -/
theorem tolerantAdjacency_eq_zero (maxGap : Nat) (cost : Nat → Nat) (budget : Nat)
    (l : List Nat) :
    tolerantAdjacency maxGap cost budget l = 0
      ↔ l = [] ∨ ∃ c, c ≠ 0 ∧ ∀ x ∈ l, x = c := by
  obtain ⟨s, hs, hm, _⟩ := strictChannels l
  constructor
  · intro h
    cases s with
    | nil =>
      left
      exact List.eq_nil_iff_forall_not_mem.mpr (fun x hx => by simpa using (hm x).mp hx)
    | cons a t =>
      cases t with
      | nil =>
        right
        have hm1 : ∀ x, x ∈ l ↔ x = a := fun x => by rw [hm x]; simp
        rw [tolerantAdjacency_single maxGap cost budget l a hm1] at h
        refine ⟨a, ?_, fun x hx => (hm1 x).mp hx⟩
        intro h0
        rw [if_pos h0] at h
        exact absurd h (by decide)
      | cons b t =>
        have := tolerantAdjacency_pos maxGap cost budget l a b t hs hm
        omega
  · rintro (h | ⟨c, hc, hall⟩)
    · rw [h]; rfl
    · by_cases hl : l = []
      · rw [hl]; rfl
      · have hm1 : ∀ x, x ∈ l ↔ x = c := by
          intro x
          constructor
          · exact hall x
          · intro hx
            obtain ⟨y, hy⟩ := List.exists_mem_of_ne_nil l hl
            rw [hx, ← hall y hy]
            exact hy
        rw [tolerantAdjacency_single maxGap cost budget l c hm1, if_neg hc]

namespace TriggerActivityMakerHorizontalMuon

end TriggerActivityMakerHorizontalMuon

theorem tolerantStep_max_le (maxGap : Nat) (cost : Nat → Nat) (budget : Nat) (st : AdjState)
    (c n : Nat) :
    (tolerantStep maxGap cost budget st c n).max ≤ max st.max st.adj := by
  unfold tolerantStep AdjState.close
  split_ifs <;> (try simp only) <;> omega

theorem walkFrom_le (maxGap : Nat) (cost : Nat → Nat) (budget : Nat)
    (hcost : ∀ g, g ≤ maxGap → cost g ≤ 5) (t : List Nat) (a : Nat) (st : AdjState)
    (h1 : 1 ≤ st.adj) (htol : st.tol_count < budget + 5) :
    (walkFrom (tolerantStep maxGap cost budget) st a t).1.adj ≤ st.adj + ascents a t
      ∧ (walkFrom (tolerantStep maxGap cost budget) st a t).1.max
          ≤ max st.max (st.adj + ascents a t) := by
  induction t generalizing a st with
  | nil =>
    simp only [walkFrom, ascents]
    omega
  | cons b t ih =>
    obtain ⟨s1, s2, s3⟩ := tolerantStep_inv maxGap cost budget hcost st a b h1 htol
    have s4 := tolerantStep_max_le maxGap cost budget st a b
    obtain ⟨i1, i2⟩ := ih b (tolerantStep maxGap cost budget st a b) s1 s3
    simp only [walkFrom, ascents]
    constructor
    · omega
    · omega

/-- The adjacency of the walk with unbounded arithmetic is at most the number
of distinct channels. -/
theorem tolerantAdjacency_le (maxGap : Nat) (cost : Nat → Nat) (budget : Nat)
    (hcost : ∀ g, g ≤ maxGap → cost g ≤ 5) (l : List Nat) :
    tolerantAdjacency maxGap cost budget l ≤ l.dedup.length := by
  obtain ⟨s, hs, hm, hlen⟩ := strictChannels l
  cases s with
  | nil =>
    rw [tolerantAdjacency_empty maxGap cost budget l (fun x hx => by simpa using (hm x).mp hx)]
    exact Nat.zero_le _
  | cons a t =>
    rw [tolerantAdjacency_strict maxGap cost budget l a t hs hm, ← hlen]
    obtain ⟨w1, w2⟩ := walkFrom_le maxGap cost budget hcost t a
      { adj := 1, max := 0, tol_count := 0 } (by decide) (by show 0 < budget + 5; omega)
    have w3 := tolerantStep_max_le maxGap cost budget
      (walkFrom (tolerantStep maxGap cost budget) { adj := 1, max := 0, tol_count := 0 } a t).1
      (walkFrom (tolerantStep maxGap cost budget) { adj := 1, max := 0, tol_count := 0 } a t).2 a
    have hasc := ascents_dedup t a (hs.imp (fun h => Nat.le_of_lt h))
    rw [hs.nodup.dedup] at hasc
    simp only [List.length_cons] at w1 w2 hasc ⊢
    omega

namespace TriggerActivityMakerHorizontalMuon

theorem adjacencyStep_le (tol : Nat) (st : AdjState) (c n : Nat) (hc : c < 2147483648)
    (hn : n < 2147483648) :
    (adjacencyStep tol st c n).adj ≤ max 1 (st.adj + (if c < n then 1 else 0))
      ∧ (adjacencyStep tol st c n).max ≤ max st.max st.adj := by
  rcases st with ⟨a, m, tc⟩
  simp only [adjacencyStep]
  split_ifs <;> simp only <;> omega

/-- Along the walk of the code the run length grows by at most 1, and only
where the channel number increases. -/
theorem walkFrom_code_le (step : AdjState → Nat → Nat → AdjState) (B : Nat)
    (hstep : ∀ st c n, c < B → n < B →
      (step st c n).adj ≤ max 1 (st.adj + (if c < n then 1 else 0))
        ∧ (step st c n).max ≤ max st.max st.adj)
    (t : List Nat) (a : Nat) (st : AdjState) (K : Nat) (hwf : ∀ x ∈ a :: t, x < B)
    (hK : 1 ≤ K) (hadj : st.adj ≤ K) (hmax : st.max ≤ K) :
    (walkFrom step st a t).1.adj ≤ K + ascents a t
      ∧ (walkFrom step st a t).1.max ≤ K + ascents a t := by
  induction t generalizing a st K with
  | nil =>
    simp only [walkFrom, ascents]
    omega
  | cons b t ih =>
    obtain ⟨s1, s2⟩ := hstep st a b (hwf a (List.mem_cons_self _ _))
      (hwf b (List.mem_cons_of_mem _ (List.mem_cons_self _ _)))
    obtain ⟨i1, i2⟩ := ih b (step st a b) (K + (if a < b then 1 else 0))
      (fun x hx => hwf x (List.mem_cons_of_mem _ hx)) (by omega) (by omega) (by omega)
    simp only [walkFrom, ascents]
    constructor
    · omega
    · omega

theorem sparse_channels (n : Nat) :
    (Window.growWindow sparsePrimitive n).inputs.map (fun tp => tp.channel)
      = (List.range (n + 1)).map (fun i => 6 * i) := by
  rw [Window.growWindow_inputs, List.map_map]
  rfl

theorem sparse_nodup (n : Nat) : ((List.range (n + 1)).map (fun i => 6 * i)).Nodup :=
  (List.nodup_range _).map (fun a b (h : 6 * a = 6 * b) => by omega)

theorem sparse_hitsBounded (n : Nat) : Window.HitsBounded (Window.growWindow sparsePrimitive n) := by
  intro c
  unfold chanCount
  rw [sparse_channels]
  exact lt_of_le_of_lt (List.nodup_iff_count_le_one.mp (sparse_nodup n) c) (by norm_num)

theorem sparse_wf (i : Nat) (hi : i ≤ 65535) : (sparsePrimitive i).wf := by
  unfold TriggerPrimitive.wf sparsePrimitive mkPrimitive
  simp only
  omega

theorem sparse_n_channels_hit (n : Nat) :
    (Window.growWindow sparsePrimitive n).n_channels_hit = (n + 1) % 65536 := by
  have hc : Window.CountsOk (Window.growWindow sparsePrimitive n) :=
    Window.growWindow_countsOk sparsePrimitive n (fun i _ => sparse_hitsBounded i)
  unfold Window.n_channels_hit
  rw [ChannelMap.Counts.size_eq hc]
  unfold distinctChannels
  rw [sparse_channels, (sparse_nodup n).dedup, List.length_map, List.length_range]

theorem sparse_step (tol : Nat) (M a b : Nat) (hab : a + 6 ≤ b) (hb : b < 2147483648) :
    adjacencyStep tol { adj := 1, max := M, tol_count := 0 } a b
      = { adj := 1, max := if 1 > M then 1 else M, tol_count := 0 } := by
  rw [adjacencyStep_eq tol _ a b (by omega) hb (fun _ => by norm_num) (by norm_num)]
  unfold tolerantStep AdjState.close
  rw [if_neg (by omega), if_neg (by omega), if_neg (by omega), if_neg (by omega)]

theorem sparse_walk (tol : Nat) (t : List Nat) (a M : Nat)
    (hch : List.Chain (fun x y => x + 6 ≤ y) a t) (hwf : ∀ x ∈ a :: t, x < 2147483648)
    (hM : 1 ≤ M) :
    (walkFrom (adjacencyStep tol) { adj := 1, max := M, tol_count := 0 } a t).1
      = { adj := 1, max := M, tol_count := 0 } := by
  induction t generalizing a with
  | nil => rfl
  | cons b t ih =>
    obtain ⟨hab, hch'⟩ := List.chain_cons.mp hch
    rw [walkFrom, sparse_step tol M a b hab
      (hwf b (List.mem_cons_of_mem _ (List.mem_cons_self _ _))), if_neg (by omega)]
    exact ih b hch' (fun x hx => hwf x (List.mem_cons_of_mem _ hx))

/-- A window whose hit channels are 6 apart has adjacency 1, whatever the
tolerance. -/
theorem sparse_check_adjacency (n : Nat) (hn : 6 * (n + 1) < 2147483648) :
    check_adjacency (sparseMaker (n + 1)) = 1 := by
  unfold check_adjacency
  have hch : (sparseMaker (n + 1)).m_current_window.inputs.map (fun tp => tp.channel)
      = 0 :: 6 :: (List.range' 2 n).map (fun i => 6 * i) := by
    show (Window.growWindow sparsePrimitive (n + 1)).inputs.map (fun tp => tp.channel) = _
    rw [sparse_channels, List.range_eq_range', List.range'_succ, List.range'_succ]
    rfl
  have hsorted : (0 :: 6 :: (List.range' 2 n).map (fun i => 6 * i)).Sorted (· ≤ ·) := by
    rw [← hch]
    show ((Window.growWindow sparsePrimitive (n + 1)).inputs.map (fun tp => tp.channel)).Sorted _
    rw [sparse_channels]
    exact (List.pairwise_lt_range _).map _ (fun a b h => by omega)
  have hmem : ∀ x ∈ 6 :: (List.range' 2 n).map (fun i => 6 * i), x < 2147483648 := by
    intro x hx
    rcases List.mem_cons.mp hx with rfl | hx
    · norm_num
    · obtain ⟨i, hi, rfl⟩ := List.mem_map.mp hx
      have := (List.mem_range'_1.mp hi).2
      omega
  simp only [hch]
  rw [List.Sorted.insertionSort_eq hsorted,
    foldl_circularPairs (adjacencyStep (sparseMaker (n + 1)).m_adj_tolerance), walkFrom,
    sparse_step _ 0 0 6 (by norm_num) (by norm_num), if_pos (by norm_num)]
  have hw := sparse_walk (sparseMaker (n + 1)).m_adj_tolerance
    ((List.range' 2 n).map (fun i => 6 * i)) 6 1
    (show List.Chain (fun x y => x + 6 ≤ y) ((fun i => 6 * i) 1)
        ((List.range' 2 n).map (fun i => 6 * i)) from
      (List.chain_map (fun i => 6 * i)).mpr ((List.chain_succ_range' 1 n 1).imp
        (fun a b (h : b = a + 1) => (by omega : 6 * a + 6 ≤ 6 * b)))) hmem
    le_rfl
  have hz := walkFrom_mem (adjacencyStep (sparseMaker (n + 1)).m_adj_tolerance)
    ((List.range' 2 n).map (fun i => 6 * i)) { adj := 1, max := 1, tol_count := 0 } 6
  rw [adjacencyStep_eq _ _ _ 0 (hmem _ hz) (by norm_num) (fun h => absurd h (Nat.not_lt_zero _))
      (by rw [hw]; norm_num), tolerantStep_zero, hw]
  rfl

end TriggerActivityMakerHorizontalMuon

theorem isRun_congr (l s : List Nat) (hm : ∀ x, x ∈ l ↔ x ∈ s) (x k : Nat) :
    IsRun l x k ↔ IsRun s x k :=
  ⟨fun h i hi => (hm _).mp (h i hi), fun h i hi => (hm _).mpr (h i hi)⟩

theorem longestRun_unique (l s : List Nat) (hm : ∀ x, x ∈ l ↔ x ∈ s) (n k : Nat)
    (hn : LongestRun l n) (hk : LongestRun s k) : n = k := by
  obtain ⟨⟨x, hx⟩, hmax⟩ := hn
  obtain ⟨⟨y, hy⟩, hmax'⟩ := hk
  have h1 := hmax' x n ((isRun_congr l s hm x n).mp hx)
  have h2 := hmax y k ((isRun_congr l s hm y k).mpr hy)
  omega

theorem close_max_step_le (maxGap : Nat) (cost : Nat → Nat) (budget : Nat) (st : AdjState)
    (c n : Nat) :
    st.close.max ≤ (tolerantStep maxGap cost budget st c n).close.max := by
  rcases st with ⟨a, m, tc⟩
  unfold tolerantStep
  split_ifs
  all_goals simp only [AdjState.close]
  all_goals (try split_ifs)
  all_goals (try omega)

theorem tolerantStep_next (maxGap : Nat) (cost : Nat → Nat) (budget : Nat) (st : AdjState)
    (c : Nat) :
    tolerantStep maxGap cost budget st c (c + 1) = { st with adj := st.adj + 1 } := by
  unfold tolerantStep
  rw [if_neg (by omega), if_neg (by omega), if_pos rfl]

theorem adj_le_close_max (st : AdjState) : st.adj ≤ st.close.max := by
  unfold AdjState.close
  dsimp only
  split_ifs <;> omega

/-- Completeness of the walk, for every tolerance budget: along a strictly
ascending channel list every run of consecutive channels is counted in full. -/
theorem walkFrom_complete (maxGap : Nat) (cost : Nat → Nat) (budget : Nat) (t : List Nat)
    (a : Nat) (st : AdjState) (hs : (a :: t).Sorted (· < ·)) (h1 : 1 ≤ st.adj) :
    st.close.max ≤ (walkFrom (tolerantStep maxGap cost budget) st a t).1.close.max
      ∧ (∀ k, IsRun (a :: t) a k →
          st.adj + k ≤ (walkFrom (tolerantStep maxGap cost budget) st a t).1.close.max + 1)
      ∧ (∀ x k, a < x → IsRun (a :: t) x k →
          k ≤ (walkFrom (tolerantStep maxGap cost budget) st a t).1.close.max) := by
  induction t generalizing a st with
  | nil =>
    simp only [walkFrom]
    have hadj := adj_le_close_max st
    refine ⟨le_rfl, ?_, ?_⟩
    · intro k hk
      by_cases h : k ≤ 1
      · omega
      · have := hk 1 (by omega)
        simp only [List.mem_singleton] at this
        omega
    · intro x k hx hk
      by_cases h : k = 0
      · omega
      · have := hk 0 (by omega)
        simp only [List.mem_singleton] at this
        omega
  | cons b t ih =>
    have hab : a < b := List.rel_of_sorted_cons hs b (List.mem_cons_self _ _)
    have hs' : (b :: t).Sorted (· < ·) := List.Sorted.of_cons hs
    have hge : ∀ y ∈ b :: t, b ≤ y := by
      intro y hy
      rcases List.mem_cons.mp hy with rfl | hy
      · exact le_rfl
      · exact Nat.le_of_lt (List.rel_of_sorted_cons hs' y hy)
    have hpos := tolerantStep_adj_pos maxGap cost budget st a b h1
    have hmono := close_max_step_le maxGap cost budget st a b
    obtain ⟨i1, i2, i3⟩ := ih b (tolerantStep maxGap cost budget st a b) hs' hpos
    have hadj := adj_le_close_max st
    have htail : ∀ x k, a < x → IsRun (a :: b :: t) x k → IsRun (b :: t) x k := by
      intro x k hx hk i hi
      have := hk i hi
      rcases List.mem_cons.mp this with h | h
      · omega
      · exact h
    simp only [walkFrom]
    refine ⟨le_trans hmono i1, ?_, ?_⟩
    · intro k hk
      by_cases h : k ≤ 1
      · omega
      · have hmem : a + 1 ∈ b :: t := by
          have := hk 1 (by omega)
          rcases List.mem_cons.mp this with h' | h'
          · omega
          · exact h'
        have hb : b = a + 1 := by
          have := hge _ hmem
          omega
        subst hb
        have hrun : IsRun ((a + 1) :: t) (a + 1) (k - 1) :=
          htail (a + 1) (k - 1) (by omega) (fun j hj => by
            have := hk (j + 1) (by omega)
            rwa [show a + (j + 1) = a + 1 + j by omega] at this)
        have := i2 (k - 1) hrun
        rw [tolerantStep_next] at this
        simp only at this
        rw [tolerantStep_next]
        omega
    · intro x k hx hk
      have hrun := htail x k hx hk
      by_cases h : k = 0
      · omega
      · have hxm : x ∈ b :: t := by simpa using hrun 0 (by omega)
        have hbx := hge x hxm
        by_cases hxb : x = b
        · subst hxb
          have := i2 k hrun
          omega
        · exact i3 x k (by omega) hrun

/-- Soundness of the walk with tolerance budget 0: the current run and the
recorded maximum are lengths of runs of consecutive hit channels. -/
theorem walkFrom_sound (maxGap : Nat) (cost : Nat → Nat) (S : List Nat) (t : List Nat)
    (c : Nat) (st : AdjState) (hs : (c :: t).Sorted (· < ·)) (hmem : ∀ x ∈ t, x ∈ S)
    (hadj : ∃ x, x + st.adj = c + 1 ∧ IsRun S x st.adj) (hmax : ∃ x, IsRun S x st.max) :
    ∃ x, IsRun S x (walkFrom (tolerantStep maxGap cost 0) st c t).1.close.max := by
  induction t generalizing c st with
  | nil =>
    simp only [walkFrom]
    unfold AdjState.close
    dsimp only
    split_ifs
    · obtain ⟨x, _, hx⟩ := hadj
      exact ⟨x, hx⟩
    · exact hmax
  | cons b t ih =>
    have hcb : c < b := List.rel_of_sorted_cons hs b (List.mem_cons_self _ _)
    have hbS : b ∈ S := hmem b (List.mem_cons_self _ _)
    simp only [walkFrom]
    apply ih b _ (List.Sorted.of_cons hs) (fun x hx => hmem x (List.mem_cons_of_mem _ hx))
    · by_cases h : b = c + 1
      · rw [h, tolerantStep_next]
        obtain ⟨x, hx, hrun⟩ := hadj
        refine ⟨x, by simp only; omega, ?_⟩
        intro i hi
        by_cases hi' : i < st.adj
        · exact hrun i hi'
        · have : x + i = b := by simp only at hi; omega
          rw [this]
          exact hbS
      · unfold tolerantStep
        rw [if_neg (by omega), if_neg (by omega), if_neg h, if_neg (by omega)]
        refine ⟨b, rfl, ?_⟩
        intro i hi
        have : i = 0 := by
          unfold AdjState.close at hi
          simp only at hi
          omega
        rw [this]
        exact hbS
    · by_cases h : b = c + 1
      · rw [h, tolerantStep_next]
        exact hmax
      · unfold tolerantStep
        rw [if_neg (by omega), if_neg (by omega), if_neg h, if_neg (by omega)]
        unfold AdjState.close
        dsimp only
        split_ifs
        · obtain ⟨x, _, hx⟩ := hadj
          exact ⟨x, hx⟩
        · exact hmax

/-- For every tolerance budget, the walk with unbounded arithmetic over at
least two different channels returns at least the length of every run of
consecutive hit channels. -/
theorem tolerantAdjacency_ge_run (maxGap : Nat) (cost : Nat → Nat) (budget : Nat)
    (l : List Nat) (a b : Nat) (t : List Nat) (hs : (a :: b :: t).Sorted (· < ·))
    (hm : ∀ x, x ∈ l ↔ x ∈ a :: b :: t) (x k : Nat) (hrun : IsRun l x k) :
    k ≤ tolerantAdjacency maxGap cost budget l := by
  rw [tolerantAdjacency_close maxGap cost budget l a b t hs hm]
  obtain ⟨_, c2, c3⟩ := walkFrom_complete maxGap cost budget (b :: t) a
    { adj := 1, max := 0, tol_count := 0 } hs (by decide)
  have hrun' := (isRun_congr l _ hm x k).mp hrun
  by_cases h : k = 0
  · omega
  · have hx : x ∈ a :: b :: t := by simpa using hrun' 0 (by omega)
    have hax : a ≤ x := by
      rcases List.mem_cons.mp hx with rfl | hx
      · exact le_rfl
      · exact Nat.le_of_lt (List.rel_of_sorted_cons hs x hx)
    by_cases hxa : x = a
    · subst hxa
      have := c2 k hrun'
      simp only at this
      omega
    · exact c3 x k (by omega) hrun'

/-- With tolerance budget 0 the walk with unbounded arithmetic over at least
two different channels returns the length of the longest run of consecutive
hit channels. -/
theorem tolerantAdjacency_longest (maxGap : Nat) (cost : Nat → Nat)
    (l : List Nat) (a b : Nat) (t : List Nat) (hs : (a :: b :: t).Sorted (· < ·))
    (hm : ∀ x, x ∈ l ↔ x ∈ a :: b :: t) :
    LongestRun l (tolerantAdjacency maxGap cost 0 l) := by
  refine ⟨?_, fun x k h => tolerantAdjacency_ge_run maxGap cost 0 l a b t hs hm x k h⟩
  rw [tolerantAdjacency_close maxGap cost 0 l a b t hs hm]
  exact walkFrom_sound maxGap cost l (b :: t) a _ hs
    (fun x hx => (hm x).mpr (List.mem_cons_of_mem _ hx))
    ⟨a, rfl, fun i hi => by
      have : i = 0 := by simp only at hi; omega
      rw [this]
      exact (hm a).mpr (List.mem_cons_self _ _)⟩
    ⟨0, fun i hi => absurd hi (Nat.not_lt_zero _)⟩

/-- A channel list with at least two distinct members has a strictly ascending
enumeration with at least two members. -/
theorem strictChannels_two (l : List Nat) (h2 : 2 ≤ l.dedup.length) :
    ∃ a b t, (a :: b :: t).Sorted (· < ·) ∧ ∀ x, x ∈ l ↔ x ∈ a :: b :: t := by
  obtain ⟨s, hs, hm, hlen⟩ := strictChannels l
  match s, hs, hm, hlen with
  | [], _, _, hlen => simp only [List.length_nil] at hlen; omega
  | [_], _, _, hlen => simp only [List.length_singleton] at hlen; omega
  | a :: b :: t, hs, hm, _ => exact ⟨a, b, t, hs, hm⟩

theorem walkFrom_append_single (step : AdjState → Nat → Nat → AdjState) (t : List Nat)
    (st : AdjState) (a z : Nat) :
    walkFrom step st a (t ++ [z])
      = (step (walkFrom step st a t).1 (walkFrom step st a t).2 z, z) := by
  induction t generalizing st a with
  | nil => rfl
  | cons b t ih =>
    simp only [List.cons_append, walkFrom]
    exact ih _ b

theorem sorted_run_gap (a k z : Nat) (hz : a + k < z) :
    (a :: (List.range' (a + 1) k ++ [z])).Sorted (· ≤ ·) := by
  rw [← List.cons_append]
  refine List.pairwise_append.mpr ⟨sorted_run a k, List.pairwise_singleton _ _, ?_⟩
  intro x hx y hy
  rw [List.mem_singleton] at hy
  rcases List.mem_cons.mp hx with rfl | hx
  · omega
  · have := (List.mem_range'_1.mp hx).2
    omega

/-- The walk of any of the step functions over the channels
`a, a + 1, ..., a + k` followed by one channel `z` further up, taken
circularly. -/
theorem run_gap_pairs (step : AdjState → Nat → Nat → AdjState) (M B : Nat)
    (hstep : ∀ st a, a < B → step st a (a + 1) = { st with adj := (st.adj + 1) % M })
    (k a z : Nat) (st : AdjState) (hk : a + k ≤ B) (hz : a + k < z)
    (h1 : st.adj % M = st.adj) :
    (circularPairs ((a :: (List.range' (a + 1) k ++ [z])).insertionSort (· ≤ ·))).foldl
        (fun st p => step st p.1 p.2) st
      = step (step { st with adj := (st.adj + k) % M } (a + k) z) z a := by
  rw [(sorted_run_gap a k z hz).insertionSort_eq, foldl_circularPairs, walkFrom_append_single,
    walkFrom_run step M B hstep k a st hk h1]

theorem TriggerActivityMakerHorizontalMuon.check_adjacency_run_gap (a k z tol : Nat)
    (hk : a + k ≤ 2147483648) (hz : a + k < z) :
    TriggerActivityMakerHorizontalMuon.check_adjacency
        (geometryMaker (a :: (List.range' (a + 1) k ++ [z])) tol)
      = (TriggerActivityMakerHorizontalMuon.adjacencyStep tol
          (TriggerActivityMakerHorizontalMuon.adjacencyStep tol
            { adj := (1 + k) % 65536, max := 0, tol_count := 0 } (a + k) z) z a).max := by
  unfold TriggerActivityMakerHorizontalMuon.check_adjacency
  simp only [geometryMaker, channelWindow_channels]
  rw [run_gap_pairs (TriggerActivityMakerHorizontalMuon.adjacencyStep tol) 65536 2147483648
    (fun st a ha => TriggerActivityMakerHorizontalMuon.adjacencyStep_succ tol st a ha) k a z _ hk
    hz (by decide)]

theorem TriggerActivityMakerMichelElectron.michel_check_adjacency_run_gap (a k z tol : Nat)
    (hk : a + k ≤ 2147483648) (hz : a + k < z) :
    TriggerActivityMakerMichelElectron.check_adjacency
        (michelMakerOn (a :: (List.range' (a + 1) k ++ [z])) tol)
      = (TriggerActivityMakerMichelElectron.adjacencyStep tol
          (TriggerActivityMakerMichelElectron.adjacencyStep tol
            { adj := (1 + k) % 65536, max := 0, tol_count := 0 } (a + k) z) z a).max := by
  unfold TriggerActivityMakerMichelElectron.check_adjacency
  simp only [michelMakerOn, channelWindow_channels]
  rw [run_gap_pairs (TriggerActivityMakerMichelElectron.adjacencyStep tol) 65536 2147483648
    (fun st a ha => TriggerActivityMakerMichelElectron.michelStep_succ tol st a ha) k a z _ hk
    hz (by decide)]

/-- The walk with unbounded arithmetic returns with any tolerance budget at
least what it returns with budget 0. -/
theorem tolerantAdjacency_zero_le (maxGap : Nat) (cost : Nat → Nat) (budget : Nat)
    (l : List Nat) :
    tolerantAdjacency maxGap cost 0 l ≤ tolerantAdjacency maxGap cost budget l := by
  obtain ⟨s, hs, hm, _⟩ := strictChannels l
  match s, hs, hm with
  | [], _, hm =>
    have he : ∀ x, x ∉ l := fun x hx => by simpa using (hm x).mp hx
    rw [tolerantAdjacency_empty maxGap cost 0 l he, tolerantAdjacency_empty maxGap cost budget l he]
  | [c], _, hm =>
    have h1 : ∀ x, x ∈ l ↔ x = c := fun x => by rw [hm x]; simp
    rw [tolerantAdjacency_single maxGap cost 0 l c h1,
      tolerantAdjacency_single maxGap cost budget l c h1]
  | a :: b :: t, hs, hm =>
    obtain ⟨⟨x, hx⟩, _⟩ := tolerantAdjacency_longest maxGap cost l a b t hs hm
    exact tolerantAdjacency_ge_run maxGap cost budget l a b t hs hm x _ hx

namespace TriggerActivityMakerHorizontalMuon

theorem emitAndReset_window_length (m : TriggerActivityMakerHorizontalMuon)
    (tp : TriggerPrimitive) (out : List TriggerActivity)
    (r : TriggerActivityMakerHorizontalMuon × List TriggerActivity)
    (h : emitAndReset m tp out = some r) : r.1.m_window_length = m.m_window_length := by
  unfold emitAndReset at h
  cases hta : construct_ta m with
  | none => rw [hta] at h; simp at h
  | some ta =>
    rw [hta] at h
    simp only [Option.some.injEq] at h
    rw [← h]

theorem triggerChain_window_length (m : TriggerActivityMakerHorizontalMuon)
    (tp : TriggerPrimitive) (out : List TriggerActivity)
    (r : TriggerActivityMakerHorizontalMuon × List TriggerActivity)
    (h : triggerChain m tp out = some r) : r.1.m_window_length = m.m_window_length := by
  unfold triggerChain at h
  by_cases h1 : tsub tp.time_start m.m_current_window.time_start < m.m_window_length
  · rw [if_pos h1] at h
    simp only [Option.some.injEq] at h
    rw [← h]
  · rw [if_neg h1] at h
    by_cases h2 : m.m_current_window.n_channels_hit > m.m_n_channels_threshold
        ∧ m.m_trigger_on_n_channels = true
    · rw [if_pos h2] at h
      dsimp only at h
      by_cases h3 : m.m_prescale = 0
      · rw [if_pos h3] at h; simp at h
      · rw [if_neg h3] at h
        by_cases h4 : (m.ta_count + 1) % 65536 % m.m_prescale = 0
        · rw [if_pos h4] at h
          exact (emitAndReset_window_length _ tp out r h : r.1.m_window_length = _)
        · rw [if_neg h4] at h
          simp only [Option.some.injEq] at h
          rw [← h]
    · rw [if_neg h2] at h
      by_cases h5 : check_adjacency m > m.m_adjacency_threshold ∧ m.m_trigger_on_adjacency = true
      · rw [if_pos h5] at h
        dsimp only at h
        by_cases h3 : m.m_prescale = 0
        · rw [if_pos h3] at h; simp at h
        · rw [if_neg h3] at h
          by_cases h4 : (m.ta_count + 1) % 65536 % m.m_prescale = 0
          · rw [if_pos h4] at h
            exact (emitAndReset_window_length _ tp out r h : r.1.m_window_length = _)
          · rw [if_neg h4] at h
            simp only [Option.some.injEq] at h
            rw [← h]
      · rw [if_neg h5] at h
        simp only [Option.some.injEq] at h
        rw [← h]

theorem operator_call_window_length (m m1 : TriggerActivityMakerHorizontalMuon)
    (tp : TriggerPrimitive) (out out1 : List TriggerActivity)
    (h : operator_call m tp out = some (m1, out1)) :
    m1.m_window_length = m.m_window_length := by
  unfold operator_call at h
  by_cases he : m.m_current_window.is_empty = true
  · rw [if_pos he] at h
    simp only [Option.some.injEq, Prod.mk.injEq] at h
    rw [← h.1]
    rfl
  · rw [if_neg he] at h
    cases hc : triggerChain m tp out with
    | none => rw [hc] at h; simp at h
    | some r =>
      rw [hc] at h
      simp only [Option.map_some', Option.some.injEq, Prod.mk.injEq] at h
      rw [← h.1]
      exact triggerChain_window_length m tp out r hc

theorem head_le_of_pairwise (l : List TriggerPrimitive) (first : TriggerPrimitive)
    (hs : l.Pairwise (fun a b => a.time_start ≤ b.time_start)) (hh : l.head? = some first) :
    ∀ p ∈ l, first.time_start ≤ p.time_start := by
  cases l with
  | nil => simp at hh
  | cons a t =>
    simp only [List.head?_cons, Option.some.injEq] at hh
    subst hh
    intro p hp
    rcases List.mem_cons.mp hp with rfl | hp
    · exact le_rfl
    · exact List.rel_of_pairwise_cons hs hp

theorem timeSpan_reset (s : Window) (x : TriggerPrimitive) (L : Nat) (hL : 0 < L) :
    (s.reset x).TimeSpan L := by
  refine ⟨List.pairwise_singleton _ _, ?_, ?_⟩
  · intro first hf
    simp only [Window.reset, List.head?_cons, Option.some.injEq] at hf
    rw [← hf]
    rfl
  · intro p hp
    simp only [Window.reset, List.mem_singleton] at hp
    subst hp
    simp only [Window.reset]
    omega

theorem timeSpan_add (w : Window) (x : TriggerPrimitive) (L : Nat) (hW : w.TimeSpan L)
    (hne : w.is_empty = false) (hx : x.time_start < 18446744073709551616)
    (hle : ∀ p ∈ w.inputs, p.time_start ≤ x.time_start)
    (hin : tsub x.time_start w.time_start < L) : (w.add x).TimeSpan L := by
  obtain ⟨hs, hh, hall⟩ := hW
  obtain ⟨a, t, hat⟩ : ∃ a t, w.inputs = a :: t := by
    cases hi : w.inputs with
    | nil => simp [Window.is_empty, hi] at hne
    | cons a t => exact ⟨a, t, rfl⟩
  have hts : w.time_start ≤ x.time_start := by
    have h1 := hh a (by rw [hat]; rfl)
    have h2 := hle a (by rw [hat]; exact List.mem_cons_self _ _)
    omega
  rw [Window.tsub_of_le hts hx] at hin
  refine ⟨?_, ?_, ?_⟩
  · simp only [Window.add]
    exact List.pairwise_append.mpr ⟨hs, List.pairwise_singleton _ _,
      fun p hp y hy => by rw [List.mem_singleton] at hy; rw [hy]; exact hle p hp⟩
  · intro first hf
    simp only [Window.add, hat, List.cons_append, List.head?_cons, Option.some.injEq] at hf
    rw [← hf]
    exact hh a (by rw [hat]; rfl)
  · intro p hp
    simp only [Window.add, List.mem_append, List.mem_singleton] at hp
    rcases hp with hp | rfl
    · exact hall p hp
    · exact ⟨hts, hin⟩

theorem timeSpan_move (w : Window) (x : TriggerPrimitive) (L : Nat) (hW : w.TimeSpan L)
    (hL : 0 < L) (hx : x.time_start < 18446744073709551616)
    (hle : ∀ p ∈ w.inputs, p.time_start ≤ x.time_start)
    (hsz : w.inputs.length < 4294967296) : (w.move x L).TimeSpan L := by
  obtain ⟨hs, _, _⟩ := hW
  have hlast : ∀ e ∈ w.inputs.getLast?, e.time_start ≤ x.time_start :=
    fun e he => hle e (List.mem_of_getLast?_eq_some he)
  obtain ⟨hin, _⟩ := Window.move_inputs_sorted w x L hs hlast hx hsz
  obtain ⟨_, first, hfirst, hts⟩ := Window.move_general w x L
  have hsorted : (w.move x L).inputs.Pairwise (fun a b => a.time_start ≤ b.time_start) := by
    rw [hin]
    exact List.pairwise_append.mpr ⟨hs.sublist (List.filter_sublist _),
      List.pairwise_singleton _ _,
      fun p hp y hy => by
        rw [List.mem_singleton] at hy
        rw [hy]
        exact hle p (List.mem_of_mem_filter hp)⟩
  have hmem : ∀ p ∈ (w.move x L).inputs,
      p.time_start ≤ x.time_start ∧ x.time_start - p.time_start < L := by
    intro p hp
    rw [hin, List.mem_append, List.mem_singleton] at hp
    rcases hp with hp | rfl
    · exact ⟨hle p (List.mem_of_mem_filter hp), by simpa using (List.mem_filter.mp hp).2⟩
    · exact ⟨le_rfl, by omega⟩
  have hfm : first ∈ (w.move x L).inputs := List.mem_of_mem_head? hfirst
  refine ⟨hsorted, ?_, ?_⟩
  · intro f hf
    rw [hfirst] at hf
    simp only [Option.some.injEq] at hf
    rw [← hf]
    exact hts
  · intro p hp
    have h1 := head_le_of_pairwise _ first hsorted hfirst p hp
    have h2 := hmem p hp
    have h3 := hmem first hfm
    rw [hts]
    omega

theorem construct_ta_inSpan (m : TriggerActivityMakerHorizontalMuon) (ta : TriggerActivity)
    (L : Nat) (hW : m.m_current_window.TimeSpan L) (hne : m.m_current_window.is_empty = false)
    (hta : construct_ta m = some ta) : ActivityInSpan ta L := by
  obtain ⟨last, hlast, hc⟩ := construct_ta_some m hne
  rw [hc] at hta
  simp only [Option.some.injEq] at hta
  rw [← hta]
  exact ⟨(hW.2.2 last (List.mem_of_getLast?_eq_some hlast)).1, hW.2.2⟩

/-- One call of `operator()` on a window that spans less than the window
length, with a primitive that starts no earlier than the held ones. -/
theorem call_timeSpan (m m1 : TriggerActivityMakerHorizontalMuon) (tp : TriggerPrimitive)
    (out out1 : List TriggerActivity) (h : operator_call m tp out = some (m1, out1))
    (hL : 0 < m.m_window_length) (hW : m.m_current_window.TimeSpan m.m_window_length)
    (hx : tp.wf) (hle : ∀ p ∈ m.m_current_window.inputs, p.time_start ≤ tp.time_start)
    (hsz : m.m_current_window.inputs.length < 4294967296) :
    m1.m_current_window.TimeSpan m.m_window_length
      ∧ (∀ p ∈ m1.m_current_window.inputs, p ∈ m.m_current_window.inputs ∨ p = tp)
      ∧ (out1 = out ∨ ∃ ta, out1 = out ++ [ta] ∧ ActivityInSpan ta m.m_window_length) := by
  rcases operator_call_cases m m1 tp out out1 h with
    ⟨_, hw, ho⟩ | ⟨hne, hin, hw, ho⟩ | ⟨hne, _, _, _, _, hw, ta, hta, ho⟩
      | ⟨_, _, _, _, _, hw, ho⟩ | ⟨_, _, _, _, hw, ho⟩
  · rw [hw]
    exact ⟨timeSpan_reset _ _ _ hL, fun p hp => Or.inr (by simpa [Window.reset] using hp),
      Or.inl ho⟩
  · rw [hw]
    refine ⟨timeSpan_add _ _ _ hW hne hx.1 hle hin, fun p hp => ?_, Or.inl ho⟩
    simp only [Window.add, List.mem_append, List.mem_singleton] at hp
    exact hp
  · rw [hw]
    exact ⟨timeSpan_reset _ _ _ hL, fun p hp => Or.inr (by simpa [Window.reset] using hp),
      Or.inr ⟨ta, ho, construct_ta_inSpan m ta _ hW hne hta⟩⟩
  · rw [hw]
    exact ⟨hW, fun p hp => Or.inl hp, Or.inl ho⟩
  · rw [hw]
    refine ⟨timeSpan_move _ _ _ hW hL hx.1 hle hsz, fun p hp => ?_, Or.inl ho⟩
    rw [Window.inputs_move _ _ _ hsz, List.mem_append, List.mem_singleton] at hp
    rcases hp with hp | hp
    · exact Or.inl (List.mem_of_mem_drop hp)
    · exact Or.inr hp

theorem feed_timeSpan (tps : List TriggerPrimitive) (m : TriggerActivityMakerHorizontalMuon)
    (out : List TriggerActivity) (hp : m.m_prescale = 1) (hL : 0 < m.m_window_length)
    (hwf : ∀ tp ∈ tps, tp.wf)
    (hord : tps.Pairwise (fun a b => a.time_start ≤ b.time_start))
    (hW : m.m_current_window.TimeSpan m.m_window_length)
    (hle : ∀ p ∈ m.m_current_window.inputs, ∀ tp ∈ tps, p.time_start ≤ tp.time_start)
    (hsz : ∀ k mk outk, feed m out (tps.take k) = some (mk, outk) →
      mk.m_current_window.inputs.length < 4294967296)
    (hout : ∀ ta ∈ out, ActivityInSpan ta m.m_window_length) :
    ∃ m1 out1, feed m out tps = some (m1, out1)
      ∧ m1.m_current_window.TimeSpan m.m_window_length
      ∧ ∀ ta ∈ out1, ActivityInSpan ta m.m_window_length := by
  induction tps generalizing m out with
  | nil => exact ⟨m, out, rfl, hW, hout⟩
  | cons tp rest ih =>
    obtain ⟨m2, out2, hc⟩ := operator_call_defined m tp out (by rw [hp]; decide)
    have hlen := operator_call_window_length m m2 tp out out2 hc
    have hpre := operator_call_prescale m m2 tp out out2 hc
    obtain ⟨c1, c2, c3⟩ := call_timeSpan m m2 tp out out2 hc hL hW
      (hwf tp (List.mem_cons_self _ _)) (fun p hp => hle p hp tp (List.mem_cons_self _ _))
      (hsz 0 m out rfl)
    rw [List.pairwise_cons] at hord
    obtain ⟨m1, out1, hf, i1, i2⟩ := ih m2 out2 (by rw [hpre]; exact hp) (by rw [hlen]; exact hL)
      (fun x hx => hwf x (List.mem_cons_of_mem _ hx)) hord.2 (by rw [hlen]; exact c1)
      (fun p hp x hx => by
        rcases c2 p hp with h | h
        · exact hle p h x (List.mem_cons_of_mem _ hx)
        · rw [h]; exact hord.1 x hx)
      (fun k mk outk hk => hsz (k + 1) mk outk (by
        simp only [List.take_succ_cons, feed, hc]
        exact hk))
      (by
        rw [hlen]
        intro ta hta
        rcases c3 with h | ⟨ta1, h, hspan⟩
        · rw [h] at hta; exact hout ta hta
        · rw [h, List.mem_append, List.mem_singleton] at hta
          rcases hta with hta | hta
          · exact hout ta hta
          · rw [hta]; exact hspan)
    rw [hlen] at i1 i2
    exact ⟨m1, out1, by simp only [feed, hc]; exact hf, i1, i2⟩

theorem call_length_le (m m1 : TriggerActivityMakerHorizontalMuon) (tp : TriggerPrimitive)
    (out out1 : List TriggerActivity) (h : operator_call m tp out = some (m1, out1)) :
    m1.m_current_window.inputs.length ≤ m.m_current_window.inputs.length + 1 := by
  rcases operator_call_cases m m1 tp out out1 h with
    ⟨_, hw, _⟩ | ⟨_, _, hw, _⟩ | ⟨_, _, _, _, _, hw, _⟩ | ⟨_, _, _, _, _, hw, _⟩
      | ⟨_, _, _, _, hw, _⟩
  · rw [hw]; simp [Window.reset]
  · rw [hw]; simp [Window.add]
  · rw [hw]; simp [Window.reset]
  · rw [hw]; omega
  · rw [hw, (Window.move_general m.m_current_window tp m.m_window_length).1]
    simp only [List.length_append, List.length_drop, List.length_singleton]
    omega

/-- The window never holds more primitives than it held at the start plus the
number of calls. -/
theorem feed_length_le (tps : List TriggerPrimitive) (m m1 : TriggerActivityMakerHorizontalMuon)
    (out out1 : List TriggerActivity) (h : feed m out tps = some (m1, out1)) :
    m1.m_current_window.inputs.length ≤ m.m_current_window.inputs.length + tps.length := by
  induction tps generalizing m out with
  | nil =>
    simp only [feed, Option.some.injEq, Prod.mk.injEq] at h
    rw [← h.1]
    exact Nat.le_add_right _ _
  | cons tp rest ih =>
    simp only [feed] at h
    cases hc : operator_call m tp out with
    | none => rw [hc] at h; simp at h
    | some r =>
      obtain ⟨m2, out2⟩ := r
      rw [hc] at h
      have h1 := call_length_le m m2 tp out out2 hc
      have h2 := ih m2 out2 h
      simp only [List.length_cons]
      omega

theorem wrapState_not_span (w : Window) (c : Nat) (hts : w.time_start = 0)
    (hmem : mkPrimitive 1 1 0 ∈ w.inputs) :
    (wrapState w c).m_window_length = 1
      ∧ (wrapState w c).m_current_window.time_start = 0
      ∧ mkPrimitive 1 1 0 ∈ (wrapState w c).m_current_window.inputs
      ∧ ¬ ((mkPrimitive 1 1 0).time_start - (wrapState w c).m_current_window.time_start
            < (wrapState w c).m_window_length)
      ∧ ¬ (wrapState w c).m_current_window.TimeSpan (wrapState w c).m_window_length := by
  have h1 : (wrapState w c).m_current_window = w := rfl
  have h2 : (wrapState w c).m_window_length = 1 := rfl
  rw [h1, h2, hts]
  refine ⟨rfl, rfl, hmem, by decide, ?_⟩
  intro hspan
  have := (hspan.2.2 _ hmem).2
  rw [hts] at this
  exact absurd this (by decide)

theorem heavy_span (n : Nat) (hn : n + 1 = 4294967296) :
    ∃ m1, feed wrapMaker [] ((List.range (n + 1)).map heavyPrimitive ++ [mkPrimitive 1 1 0])
          = some (m1, [])
        ∧ m1.m_window_length = 1
        ∧ m1.m_current_window.time_start = 0
        ∧ mkPrimitive 1 1 0 ∈ m1.m_current_window.inputs
        ∧ ¬ ((mkPrimitive 1 1 0).time_start - m1.m_current_window.time_start
              < m1.m_window_length)
        ∧ ¬ m1.m_current_window.TimeSpan m1.m_window_length := by
  obtain ⟨c, hc⟩ := heavy_feed n
  obtain ⟨hin, _, _, hts⟩ := heavy_move n hn
  have hmem : mkPrimitive 1 1 0
      ∈ ((Window.growWindow heavyPrimitive n).move (mkPrimitive 1 1 0) 1).inputs := by
    rw [hin]
    exact List.mem_append_right _ (List.mem_singleton_self _)
  refine ⟨wrapState ((Window.growWindow heavyPrimitive n).move (mkPrimitive 1 1 0) 1)
      ((c + 1) % 18446744073709551616), ?_, wrapState_not_span _ _ hts hmem⟩
  rw [feed_append, hc]
  simp only [Option.some_bind, feed_single]
  exact wrapState_move _ _ _ _ (growWindow_not_empty _ _)
    (by rw [growWindow_time_start]; decide) (heavy_n_channels_hit n hn)

end TriggerActivityMakerHorizontalMuon

theorem log_of_binade (L : ℤ) (r : ℚ) (h1 : (2 : ℚ) ^ L ≤ r) (h2 : r < (2 : ℚ) ^ (L + 1)) :
    Int.log 2 r = L := by
  have hr : 0 < r := lt_of_lt_of_le (by positivity) h1
  have a1 : L ≤ Int.log 2 r := (Int.zpow_le_iff_le_log (by norm_num) hr).mp (by exact_mod_cast h1)
  have a2 : Int.log 2 r < L + 1 :=
    (Int.lt_zpow_iff_log_lt (by norm_num) hr).mp (by exact_mod_cast h2)
  omega

/-- A value at or above the floating-point number `n * 2^e` and less than half
a unit in the last place above it is rounded to it. -/
theorem roundNearestEven_down (prec : Nat) (hp : 1 ≤ prec) (n : Nat) (e : ℤ) (q : ℚ)
    (hlo : 2 ^ (prec - 1) ≤ n) (hhi : n < 2 ^ prec)
    (h1 : (n : ℚ) * (2 : ℚ) ^ e ≤ q) (h2 : q < ((n : ℚ) + 1 / 2) * (2 : ℚ) ^ e) :
    roundNearestEven prec q = (n : ℚ) * (2 : ℚ) ^ e := by
  have he : (0 : ℚ) < (2 : ℚ) ^ e := by positivity
  have hn : (0 : ℚ) < n := by
    have : 0 < 2 ^ (prec - 1) := by positivity
    exact_mod_cast lt_of_lt_of_le this hlo
  have hq : 0 < q := lt_of_lt_of_le (mul_pos hn he) h1
  have hlog : Int.log 2 q = e + ((prec : ℤ) - 1) := by
    apply log_of_binade
    · have : (2 : ℚ) ^ (e + ((prec : ℤ) - 1)) = (2 : ℚ) ^ (prec - 1) * (2 : ℚ) ^ e := by
        rw [zpow_add₀ (by norm_num), mul_comm]
        congr 1
        rw [← zpow_natCast]
        congr 1
        omega
      rw [this]
      refine le_trans ?_ h1
      apply mul_le_mul_of_nonneg_right _ he.le
      exact_mod_cast hlo
    · have : (2 : ℚ) ^ (e + ((prec : ℤ) - 1) + 1) = (2 : ℚ) ^ prec * (2 : ℚ) ^ e := by
        rw [show e + ((prec : ℤ) - 1) + 1 = e + prec by ring, zpow_add₀ (by norm_num), mul_comm,
          zpow_natCast]
      rw [this]
      refine lt_of_lt_of_le h2 ?_
      apply mul_le_mul_of_nonneg_right _ he.le
      have : (n : ℚ) + 1 ≤ (2 : ℚ) ^ prec := by exact_mod_cast hhi
      linarith
  have hm1 : (n : ℚ) ≤ q / (2 : ℚ) ^ e := by rw [le_div_iff₀ he]; exact h1
  have hm2 : q / (2 : ℚ) ^ e < (n : ℚ) + 1 / 2 := by rw [div_lt_iff₀ he]; exact h2
  have hfloor : ⌊q / (2 : ℚ) ^ e⌋ = (n : ℤ) := by
    rw [Int.floor_eq_iff]
    constructor
    · exact_mod_cast hm1
    · push_cast; linarith
  unfold roundNearestEven
  rw [if_neg (ne_of_gt hq)]
  simp only [abs_of_pos hq, hlog, add_sub_cancel_right, hfloor, if_neg (not_lt.mpr hq.le)]
  rw [if_pos (by push_cast; linarith)]
  push_cast
  ring

theorem roundNearestEven_zero (prec : Nat) : roundNearestEven prec 0 = 0 := by
  unfold roundNearestEven
  rw [if_pos rfl]

/-- A floating-point number is rounded to itself. -/
theorem roundNearestEven_exact (prec : Nat) (hp : 1 ≤ prec) (q : ℚ)
    (h : Representable prec q) : roundNearestEven prec q = q := by
  obtain ⟨k, j, hk, rfl⟩ := h
  by_cases h0 : k = 0
  · subst h0
    simp [roundNearestEven_zero]
  · have hkpos : 0 < k := Nat.pos_of_ne_zero h0
    have hl1 : 2 ^ Nat.log 2 k ≤ k := Nat.pow_log_le_self 2 h0
    have hl2 : k < 2 ^ (Nat.log 2 k + 1) := Nat.lt_pow_succ_log_self (by norm_num) k
    have hlt : Nat.log 2 k < prec := by
      by_contra hc
      have : 2 ^ prec ≤ 2 ^ Nat.log 2 k := Nat.pow_le_pow_right (by norm_num) (by omega)
      omega
    obtain ⟨s, hs⟩ : ∃ s, prec = Nat.log 2 k + 1 + s := ⟨prec - (Nat.log 2 k + 1), by omega⟩
    have e1 : (k : ℚ) * (2 : ℚ) ^ j = ((k * 2 ^ s : Nat) : ℚ) * (2 : ℚ) ^ (j - s) := by
      push_cast
      rw [zpow_sub₀ (by norm_num), zpow_natCast]
      have h2s : ((2 : ℚ) ^ s) ≠ 0 := by positivity
      field_simp
      ring
    rw [e1]
    apply roundNearestEven_down prec hp (k * 2 ^ s) (j - s)
    · have : prec - 1 = Nat.log 2 k + s := by omega
      rw [this, pow_add]
      exact Nat.mul_le_mul_right _ hl1
    · rw [hs, pow_add]
      exact Nat.mul_lt_mul_of_pos_right hl2 (by positivity)
    · exact le_rfl
    · have : (0 : ℚ) < (2 : ℚ) ^ (j - s) := by positivity
      nlinarith

theorem representable_mono (p p1 : Nat) (h : p ≤ p1) (q : ℚ) (hq : Representable p q) :
    Representable p1 q := by
  obtain ⟨k, j, hk, rfl⟩ := hq
  exact ⟨k, j, lt_of_lt_of_le hk (Nat.pow_le_pow_right (by norm_num) h), rfl⟩

theorem representable_nat (p n : Nat) (h : n < 2 ^ p) : Representable p (n : ℚ) :=
  ⟨n, 0, h, by simp⟩

theorem representable_eighth (p n : Nat) (h : n < 2 ^ p) : Representable p ((n : ℚ) / 8) :=
  ⟨n, -3, h, by rw [zpow_neg]; norm_num; ring⟩

theorem toFloat_exact (q : ℚ) (h : Representable 24 q) : toFloat q = q :=
  roundNearestEven_exact 24 (by norm_num) q h

theorem toDouble_exact (q : ℚ) (h : Representable 53 q) : toDouble q = q :=
  roundNearestEven_exact 53 (by norm_num) q h

theorem toFloat_nat (n : Nat) (h : n < 16777216) : toFloat (n : ℚ) = n :=
  toFloat_exact _ (representable_nat 24 n (by norm_num; exact h))

theorem toFloat_eighth (n : Nat) (h : n < 16777216) : toFloat ((n : ℚ) / 8) = (n : ℚ) / 8 :=
  toFloat_exact _ (representable_eighth 24 n (by norm_num; exact h))

theorem toDouble_nat (n : Nat) (h : n < 9007199254740992) : toDouble (n : ℚ) = n :=
  toDouble_exact _ (representable_nat 53 n (by norm_num; exact h))

theorem toDouble_eighth (n : Nat) (h : n < 9007199254740992) :
    toDouble ((n : ℚ) / 8) = (n : ℚ) / 8 :=
  toDouble_exact _ (representable_eighth 53 n (by norm_num; exact h))

/-- A `float` accumulation of `uint32_t` values is exact while the sum stays
below 2^24. -/
theorem foldl_toFloat_sum (l : List Nat) (s : Nat) (h : s + l.sum < 16777216) :
    l.foldl (fun (acc : ℚ) (x : Nat) => toFloat (acc + toFloat (x : ℚ))) (s : ℚ) = ((s + l.sum : Nat) : ℚ) := by
  induction l generalizing s with
  | nil => simp
  | cons x t ih =>
    simp only [List.sum_cons] at h
    simp only [List.foldl_cons, List.sum_cons]
    rw [toFloat_nat x (by omega)]
    have e : (s : ℚ) + (x : ℚ) = ((s + x : Nat) : ℚ) := by push_cast; ring
    rw [e, toFloat_nat (s + x) (by omega), ih (s + x) (by omega)]
    congr 1
    omega

/-- A `double` accumulation of multiples of 1/8 is exact while eight times the
sum stays below 2^53. -/
theorem foldl_toDouble_sum (l : List Nat) (s : Nat) (h : s + l.sum < 9007199254740992) :
    (l.map (fun k : Nat => (k : ℚ) / 8)).foldl (fun acc a => toDouble (acc + a)) ((s : ℚ) / 8)
      = ((s + l.sum : Nat) : ℚ) / 8 := by
  induction l generalizing s with
  | nil => simp
  | cons x t ih =>
    simp only [List.sum_cons] at h
    simp only [List.map_cons, List.foldl_cons, List.sum_cons]
    have e : (s : ℚ) / 8 + (x : ℚ) / 8 = ((s + x : Nat) : ℚ) / 8 := by push_cast; ring
    rw [e, toDouble_eighth (s + x) (by omega), ih (s + x) (by omega)]
    congr 2
    omega

theorem sum_map_eighth (ks : List Nat) :
    (ks.map (fun k : Nat => (k : ℚ) / 8)).sum = (ks.sum : ℚ) / 8 := by
  induction ks with
  | nil => simp
  | cons k t ih =>
    simp only [List.map_cons, List.sum_cons, ih]
    push_cast
    ring

namespace TriggerActivityMakerMichelElectron

theorem getD_adc_le (hits : List Hit) (j : Nat) :
    (hits.getD j ⟨0, 0, 0⟩).adc ≤ (hits.map (fun h => h.adc)).sum := by
  by_cases hj : j < hits.length
  · rw [List.getD_eq_getElem _ _ hj]
    exact List.single_le_sum (fun _ _ => Nat.zero_le _) _
      (List.mem_map.mpr ⟨hits[j], List.getElem_mem _, rfl⟩)
  · rw [List.getD_eq_default _ _ (by omega)]
    exact Nat.zero_le _

/-- The numerator of the running mean at position `i`: the sum of the eight
ADC values of its circular window. -/
theorem window_sum_le (hits : List Hit) (i : Nat) :
    ((List.range 8).map
        (fun k => (hits.getD ((i + k) % hits.length) ⟨0, 0, 0⟩).adc)).sum
      ≤ 8 * (hits.map (fun h => h.adc)).sum := by
  have h := List.sum_le_card_nsmul
    ((List.range 8).map (fun k => (hits.getD ((i + k) % hits.length) ⟨0, 0, 0⟩).adc))
    ((hits.map (fun h => h.adc)).sum)
    (fun x hx => by
      obtain ⟨k, _, rfl⟩ := List.mem_map.mp hx
      exact getD_adc_le hits _)
  simpa using h

theorem runningMean_eq (hits : List Hit) (i : Nat) :
    runningMean 8 hits i
      = (((List.range 8).map
          (fun k => (hits.getD ((i + k) % hits.length) ⟨0, 0, 0⟩).adc)).sum : ℚ) / 8 := by
  unfold runningMean
  rw [Nat.cast_list_sum, List.map_map]
  norm_num
  rfl

/-- With a total ADC below 2^21 the `float` running mean is the exact one. -/
theorem runningMean_exact (hits : List Hit) (i : Nat)
    (hT : (hits.map (fun h => h.adc)).sum < 2097152) :
    Binary32.runningMean 8 hits i = runningMean 8 hits i := by
  have hle := window_sum_le hits i
  rw [runningMean_eq]
  unfold Binary32.runningMean Binary32.adc_sum
  have h0 : (0 : ℚ) = ((0 : Nat) : ℚ) := by norm_num
  rw [h0, foldl_toFloat_sum _ 0 (by omega), Nat.zero_add]
  have h8 : toFloat ((8 : Nat) : ℚ) = 8 := by
    rw [toFloat_nat 8 (by norm_num)]
    norm_num
  rw [h8, toFloat_eighth _ (by omega)]

theorem adc_means_exact (hits : List Hit) (hT : (hits.map (fun h => h.adc)).sum < 2097152) :
    Binary32.adc_means_list3 hits = adc_means_list3 hits := by
  unfold Binary32.adc_means_list3 adc_means_list3
  exact List.map_congr_left (fun i _ => runningMean_exact hits i hT)

/-- The running means are multiples of 1/8 whose numerators add up to eight
times the total ADC. -/
theorem adc_means_numerators (hits : List Hit) :
    ∃ ks : List Nat, adc_means_list3 hits = ks.map (fun k : Nat => (k : ℚ) / 8)
      ∧ ks.sum = 8 * (hits.map (fun h => h.adc)).sum := by
  refine ⟨(List.range hits.length).map (fun i => ((List.range 8).map
      (fun k => (hits.getD ((i + k) % hits.length) ⟨0, 0, 0⟩).adc)).sum), ?_, ?_⟩
  · unfold adc_means_list3
    rw [List.map_map]
    exact List.map_congr_left (fun i _ => runningMean_eq hits i)
  · have h1 := adc_means_sum hits
    have h2 : adc_means_list3 hits
        = ((List.range hits.length).map (fun i => ((List.range 8).map
            (fun k => (hits.getD ((i + k) % hits.length) ⟨0, 0, 0⟩).adc)).sum)).map
          (fun k : Nat => (k : ℚ) / 8) := by
      unfold adc_means_list3
      rw [List.map_map]
      exact List.map_congr_left (fun i _ => runningMean_eq hits i)
    rw [h2, sum_map_eighth] at h1
    have h3 : (hits.map (fun h => (h.adc : ℚ))).sum
        = (((hits.map (fun h => h.adc)).sum : Nat) : ℚ) := by
      rw [Nat.cast_list_sum, List.map_map]
      rfl
    rw [h3] at h1
    have h4 := (div_eq_iff (by norm_num : (8 : ℚ) ≠ 0)).mp h1
    have h5 : ((List.range hits.length).map (fun i => ((List.range 8).map
        (fun k => (hits.getD ((i + k) % hits.length) ⟨0, 0, 0⟩).adc)).sum)).sum
        = (hits.map (fun h => h.adc)).sum * 8 := by exact_mod_cast h4
    omega

theorem adc_means_length (hits : List Hit) : (adc_means_list3 hits).length = hits.length := by
  simp [adc_means_list3]

/-- With a total ADC below 2^21 and a baseline that is a `float` value, the
baseline computed in `double` and narrowed to `float` is the exact one. -/
theorem ped_exact (hits : List Hit) (hT : (hits.map (fun h => h.adc)).sum < 2097152)
    (hlen : hits.length ≤ 65521) (hped : Representable 24 (ped (adc_means_list3 hits))) :
    Binary32.ped (adc_means_list3 hits) = ped (adc_means_list3 hits) := by
  obtain ⟨ks, hks, hsum⟩ := adc_means_numerators hits
  have hl : ks.length = hits.length := by
    have := adc_means_length hits
    rw [hks, List.length_map] at this
    exact this
  have hinner : (adc_means_list3 hits).foldl (fun acc a => toDouble (acc + a)) 0
      / toDouble ((adc_means_list3 hits).length : ℚ) = ped (adc_means_list3 hits) := by
    rw [adc_means_length, toDouble_nat _ (by omega)]
    unfold ped
    rw [adc_means_length, hks]
    have h0 : (0 : ℚ) = ((0 : Nat) : ℚ) / 8 := by norm_num
    rw [h0, foldl_toDouble_sum ks 0 (by omega), Nat.zero_add, sum_map_eighth]
  unfold Binary32.ped
  rw [hinner, toDouble_exact _ (representable_mono 24 53 (by norm_num) _ hped),
    toFloat_exact _ hped]

/-- The cluster loop in `float` is the exact one while eight times the sum of
the open cluster and the remaining running means stays below 2^24. -/
theorem foldl_cluster_exact (p : ℚ) (ks : List Nat) (st : ClusterState) (c : Nat)
    (hc : st.charge = (c : ℚ) / 8) (hb : c + ks.sum < 16777216) :
    (ks.map (fun k : Nat => (k : ℚ) / 8)).foldl (Binary32.clusterStep p) st
      = (ks.map (fun k : Nat => (k : ℚ) / 8)).foldl (clusterStep p) st := by
  induction ks generalizing st c with
  | nil => rfl
  | cons k t ih =>
    simp only [List.sum_cons] at hb
    simp only [List.map_cons, List.foldl_cons]
    have hstep : Binary32.clusterStep p st ((k : ℚ) / 8) = clusterStep p st ((k : ℚ) / 8) := by
      unfold Binary32.clusterStep clusterStep
      have e : st.charge + (k : ℚ) / 8 = ((c + k : Nat) : ℚ) / 8 := by
        rw [hc]; push_cast; ring
      rw [e, toFloat_eighth (c + k) (by omega)]
    rw [hstep]
    unfold clusterStep
    by_cases h1 : (k : ℚ) / 8 > p
    · rw [if_pos h1]
      exact ih _ (c + k) (by simp only; rw [hc]; push_cast; ring) (by omega)
    · rw [if_neg h1]
      by_cases h2 : (k : ℚ) / 8 < p ∧ st.charge ≠ 0
      · rw [if_pos h2]
        exact ih _ 0 (by simp) (by omega)
      · rw [if_neg h2]
        exact ih st c hc (by omega)

theorem charge_dumps_exact (hits : List Hit) (hT : (hits.map (fun h => h.adc)).sum < 2097152)
    (hlen : hits.length ≤ 65521) (hped : Representable 24 (ped (adc_means_list3 hits))) :
    Binary32.charge_dumps hits = charge_dumps hits := by
  unfold Binary32.charge_dumps charge_dumps
  rw [adc_means_exact hits hT, ped_exact hits hT hlen hped]
  obtain ⟨ks, hks, hsum⟩ := adc_means_numerators hits
  rw [hks, foldl_cluster_exact _ ks _ 0 (by simp) (by omega)]

/-- In the range where every `float` and `double` operation of the function is
exact (total ADC of the final hits below 2^21, a baseline that is a `float`
value, a run length below 2^24), the function computed in machine floating
point is the function computed in exact arithmetic. -/
theorem check_bragg_peak_exact (m : TriggerActivityMakerMichelElectron) (st : TrackState)
    (hw : trackWalk m = some st)
    (hT : (st.finalHits.map (fun h => h.adc)).sum < 2097152)
    (hped : Representable 24 (ped (adc_means_list3 st.finalHits)))
    (hmax : st.max < 16777216) :
    Binary32.check_bragg_peak m = check_bragg_peak m := by
  unfold Binary32.check_bragg_peak check_bragg_peak
  simp only [hw]
  by_cases hlen : 65521 < st.finalHits.length
  · rw [if_pos hlen, if_pos hlen]
  · rw [if_neg hlen, if_neg hlen, charge_dumps_exact st.finalHits hT (by omega) hped,
      toFloat_nat st.max hmax]

end TriggerActivityMakerMichelElectron

/-- Conversion to `float` of an integer from 2^30 to 2^30 + 63: the spacing of
`float` values there is 128 and the integer is rounded down to 2^30. -/
theorem toFloat_large (x : Nat) (h1 : 1073741824 ≤ x) (h2 : x < 1073741824 + 64) :
    toFloat (x : ℚ) = 1073741824 := by
  have h := roundNearestEven_down 24 (by norm_num) 8388608 7 (x : ℚ) (by norm_num) (by norm_num)
    (by
      have : ((1073741824 : Nat) : ℚ) ≤ (x : ℚ) := by exact_mod_cast h1
      norm_num at this ⊢
      linarith)
    (by
      have : (x : ℚ) < ((1073741824 + 64 : Nat) : ℚ) := by exact_mod_cast h2
      norm_num at this ⊢
      linarith)
  unfold toFloat
  rw [h]
  norm_num

theorem toFloat_multiple (j : Nat) (h : j < 16777216) :
    toFloat ((j : ℚ) * 1073741824) = (j : ℚ) * 1073741824 :=
  toFloat_exact _ ⟨j, 30, by norm_num; exact h, by norm_num⟩

theorem toDouble_multiple (j : Nat) (h : j < 16777216) :
    toDouble ((j : ℚ) * 1073741824) = (j : ℚ) * 1073741824 :=
  toDouble_exact _ ⟨j, 30, lt_trans h (by norm_num), by norm_num⟩

theorem foldl_toFloat_large (l : List Nat) (j : Nat)
    (h : ∀ x ∈ l, 1073741824 ≤ x ∧ x < 1073741824 + 64) (hj : j + l.length < 16777216) :
    l.foldl (fun (acc : ℚ) (x : Nat) => toFloat (acc + toFloat (x : ℚ))) ((j : ℚ) * 1073741824)
      = ((j + l.length : Nat) : ℚ) * 1073741824 := by
  induction l generalizing j with
  | nil => simp
  | cons x t ih =>
    simp only [List.length_cons] at hj
    obtain ⟨h1, h2⟩ := h x (List.mem_cons_self _ _)
    simp only [List.foldl_cons, List.length_cons]
    rw [toFloat_large x h1 h2]
    have e : (j : ℚ) * 1073741824 + 1073741824 = ((j + 1 : Nat) : ℚ) * 1073741824 := by
      push_cast; ring
    rw [e, toFloat_multiple (j + 1) (by omega),
      ih (j + 1) (fun y hy => h y (List.mem_cons_of_mem _ hy)) (by omega)]
    congr 2
    omega

theorem foldl_toDouble_replicate (n j : Nat) (hj : j + n < 16777216) :
    (List.replicate n (1073741824 : ℚ)).foldl (fun acc a => toDouble (acc + a))
        ((j : ℚ) * 1073741824)
      = ((j + n : Nat) : ℚ) * 1073741824 := by
  induction n generalizing j with
  | zero => simp
  | succ n ih =>
    simp only [List.replicate_succ, List.foldl_cons]
    have e : (j : ℚ) * 1073741824 + 1073741824 = ((j + 1 : Nat) : ℚ) * 1073741824 := by
      push_cast; ring
    rw [e, toDouble_multiple (j + 1) (by omega), ih (j + 1) (by omega)]
    congr 2
    omega

namespace TriggerActivityMakerMichelElectron

theorem range_twenty :
    List.range 20 = [0, 1, 2, 3, 4, 5, 6, 7, 8, 9, 10, 11, 12, 13, 14, 15, 16, 17, 18, 19] := by
  decide

theorem ramp_total (c a d : Nat) (t : Nat → Nat) (rising : Bool) :
    ((rampHits c t (rampAdc rising a d)).map (fun h => h.adc)).sum = 20 * a + 190 * d := by
  unfold rampHits
  rw [List.map_map, range_twenty]
  cases rising <;>
    simp only [List.map_cons, List.map_nil, Function.comp_apply, rampAdc, List.sum_cons,
      List.sum_nil, if_true, Bool.false_eq_true, if_false] <;> omega

theorem ramp_ped (c a d : Nat) (t : Nat → Nat) (rising : Bool) :
    ped (adc_means_list3 (rampHits c t (rampAdc rising a d))) = (a : ℚ) + 19 / 2 * d := by
  cases rising with
  | true =>
    rw [ramp_means_rising]
    simp only [ped, List.sum_cons, List.sum_nil, List.length_cons, List.length_nil]
    push_cast
    ring
  | false =>
    rw [ramp_means_falling]
    simp only [ped, List.sum_cons, List.sum_nil, List.length_cons, List.length_nil]
    push_cast
    ring

/-- A ramp with total ADC below 2^21 lies in the range where the machine
floating point of `check_bragg_peak` is exact. -/
theorem ramp_binary32 (m : TriggerActivityMakerMichelElectron) (c a d : Nat) (t : Nat → Nat)
    (rising : Bool) (hd : 0 < d) (hc : c + 19 < 2147483648)
    (hb : 20 * a + 190 * d < 2097152)
    (hin : (m.m_current_window.inputs.map
        (fun tp => ({ chan := tp.channel, startTime := tp.time_start, adc := tp.adc_integral }
          : Hit))).Perm (rampHits c t (rampAdc rising a d))) :
    Binary32.adc_means_list3 (rampHits c t (rampAdc rising a d))
        = adc_means_list3 (rampHits c t (rampAdc rising a d))
      ∧ Binary32.ped (adc_means_list3 (rampHits c t (rampAdc rising a d)))
        = ped (adc_means_list3 (rampHits c t (rampAdc rising a d)))
      ∧ Binary32.charge_dumps (rampHits c t (rampAdc rising a d))
        = charge_dumps (rampHits c t (rampAdc rising a d))
      ∧ Binary32.check_bragg_peak m = some true := by
  have hT : ((rampHits c t (rampAdc rising a d)).map (fun h => h.adc)).sum < 2097152 := by
    rw [ramp_total]; exact hb
  have hlen : (rampHits c t (rampAdc rising a d)).length ≤ 65521 := by
    simp [rampHits]
  have hped : Representable 24 (ped (adc_means_list3 (rampHits c t (rampAdc rising a d)))) := by
    rw [ramp_ped]
    refine ⟨2 * a + 19 * d, -1, ?_, ?_⟩
    · norm_num
      omega
    · rw [zpow_neg]
      push_cast
      norm_num
      ring
  obtain ⟨st, hw, hmax, hfin, _, _, hcheck⟩ := ramp_exact m c a d t rising hd hc hin
  refine ⟨adc_means_exact _ hT, ped_exact _ hT hlen hped, charge_dumps_exact _ hT hlen hped, ?_⟩
  rw [check_bragg_peak_exact m st hw (by rw [hfin]; exact hT) (by rw [hfin]; exact hped)
    (by rw [hmax]; norm_num)]
  exact hcheck

theorem rampHits_getD (c : Nat) (t adc : Nat → Nat) (j : Nat) (hj : j < 20) (d : Hit) :
    (rampHits c t adc).getD j d = ⟨c + j, t j, adc j⟩ := by
  unfold rampHits
  rw [List.getD_eq_getElem _ _ (by simpa using hj)]
  simp

theorem large_runningMean (c : Nat) (t : Nat → Nat) (i : Nat) :
    Binary32.runningMean 8 (rampHits c t (rampAdc true 1073741824 1)) i = 1073741824 := by
  have hlen : (rampHits c t (rampAdc true 1073741824 1)).length = 20 := by simp [rampHits]
  have hall : ∀ x ∈ (List.range 8).map (fun k =>
      ((rampHits c t (rampAdc true 1073741824 1)).getD
        ((i + k) % (rampHits c t (rampAdc true 1073741824 1)).length) ⟨0, 0, 0⟩).adc),
      1073741824 ≤ x ∧ x < 1073741824 + 64 := by
    intro x hx
    obtain ⟨k, _, rfl⟩ := List.mem_map.mp hx
    have hj : (i + k) % 20 < 20 := Nat.mod_lt _ (by norm_num)
    rw [hlen, rampHits_getD c t _ _ hj]
    simp only [rampAdc, if_true]
    omega
  unfold Binary32.runningMean Binary32.adc_sum
  have h0 : (0 : ℚ) = ((0 : Nat) : ℚ) * 1073741824 := by norm_num
  rw [h0, foldl_toFloat_large _ 0 hall (by simp), toFloat_nat 8 (by norm_num)]
  simp only [List.length_map, List.length_range]
  have e : ((0 + 8 : Nat) : ℚ) * 1073741824 / ((8 : Nat) : ℚ) = ((1 : Nat) : ℚ) * 1073741824 := by
    norm_num
  rw [e, toFloat_multiple 1 (by norm_num)]
  norm_num

theorem large_means (c : Nat) (t : Nat → Nat) :
    Binary32.adc_means_list3 (rampHits c t (rampAdc true 1073741824 1))
      = List.replicate 20 (1073741824 : ℚ) := by
  unfold Binary32.adc_means_list3
  have hlen : (rampHits c t (rampAdc true 1073741824 1)).length = 20 := by simp [rampHits]
  rw [hlen, List.eq_replicate_iff]
  refine ⟨by simp, ?_⟩
  intro x hx
  obtain ⟨i, _, rfl⟩ := List.mem_map.mp hx
  exact large_runningMean c t i

theorem large_ped : Binary32.ped (List.replicate 20 (1073741824 : ℚ)) = 1073741824 := by
  unfold Binary32.ped
  have h0 : (0 : ℚ) = ((0 : Nat) : ℚ) * 1073741824 := by norm_num
  rw [h0, foldl_toDouble_replicate 20 0 (by norm_num), List.length_replicate,
    toDouble_nat 20 (by norm_num)]
  have e : ((0 + 20 : Nat) : ℚ) * 1073741824 / ((20 : Nat) : ℚ) = ((1 : Nat) : ℚ) * 1073741824 := by
    norm_num
  rw [e, toDouble_multiple 1 (by norm_num), toFloat_multiple 1 (by norm_num)]
  norm_num

theorem binary32_clusterStep_level (p : ℚ) (st : ClusterState) :
    Binary32.clusterStep p st p = st := by
  unfold Binary32.clusterStep
  rw [if_neg (lt_irrefl p), if_neg (fun h => lt_irrefl p h.1)]

theorem binary32_foldl_level (p : ℚ) (n : Nat) (st : ClusterState) :
    (List.replicate n p).foldl (Binary32.clusterStep p) st = st := by
  induction n with
  | zero => rfl
  | succ n ih => rw [List.replicate_succ, List.foldl_cons, binary32_clusterStep_level, ih]

/-- Running means that all equal the baseline leave the cluster list empty. -/
theorem binary32_dumps_level (hits : List Hit) (n : Nat) (p : ℚ)
    (hm : Binary32.adc_means_list3 hits = List.replicate n p)
    (hp : Binary32.ped (List.replicate n p) = p) : Binary32.charge_dumps hits = [] := by
  unfold Binary32.charge_dumps
  rw [hm, hp, binary32_foldl_level]

/-- An empty cluster list: the function does not return. -/
theorem binary32_check_none (m : TriggerActivityMakerMichelElectron) (st : TrackState)
    (hits : List Hit) (hw : trackWalk m = some st) (hf : st.finalHits = hits)
    (hd : Binary32.charge_dumps hits = []) :
    Binary32.check_bragg_peak m = none := by
  unfold Binary32.check_bragg_peak
  simp only [hw, hf, hd]
  split_ifs <;> rfl

theorem large_dumps (c : Nat) (t : Nat → Nat) :
    Binary32.charge_dumps (rampHits c t (rampAdc true 1073741824 1)) = [] :=
  binary32_dumps_level _ 20 1073741824 (large_means c t) large_ped

theorem largeRamp_hits :
    (braggMaker largeRampTrack).m_current_window.inputs.map
        (fun tp => ({ chan := tp.channel, startTime := tp.time_start, adc := tp.adc_integral }
          : Hit)) = rampHits 100 (fun _ => 0) (rampAdc true 1073741824 1) := by
  decide

end TriggerActivityMakerMichelElectron

namespace TriggerActivityMakerMichelElectron

/-- The decision of `operator()` on a non-empty window when the call of
`check_bragg_peak()`, if it is made, returns. -/
theorem michel_chain (check_bragg_peak : TriggerActivityMakerMichelElectron → Option Bool)
    (m : TriggerActivityMakerMichelElectron) (tp : TriggerPrimitive) (out : List TriggerActivity)
    (hne : m.m_current_window.is_empty = false)
    (hdef : ¬ inWindow m tp → adjacencyFires m → check_bragg_peak m ≠ none) :
    ∃ m1 out1, operator_call check_bragg_peak m tp out = some (m1, out1)
      ∧ ((∃ ta, out1 = out ++ [ta])
          ↔ (¬ inWindow m tp ∧ adjacencyFires m ∧ check_bragg_peak m = some true))
      ∧ (¬ inWindow m tp ∧ adjacencyFires m ∧ check_bragg_peak m = some true →
          m1.m_current_window = m.m_current_window.reset tp
            ∧ ∃ ta, construct_ta m = some ta ∧ out1 = out ++ [ta])
      ∧ (¬ inWindow m tp ∧ ¬ (adjacencyFires m ∧ check_bragg_peak m = some true) →
          m1.m_current_window = m.m_current_window.move tp m.m_window_length ∧ out1 = out)
      ∧ (inWindow m tp → m1.m_current_window = m.m_current_window.add tp ∧ out1 = out) := by
  have hne' : ¬ m.m_current_window.is_empty = true := by simp [hne]
  have hta : ∃ ta, construct_ta m = some ta := by
    unfold construct_ta
    cases h : m.m_current_window.inputs.getLast? with
    | none =>
      have := List.getLast?_eq_none_iff.mp h
      simp [TriggerActivityMakerHorizontalMuon.Window.is_empty, this] at hne
    | some last => exact ⟨_, rfl⟩
  obtain ⟨ta, hta⟩ := hta
  unfold operator_call
  rw [if_neg hne']
  unfold triggerChain
  by_cases hin : inWindow m tp
  · have hin' : tsub tp.time_start m.m_current_window.time_start < m.m_window_length := hin
    rw [if_pos hin']
    refine ⟨_, _, rfl, ⟨fun ⟨ta, h⟩ => ?_, fun h => absurd hin h.1⟩, fun h => absurd hin h.1,
      fun h => absurd hin h.1, fun _ => ⟨rfl, rfl⟩⟩
    exact absurd h.symm (TriggerActivityMakerHorizontalMuon.append_single_ne _ _)
  · have hin' : ¬ tsub tp.time_start m.m_current_window.time_start < m.m_window_length := hin
    rw [if_neg hin']
    by_cases hf : adjacencyFires m
    · have hf' : check_adjacency m > m.m_adjacency_threshold ∧ m.m_trigger_on_adjacency = true :=
        hf
      rw [if_pos hf']
      cases hb : check_bragg_peak m with
      | none => exact absurd hb (hdef hin hf)
      | some b =>
        cases b with
        | true =>
          dsimp only
          rw [hta]
          exact ⟨_, _, rfl, ⟨fun _ => ⟨hin, hf, rfl⟩, fun _ => ⟨ta, rfl⟩⟩,
            fun _ => ⟨rfl, ta, rfl, rfl⟩, fun h => absurd ⟨hf, rfl⟩ h.2,
            fun h => absurd h hin⟩
        | false =>
          dsimp only
          refine ⟨_, _, rfl, ⟨fun ⟨ta, h⟩ => ?_, fun h => ?_⟩, fun h => ?_,
            fun _ => ⟨rfl, rfl⟩, fun h => absurd h hin⟩
          · exact absurd h.symm (TriggerActivityMakerHorizontalMuon.append_single_ne _ _)
          · exact absurd h.2.2 (by simp)
          · exact absurd h.2.2 (by simp)
    · have hf' : ¬ (check_adjacency m > m.m_adjacency_threshold
          ∧ m.m_trigger_on_adjacency = true) := hf
      rw [if_neg hf']
      refine ⟨_, _, rfl, ⟨fun ⟨ta, h⟩ => ?_, fun h => absurd h.2.1 hf⟩, fun h => absurd h.2.1 hf,
        fun _ => ⟨rfl, rfl⟩, fun h => absurd h hin⟩
      exact absurd h.symm (TriggerActivityMakerHorizontalMuon.append_single_ne _ _)

/-- A call of `check_bragg_peak()` that does not return takes the call of
`operator()` with it. -/
theorem michel_chain_none (check_bragg_peak : TriggerActivityMakerMichelElectron → Option Bool)
    (m : TriggerActivityMakerMichelElectron) (tp : TriggerPrimitive) (out : List TriggerActivity)
    (hne : m.m_current_window.is_empty = false) (hin : ¬ inWindow m tp)
    (hf : adjacencyFires m) (hb : check_bragg_peak m = none) :
    operator_call check_bragg_peak m tp out = none := by
  have hne' : ¬ m.m_current_window.is_empty = true := by simp [hne]
  have hin' : ¬ tsub tp.time_start m.m_current_window.time_start < m.m_window_length := hin
  have hf' : check_adjacency m > m.m_adjacency_threshold ∧ m.m_trigger_on_adjacency = true := hf
  unfold operator_call
  rw [if_neg hne']
  unfold triggerChain
  rw [if_neg hin', if_pos hf', hb]
  rfl

theorem michelStarted_walk :
    trackWalk michelStarted = some ⟨1, 1, 0, [], [⟨7, 40, 100⟩]⟩ := by
  decide

/-- On the window of `michelStarted` the only final hit gives one running mean,
equal to the baseline: no cluster, and `check_bragg_peak()` does not return. -/
theorem michelStarted_check : Binary32.check_bragg_peak michelStarted = none := by
  have hT : (([⟨7, 40, 100⟩] : List Hit).map (fun h => h.adc)).sum < 2097152 := by decide
  have hu : charge_dumps [⟨7, 40, 100⟩] = [] :=
    charge_dumps_uniform [⟨7, 40, 100⟩] 100 (by simp)
  have hm := adc_means_uniform [⟨7, 40, 100⟩] 100 (by simp)
  have hped : Representable 24 (ped (adc_means_list3 [⟨7, 40, 100⟩])) := by
    rw [hm]
    exact ⟨100, 0, by norm_num, by norm_num [ped]⟩
  exact binary32_check_none michelStarted _ [⟨7, 40, 100⟩] michelStarted_walk rfl
    (by rw [charge_dumps_exact _ hT (by simp) hped, hu])

theorem middle_walk :
    trackWalk (braggMaker middleTrack)
      = some ⟨1, 16, 0, [],
          [⟨1, 0, 32⟩, ⟨2, 0, 8⟩, ⟨3, 0, 24⟩, ⟨4, 0, 24⟩, ⟨5, 0, 32⟩, ⟨6, 0, 8⟩, ⟨7, 0, 16⟩,
            ⟨8, 0, 8⟩, ⟨9, 0, 8⟩, ⟨10, 0, 24⟩, ⟨11, 0, 16⟩, ⟨12, 0, 0⟩, ⟨13, 0, 24⟩,
            ⟨14, 0, 32⟩, ⟨15, 0, 0⟩, ⟨16, 0, 8⟩]⟩ := by
  decide

theorem middle_means :
    adc_means_list3
        [⟨1, 0, 32⟩, ⟨2, 0, 8⟩, ⟨3, 0, 24⟩, ⟨4, 0, 24⟩, ⟨5, 0, 32⟩, ⟨6, 0, 8⟩, ⟨7, 0, 16⟩,
          ⟨8, 0, 8⟩, ⟨9, 0, 8⟩, ⟨10, 0, 24⟩, ⟨11, 0, 16⟩, ⟨12, 0, 0⟩, ⟨13, 0, 24⟩,
          ⟨14, 0, 32⟩, ⟨15, 0, 0⟩, ⟨16, 0, 8⟩]
      = [19, 16, 18, 17, 14, 13, 16, 14, 14, 17, 15, 16, 19, 20, 17, 19] := by
  simp [adc_means_list3, runningMean, List.range, List.range.loop]
  norm_num

theorem middle_dumps :
    charge_dumps
        [⟨1, 0, 32⟩, ⟨2, 0, 8⟩, ⟨3, 0, 24⟩, ⟨4, 0, 24⟩, ⟨5, 0, 32⟩, ⟨6, 0, 8⟩, ⟨7, 0, 16⟩,
          ⟨8, 0, 8⟩, ⟨9, 0, 8⟩, ⟨10, 0, 24⟩, ⟨11, 0, 16⟩, ⟨12, 0, 0⟩, ⟨13, 0, 24⟩,
          ⟨14, 0, 32⟩, ⟨15, 0, 0⟩, ⟨16, 0, 8⟩]
      = [19, 35, 17] := by
  unfold charge_dumps
  rw [middle_means]
  norm_num [ped, clusterStep]

/-- On the window of `middleTrack` the clusters are 19, 35 and 17: the largest
one is in the middle, the last one is not the run length 16, and
`check_bragg_peak()` returns false. -/
theorem middle_check : Binary32.check_bragg_peak (braggMaker middleTrack) = some false := by
  have hT : (([⟨1, 0, 32⟩, ⟨2, 0, 8⟩, ⟨3, 0, 24⟩, ⟨4, 0, 24⟩, ⟨5, 0, 32⟩, ⟨6, 0, 8⟩, ⟨7, 0, 16⟩,
      ⟨8, 0, 8⟩, ⟨9, 0, 8⟩, ⟨10, 0, 24⟩, ⟨11, 0, 16⟩, ⟨12, 0, 0⟩, ⟨13, 0, 24⟩,
      ⟨14, 0, 32⟩, ⟨15, 0, 0⟩, ⟨16, 0, 8⟩] : List Hit).map (fun h => h.adc)).sum < 2097152 := by
    decide
  have hped : Representable 24 (ped (adc_means_list3
      [⟨1, 0, 32⟩, ⟨2, 0, 8⟩, ⟨3, 0, 24⟩, ⟨4, 0, 24⟩, ⟨5, 0, 32⟩, ⟨6, 0, 8⟩, ⟨7, 0, 16⟩,
        ⟨8, 0, 8⟩, ⟨9, 0, 8⟩, ⟨10, 0, 24⟩, ⟨11, 0, 16⟩, ⟨12, 0, 0⟩, ⟨13, 0, 24⟩,
        ⟨14, 0, 32⟩, ⟨15, 0, 0⟩, ⟨16, 0, 8⟩])) := by
    rw [middle_means]
    refine ⟨33, -1, by norm_num, ?_⟩
    rw [zpow_neg]
    norm_num [ped]
  rw [check_bragg_peak_exact _ _ middle_walk hT hped (by norm_num),
    check_bragg_peak_eq _ _ 19 [35, 17] middle_walk (by simp) middle_dumps]
  norm_num [max_charge]

/-- On the window of `rampTrack` `check_bragg_peak()` returns true. -/
theorem rampTrack_check : Binary32.check_bragg_peak (braggMaker rampTrack) = some true :=
  (ramp_binary32 (braggMaker rampTrack) 100 50 3 (fun i => 10 * i) true (by decide) (by decide)
    (by decide) rampTrack_perm).2.2.2

/-- C16 (behaviour of the code): for the Michel variant with a non-empty
window and any result of `check_bragg_peak()`.  When the incoming primitive is
out of the window, `check_adjacency() > adjacency_threshold`,
`trigger_on_adjacency` is set and the call of `check_bragg_peak()` does not
return (an empty cluster list, whose end iterator is dereferenced), the call of
`operator()` does not return either: the window is not slid.  In every other
case the call returns; it appends an Activity iff the incoming primitive is
out of the window, the adjacency test holds and `check_bragg_peak()` is true;
then the Activity is `construct_ta()` of the old window and the window is reset
to the incoming primitive; an out-of-window primitive on which the condition
fails slides the window with `move`, and an in-window primitive is added; the
output vector is unchanged in both. -/
theorem michel_decision (check_bragg_peak : TriggerActivityMakerMichelElectron → Option Bool)
    (m : TriggerActivityMakerMichelElectron) (tp : TriggerPrimitive) (out : List TriggerActivity)
    (hne : m.m_current_window.is_empty = false) :
    ((¬ inWindow m tp ∧ adjacencyFires m ∧ check_bragg_peak m = none) →
        operator_call check_bragg_peak m tp out = none)
      ∧ (¬ (¬ inWindow m tp ∧ adjacencyFires m ∧ check_bragg_peak m = none) →
        ∃ m1 out1, operator_call check_bragg_peak m tp out = some (m1, out1)
          ∧ ((∃ ta, out1 = out ++ [ta])
              ↔ (¬ inWindow m tp ∧ adjacencyFires m ∧ check_bragg_peak m = some true))
          ∧ (¬ inWindow m tp ∧ adjacencyFires m ∧ check_bragg_peak m = some true →
              m1.m_current_window = m.m_current_window.reset tp
                ∧ ∃ ta, construct_ta m = some ta ∧ out1 = out ++ [ta])
          ∧ (¬ inWindow m tp ∧ ¬ (adjacencyFires m ∧ check_bragg_peak m = some true) →
              m1.m_current_window = m.m_current_window.move tp m.m_window_length ∧ out1 = out)
          ∧ (inWindow m tp → m1.m_current_window = m.m_current_window.add tp ∧ out1 = out)) :=
  ⟨fun h => michel_chain_none check_bragg_peak m tp out hne h.1 h.2.1 h.2.2,
    fun h => michel_chain check_bragg_peak m tp out hne
      (fun hin hf hb => h ⟨hin, hf, hb⟩)⟩

/-- C16 (witness): three makers with the function `check_bragg_peak` of the
source, each receiving a primitive 9000 ticks after the window start, with the
adjacency test passed.  On `michelStarted` (two hits, one final hit)
`check_bragg_peak()` does not return and neither does `operator()`.  On the
window of `rampTrack` it returns true: the Activity of the old window is
emitted and the window is reset.  On the window of `middleTrack` it returns
false: nothing is emitted and the window is slid with `move`. -/
theorem michel_decision_witness :
    (michelStarted.m_current_window.is_empty = false
        ∧ ¬ inWindow michelStarted (mkPrimitive 9040 8 1) ∧ adjacencyFires michelStarted
        ∧ Binary32.check_bragg_peak michelStarted = none
        ∧ operator_call Binary32.check_bragg_peak michelStarted (mkPrimitive 9040 8 1) [] = none)
      ∧ ((braggMaker rampTrack).m_current_window.is_empty = false
        ∧ ¬ inWindow (braggMaker rampTrack) (mkPrimitive 9190 8 1)
        ∧ adjacencyFires (braggMaker rampTrack)
        ∧ Binary32.check_bragg_peak (braggMaker rampTrack) = some true
        ∧ ∃ m1 out1, operator_call Binary32.check_bragg_peak (braggMaker rampTrack)
              (mkPrimitive 9190 8 1) [] = some (m1, out1)
          ∧ m1.m_current_window
              = (braggMaker rampTrack).m_current_window.reset (mkPrimitive 9190 8 1)
          ∧ ∃ ta, construct_ta (braggMaker rampTrack) = some ta ∧ out1 = [] ++ [ta])
      ∧ ((braggMaker middleTrack).m_current_window.is_empty = false
        ∧ ¬ inWindow (braggMaker middleTrack) (mkPrimitive 9000 8 1)
        ∧ adjacencyFires (braggMaker middleTrack)
        ∧ Binary32.check_bragg_peak (braggMaker middleTrack) = some false
        ∧ ∃ m1 out1, operator_call Binary32.check_bragg_peak (braggMaker middleTrack)
              (mkPrimitive 9000 8 1) [] = some (m1, out1)
          ∧ m1.m_current_window
              = (braggMaker middleTrack).m_current_window.move (mkPrimitive 9000 8 1)
                  (braggMaker middleTrack).m_window_length
          ∧ out1 = []) := by
  have a1 : ¬ inWindow michelStarted (mkPrimitive 9040 8 1) := by decide
  have a2 : adjacencyFires michelStarted := by decide
  have b1 : ¬ inWindow (braggMaker rampTrack) (mkPrimitive 9190 8 1) := by decide
  have b2 : adjacencyFires (braggMaker rampTrack) := by decide
  have c1 : ¬ inWindow (braggMaker middleTrack) (mkPrimitive 9000 8 1) := by decide
  have c2 : adjacencyFires (braggMaker middleTrack) := by decide
  refine ⟨⟨by decide, a1, a2, michelStarted_check, ?_⟩,
    ⟨by decide, b1, b2, rampTrack_check, ?_⟩, ⟨by decide, c1, c2, middle_check, ?_⟩⟩
  · exact (michel_decision Binary32.check_bragg_peak michelStarted (mkPrimitive 9040 8 1) []
      (by decide)).1 ⟨a1, a2, michelStarted_check⟩
  · obtain ⟨m1, out1, h, _, hemit, _, _⟩ :=
      (michel_decision Binary32.check_bragg_peak (braggMaker rampTrack) (mkPrimitive 9190 8 1) []
        (by decide)).2 (fun hh => by rw [rampTrack_check] at hh; exact absurd hh.2.2 (by simp))
    exact ⟨m1, out1, h, hemit ⟨b1, b2, rampTrack_check⟩⟩
  · obtain ⟨m1, out1, h, _, _, hmove, _⟩ :=
      (michel_decision Binary32.check_bragg_peak (braggMaker middleTrack) (mkPrimitive 9000 8 1)
        [] (by decide)).2 (fun hh => by rw [middle_check] at hh; exact absurd hh.2.2 (by simp))
    exact ⟨m1, out1, h,
      hmove ⟨c1, fun hh => by rw [middle_check] at hh; exact absurd hh.2 (by simp)⟩⟩

end TriggerActivityMakerMichelElectron

namespace TriggerActivityMakerMichelElectron

/-- C40 (amended): in `check_bragg_peak`, for every non-empty list of at most
65521 final hits (the range in which the `uint16_t` loops over the running
means end), also one shorter than the convolution width 8: the running-mean
series has exactly one value per final hit and, stated over exact rational
arithmetic, the baseline (the mean of the width-8 circular running-mean
series) equals the plain arithmetic mean of the ADC values of the final hits.
Where the total ADC is below 2^21 and that exact mean is a `float` value, the
baseline the source computes in `double` and narrows to `float` is the exact
mean.  On a window whose track walk leaves these final hits the function goes
on to the cluster walk, in exact and in machine arithmetic: it fails to return
only when the cluster list is empty. -/
theorem baseline_is_mean (hits : List Hit) (_hne : hits ≠ []) (hlen : hits.length ≤ 65521) :
    (adc_means_list3 hits).length = hits.length
      ∧ (Binary32.adc_means_list3 hits).length = hits.length
      ∧ ped (adc_means_list3 hits) = (hits.map (fun h => (h.adc : ℚ))).sum / hits.length
      ∧ ((hits.map (fun h => h.adc)).sum < 2097152 →
          Representable 24 (ped (adc_means_list3 hits)) →
          Binary32.ped (Binary32.adc_means_list3 hits)
            = (hits.map (fun h => (h.adc : ℚ))).sum / hits.length)
      ∧ (∀ (m : TriggerActivityMakerMichelElectron) (st : TrackState),
          trackWalk m = some st → st.finalHits = hits →
          (check_bragg_peak m = none ↔ charge_dumps hits = [])
            ∧ (Binary32.check_bragg_peak m = none ↔ Binary32.charge_dumps hits = [])) := by
  have hl : (adc_means_list3 hits).length = hits.length := by
    simp [adc_means_list3]
  have hp : ped (adc_means_list3 hits) = (hits.map (fun h => (h.adc : ℚ))).sum / hits.length := by
    unfold ped
    rw [adc_means_sum, hl]
  refine ⟨hl, by simp [Binary32.adc_means_list3], hp, ?_, ?_⟩
  · intro hT hrep
    rw [adc_means_exact _ hT, ped_exact _ hT hlen hrep, hp]
  · intro m st hw hf
    subst hf
    constructor
    · unfold check_bragg_peak
      simp only [hw]
      rw [if_neg (by omega)]
      cases charge_dumps st.finalHits with
      | nil => simp
      | cons c cs => simp
    · unfold Binary32.check_bragg_peak
      simp only [hw]
      rw [if_neg (by omega)]
      cases Binary32.charge_dumps st.finalHits with
      | nil => simp
      | cons c cs => simp

theorem binary32_check_long (m : TriggerActivityMakerMichelElectron) (st : TrackState)
    (hw : trackWalk m = some st) (hlen : 65521 < st.finalHits.length) :
    Binary32.check_bragg_peak m = none := by
  unfold Binary32.check_bragg_peak
  simp only [hw]
  rw [if_pos hlen]

/-- C40 (witness): the window of `risingTrack`; the three final hits have ADC
values 8, 8 and 16, the baseline is 32/3. -/
theorem baseline_is_mean_witness :
    ([⟨1, 0, 8⟩, ⟨2, 0, 8⟩, ⟨3, 0, 16⟩] : List Hit) ≠ []
      ∧ ([⟨1, 0, 8⟩, ⟨2, 0, 8⟩, ⟨3, 0, 16⟩] : List Hit).length ≤ 65521
      ∧ trackWalk (braggMaker risingTrack)
          = some ⟨1, 3, 0, [], [⟨1, 0, 8⟩, ⟨2, 0, 8⟩, ⟨3, 0, 16⟩]⟩
      ∧ (adc_means_list3 [⟨1, 0, 8⟩, ⟨2, 0, 8⟩, ⟨3, 0, 16⟩]).length
          = ([⟨1, 0, 8⟩, ⟨2, 0, 8⟩, ⟨3, 0, 16⟩] : List Hit).length
      ∧ ped (adc_means_list3 [⟨1, 0, 8⟩, ⟨2, 0, 8⟩, ⟨3, 0, 16⟩])
          = (([⟨1, 0, 8⟩, ⟨2, 0, 8⟩, ⟨3, 0, 16⟩] : List Hit).map (fun h => (h.adc : ℚ))).sum
              / ([⟨1, 0, 8⟩, ⟨2, 0, 8⟩, ⟨3, 0, 16⟩] : List Hit).length
      ∧ (check_bragg_peak (braggMaker risingTrack) = none
          ↔ charge_dumps [⟨1, 0, 8⟩, ⟨2, 0, 8⟩, ⟨3, 0, 16⟩] = []) :=
  have h := baseline_is_mean [⟨1, 0, 8⟩, ⟨2, 0, 8⟩, ⟨3, 0, 16⟩] (by decide) (by decide)
  ⟨by decide, by decide, rising_walk, h.1, h.2.2.1,
    (h.2.2.2.2 (braggMaker risingTrack) _ rising_walk rfl).1⟩

/-- C40 (counterexample): the window with one hit on each of the channels 1 to
65522.  All 65522 hits are final hits.  In the loop over the final hits the
`uint16_t` counter `j` of the last inner loop has to reach
`i + convolve_value5 = 65521 + 15` at `i = 65521`; it wraps to 0 at 65536, the
loop does not end and the baseline is never computed: `check_bragg_peak` does
not return. -/
theorem baseline_is_mean_counterexample :
    trackWalk (braggMaker (runTrack (65521 + 1)))
        = some ⟨1, 65521 + 1, 0, [],
            (List.range (65521 + 1)).map (fun i => (⟨1 + i, 0, 0⟩ : Hit))⟩
      ∧ ((List.range (65521 + 1)).map (fun i => (⟨1 + i, 0, 0⟩ : Hit))).length = 65522
      ∧ check_bragg_peak (braggMaker (runTrack (65521 + 1))) = none
      ∧ Binary32.check_bragg_peak (braggMaker (runTrack (65521 + 1))) = none := by
  have hw := trackWalk_run 65521 (by norm_num) (by norm_num)
  refine ⟨hw, by simp, check_bragg_peak_long _ _ hw ?_, binary32_check_long _ _ hw ?_⟩
  · simp
  · simp

end TriggerActivityMakerMichelElectron

end triggeralgs
